import Mathlib

/-! QC-Json: the streaming encoder and the SAX decoder.

A shallow embedding of `src/QJson/QJsonEncode.hpp` (class `qjson::Encoder`) and of
`src/qc-json-decode.hpp` (class `qc::json::detail::DecodeHelper`), followed by the
properties proved about them.

Conventions of the embedding.
* A byte of a `std::string` is a natural number (an `unsigned char` value, `0..255`);
  a string is a list of bytes.  Character constants are written as their ASCII codes.
* A C++ function that may throw returns `Except`; the error carries the state of the
  object at the moment of the throw, since the C++ object keeps the mutations made
  before the exception left it.
* `int64_t` and `uint64_t` values are integers and naturals with explicit range
  checks and explicit reduction modulo `2^64` where the source converts.
* The `<cctype>` classifiers are those of the "C" locale.
-/

deriving instance DecidableEq for Except

/-! ## Bytes and the `<cctype>` classifiers -/

/-- The classifier `std::isprint` in the "C" locale: the codes `0x20..0x7E`. -/
def isprint (c : Nat) : Bool := decide (32 ≤ c) && decide (c ≤ 126)

/-- The classifier `std::isdigit`: the codes of `0..9`. -/
def isdigit (c : Nat) : Bool := decide (48 ≤ c) && decide (c ≤ 57)

/-- The classifier `std::isspace` in the "C" locale: space, `\t`, `\n`, `\v`, `\f`, `\r`. -/
def isspace (c : Nat) : Bool := decide (c = 32) || (decide (9 ≤ c) && decide (c ≤ 13))

/-- The bytes of a Lean string literal (used to write concrete documents). -/
def bytes (s : String) : List Nat := s.toList.map Char.toNat

/-! ## `std::to_chars` for integers -/

/-- The decimal digits of a natural number, most significant first, as ASCII codes;
`fuel` bounds the number of digits written. -/
def to_chars_digits : Nat → Nat → List Nat
  | 0, _ => []
  | fuel + 1, n => if n < 10 then [48 + n] else to_chars_digits fuel (n / 10) ++ [48 + n % 10]

/-- The text `std::to_chars(first, last, v)` writes for an `int64_t` in base 10: the shortest
decimal numeral, with a leading minus sign for a negative value.  An `int64_t` has at most
19 digits, so the buffer of 24 characters of the source never overflows. -/
def to_chars_int64 (v : Int) : List Nat :=
  if v < 0 then 45 :: to_chars_digits 20 v.natAbs else to_chars_digits 20 v.natAbs

/-- The conversion `int64_t(v)` of an integer value of any width: reduction modulo `2^64`
into the range `[-2^63, 2^63)`. -/
def int64_t (v : Int) : Int := (v + 2 ^ 63) % 2 ^ 64 - 2 ^ 63

/-! ## The encoder (`qjson::Encoder`) -/

namespace qjson

/-- The frame `Encoder::m_State` of one open container. -/
structure m_State where
  array : Bool
  compact : Bool
  content : Bool
  deriving DecidableEq, Repr

/-- The messages of the `EncodeError`s the encoder throws. -/
inductive EncodeError
  /-- "Cannot add value to complete JSON" -/
  | completeJson
  /-- "Cannot add value to object without first providing a key" -/
  | valueWithoutKey
  /-- "A key has already been given" -/
  | keyAlreadyGiven
  /-- "A key may only be givin within an object" -/
  | keyOutsideObject
  /-- "Key must not be empty" -/
  | emptyKey
  /-- "No object or array to end" -/
  | nothingToEnd
  /-- "Cannot end object with a dangling key" -/
  | danglingKey
  /-- "Cannot finish, JSON is not yet complete" -/
  | notComplete
  /-- "Non-ASCII unicode is not supported" -/
  | nonAscii
  deriving DecidableEq, Repr

/-- The data members of `qjson::Encoder`.  `m_oss` is the text written so far; `m_state` is
the vector of frames with `back()` at the head of the list. -/
structure Encoder where
  m_oss : List Nat
  m_state : List m_State
  m_indentation : Int
  m_isKey : Bool
  m_isComplete : Bool
  deriving DecidableEq, Repr

/-- The value given to one of the scalar overloads of `Encoder::val`.  For a `double` the
argument is the text `std::to_chars` produces for it (the shortest round-trip form), which
is all `m_encode(double)` looks at. -/
inductive Scalar
  | string (v : List Nat)
  | int64 (v : Int)
  | double (t : List Nat)
  | bool (v : Bool)
  | null
  deriving DecidableEq, Repr

/-- A member function that may throw: the error is the `EncodeError` together with the
state the encoder is left in. -/
abbrev Throws (α : Type) := Except (EncodeError × Encoder) α

namespace Encoder

/-- A newly constructed encoder (`Encoder() = default`). -/
def fresh : Encoder := ⟨[], [], 0, false, false⟩

/-- The stream insertion `m_oss << s`. -/
def put (e : Encoder) (s : List Nat) : Encoder := { e with m_oss := e.m_oss ++ s }

/-- The loop of `m_indent`: four spaces per level. -/
def indentText : Nat → List Nat
  | 0 => []
  | n + 1 => [32, 32, 32, 32] ++ indentText n

/-- `Encoder::m_indent`. -/
def m_indent (e : Encoder) : Encoder := e.put (indentText e.m_indentation.toNat)

/-- `Encoder::m_prefix`. -/
def m_prefix (e : Encoder) : Encoder :=
  match e.m_isKey, e.m_state with
  | false, state :: _ =>
    let e1 := if state.content then e.put [44] else e
    if state.compact then e1.put [32]
    else
      m_indent { e1.put [10] with
        m_indentation := e1.m_indentation + (if state.content then 0 else 1) }
  | _, _ => e

/-- `Encoder::m_checkPre`. -/
def m_checkPre (e : Encoder) : Throws Unit :=
  if e.m_isComplete then .error (.completeJson, e)
  else
    match e.m_isKey, e.m_state with
    | false, state :: _ => if state.array then .ok () else .error (.valueWithoutKey, e)
    | _, _ => .ok ()

/-- The table `s_hexChars` of `m_encode(string_view)`. -/
def s_hexChars : List Nat := [48, 49, 50, 51, 52, 53, 54, 55, 56, 57, 65, 66, 67, 68, 69, 70]

/-- The loop body of `Encoder::m_encode(string_view)` over the characters of the string. -/
def m_encode_chars (e : Encoder) : List Nat → Throws Encoder
  | [] => .ok e
  | c :: v =>
    if isprint c then
      let e1 := if c = 34 ∨ c = 92 then e.put [92] else e
      m_encode_chars (e1.put [c]) v
    else if c = 8 then m_encode_chars (e.put [92, 98]) v
    else if c = 12 then m_encode_chars (e.put [92, 102]) v
    else if c = 10 then m_encode_chars (e.put [92, 110]) v
    else if c = 13 then m_encode_chars (e.put [92, 114]) v
    else if c = 9 then m_encode_chars (e.put [92, 116]) v
    else if c < 128 then
      m_encode_chars
        (e.put ([92, 117, 48, 48] ++
          [s_hexChars.getD ((c >>> 4) &&& 15) 0, s_hexChars.getD (c &&& 15) 0])) v
    else .error (.nonAscii, e)

/-- `Encoder::m_encode(string_view)`. -/
def m_encode_string (e : Encoder) (v : List Nat) : Throws Encoder :=
  match m_encode_chars (e.put [34]) v with
  | .error err => .error err
  | .ok e1 => .ok (e1.put [34])

/-- `Encoder::m_encode(int64_t)`. -/
def m_encode_int64 (e : Encoder) (v : Int) : Encoder := e.put (to_chars_int64 v)

/-- The search of `m_encode(double)` for a `.` or an `e` at the indices `1 .. length - 2`. -/
def needsDecimal (t : List Nat) : Bool :=
  ((t.drop 1).take (t.length - 2)).all (fun c => !(c = 46 || c = 101))

/-- `Encoder::m_encode(double)`, given the text `t` that `std::to_chars` wrote. -/
def m_encode_double (e : Encoder) (t : List Nat) : Encoder :=
  if isdigit (t.getLastD 0) && needsDecimal t then e.put (t ++ [46, 48]) else e.put t

/-- `Encoder::m_encode(bool)`. -/
def m_encode_bool (e : Encoder) (v : Bool) : Encoder :=
  e.put (if v then [116, 114, 117, 101] else [102, 97, 108, 115, 101])

/-- `Encoder::m_encode(nullptr_t)`. -/
def m_encode_null (e : Encoder) : Encoder := e.put [110, 117, 108, 108]

/-- The overload set `Encoder::m_encode`. -/
def m_encode (e : Encoder) : Scalar → Throws Encoder
  | .string v => m_encode_string e v
  | .int64 v => .ok (m_encode_int64 e v)
  | .double t => .ok (m_encode_double e t)
  | .bool v => .ok (m_encode_bool e v)
  | .null => .ok (m_encode_null e)

/-- The assignment `m_state.back().content = true`. -/
def markContent : List m_State → List m_State
  | [] => []
  | back :: below => { back with content := true } :: below

/-- `Encoder::m_val`. -/
def m_val (e : Encoder) (t : Scalar) : Throws Encoder :=
  match m_checkPre e with
  | .error err => .error err
  | .ok _ =>
    match m_encode ( m_prefix e) t with
    | .error err => .error err
    | .ok e1 =>
      if e1.m_state.isEmpty then .ok { e1 with m_isComplete := true }
      else .ok { e1 with m_state := markContent e1.m_state, m_isKey := false }

/-- `Encoder::val` for a string, an `int64_t`, a `double`, a `bool` or `nullptr`. -/
def val (e : Encoder) (v : Scalar) : Throws Encoder := m_val e v

/-- `Encoder::val(uint64_t)`, `val(int32_t)`, `val(uint32_t)`, `val(int16_t)`, `val(uint16_t)`,
`val(int8_t)` and `val(uint8_t)`: each is `return val(int64_t(v))`. -/
def val_integer (e : Encoder) (v : Int) : Throws Encoder := val e (.int64 (int64_t v))

/-- The common body of `Encoder::object` and `Encoder::array`; `bracket` is the opening
character and `isArray` the first field of the new frame. -/
def openContainer (e : Encoder) (bracket : Nat) (isArray compact : Bool) : Throws Encoder :=
  match m_checkPre e with
  | .error err => .error err
  | .ok _ =>
    let e1 := ( m_prefix e).put [bracket]
    match e1.m_state with
    | [] => .ok { e1 with m_state := [⟨isArray, compact, false⟩] }
    | back :: below =>
      .ok { e1 with
        m_state := ⟨isArray, compact || back.compact, false⟩ ::
          { back with content := true } :: below,
        m_isKey := false }

/-- `Encoder::object`. -/
def object (e : Encoder) (compact : Bool) : Throws Encoder := openContainer e 123 false compact

/-- `Encoder::array`. -/
def array (e : Encoder) (compact : Bool) : Throws Encoder := openContainer e 91 true compact

/-- `Encoder::key`. -/
def key (e : Encoder) (k : List Nat) : Throws Encoder :=
  if e.m_isKey then .error (.keyAlreadyGiven, e)
  else
    match e.m_state with
    | [] => .error (.keyOutsideObject, e)
    | back :: _ =>
      if back.array then .error (.keyOutsideObject, e)
      else if k.isEmpty then .error (.emptyKey, e)
      else
        match m_encode_string ( m_prefix e) k with
        | .error err => .error err
        | .ok e1 => .ok { e1.put [58, 32] with m_isKey := true }

/-- `Encoder::end`. -/
def end_ (e : Encoder) : Throws Encoder :=
  match e.m_state with
  | [] => .error (.nothingToEnd, e)
  | state :: below =>
    if e.m_isKey then .error (.danglingKey, e)
    else
      let e1 :=
        if state.content then
          if state.compact then e.put [32]
          else m_indent { e.put [10] with m_indentation := e.m_indentation - 1 }
        else e
      let e2 := { e1.put [if state.array then 93 else 125] with m_state := below }
      if below.isEmpty then .ok { e2 with m_isComplete := true } else .ok e2

/-- `Encoder::finish`: the returned string and the encoder afterwards. -/
def finish (e : Encoder) : Throws (List Nat × Encoder) :=
  if !e.m_isComplete then .error (.notComplete, e)
  else .ok (e.m_oss, { e with m_oss := [], m_isComplete := false })

end Encoder

/-- One call of the streaming interface. -/
inductive Call
  | object (compact : Bool)
  | array (compact : Bool)
  | key (k : List Nat)
  | val (v : Scalar)
  | end_
  deriving DecidableEq, Repr

/-- Performs one call on the encoder. -/
def Encoder.call (e : Encoder) : Call → Throws Encoder
  | .object compact => e.object compact
  | .array compact => e.array compact
  | .key k => e.key k
  | .val v => e.val v
  | .end_ => e.end_

/-- Performs a sequence of calls, stopping at the first one that throws. -/
def Encoder.run (e : Encoder) : List Call → Throws Encoder
  | [] => .ok e
  | c :: cs =>
    match e.call c with
    | .error err => .error err
    | .ok e1 => Encoder.run e1 cs

/-- The document a sequence of calls produces on a new encoder: the calls followed by
`finish()`. -/
def encode (cs : List Call) : Throws (List Nat) :=
  match Encoder.fresh.run cs with
  | .error err => .error err
  | .ok e =>
    match e.finish with
    | .error err => .error err
    | .ok (str, _) => .ok str

end qjson

/-! ## `std::from_chars` -/

/-- The error codes a `std::from_chars_result` may carry. -/
inductive errc
  | invalid_argument
  | result_out_of_range
  deriving DecidableEq, Repr

/-- The value of a run of decimal digits. -/
def digitsValue (ds : List Nat) : Nat := ds.foldl (fun acc c => 10 * acc + (c - 48)) 0

/-- `std::from_chars(first, last, val)` in base 10 for `int64_t` (`isSigned`) or `uint64_t`:
an optional minus sign (signed types only) and then the longest run of digits.  No digit gives
`invalid_argument`, a value outside the type gives `result_out_of_range`; otherwise the value
and the unread rest (`res.ptr`). -/
def from_chars_integer (isSigned : Bool) (s : List Nat) : Except errc (Int × List Nat) :=
  let neg := isSigned && s.head? == some 45
  let s1 := if neg then s.drop 1 else s
  let ds := s1.takeWhile isdigit
  if ds.isEmpty then .error .invalid_argument
  else
    let v : Int := if neg then -(digitsValue ds : Int) else (digitsValue ds : Int)
    if isSigned then
      if v < -(2 ^ 63) ∨ 2 ^ 63 - 1 < v then .error .result_out_of_range
      else .ok (v, s1.dropWhile isdigit)
    else
      if 2 ^ 64 - 1 < v then .error .result_out_of_range
      else .ok (v, s1.dropWhile isdigit)

/-- The classifier of a hexadecimal digit, upper or lower case. -/
def isxdigit (c : Nat) : Bool :=
  isdigit c || (decide (97 ≤ c) && decide (c ≤ 102)) || (decide (65 ≤ c) && decide (c ≤ 70))

/-- The value of a hexadecimal digit. -/
def hexDigitValue (c : Nat) : Nat :=
  if isdigit c then c - 48 else if 97 ≤ c then c - 87 else c - 55

/-- `std::from_chars(first, last, val, 16)` for `uint32_t` on a range of at most four
characters: the longest run of hexadecimal digits, `invalid_argument` when it is empty.  Four
hexadecimal digits always fit the type. -/
def from_chars_hex (s : List Nat) : Except errc Nat :=
  let ds := s.takeWhile isxdigit
  if ds.isEmpty then .error .invalid_argument
  else .ok (ds.foldl (fun acc c => 16 * acc + hexDigitValue c) 0)

/-- The `double` handed to the composer.  A number read from text is kept as the decimal it
was written as, `± mantissa × 10 ^ exponent` (the `double` is the one nearest to it); the
literals `inf`, `-inf` and `nan` give the other two cases. -/
inductive Floater
  | decimal (negative : Bool) (mantissa : Nat) (exponent : Int)
  | infinity (negative : Bool)
  | nan
  deriving DecidableEq, Repr

/-- Whether `mantissa × 10 ^ exponent` rounds to a magnitude above the largest finite
`double`: it is at least `2^1024 - 2^970`. -/
def doubleOverflows (mantissa : Nat) (exponent : Int) : Bool :=
  if 0 ≤ exponent then decide (2 ^ 1024 - 2 ^ 970 ≤ mantissa * 10 ^ exponent.toNat)
  else decide ((2 ^ 1024 - 2 ^ 970) * 10 ^ (-exponent).toNat ≤ mantissa)

/-- Whether the non-zero `mantissa × 10 ^ exponent` rounds to zero: it is at most `2^-1075`. -/
def doubleUnderflows (mantissa : Nat) (exponent : Int) : Bool :=
  decide (mantissa ≠ 0) && decide (exponent < 0) &&
    decide (mantissa * 2 ^ 1075 ≤ 10 ^ (-exponent).toNat)

/-- The optional fraction of a floating-point text, read after the integer digits: whether a
decimal point is there, the digits after it, and the text after them. -/
def scanFraction (s : List Nat) : Bool × List Nat × List Nat :=
  if s.head? == some 46 then (true, (s.drop 1).takeWhile isdigit, (s.drop 1).dropWhile isdigit)
  else (false, [], s)

/-- The optional exponent of a floating-point text, read after the mantissa: `e` or `E`, an
optional sign and at least one digit.  When it is there, its value and the text after it;
otherwise nothing is read. -/
def scanExponent (s : List Nat) : Option Int × List Nat :=
  let hasE := s.head? == some 101 || s.head? == some 69
  let s1 := s.drop 1
  let expNeg := s1.head? == some 45
  let s2 := if s1.head? == some 45 || s1.head? == some 43 then s1.drop 1 else s1
  let expDigits := s2.takeWhile isdigit
  if hasE && !expDigits.isEmpty then
    (some (if expNeg then -(digitsValue expDigits : Int) else (digitsValue expDigits : Int)),
      s2.dropWhile isdigit)
  else (none, s)

/-- `std::from_chars(first, last, val)` for `double` in the general format, on a text that
starts with a digit or a minus sign (the only way the decoder calls it): an optional minus
sign, digits with an optional decimal point, and an exponent when `e` or `E` is followed by an
optionally signed run of digits.  A mantissa without any digit gives `invalid_argument`, a
value that rounds to infinity or to zero gives `result_out_of_range`; otherwise the value and
the unread rest (`res.ptr`), with the flag telling whether the last character read is the
decimal point (`res.ptr[-1] == '.'`). -/
def from_chars_double (s : List Nat) : Except errc (Floater × List Nat × Bool) :=
  let neg := s.head? == some 45
  let s1 := if neg then s.drop 1 else s
  let intDigits := s1.takeWhile isdigit
  match scanFraction (s1.dropWhile isdigit) with
  | (hasPoint, fracDigits, s2) =>
    if intDigits.isEmpty && fracDigits.isEmpty then .error .invalid_argument
    else
      match scanExponent s2 with
      | (exp10, rest) =>
        let mantissa := digitsValue (intDigits ++ fracDigits)
        let exponent := exp10.getD 0 - fracDigits.length
        if doubleOverflows mantissa exponent || doubleUnderflows mantissa exponent then
          .error .result_out_of_range
        else
          .ok (.decimal neg mantissa exponent, rest,
            hasPoint && fracDigits.isEmpty && exp10.isNone)

/-! ## The decoder (`qc::json::detail::DecodeHelper`) -/

namespace qc.json

/-- One call made on the composer.  The composer and its states are a template parameter of
the decoder; what the decoder determines is the sequence of calls and their arguments. -/
inductive Event
  | object
  | array
  | end_
  | key (k : List Nat)
  | val_string (v : List Nat)
  | val_int64 (v : Int)
  | val_uint64 (v : Int)
  | val_double (v : Floater)
  | val_bool (v : Bool)
  | val_null
  deriving DecidableEq, Repr

/-- The messages of the `DecodeError`s the decoder throws. -/
inductive Message
  /-- "Extraneous content" -/
  | extraneousContent
  /-- "Expected `c`" -/
  | expected (c : Nat)
  /-- "Expected value" -/
  | expectedValue
  /-- "Unknown value" -/
  | unknownValue
  /-- "Expected key" -/
  | expectedKey
  /-- "Key is empty" -/
  | keyIsEmpty
  /-- "Expected end quote" -/
  | expectedEndQuote
  /-- "Unknown string content" -/
  | unknownStringContent
  /-- "Expected escape sequence" -/
  | expectedEscapeSequence
  /-- "Unknown escape sequence" -/
  | unknownEscapeSequence
  /-- "Expected four digits of unicode" -/
  | expectedFourDigits
  /-- "Invalid unicode" -/
  | invalidUnicode
  /-- "Non-ASCII unicode is unsupported" -/
  | nonAsciiUnicode
  /-- "Invalid integer" -/
  | invalidInteger
  /-- "Dangling decimal point" -/
  | danglingDecimalPoint
  /-- "Invalid floater" -/
  | invalidFloater
  deriving DecidableEq, Repr

/-- The ways a run of the decoder ends without returning. -/
inductive Failure
  /-- The exception `DecodeError(msg, position)`. -/
  | DecodeError (msg : Message) (position : Nat)
  /-- The character at `m_end` is read (`*m_pos` with `m_pos == m_end`). -/
  | readPastEnd
  /-- The recursion bound of the embedding is exhausted. -/
  | outOfFuel
  deriving DecidableEq, Repr

/-- The state of a `DecodeHelper`: `m_size` is `m_end - m_start`, `m_pos` is the text from
`m_pos` to `m_end`, and `m_composer` is the sequence of calls made on the composer so far. -/
structure DecodeHelper where
  m_size : Nat
  m_pos : List Nat
  m_composer : List Event
  deriving DecidableEq, Repr

/-- A member function that may throw: the failure together with the state of the helper
when it happened. -/
abbrev Throws (α : Type) := Except (Failure × DecodeHelper) α

namespace DecodeHelper

/-- The offset `m_pos - m_start`. -/
def offset (d : DecodeHelper) : Nat := d.m_size - d.m_pos.length

/-- The statement `throw DecodeError(msg, m_pos - m_start)`. -/
def fail {α : Type} (d : DecodeHelper) (msg : Message) : Throws α :=
  .error (.DecodeError msg d.offset, d)

/-- The assignment `m_pos += n`. -/
def advance (d : DecodeHelper) (n : Nat) : DecodeHelper := { d with m_pos := d.m_pos.drop n }

/-- A call on the composer. -/
def compose (d : DecodeHelper) (ev : Event) : DecodeHelper :=
  { d with m_composer := d.m_composer ++ [ev] }

/-- `DecodeHelper::m_skipWhitespace`. -/
def m_skipWhitespace (d : DecodeHelper) : DecodeHelper :=
  { d with m_pos := d.m_pos.dropWhile isspace }

/-- `DecodeHelper::m_tryConsumeChar`. -/
def m_tryConsumeChar (d : DecodeHelper) (c : Nat) : Bool × DecodeHelper :=
  match d.m_pos with
  | c1 :: _ => if c1 = c then (true, d.advance 1) else (false, d)
  | [] => (false, d)

/-- `DecodeHelper::m_consumeChar`. -/
def m_consumeChar (d : DecodeHelper) (c : Nat) : Throws DecodeHelper :=
  match m_tryConsumeChar d c with
  | (true, d1) => .ok d1
  | (false, d1) => d1.fail (.expected c)

/-- The comparison loop of `m_tryConsumeChars`: whether `str` is read at the start of `s`. -/
def startsWith : List Nat → List Nat → Bool
  | [], _ => true
  | _ :: _, [] => false
  | c :: str, c1 :: s => if c1 ≠ c then false else startsWith str s

/-- `DecodeHelper::m_tryConsumeChars`. -/
def m_tryConsumeChars (d : DecodeHelper) (str : List Nat) : Bool × DecodeHelper :=
  if str.length ≤ d.m_pos.length then
    if startsWith str d.m_pos then (true, d.advance str.length) else (false, d)
  else (false, d)

/-- `DecodeHelper::m_consumeUnicode`. -/
def m_consumeUnicode (d : DecodeHelper) : Throws (Nat × DecodeHelper) :=
  if d.m_pos.length < 4 then d.fail .expectedFourDigits
  else
    match from_chars_hex (d.m_pos.take 4) with
    | .error _ => d.fail .invalidUnicode
    | .ok val =>
      if val &&& 0xFFFFFF80 ≠ 0 then d.fail .nonAsciiUnicode
      else .ok (val, d.advance 4)

/-- `DecodeHelper::m_consumeEscaped`. -/
def m_consumeEscaped (d : DecodeHelper) : Throws (Nat × DecodeHelper) :=
  match d.m_pos with
  | [] => d.fail .expectedEscapeSequence
  | c :: _ =>
    let d1 := d.advance 1
    if c = 34 then .ok (34, d1)
    else if c = 92 then .ok (92, d1)
    else if c = 47 then .ok (47, d1)
    else if c = 98 then .ok (8, d1)
    else if c = 102 then .ok (12, d1)
    else if c = 110 then .ok (10, d1)
    else if c = 114 then .ok (13, d1)
    else if c = 116 then .ok (9, d1)
    else if c = 117 then m_consumeUnicode d1
    else .error (.DecodeError .unknownEscapeSequence (d1.offset - 1), d1)

/-- The loop of `m_consumeString`; `buffer` is `m_stringBuffer`, and `fuel` bounds the
number of iterations. -/
def m_consumeString_loop : Nat → DecodeHelper → List Nat → Throws (List Nat × DecodeHelper)
  | 0, d, _ => .error (.outOfFuel, d)
  | fuel + 1, d, buffer =>
    match d.m_pos with
    | [] => d.fail .expectedEndQuote
    | c :: _ =>
      if c = 34 then .ok (buffer, d.advance 1)
      else if c = 92 then
        match m_consumeEscaped (d.advance 1) with
        | .error err => .error err
        | .ok (c1, d1) => m_consumeString_loop fuel d1 (buffer ++ [c1])
      else if isprint c then m_consumeString_loop fuel (d.advance 1) (buffer ++ [c])
      else d.fail .unknownStringContent

/-- `DecodeHelper::m_consumeString`, called with `m_pos` at the opening quote.  Every
iteration of the loop reads at least one character, so the length of the text bounds it. -/
def m_consumeString (d : DecodeHelper) : Throws (List Nat × DecodeHelper) :=
  m_consumeString_loop d.m_pos.length (d.advance 1) []

/-- `DecodeHelper::m_ingestString`. -/
def m_ingestString (d : DecodeHelper) : Throws DecodeHelper :=
  match m_consumeString d with
  | .error err => .error err
  | .ok (v, d1) => .ok (d1.compose (.val_string v))

/-- `DecodeHelper::m_isInteger`, called with `m_pos` at a digit or at a minus sign. -/
def m_isInteger (d : DecodeHelper) : Bool :=
  match (d.m_pos.drop 1).dropWhile isdigit with
  | [] => true
  | c :: pos =>
    if c = 46 then
      match pos.dropWhile (fun c1 => c1 = 48) with
      | [] => true
      | c1 :: _ => !(isdigit c1 || c1 = 101 || c1 = 69)
    else if c = 101 ∨ c = 69 then false
    else true

/-- `DecodeHelper::m_ingestFloater`. -/
def m_ingestFloater (d : DecodeHelper) : Throws DecodeHelper :=
  match from_chars_double d.m_pos with
  | .error _ => d.fail .invalidFloater
  | .ok (val, ptr, afterPoint) =>
    if afterPoint then d.fail .invalidFloater
    else .ok ({ d with m_pos := ptr }.compose (.val_double val))

/-- `DecodeHelper::m_ingestInteger<isSigned>`. -/
def m_ingestInteger (isSigned : Bool) (d : DecodeHelper) : Throws DecodeHelper :=
  match from_chars_integer isSigned d.m_pos with
  | .error .result_out_of_range => m_ingestFloater d
  | .error .invalid_argument => d.fail .invalidInteger
  | .ok (val, ptr) =>
    let d1 := { d with m_pos := ptr }
    let skipped : Throws DecodeHelper :=
      match d1.m_pos with
      | 46 :: _ =>
        let d2 := d1.advance 1
        match d2.m_pos with
        | 48 :: _ => .ok { d2 with m_pos := (d2.m_pos.drop 1).dropWhile (fun c => c = 48) }
        | _ => d2.fail .danglingDecimalPoint
      | _ => .ok d1
    match skipped with
    | .error err => .error err
    | .ok d3 =>
      if !isSigned && val < 2 ^ 63 then .ok (d3.compose (.val_int64 val))
      else if isSigned then .ok (d3.compose (.val_int64 val))
      else .ok (d3.compose (.val_uint64 val))

/-- `DecodeHelper::m_ingestNumber`. -/
def m_ingestNumber (d : DecodeHelper) : Throws DecodeHelper :=
  if m_isInteger d then
    if d.m_pos.head? = some 45 then m_ingestInteger true d else m_ingestInteger false d
  else m_ingestFloater d

/-- The `default` branch of the switch of `m_ingestValue`: the literal tokens. -/
def m_ingestLiteral (d : DecodeHelper) : Throws DecodeHelper :=
  match m_tryConsumeChars d [116, 114, 117, 101] with
  | (true, d1) => .ok (d1.compose (.val_bool true))
  | (false, _) =>
  match m_tryConsumeChars d [102, 97, 108, 115, 101] with
  | (true, d1) => .ok (d1.compose (.val_bool false))
  | (false, _) =>
  match m_tryConsumeChars d [110, 117, 108, 108] with
  | (true, d1) => .ok (d1.compose .val_null)
  | (false, _) =>
  match m_tryConsumeChars d [105, 110, 102] with
  | (true, d1) => .ok (d1.compose (.val_double (.infinity false)))
  | (false, _) =>
  match m_tryConsumeChars d [110, 97, 110] with
  | (true, d1) => .ok (d1.compose (.val_double .nan))
  | (false, _) => d.fail .unknownValue

/-- The `while (true)` loop of `m_ingestArray`; `ingestValue` is `m_ingestValue` one nesting
level down, and `fuel` bounds the number of iterations. -/
def m_ingestArray_loop (ingestValue : DecodeHelper → Throws DecodeHelper) :
    Nat → DecodeHelper → Throws DecodeHelper
  | 0, d => .error (.outOfFuel, d)
  | fuel + 1, d =>
    match ingestValue d with
    | .error err => .error err
    | .ok d1 =>
      let d2 := m_skipWhitespace d1
      match m_tryConsumeChar d2 93 with
      | (true, d3) => .ok d3
      | (false, _) =>
        match m_consumeChar d2 44 with
        | .error err => .error err
        | .ok d3 => m_ingestArray_loop ingestValue fuel (m_skipWhitespace d3)

/-- `DecodeHelper::m_ingestArray`, called with `m_pos` at the opening bracket.  Every
iteration of the loop reads at least one character, so the length of the text bounds it. -/
def m_ingestArray (ingestValue : DecodeHelper → Throws DecodeHelper) (d : DecodeHelper) :
    Throws DecodeHelper :=
  let d1 := m_skipWhitespace ((d.compose .array).advance 1)
  match m_tryConsumeChar d1 93 with
  | (true, d2) => .ok (d2.compose .end_)
  | (false, _) =>
    match m_ingestArray_loop ingestValue (d1.m_pos.length + 1) d1 with
    | .error err => .error err
    | .ok d2 => .ok (d2.compose .end_)

/-- The `while (true)` loop of `m_ingestObject`; `ingestValue` is `m_ingestValue` one nesting
level down, and `fuel` bounds the number of iterations. -/
def m_ingestObject_loop (ingestValue : DecodeHelper → Throws DecodeHelper) :
    Nat → DecodeHelper → Throws DecodeHelper
  | 0, d => .error (.outOfFuel, d)
  | fuel + 1, d =>
    match d.m_pos with
    | [] => .error (.readPastEnd, d)
    | c :: _ =>
      if c ≠ 34 then d.fail .expectedKey
      else
        match m_consumeString d with
        | .error err => .error err
        | .ok (key, d1) =>
          if key.isEmpty then d1.fail .keyIsEmpty
          else
            match m_consumeChar (m_skipWhitespace (d1.compose (.key key))) 58 with
            | .error err => .error err
            | .ok d2 =>
              match ingestValue (m_skipWhitespace d2) with
              | .error err => .error err
              | .ok d3 =>
                let d4 := m_skipWhitespace d3
                match m_tryConsumeChar d4 125 with
                | (true, d5) => .ok d5
                | (false, _) =>
                  match m_consumeChar d4 44 with
                  | .error err => .error err
                  | .ok d5 => m_ingestObject_loop ingestValue fuel (m_skipWhitespace d5)

/-- `DecodeHelper::m_ingestObject`, called with `m_pos` at the opening brace.  Every
iteration of the loop reads at least one character, so the length of the text bounds it. -/
def m_ingestObject (ingestValue : DecodeHelper → Throws DecodeHelper) (d : DecodeHelper) :
    Throws DecodeHelper :=
  let d1 := m_skipWhitespace ((d.compose .object).advance 1)
  match m_tryConsumeChar d1 125 with
  | (true, d2) => .ok (d2.compose .end_)
  | (false, _) =>
    match m_ingestObject_loop ingestValue (d1.m_pos.length + 1) d1 with
    | .error err => .error err
    | .ok d2 => .ok (d2.compose .end_)

/-- `DecodeHelper::m_ingestValue`; `fuel` bounds the depth of the recursion through
`m_ingestObject` and `m_ingestArray`. -/
def m_ingestValue : Nat → DecodeHelper → Throws DecodeHelper
  | 0, d => .error (.outOfFuel, d)
  | fuel + 1, d =>
    match d.m_pos with
    | [] => d.fail .expectedValue
    | c :: _ =>
      if c = 123 then m_ingestObject (m_ingestValue fuel) d
      else if c = 91 then m_ingestArray (m_ingestValue fuel) d
      else if c = 34 then m_ingestString d
      else if isdigit c then m_ingestNumber d
      else if c = 45 then
        if 1 < d.m_pos.length && isdigit (d.m_pos.getD 1 0) then m_ingestNumber d
        else
          match m_tryConsumeChars d [45, 105, 110, 102] with
          | (true, d1) => .ok (d1.compose (.val_double (.infinity true)))
          | (false, _) => m_ingestLiteral d
      else m_ingestLiteral d

/-- `DecodeHelper::operator()`. -/
def run (fuel : Nat) (d : DecodeHelper) : Throws DecodeHelper :=
  match m_ingestValue fuel (m_skipWhitespace d) with
  | .error err => .error err
  | .ok d1 =>
    let d2 := m_skipWhitespace d1
    if d2.m_pos ≠ [] then d2.fail .extraneousContent else .ok d2

end DecodeHelper

/-- `qc::json::decode`: the calls made on the composer when the whole text is accepted.  Every
nested value starts after the bracket of its container, so the nesting depth is below the
length of the text, which bounds the recursion. -/
def decode (json : List Nat) : Throws (List Event) :=
  match DecodeHelper.run (json.length + 1) ⟨json.length, json, []⟩ with
  | .error err => .error err
  | .ok d => .ok d.m_composer

end qc.json


/-! ## The escaped form of a string, as the specification words it -/

/-- The upper-case hexadecimal digit of a value below 16. -/
def hexUpper (n : Nat) : Nat := if n < 10 then 48 + n else 55 + n

/-- The escape of one byte below 128: a backslash before the quote and the backslash, the
other printable characters as they are, the short escapes of backspace, form feed, newline,
carriage return and tab, and `\u00XX` with two upper-case hexadecimal digits otherwise. -/
def esc (c : Nat) : List Nat :=
  if c = 34 ∨ c = 92 then [92, c]
  else if 32 ≤ c ∧ c ≤ 126 then [c]
  else if c = 8 then [92, 98]
  else if c = 12 then [92, 102]
  else if c = 10 then [92, 110]
  else if c = 13 then [92, 114]
  else if c = 9 then [92, 116]
  else [92, 117, 48, 48, hexUpper (c / 16), hexUpper (c % 16)]

/-- The escapes of the bytes of a string, in order. -/
def escaped : List Nat → List Nat
  | [] => []
  | c :: s => esc c ++ escaped s

/-- A quote, the escapes of the bytes, a quote. -/
def quoted (s : List Nat) : List Nat := [34] ++ escaped s ++ [34]


/-! ## Notions used to state the properties -/

namespace qjson

/-- The document that `val(v)` of one of the integer overloads, followed by `finish()`,
produces on a new encoder. -/
def encodeInteger (v : Int) : Throws (List Nat) :=
  match Encoder.fresh.val_integer v with
  | .error err => .error err
  | .ok e =>
    match e.finish with
    | .error err => .error err
    | .ok (str, _) => .ok str

/-- The states in which the specification says a value may not be added: the document is
already complete, or the innermost open container is an object and no key is pending. -/
def ValueIllegal (e : Encoder) : Prop :=
  e.m_isComplete = true ∨
    ∃ back below, e.m_state = back :: below ∧ back.array = false ∧ e.m_isKey = false

/-- The calls of `key` the specification says must fail: a key is already pending, no
container is open, the innermost open container is an array, or the name is empty. -/
def KeyIllegal (e : Encoder) (k : List Nat) : Prop :=
  e.m_isKey = true ∨ e.m_state = [] ∨
    (∃ back below, e.m_state = back :: below ∧ back.array = true) ∨ k = []

end qjson

/-! ## Notions used to state and prove the round trip -/

/-- The double a number token stands for: the one the decoder hands to the composer when it
reads the token as a floater. -/
def floaterOfText (tok : List Nat) : Floater :=
  if tok = [105, 110, 102] then .infinity false
  else if tok = [45, 105, 110, 102] then .infinity true
  else if tok = [110, 97, 110] then .nan
  else
    match from_chars_double tok with
    | .ok (val, _, _) => val
    | .error _ => .nan

/-- Whether a text starts as `m_ingestValue` expects of a number: with a digit, or with a
minus sign followed by a digit. -/
def startsNumber (tok : List Nat) : Bool :=
  match tok with
  | [] => false
  | c :: _ => isdigit c || (decide (c = 45) && decide (1 < tok.length) && isdigit (tok.getD 1 0))

/-- The number tokens the decoder reads as a floater, all of the token being read: the
literals `inf`, `-inf` and `nan`, and the decimal numbers that `m_isInteger` does not take for
an integer (they have a fraction digit other than `0`, or an exponent) or that do not fit the
64-bit integer type tried first. -/
def readAsFloater (tok : List Nat) : Bool :=
  tok == [105, 110, 102] || tok == [45, 105, 110, 102] || tok == [110, 97, 110] ||
    (startsNumber tok &&
      (match from_chars_double tok with
        | .ok (_, [], false) => true
        | _ => false) &&
      (!qc.json.DecodeHelper.m_isInteger ⟨0, tok, []⟩ ||
        from_chars_integer (tok.head? == some 45) tok == .error .result_out_of_range))

namespace qjson

/-- The token `Encoder::m_encode` writes for a scalar it accepts. -/
def Scalar.token : Scalar → List Nat
  | .string v => quoted v
  | .int64 v => to_chars_int64 v
  | .double t => if isdigit (t.getLastD 0) && Encoder.needsDecimal t then t ++ [46, 48] else t
  | .bool v => if v then [116, 114, 117, 101] else [102, 97, 108, 115, 101]
  | .null => [110, 117, 108, 108]

/-- The composer call that mirrors a call of the encoder: the same kind of event with the
same name or value. -/
def Call.event : Call → qc.json.Event
  | .object _ => .object
  | .array _ => .array
  | .key k => .key k
  | .val (.string v) => .val_string v
  | .val (.int64 v) => .val_int64 v
  | .val (.double t) => .val_double (floaterOfText (Scalar.token (.double t)))
  | .val (.bool v) => .val_bool v
  | .val .null => .val_null
  | .end_ => .end_

/-- The calls the round-trip property is about: `object`, `array`, `key`, `end`, and `val` of
a string, of an integer in the range of `int64_t`, of a boolean or of null (not of a
`double`).  A string or a name with a byte `>= 128` is not excluded here: the encoder
rejects it, so that no run containing one succeeds. -/
def Supported : Call → Bool
  | .val (.int64 v) => decide (-(2 ^ 63) ≤ v ∧ v ≤ 2 ^ 63 - 1)
  | .val (.double _) => false
  | _ => true

/-- The sequences of calls that write one complete value: one scalar, or an opening call, the
members, and `end`; a member of an array is a value, a member of an object is a key followed
by a value. -/
inductive IsValue : List Call → Prop
  | scalar (v : Scalar) : IsValue [.val v]
  | array (compact : Bool) (vs : List (List Call)) (h : ∀ v ∈ vs, IsValue v) :
      IsValue (.array compact :: (vs.flatten ++ [.end_]))
  | object (compact : Bool) (ms : List (List Nat × List Call)) (h : ∀ m ∈ ms, IsValue m.2) :
      IsValue (.object compact :: ((ms.map (fun m => .key m.1 :: m.2)).flatten ++ [.end_]))

/-- Whether a value may be added in a context: at the top level, in an array, or after a
key.  `kinds` lists the open containers, innermost first, `true` for an array. -/
def valuePosition (kinds : List Bool) (isKey : Bool) : Bool :=
  match kinds with
  | [] => true
  | isArray :: _ => isArray || isKey

/-- The sequences of calls that lead to an incomplete document with the open containers
`kinds` (innermost first, `true` for an array) and the key-pending flag `isKey`. -/
inductive Partial : List Bool → Bool → List Call → Prop
  | top : Partial [] false []
  | array (compact : Bool) {kinds : List Bool} {isKey : Bool} {pre : List Call}
      (vs : List (List Call)) (hpre : Partial kinds isKey pre)
      (hpos : valuePosition kinds isKey = true) (h : ∀ v ∈ vs, IsValue v) :
      Partial (true :: kinds) false (pre ++ .array compact :: vs.flatten)
  | object (compact : Bool) {kinds : List Bool} {isKey : Bool} {pre : List Call}
      (ms : List (List Nat × List Call)) (hpre : Partial kinds isKey pre)
      (hpos : valuePosition kinds isKey = true) (h : ∀ m ∈ ms, IsValue m.2) :
      Partial (false :: kinds) false
        (pre ++ .object compact :: (ms.map (fun m => .key m.1 :: m.2)).flatten)
  | key (compact : Bool) {kinds : List Bool} {isKey : Bool} {pre : List Call}
      (ms : List (List Nat × List Call)) (k : List Nat) (hpre : Partial kinds isKey pre)
      (hpos : valuePosition kinds isKey = true) (h : ∀ m ∈ ms, IsValue m.2) :
      Partial (false :: kinds) true
        (pre ++ .object compact :: ((ms.map (fun m => .key m.1 :: m.2)).flatten ++ [.key k]))

end qjson

/-- A run of white space. -/
def IsWs (ws : List Nat) : Prop := ∀ c ∈ ws, isspace c = true

/-- The characters at which a number token ends: the end of the text, or a character that is
neither a digit, nor a decimal point, nor an exponent marker. -/
def NumberEnd (rest : List Nat) : Prop :=
  ∀ c ∈ rest.head?, isdigit c = false ∧ c ≠ 46 ∧ c ≠ 101 ∧ c ≠ 69

namespace qc.json

/-- The text `body` is read by `m_ingestValue` as one value that produces the composer calls
`evs`: it starts with a character that is neither white space nor a closing bracket, and
whatever follows it (as long as a number token would end there) is left unread. -/
def Reads (body : List Nat) (evs : List Event) : Prop :=
  (∃ c tl, body = c :: tl ∧ isspace c = false ∧ c ≠ 93) ∧
    ∀ (fuel sz : Nat) (rest : List Nat) (pre : List Event), body.length ≤ fuel →
      NumberEnd rest →
      DecodeHelper.m_ingestValue fuel ⟨sz, body ++ rest, pre⟩ = .ok ⟨sz, rest, pre ++ evs⟩

end qc.json

namespace qjson

/-- The calls whose text the decoder reads back as the mirrored composer call: the supported
ones, and `val` of a `double` whose token is read as a floater. -/
def Readable : Call → Bool
  | .val (.double t) => readAsFloater (Scalar.token (.double t))
  | c => Supported c

/-- The round-trip property of the calls `v` of one value, from any state in which a value is
legal: the run appends, after the separator of `m_prefix`, a text that the decoder reads back
as the mirrored composer calls, and it leaves the frames as they were, the innermost one
marked as having content. -/
def ValueOK (v : List Call) : Prop :=
  ∀ e0 e1 : Encoder, (e0.m_state = [] → e0.m_isKey = false) → Encoder.m_checkPre e0 = .ok () →
    (∀ c ∈ v, Readable c = true) → Encoder.run e0 v = .ok e1 →
    ∃ body, e1.m_oss = ( Encoder.m_prefix e0).m_oss ++ body ∧
      e1.m_state = Encoder.markContent e0.m_state ∧ e1.m_isKey = false ∧
      e1.m_isComplete = e0.m_state.isEmpty ∧ qc.json.Reads body (v.map Call.event)

end qjson

namespace qjson

/-- The kinds of the open containers of an encoder, innermost first, `true` for an array. -/
def kinds (e : Encoder) : List Bool := e.m_state.map (fun st => st.array)

/-- What the calls made so far on a new encoder look like: while the document is incomplete
they are the beginning of a value, with the open containers of the encoder; once it is
complete they are one value and no container is open. -/
def Inv (e : Encoder) (cs : List Call) : Prop :=
  (e.m_isComplete = false ∧ Partial (kinds e) e.m_isKey cs) ∨
    (e.m_isComplete = true ∧ e.m_state = [] ∧ IsValue cs)

end qjson

namespace qjson

/-- The calls that open no compact container: the documents written with them are in pretty
form throughout. -/
def Pretty : Call → Bool
  | .object compact => !compact
  | .array compact => !compact
  | _ => true

/-- The call on a pretty encoder that replays a composer call.  `to_chars` stands for
`std::to_chars` on a `double`; an unsigned integer goes through `val(uint64_t)`. -/
def replay (to_chars : Floater → List Nat) : qc.json.Event → Call
  | .object => .object false
  | .array => .array false
  | .end_ => .end_
  | .key k => .key k
  | .val_string v => .val (.string v)
  | .val_int64 v => .val (.int64 v)
  | .val_uint64 v => .val (.int64 (int64_t v))
  | .val_double v => .val (.double (to_chars v))
  | .val_bool v => .val (.bool v)
  | .val_null => .val .null

end qjson

/-! ## Example runs -/

namespace qjson

/-- A run with a pretty object, a compact array, an empty object and every supported kind of
scalar. -/
def exampleCalls : List Call :=
  [.object false, .key [97], .array true, .val (.int64 (-5)), .val (.string [120, 34]),
    .val (.bool true), .val .null, .end_, .key [98], .object false, .end_, .end_]

/-- The document of `exampleCalls`. -/
def exampleText : List Nat :=
  bytes "\x7b\n    \"a\": [ -5, \"x\\\"\", true, null ],\n    \"b\": \x7b\x7d\n\x7d"

/-- A run in pretty form throughout, with a `double` that has a fraction. -/
def prettyCalls : List Call :=
  [.object false, .key (bytes "Age"), .val (.int64 69), .key (bytes "Price"),
    .val (.double (bytes "5.45")), .key (bytes "Tags"), .array false,
    .val (.string (bytes "Cook")), .val .null, .end_, .end_]

/-- The document of `prettyCalls`. -/
def prettyText : List Nat :=
  bytes ("\x7b\n    \"Age\": 69,\n    \"Price\": 5.45,\n    \"Tags\": [\n" ++
    "        \"Cook\",\n        null\n    ]\n\x7d")

/-- A number formatter that gives `5.45` for the double of that text. -/
def prettyFormatter (v : Floater) : List Nat :=
  if v = .decimal false 545 (-2) then bytes "5.45" else []

end qjson

/-! ## Notions used to state the layout of the encoder's text -/

namespace qjson

/-- A run of `n` spaces. -/
def spaces (n : Nat) : List Nat := List.replicate n 32

/-- The text the specification gives for the closing of a container: one space when the frame
is compact and has content, a newline and `4 * parent` spaces when it is pretty and has
content, nothing otherwise; then `]` for an array and `}` for an object.  `parent` is the
number of levels the line of the closing bracket is indented by. -/
def closingText (state : m_State) (parent : Nat) : List Nat :=
  (if state.content then (if state.compact then [32] else 10 :: spaces (4 * parent)) else []) ++
    [if state.array then 93 else 125]

/-- `Encoder::finish` after a sequence of calls on the encoder `e`: the returned document and
the encoder afterwards. -/
def Encoder.encodeOn (e : Encoder) (cs : List Call) : Throws (List Nat × Encoder) :=
  match e.run cs with
  | .error err => .error err
  | .ok e1 => e1.finish

/-- The state of the encoder after a call, whether the call returned or threw. -/
def Encoder.afterCall (e : Encoder) (c : Call) : Encoder :=
  match e.call c with
  | .ok e1 => e1
  | .error (_, e1) => e1

/-- The number of levels the encoder indents by when no call has thrown: one for every open
pretty container that has content, and one more while a key is pending in a pretty object that
has no content yet. -/
def Encoder.levels (e : Encoder) : Nat :=
  (e.m_state.filter (fun s => !s.compact && s.content)).length +
    (match e.m_state with
      | top :: _ => if e.m_isKey && !top.compact && !top.content then 1 else 0
      | [] => 0)

/-- The relations between the data members of an encoder that every successful call keeps:
a complete document has no open container, a key is pending only inside a container, the
indentation is `levels`, every container below the innermost one has content, and every
container opened inside a compact one is compact. -/
def Encoder.Consistent (e : Encoder) : Prop :=
  (e.m_isComplete = true → e.m_state = []) ∧ (e.m_state = [] → e.m_isKey = false) ∧
    e.m_indentation = (e.levels : Int) ∧ (∀ s ∈ e.m_state.tail, s.content = true) ∧
    List.Chain' (fun upper lower : m_State => lower.compact = true → upper.compact = true)
      e.m_state

/-- The strings the encoder accepts in a call: a value string has only bytes below 128, a key
is not empty and has only bytes below 128. -/
def Call.accepted : Call → Bool
  | .val (.string s) => s.all (fun c => decide (c < 128))
  | .key k => !k.isEmpty && k.all (fun c => decide (c < 128))
  | _ => true

/-- The texts `ts` with the separator `sep` between every two of them. -/
def joinWith (sep : List Nat) : List (List Nat) → List Nat
  | [] => []
  | [t] => t
  | t :: u :: ts => t ++ sep ++ joinWith sep (u :: ts)

/-- The calls that write an array of scalars. -/
def arrayCalls (compact : Bool) (vs : List Scalar) : List Call :=
  .array compact :: (vs.map Call.val ++ [.end_])

/-- The calls that write an object whose members are scalars. -/
def objectCalls (compact : Bool) (ms : List (List Nat × Scalar)) : List Call :=
  .object compact :: ((ms.map (fun m => [Call.key m.1, Call.val m.2])).flatten ++ [.end_])

/-- The text of a member of an object: the quoted key, a colon, a space, the value. -/
def memberText (m : List Nat × Scalar) : List Nat := quoted m.1 ++ [58, 32] ++ m.2.token

/-- Whether all the calls of `cs` are made while a container is open, `depth` counting the
containers (of those that matter) open before the first call: a call of `object` or `array`
opens one more, a call of `end` closes one.  With `depth = 1` these are the calls made between
the opening of a container and its closing, the closing call included. -/
def insideContainer : Nat → List Call → Bool
  | _, [] => true
  | 0, _ :: _ => false
  | depth + 1, .end_ :: cs => insideContainer depth cs
  | depth + 1, .object _ :: cs => insideContainer (depth + 2) cs
  | depth + 1, .array _ :: cs => insideContainer (depth + 2) cs
  | depth + 1, _ :: cs => insideContainer (depth + 1) cs

/-- A JSON value as a tree: a scalar, an array of values, or an object of named values. -/
inductive Json
  | scalar (v : Scalar)
  | array (elems : List Json)
  | object (members : List (List Nat × Json))

mutual
/-- The calls that write a value with pretty containers throughout. -/
def Json.calls : Json → List Call
  | .scalar v => [.val v]
  | .array elems => .array false :: (Json.elemCalls elems ++ [.end_])
  | .object members => .object false :: (Json.memberCalls members ++ [.end_])
/-- The calls that write the elements of an array. -/
def Json.elemCalls : List Json → List Call
  | [] => []
  | x :: xs => x.calls ++ Json.elemCalls xs
/-- The calls that write the members of an object. -/
def Json.memberCalls : List (List Nat × Json) → List Call
  | [] => []
  | (k, x) :: ms => .key k :: (x.calls ++ Json.memberCalls ms)
end

mutual
/-- The pretty text of a value, as the specification words it; `depth` is the number of
containers around the value.  A container without members is `[]` or `{}`; otherwise every
member is on a line of its own, `4 * (depth + 1)` spaces in, and the closing bracket is on a
line of its own, `4 * depth` spaces in. -/
def Json.layout (depth : Nat) : Json → List Nat
  | .scalar v => v.token
  | .array [] => [91, 93]
  | .array (x :: xs) =>
    [91] ++ Json.layoutElems (depth + 1) true (x :: xs) ++ [10] ++ spaces (4 * depth) ++ [93]
  | .object [] => [123, 125]
  | .object (m :: ms) =>
    [123] ++ Json.layoutMembers (depth + 1) true (m :: ms) ++ [10] ++ spaces (4 * depth) ++
      [125]
/-- The elements of an array at nesting depth `depth`: each is preceded by a comma when it is
not the first, then by a newline and `4 * depth` spaces. -/
def Json.layoutElems (depth : Nat) (first : Bool) : List Json → List Nat
  | [] => []
  | x :: xs =>
    (if first then [] else [44]) ++ [10] ++ spaces (4 * depth) ++ Json.layout depth x ++
      Json.layoutElems depth false xs
/-- The members of an object at nesting depth `depth`: each is preceded by a comma when it is
not the first, then by a newline and `4 * depth` spaces; the key is followed by a colon, a
space and the value. -/
def Json.layoutMembers (depth : Nat) (first : Bool) : List (List Nat × Json) → List Nat
  | [] => []
  | (k, x) :: ms =>
    (if first then [] else [44]) ++ [10] ++ spaces (4 * depth) ++ quoted k ++ [58, 32] ++
      Json.layout depth x ++ Json.layoutMembers depth false ms
end

end qjson

/-! ## Notions used to state the properties of the decoder -/

namespace qc.json

/-- Whether `m_ingestValue`, run on `body` alone, reads all of it as one value: `body` is one
complete value with nothing before or after it. -/
def completeValue (body : List Nat) : Bool :=
  match DecodeHelper.m_ingestValue (body.length + 1) ⟨body.length, body, []⟩ with
  | .ok d => d.m_pos.isEmpty
  | .error _ => false

/-- The composer calls made while `m_ingestValue` reads the complete value `body`. -/
def valueEvents (body : List Nat) : List Event :=
  match DecodeHelper.m_ingestValue (body.length + 1) ⟨body.length, body, []⟩ with
  | .ok d => d.m_composer
  | .error _ => []

/-- The text of an integer token: an optional minus sign, then the digits. -/
def integerToken (negative : Bool) (digits : List Nat) : List Nat :=
  (if negative then [45] else []) ++ digits

/-- The integer an integer token stands for. -/
def integerValue (negative : Bool) (digits : List Nat) : Int :=
  if negative then -(digitsValue digits : Int) else (digitsValue digits : Int)

/-- The helper `d` in a longer text: `rest` is appended to the unread text, and the size of
the whole text is `sz`. -/
def DecodeHelper.extend (d : DecodeHelper) (rest : List Nat) (sz : Nat) : DecodeHelper :=
  ⟨sz, d.m_pos ++ rest, d.m_composer⟩

/-- Every unsigned value among the composer calls has its top bit set: it is in the range
`2^63 .. 2^64 - 1`. -/
def UnsignedInRange (evs : List Event) : Prop :=
  ∀ v, Event.val_uint64 v ∈ evs → 2 ^ 63 ≤ v ∧ v ≤ 2 ^ 64 - 1

/-- Whether the text after a decimal point or after the digits of a number, starting with an
exponent marker, continues with an optional sign and at least one digit. -/
def exponentDigits (rest : List Nat) : Bool :=
  match rest with
  | _ :: c :: tl => if c = 45 ∨ c = 43 then tl.head?.any isdigit else isdigit c
  | _ => false

/-- A piece of the content of a quoted string: a byte that stands for itself, a short escape
(a backslash and a letter), or `\uXXXX` with four hexadecimal digits. -/
inductive Piece
  | plain (c : Nat)
  | short (letter : Nat)
  | unicode (h1 h2 h3 h4 : Nat)
  deriving DecidableEq, Repr

/-- The value of a hexadecimal digit, as the specification words it: `0-9`, `a-f` and `A-F`
stand for `0..15`. -/
def hexValue (c : Nat) : Nat :=
  if 48 ≤ c ∧ c ≤ 57 then c - 48 else if 97 ≤ c ∧ c ≤ 102 then c - 97 + 10 else c - 65 + 10

/-- The code a `\uXXXX` escape denotes. -/
def unicodeValue (h1 h2 h3 h4 : Nat) : Nat :=
  4096 * hexValue h1 + 256 * hexValue h2 + 16 * hexValue h3 + hexValue h4

/-- The pieces the property is about: a printable ASCII byte other than the quote and the
backslash; one of the escapes `\"`, `\\`, `\/`, `\b`, `\f`, `\n`, `\r`, `\t`; `\uXXXX` with four
hexadecimal digits of value below `0x80`. -/
def Piece.valid : Piece → Bool
  | .plain c => decide (32 ≤ c ∧ c ≤ 126 ∧ c ≠ 34 ∧ c ≠ 92)
  | .short letter => decide (letter ∈ [34, 92, 47, 98, 102, 110, 114, 116])
  | .unicode h1 h2 h3 h4 =>
    isxdigit h1 && isxdigit h2 && isxdigit h3 && isxdigit h4 &&
      decide (unicodeValue h1 h2 h3 h4 < 128)

/-- The bytes of a piece in the text. -/
def Piece.text : Piece → List Nat
  | .plain c => [c]
  | .short letter => [92, letter]
  | .unicode h1 h2 h3 h4 => [92, 117, h1, h2, h3, h4]

/-- The single byte a piece denotes. -/
def Piece.byte : Piece → Nat
  | .plain c => c
  | .short letter =>
    if letter = 98 then 8 else if letter = 102 then 12 else if letter = 110 then 10
    else if letter = 114 then 13 else if letter = 116 then 9 else letter
  | .unicode h1 h2 h3 h4 => unicodeValue h1 h2 h3 h4

/-- The text of a quoted string token with the given content. -/
def stringToken (content : List Piece) : List Nat :=
  [34] ++ (content.map Piece.text).flatten ++ [34]

end qc.json

/-! ## Example states and values -/

namespace qjson

/-- A run that leaves a pretty array with one element open inside a pretty object. -/
def endExampleCalls : List Call :=
  [.object false, .key (bytes "a"), .array false, .val (.int64 1)]

/-- The encoder after `endExampleCalls`. -/
def endExample : Encoder :=
  ⟨bytes "\x7b\n    \"a\": [\n        1", [⟨true, false, true⟩, ⟨false, false, true⟩], 2,
    false, false⟩

/-- A run that writes a complete document. -/
def finishExampleCalls : List Call := [.array false, .val (.int64 1), .end_]

/-- The encoder after `finishExampleCalls`. -/
def finishExample : Encoder := ⟨bytes "[\n    1\n]", [], 0, false, true⟩

end qjson

namespace qjson

/-- The encoder after `array(true)` on a new encoder. -/
def compactExample : Encoder := ⟨[91], [⟨true, true, false⟩], 0, false, false⟩

/-- Calls made inside the compact array of `compactExample`, up to its closing: an object and
an array opened as pretty. -/
def compactExampleCalls : List Call :=
  [.object false, .key (bytes "a"), .array false, .val (.int64 1), .val (.string [10]),
    .val (.double (bytes "2.5")), .end_, .end_, .end_]

end qjson

namespace qc.json

/-- The content `a\"\\\/\b\f\n\r\tJJ\u007f`: a plain byte, every short escape,
and `\u` escapes with lower-case and upper-case hexadecimal digits. -/
def stringExample : List Piece :=
  [.plain 97, .short 34, .short 92, .short 47, .short 98, .short 102, .short 110, .short 114,
    .short 116, .unicode 48 48 52 97, .unicode 48 48 52 65, .unicode 48 48 55 102]

end qc.json

namespace qjson

/-- The state of the encoder after `finish()`, whether it returned or threw. -/
def Encoder.afterFinish (e : Encoder) : Encoder :=
  match e.finish with
  | .ok (_, e1) => e1
  | .error (_, e1) => e1

/-- The encoders a program can hold: a newly constructed one, and the one left by a call of
the streaming interface or of `finish()` on such an encoder, whether the call returned or
threw. -/
inductive Encoder.Reachable : Encoder → Prop
  | fresh : Encoder.Reachable Encoder.fresh
  | call (e : Encoder) (c : Call) : Encoder.Reachable e → Encoder.Reachable (e.afterCall c)
  | finish (e : Encoder) : Encoder.Reachable e → Encoder.Reachable e.afterFinish

end qjson

namespace qc.json

/-- The helper `d` when the calls `before` were made on the composer before it started. -/
def DecodeHelper.withCalls (before : List Event) (d : DecodeHelper) : DecodeHelper :=
  ⟨d.m_size, d.m_pos, before ++ d.m_composer⟩

/-- The outcome of a member function when the calls `before` were made on the composer before
it started: the same outcome, with `before` in front of the calls. -/
def withCallsT {α : Type} (before : List Event) :
    Throws (α × DecodeHelper) → Throws (α × DecodeHelper)
  | .ok (a, d) => .ok (a, d.withCalls before)
  | .error (f, d) => .error (f, d.withCalls before)

/-- The outcome of a member function that returns nothing when the calls `before` were made on
the composer before it started. -/
def withCallsU (before : List Event) : Throws DecodeHelper → Throws DecodeHelper
  | .ok d => .ok (d.withCalls before)
  | .error (f, d) => .error (f, d.withCalls before)

end qc.json

namespace qc.json

/-- The places of a text at which the decoder expects a value or a key. -/
inductive Place
  /-- The value of the document. -/
  | top
  /-- An element of an array; `first` right after the `[`, where a `]` may stand instead. -/
  | element (first : Bool)
  /-- The key of a member of an object; `first` right after the opening brace, where the
  closing brace may stand instead. -/
  | member (first : Bool)
  /-- The value of a member of an object, after the colon. -/
  | memberValue
  deriving DecidableEq, Repr

/-- The places at which a value is expected. -/
def Place.isValue : Place → Bool
  | .member _ => false
  | _ => true

/-- A byte that starts a token: the text does not start with white space. -/
def StartsToken (s : List Nat) : Prop := ∀ c ∈ s.head?, isspace c = false

/-- The start of a document up to a place where a value or a key is expected.
`At place pre evs`: the text `pre` is made of white space, opening brackets, complete values
followed by a comma and keys followed by a colon, with white space between them, it ends at
`place`, and `evs` are the composer calls for it. -/
inductive At : Place → List Nat → List Event → Prop
  /-- The start of the text, after white space. -/
  | top (ws : List Nat) : IsWs ws → At .top ws []
  /-- After the `[` that stands where a value is expected. -/
  | array (k : Place) (pre : List Nat) (evs : List Event) (ws : List Nat) :
      At k pre evs → k.isValue = true → IsWs ws →
      At (.element true) (pre ++ 91 :: ws) (evs ++ [.array])
  /-- After the opening brace that stands where a value is expected. -/
  | object (k : Place) (pre : List Nat) (evs : List Event) (ws : List Nat) :
      At k pre evs → k.isValue = true → IsWs ws →
      At (.member true) (pre ++ 123 :: ws) (evs ++ [.object])
  /-- After a complete element of an array and the comma behind it. -/
  | nextElement (first : Bool) (pre : List Nat) (evs : List Event) (v w1 w2 : List Nat) :
      At (.element first) pre evs → completeValue v = true → IsWs w1 → IsWs w2 →
      At (.element false) (pre ++ v ++ w1 ++ 44 :: w2) (evs ++ valueEvents v)
  /-- After the key of a member and the colon behind it. -/
  | key (first : Bool) (pre : List Nat) (evs : List Event) (content : List Piece)
      (w1 w2 : List Nat) :
      At (.member first) pre evs → content ≠ [] → (∀ p ∈ content, p.valid = true) →
      IsWs w1 → IsWs w2 →
      At .memberValue (pre ++ stringToken content ++ w1 ++ 58 :: w2)
        (evs ++ [.key (content.map Piece.byte)])
  /-- After a complete member of an object and the comma behind it. -/
  | nextMember (first : Bool) (pre : List Nat) (evs : List Event) (content : List Piece)
      (w1 w2 v w3 w4 : List Nat) :
      At (.member first) pre evs → content ≠ [] → (∀ p ∈ content, p.valid = true) →
      IsWs w1 → IsWs w2 → completeValue v = true → IsWs w3 → IsWs w4 →
      At (.member false)
        (pre ++ stringToken content ++ w1 ++ 58 :: w2 ++ v ++ w3 ++ 44 :: w4)
        (evs ++ [.key (content.map Piece.byte)] ++ valueEvents v)

/-- The text `s` makes `m_ingestValue` throw `DecodeError(msg)` at the position `back` bytes
before the end of the text, with `r` left unread, after the calls `ev`, wherever in a text it
stands. -/
def FailsValue (s : List Nat) (msg : Message) (back : Nat) (r : List Nat) (ev : List Event) :
    Prop :=
  ∀ (sz fuel : Nat) (evs : List Event), s.length + 1 ≤ fuel →
    DecodeHelper.m_ingestValue fuel ⟨sz, s, evs⟩ =
      .error (.DecodeError msg (sz - back), ⟨sz, r, evs ++ ev⟩)

/-- The text `s` makes the loop of `m_ingestArray` throw `DecodeError(msg)` at the position
`back` bytes before the end of the text, with `r` left unread, after the calls `ev`. -/
def FailsElements (s : List Nat) (msg : Message) (back : Nat) (r : List Nat)
    (ev : List Event) : Prop :=
  ∀ (sz fuel n : Nat) (evs : List Event), s.length + 1 ≤ fuel → s.length + 1 ≤ n →
    DecodeHelper.m_ingestArray_loop (DecodeHelper.m_ingestValue fuel) n ⟨sz, s, evs⟩ =
      .error (.DecodeError msg (sz - back), ⟨sz, r, evs ++ ev⟩)

/-- The text `s` makes the loop of `m_ingestObject` throw `DecodeError(msg)` at the position
`back` bytes before the end of the text, with `r` left unread, after the calls `ev`. -/
def FailsMembers (s : List Nat) (msg : Message) (back : Nat) (r : List Nat)
    (ev : List Event) : Prop :=
  ∀ (sz fuel n : Nat) (evs : List Event), s.length + 1 ≤ fuel → s.length + 1 ≤ n →
    DecodeHelper.m_ingestObject_loop (DecodeHelper.m_ingestValue fuel) n ⟨sz, s, evs⟩ =
      .error (.DecodeError msg (sz - back), ⟨sz, r, evs ++ ev⟩)

/-- The text `s` makes the decoder throw when it stands at the place `k`: in `m_ingestValue`
where a value is expected, in the loop of `m_ingestArray` or of `m_ingestObject` where an
element or a key is, and not by closing an empty container. -/
def FailsAt (k : Place) (s : List Nat) (msg : Message) (back : Nat) (r : List Nat)
    (ev : List Event) : Prop :=
  match k with
  | .top => FailsValue s msg back r ev
  | .memberValue => FailsValue s msg back r ev
  | .element first => FailsElements s msg back r ev ∧ (first = true → s.head? ≠ some 93)
  | .member first => FailsMembers s msg back r ev ∧ (first = true → s.head? ≠ some 125)

end qc.json

namespace qc.json

/-- Modelled from the spec: the integer types `T` of `is<T>()` and `as<T>()`, the signed and
unsigned types of 8, 16, 32 and 64 bits.  The value layer of the library (`Value`, `Number`)
is not under src/; only its test `Json::ValueNumbers` is. -/
inductive IntegerType
  | int8_t
  | int16_t
  | int32_t
  | int64_t
  | uint8_t
  | uint16_t
  | uint32_t
  | uint64_t
  deriving DecidableEq, Repr

/-- Modelled from the spec: whether an integer type is signed (`std::is_signed_v<T>`); the
value layer is not under src/. -/
def IntegerType.isSigned : IntegerType → Bool
  | .int8_t | .int16_t | .int32_t | .int64_t => true
  | _ => false

/-- Modelled from the spec: the number of bits of an integer type; the value layer is not
under src/. -/
def IntegerType.width : IntegerType → Nat
  | .int8_t | .uint8_t => 8
  | .int16_t | .uint16_t => 16
  | .int32_t | .uint32_t => 32
  | .int64_t | .uint64_t => 64

/-- Modelled from the spec: `std::numeric_limits<T>::min()`; the value layer is not under
src/. -/
def IntegerType.min (T : IntegerType) : Int :=
  if T.isSigned then -(2 ^ (T.width - 1)) else 0

/-- Modelled from the spec: `std::numeric_limits<T>::max()`; the value layer is not under
src/. -/
def IntegerType.max (T : IntegerType) : Int :=
  if T.isSigned then 2 ^ (T.width - 1) - 1 else 2 ^ T.width - 1

/-- Modelled from the spec: the class `Number`, "one 64-bit payload plus a 2-bit
representation tag: `signed64`, `unsigned64`, or `double`"; its code is not under src/.  The
payload of a finite `double` is kept as its sign, significand and binary exponent: it stands
for `± significand × 2 ^ exponent`. -/
inductive Number
  | signed64 (payload : Int)
  | unsigned64 (payload : Int)
  | double (negative : Bool) (significand : Nat) (exponent : Int)
  deriving DecidableEq, Repr

/-- Modelled from the spec: the exception `TypeError` of the checked accessors; the value
layer is not under src/. -/
inductive TypeError
  | mk
  deriving DecidableEq, Repr

namespace Number

/-- Modelled from the spec: a `Number` built from a signed integer (of any width); the class
`Number` is not under src/. -/
def ofSigned (v : Int) : Number := .signed64 v

/-- Modelled from the spec: a `Number` built from an unsigned integer (of any width), with
the "prefer signed" rule: "if tag is `unsigned64`, the payload's numeric value is >
`INT64_MAX`".  The class `Number` is not under src/. -/
def ofUnsigned (v : Int) : Number := if v ≤ 2 ^ 63 - 1 then .signed64 v else .unsigned64 v

/-- Modelled from the spec: whether a `double` "has no fractional part": its binary exponent
is not negative, or the significand is a multiple of the power of two it is divided by.  The
class `Number` is not under src/. -/
def isWhole (significand : Nat) (exponent : Int) : Bool :=
  decide (0 ≤ exponent) || decide (significand % 2 ^ (-exponent).toNat = 0)

/-- Modelled from the spec: the integer a `double` without fractional part converts to; the
class `Number` is not under src/. -/
def wholePart (negative : Bool) (significand : Nat) (exponent : Int) : Int :=
  let magnitude : Nat :=
    if 0 ≤ exponent then significand * 2 ^ exponent.toNat
    else significand / 2 ^ (-exponent).toNat
  if negative then -(magnitude : Int) else (magnitude : Int)

/-- Modelled from the spec: the integer `as<T>()` returns for a `Number` that fits `T`; the
class `Number` is not under src/. -/
def integer : Number → Int
  | .signed64 v => v
  | .unsigned64 v => v
  | .double negative significand exponent => wholePart negative significand exponent

/-- Modelled from the spec: `fitsIn<T>` for an integer type `T`: "an integer-tagged Number
fits an unsigned target only if non-negative; fits a narrower integer target only if within
that type's range; a double-tagged Number fits an integer target only if it has no fractional
part and is within that target's exactly-representable range".  The class `Number` is not
under src/. -/
def fitsIn (n : Number) (T : IntegerType) : Bool :=
  match n with
  | .signed64 v | .unsigned64 v =>
    (T.isSigned || decide (0 ≤ v)) && decide (T.min ≤ v) && decide (v ≤ T.max)
  | .double negative significand exponent =>
    isWhole significand exponent &&
      decide (T.min ≤ wholePart negative significand exponent) &&
      decide (wholePart negative significand exponent ≤ T.max)

/-- Modelled from the spec: `is<T>()` on a value that holds a `Number`, "true iff the active
Number fits/converts to compile-time type `T`"; the value layer is not under src/. -/
def is (n : Number) (T : IntegerType) : Bool := n.fitsIn T

/-- Modelled from the spec: the checked `as<T>()` on a value that holds a `Number`: it "fails
with `TypeError` if a Number's representation cannot exactly satisfy `T`", and returns the
number as a `T` otherwise; the value layer is not under src/. -/
def as (n : Number) (T : IntegerType) : Except TypeError Int :=
  if n.fitsIn T then .ok n.integer else .error .mk

/-- Modelled from the spec: the numeric value of a `Number`, as a rational number; the class
`Number` is not under src/. -/
def value : Number → ℚ
  | .signed64 v => v
  | .unsigned64 v => v
  | .double negative significand exponent =>
    (if negative then -1 else 1) * (significand : ℚ) * (2 : ℚ) ^ exponent

end Number

end qc.json

namespace qc.json

/-- The kinds of text a document is made of: one value; the elements of an array, from the
first element to the white space before the `]`; the members of an object, from the first key
to the white space before the closing brace. -/
inductive Part
  | value
  | elements
  | members
  deriving DecidableEq, Repr

/-- The composer calls `val` of a number, a boolean or null: the scalars written without
quotes. -/
def Event.isBareVal : Event → Bool
  | .val_int64 _ | .val_uint64 _ | .val_double _ | .val_bool _ | .val_null => true
  | _ => false

/-- The bytes a number or a literal may be made of: neither white space, nor a bracket, a
brace, a comma or a colon, nor a quote. -/
def isBare (c : Nat) : Bool :=
  !isspace c &&
    !(decide (c = 123) || decide (c = 125) || decide (c = 91) || decide (c = 93) ||
      decide (c = 44) || decide (c = 58) || decide (c = 34))

/-- The text between the quotes of a string token: printable bytes other than the quote and
the backslash, the escapes `\"`, `\\`, `\/`, `\b`, `\f`, `\n`, `\r`, `\t`, and `\u` with the
four bytes after it.  A quote in it is always part of an escape. -/
inductive StringBody : List Nat → Prop
  | nil : StringBody []
  | plain (c : Nat) (rest : List Nat) : isprint c = true → c ≠ 34 → c ≠ 92 → StringBody rest →
      StringBody (c :: rest)
  | escape (c : Nat) (rest : List Nat) : c ∈ [34, 92, 47, 98, 102, 110, 114, 116] →
      StringBody rest → StringBody (92 :: c :: rest)
  | unicode (h1 h2 h3 h4 : Nat) (rest : List Nat) : StringBody rest →
      StringBody (92 :: 117 :: h1 :: h2 :: h3 :: h4 :: rest)

/-- A string token of the text: a quote, the body, and the closing quote. -/
def QuotedToken (t : List Nat) : Prop := ∃ body, StringBody body ∧ t = 34 :: body ++ [34]

/-- A number or literal token of the text: at least one byte, all of them bare. -/
def BareToken (t : List Nat) : Prop := t ≠ [] ∧ ∀ c ∈ t, isBare c = true

/-- The structure of a text and the composer calls that go with it.  `Shape part text calls`:
`text` is a `part` of a document in which every scalar token stands for exactly one `val`
call, every key token for one `key` call right before the calls of its value, and every
container for its opening call, the calls of its children in the order of the text, and one
`end` call after them. -/
inductive Shape : Part → List Nat → List Event → Prop
  /-- A string token: one `val` call of a string. -/
  | string (t v : List Nat) : QuotedToken t → Shape .value t [.val_string v]
  /-- A number or literal token: one `val` call of a number, a boolean or null. -/
  | bare (t : List Nat) (ev : Event) : BareToken t → ev.isBareVal = true → Shape .value t [ev]
  /-- An array without elements. -/
  | emptyArray (ws : List Nat) : IsWs ws → Shape .value (91 :: ws ++ [93]) [.array, .end_]
  /-- An array: the call `array`, the calls of the elements, the call `end`. -/
  | array (ws body : List Nat) (evs : List Event) : IsWs ws → Shape .elements body evs →
      Shape .value (91 :: ws ++ body ++ [93]) (.array :: evs ++ [.end_])
  /-- An object without members. -/
  | emptyObject (ws : List Nat) : IsWs ws → Shape .value (123 :: ws ++ [125]) [.object, .end_]
  /-- An object: the call `object`, the calls of the members, the call `end`. -/
  | object (ws body : List Nat) (evs : List Event) : IsWs ws → Shape .members body evs →
      Shape .value (123 :: ws ++ body ++ [125]) (.object :: evs ++ [.end_])
  /-- The last element of an array. -/
  | lastElement (v ws : List Nat) (evs : List Event) : Shape .value v evs → IsWs ws →
      Shape .elements (v ++ ws) evs
  /-- An element, a comma, and the elements after it. -/
  | element (v w1 w2 rest : List Nat) (evs evs2 : List Event) : Shape .value v evs →
      IsWs w1 → IsWs w2 → Shape .elements rest evs2 →
      Shape .elements (v ++ w1 ++ 44 :: w2 ++ rest) (evs ++ evs2)
  /-- The last member of an object: the call `key` with a name that is not empty, then the
  calls of the one value of the member. -/
  | lastMember (k name w1 w2 v w3 : List Nat) (evs : List Event) : QuotedToken k →
      name ≠ [] → IsWs w1 → IsWs w2 → Shape .value v evs → IsWs w3 →
      Shape .members (k ++ w1 ++ 58 :: w2 ++ v ++ w3) (.key name :: evs)
  /-- A member, a comma, and the members after it. -/
  | member (k name w1 w2 v w3 w4 rest : List Nat) (evs evs2 : List Event) : QuotedToken k →
      name ≠ [] → IsWs w1 → IsWs w2 → Shape .value v evs → IsWs w3 → IsWs w4 →
      Shape .members rest evs2 →
      Shape .members (k ++ w1 ++ 58 :: w2 ++ v ++ w3 ++ 44 :: w4 ++ rest)
        (.key name :: evs ++ evs2)

/-- The reader `f` (one of the member functions that ingest a value) reads values of the
right shape: whenever it returns, it has consumed a text `t` from the front of the unread
text and made the calls `evs` on the composer, and `t` and `evs` have the shape of one
value. -/
def ReadsShape (f : DecodeHelper → Throws DecodeHelper) : Prop :=
  ∀ (sz : Nat) (s : List Nat) (evs0 : List Event) (d1 : DecodeHelper),
    f ⟨sz, s, evs0⟩ = .ok d1 →
    ∃ t r evs, d1 = ⟨sz, r, evs0 ++ evs⟩ ∧ s = t ++ r ∧ Shape .value t evs

/-- An object with a nested array, an escaped quote inside a string, empty containers and a
negative number with an exponent, with white space around it. -/
def shapeExample : List Nat :=
  bytes " \x7b\"a\": [1, \"x\\\"y\", [], \x7b\x7d], \"b\": -2.5e3\x7d\n"

end qc.json

namespace qc.json

/-- The helper `d1` is the helper `d` further on in the same text: a text `t` was read from
the front of the unread text of `d`, the calls `evs` were made on the composer after the calls
of `d`, and no more calls were made than bytes were read. -/
def DecodeHelper.Later (d d1 : DecodeHelper) : Prop :=
  d1.m_size = d.m_size ∧
    ∃ t evs, d.m_pos = t ++ d1.m_pos ∧ d1.m_composer = d.m_composer ++ evs ∧
      evs.length ≤ t.length

end qc.json

namespace qjson

/-- Whether the next value or key of the encoder is the first member of a pretty container:
no key is pending and the innermost frame is pretty and has no content yet.  This is the state
in which `m_prefix` raises `m_indentation`. -/
def Encoder.atFirstPrettyMember (e : Encoder) : Bool :=
  match e.m_isKey, e.m_state with
  | false, top :: _ => !top.compact && !top.content
  | _, _ => false

/-- The encoders a program can hold when no `val` or `key` call threw "Non-ASCII unicode is
not supported" while adding the first member of a pretty container: a newly constructed one,
and the one left by a call of the streaming interface or of `finish()` on such an encoder,
whether the call returned or threw, except for a call that threw that error in a state in
which `m_prefix` raises the indentation. -/
inductive Encoder.Steady : Encoder → Prop
  | fresh : Encoder.Steady Encoder.fresh
  | call (e : Encoder) (c : Call) : Encoder.Steady e →
      (∀ e1, e.call c = .error (.nonAscii, e1) → e.atFirstPrettyMember = false) →
      Encoder.Steady (e.afterCall c)
  | finish (e : Encoder) : Encoder.Steady e → Encoder.Steady e.afterFinish

end qjson

/-! ## The encoder writes the escaped form -/

namespace qjson.Encoder

@[simp] theorem put_put (e : Encoder) (a b : List Nat) : (e.put a).put b = e.put (a ++ b) := by
  simp [put]

@[simp] theorem put_nil (e : Encoder) : e.put [] = e := by
  simp [put]

theorem s_hexChars_eq : ∀ c, c < 128 →
    s_hexChars.getD ((c >>> 4) &&& 15) 0 = hexUpper (c / 16) ∧
    s_hexChars.getD (c &&& 15) 0 = hexUpper (c % 16) := by
  decide

theorem m_encode_chars_cons (e : Encoder) (c : Nat) (v : List Nat) (hc : c < 128) :
    m_encode_chars e (c :: v) = m_encode_chars (e.put (esc c)) v := by
  have hx := s_hexChars_eq c hc
  by_cases h1 : c = 34 ∨ c = 92
  · rcases h1 with rfl | rfl <;> simp [m_encode_chars, esc, isprint]
  · by_cases h2 : 32 ≤ c ∧ c ≤ 126
    · have h3 : isprint c = true := by simp [isprint, h2]
      simp [m_encode_chars, esc, h1, h2, h3]
    · have h3 : isprint c = false := by
        simp only [isprint, Bool.and_eq_false_iff, decide_eq_false_iff_not]; omega
      rw [m_encode_chars]
      simp only [h3, esc, h1, h2, hx.1, hx.2, hc, if_true, if_false, Bool.false_eq_true]
      split_ifs <;> simp

theorem m_encode_chars_ascii (v : List Nat) (hv : ∀ c ∈ v, c < 128) (e : Encoder) :
    m_encode_chars e v = .ok (e.put (escaped v)) := by
  induction v generalizing e with
  | nil => simp [m_encode_chars, escaped]
  | cons c v ih =>
    rw [m_encode_chars_cons e c v (hv c (by simp)), ih (fun x hx => hv x (by simp [hx]))]
    simp [escaped]

theorem m_encode_string_ascii (v : List Nat) (hv : ∀ c ∈ v, c < 128) (e : Encoder) :
    m_encode_string e v = .ok (e.put (quoted v)) := by
  simp [m_encode_string, m_encode_chars_ascii v hv, quoted]

theorem m_encode_chars_nonAscii (v : List Nat) (hv : ∃ c ∈ v, 128 ≤ c) (e : Encoder) :
    ∃ e1, m_encode_chars e v = .error (.nonAscii, e1) := by
  induction v generalizing e with
  | nil => simp at hv
  | cons c v ih =>
    by_cases hc : c < 128
    · rw [m_encode_chars_cons e c v hc]
      apply ih
      obtain ⟨x, hx, hx128⟩ := hv
      simp at hx
      rcases hx with rfl | hx
      · omega
      · exact ⟨x, hx, hx128⟩
    · refine ⟨e, ?_⟩
      have h1 : isprint c = false := by simp [isprint]; omega
      have h8 : c ≠ 8 ∧ c ≠ 12 ∧ c ≠ 10 ∧ c ≠ 13 ∧ c ≠ 9 := by omega
      rw [m_encode_chars]
      simp only [h1, hc, h8, if_false, Bool.false_eq_true]

end qjson.Encoder

/-! ## The decoder reads the escaped form back -/

namespace qc.json.DecodeHelper

@[simp] theorem advance_mk (sz : Nat) (p : List Nat) (evs : List Event) (n : Nat) :
    advance ⟨sz, p, evs⟩ n = ⟨sz, p.drop n, evs⟩ := rfl

@[simp] theorem compose_mk (sz : Nat) (p : List Nat) (evs : List Event) (ev : Event) :
    compose ⟨sz, p, evs⟩ ev = ⟨sz, p, evs ++ [ev]⟩ := rfl

@[simp] theorem m_skipWhitespace_mk (sz : Nat) (p : List Nat) (evs : List Event) :
    m_skipWhitespace ⟨sz, p, evs⟩ = ⟨sz, p.dropWhile isspace, evs⟩ := rfl

theorem from_chars_hex_eq : ∀ c, c < 128 →
    from_chars_hex [48, 48, hexUpper (c / 16), hexUpper (c % 16)] = .ok c ∧
    c &&& 0xFFFFFF80 = 0 := by
  decide

theorem m_consumeUnicode_escape (c : Nat) (hc : c < 128) (sz : Nat) (tail : List Nat)
    (evs : List Event) :
    m_consumeUnicode ⟨sz, 48 :: 48 :: hexUpper (c / 16) :: hexUpper (c % 16) :: tail, evs⟩ =
      .ok (c, ⟨sz, tail, evs⟩) := by
  obtain ⟨h1, h2⟩ := from_chars_hex_eq c hc
  simp [m_consumeUnicode, h1, h2]

theorem m_consumeString_loop_esc (c : Nat) (hc : c < 128) (fuel sz : Nat) (tail : List Nat)
    (evs : List Event) (buffer : List Nat) :
    m_consumeString_loop (fuel + 1) ⟨sz, esc c ++ tail, evs⟩ buffer =
      m_consumeString_loop fuel ⟨sz, tail, evs⟩ (buffer ++ [c]) := by
  by_cases h1 : c = 34 ∨ c = 92
  · rcases h1 with rfl | rfl <;> simp [m_consumeString_loop, esc, m_consumeEscaped]
  · by_cases h2 : 32 ≤ c ∧ c ≤ 126
    · have h3 : isprint c = true := by simp [isprint, h2]
      have h4 : c ≠ 34 ∧ c ≠ 92 := by omega
      simp [m_consumeString_loop, esc, h1, h2, h3, h4]
    · have h5 := m_consumeUnicode_escape c hc sz tail evs
      simp only [esc, h1, h2, if_false]
      split_ifs <;> simp_all [m_consumeString_loop, m_consumeEscaped]

theorem length_le_escaped (s : List Nat) : s.length ≤ (escaped s).length := by
  induction s with
  | nil => simp [escaped]
  | cons c s ih =>
    have : 1 ≤ (esc c).length := by
      simp only [esc]; split_ifs <;> simp
    simp [escaped]; omega

theorem m_consumeString_loop_escaped (s : List Nat) (hs : ∀ c ∈ s, c < 128) (fuel sz : Nat)
    (hfuel : s.length < fuel) (rest : List Nat) (evs : List Event) (buffer : List Nat) :
    m_consumeString_loop fuel ⟨sz, escaped s ++ 34 :: rest, evs⟩ buffer =
      .ok (buffer ++ s, ⟨sz, rest, evs⟩) := by
  induction s generalizing fuel buffer with
  | nil =>
    obtain ⟨n, rfl⟩ : ∃ n, fuel = n + 1 := ⟨fuel - 1, by simp at hfuel; omega⟩
    simp [m_consumeString_loop, escaped]
  | cons c s ih =>
    obtain ⟨n, rfl⟩ : ∃ n, fuel = n + 1 := ⟨fuel - 1, by simp at hfuel; omega⟩
    have hlen : s.length < n := by simp at hfuel; omega
    simp only [escaped, List.append_assoc]
    rw [m_consumeString_loop_esc c (hs c (by simp)),
      ih (fun x hx => hs x (by simp [hx])) n hlen]
    simp

theorem m_consumeString_quoted (s : List Nat) (hs : ∀ c ∈ s, c < 128) (sz : Nat)
    (rest : List Nat) (evs : List Event) :
    m_consumeString ⟨sz, quoted s ++ rest, evs⟩ = .ok (s, ⟨sz, rest, evs⟩) := by
  have h := length_le_escaped s
  have := m_consumeString_loop_escaped s hs ((quoted s ++ rest).length) sz
    (by simp [quoted]; omega) rest evs []
  simpa [m_consumeString, quoted] using this

end qc.json.DecodeHelper

/-! ## Integers: `std::to_chars` and `std::from_chars` are inverse to each other -/

theorem digitsValue_append (ds : List Nat) (c : Nat) :
    digitsValue (ds ++ [c]) = 10 * digitsValue ds + (c - 48) := by
  simp [digitsValue, List.foldl_append]

theorem to_chars_digits_spec (fuel : Nat) : ∀ n, n < 10 ^ fuel → 0 < fuel →
    (∀ c ∈ to_chars_digits fuel n, isdigit c = true) ∧ to_chars_digits fuel n ≠ [] ∧
      digitsValue (to_chars_digits fuel n) = n := by
  induction fuel with
  | zero => intro n _ h; omega
  | succ fuel ih =>
    intro n hn _
    by_cases h10 : n < 10
    · simp [to_chars_digits, h10, isdigit, digitsValue]
      omega
    · have hfuel : 0 < fuel := by
        rcases Nat.eq_zero_or_pos fuel with h | h
        · subst h; simp at hn; omega
        · exact h
      have hdiv : n / 10 < 10 ^ fuel := by
        rw [Nat.div_lt_iff_lt_mul (by norm_num)]
        rw [pow_succ] at hn; exact hn
      obtain ⟨h1, _, h3⟩ := ih (n / 10) hdiv hfuel
      simp only [to_chars_digits, h10, if_false]
      refine ⟨?_, by simp, ?_⟩
      · intro c hc
        simp only [List.mem_append, List.mem_singleton] at hc
        rcases hc with hc | rfl
        · exact h1 c hc
        · simp [isdigit]; omega
      · rw [digitsValue_append, h3]; omega

theorem takeWhile_digits (ds rest : List Nat) (hds : ∀ c ∈ ds, isdigit c = true)
    (hrest : ∀ c ∈ rest.head?, isdigit c = false) :
    (ds ++ rest).takeWhile isdigit = ds ∧ (ds ++ rest).dropWhile isdigit = rest := by
  induction ds with
  | nil =>
    cases rest with
    | nil => simp
    | cons c r =>
      have := hrest c (by simp)
      simp [List.takeWhile, List.dropWhile, this]
  | cons d ds ih =>
    have hd := hds d (by simp)
    obtain ⟨h1, h2⟩ := ih (fun c hc => hds c (by simp [hc]))
    simp [List.takeWhile, List.dropWhile, hd, h1, h2]

theorem to_chars_int64_spec (v : Int) (hlo : -(2 ^ 63) ≤ v) (hhi : v < 2 ^ 63) :
    ∃ d ds, (∀ c ∈ d :: ds, isdigit c = true) ∧ digitsValue (d :: ds) = v.natAbs ∧
      to_chars_int64 v = if v < 0 then 45 :: d :: ds else d :: ds := by
  have hn : v.natAbs < 10 ^ 20 := by omega
  obtain ⟨h1, h2, h3⟩ := to_chars_digits_spec 20 v.natAbs hn (by norm_num)
  cases hds : to_chars_digits 20 v.natAbs with
  | nil => exact absurd hds h2
  | cons d ds =>
    rw [hds] at h1 h3
    exact ⟨d, ds, h1, h3, by simp [to_chars_int64, hds]⟩

theorem from_chars_integer_signed (d : Nat) (ds rest : List Nat)
    (hds : ∀ c ∈ d :: ds, isdigit c = true) (hrest : ∀ c ∈ rest.head?, isdigit c = false)
    (hlo : -(2 ^ 63) ≤ -(digitsValue (d :: ds) : Int)) :
    from_chars_integer true (45 :: d :: ds ++ rest) = .ok (-(digitsValue (d :: ds) : Int), rest) := by
  obtain ⟨htake, hdrop⟩ := takeWhile_digits (d :: ds) rest hds hrest
  have e1 : (d :: (ds ++ rest)).takeWhile isdigit = d :: ds := by simpa using htake
  have e2 : (d :: (ds ++ rest)).dropWhile isdigit = rest := by simpa using hdrop
  have hr : ¬(-(digitsValue (d :: ds) : Int) < -(2 ^ 63) ∨
      2 ^ 63 - 1 < -(digitsValue (d :: ds) : Int)) := by omega
  simp only [from_chars_integer, List.head?_cons, beq_self_eq_true, Bool.and_self, if_true,
    List.drop_succ_cons, List.drop_zero, List.cons_append, e1, e2, List.isEmpty_cons,
    Bool.false_eq_true, if_false]
  rw [if_neg hr]

theorem from_chars_integer_unsigned (d : Nat) (ds rest : List Nat)
    (hds : ∀ c ∈ d :: ds, isdigit c = true) (hrest : ∀ c ∈ rest.head?, isdigit c = false)
    (hhi : (digitsValue (d :: ds) : Int) ≤ 2 ^ 64 - 1) :
    from_chars_integer false (d :: ds ++ rest) = .ok ((digitsValue (d :: ds) : Int), rest) := by
  obtain ⟨htake, hdrop⟩ := takeWhile_digits (d :: ds) rest hds hrest
  have e1 : (d :: (ds ++ rest)).takeWhile isdigit = d :: ds := by simpa using htake
  have e2 : (d :: (ds ++ rest)).dropWhile isdigit = rest := by simpa using hdrop
  have hr : ¬(2 ^ 64 - 1 < (digitsValue (d :: ds) : Int)) := by omega
  simp only [from_chars_integer, Bool.false_and, Bool.false_eq_true, if_false,
    List.cons_append, e1, e2, List.isEmpty_cons]
  rw [if_neg hr]

namespace qc.json.DecodeHelper

theorem m_isInteger_of_numberEnd (sz : Nat) (c : Nat) (ds rest : List Nat) (evs : List Event)
    (hds : ∀ x ∈ ds, isdigit x = true) (hrest : NumberEnd rest) :
    m_isInteger ⟨sz, c :: ds ++ rest, evs⟩ = true := by
  have hnd : ∀ x ∈ rest.head?, isdigit x = false := fun x hx => (hrest x hx).1
  have h : ((c :: ds ++ rest).drop 1).dropWhile isdigit = rest := by
    simpa using (takeWhile_digits ds rest hds hnd).2
  simp only [m_isInteger, h]
  cases rest with
  | nil => rfl
  | cons x r =>
    obtain ⟨_, h46, h101, h69⟩ := hrest x (by simp)
    simp [h46, h101, h69]

theorem m_ingestInteger_ok (isSigned : Bool) (sz : Nat) (p : List Nat) (evs : List Event)
    (val : Int) (ptr : List Nat) (h : from_chars_integer isSigned p = .ok (val, ptr))
    (hptr : ∀ c ∈ ptr.head?, c ≠ 46) :
    m_ingestInteger isSigned ⟨sz, p, evs⟩ =
      .ok ⟨sz, ptr, evs ++ [if !isSigned && val < 2 ^ 63 then Event.val_int64 val
        else if isSigned then Event.val_int64 val else Event.val_uint64 val]⟩ := by
  have hskip : (match ptr with
      | 46 :: _ =>
        (match (advance ⟨sz, ptr, evs⟩ 1).m_pos with
        | 48 :: _ => (.ok { (advance ⟨sz, ptr, evs⟩ 1) with
            m_pos := ((advance ⟨sz, ptr, evs⟩ 1).m_pos.drop 1).dropWhile (fun c => c = 48) } :
              Throws DecodeHelper)
        | _ => (advance ⟨sz, ptr, evs⟩ 1).fail .danglingDecimalPoint)
      | _ => .ok ⟨sz, ptr, evs⟩) = .ok ⟨sz, ptr, evs⟩ := by
    cases ptr with
    | nil => rfl
    | cons c r =>
      have := hptr c (by simp)
      split
      · simp_all
      · rfl
  simp only [m_ingestInteger, h, hskip]
  split_ifs <;> rfl

theorem m_ingestNumber_int64 (v : Int) (hlo : -(2 ^ 63) ≤ v) (hhi : v < 2 ^ 63)
    (rest : List Nat) (hrest : NumberEnd rest) (sz : Nat) (evs : List Event) :
    m_ingestNumber ⟨sz, to_chars_int64 v ++ rest, evs⟩ = .ok ⟨sz, rest, evs ++ [.val_int64 v]⟩ := by
  obtain ⟨d, ds, hds, hval, htok⟩ := to_chars_int64_spec v hlo hhi
  have hnd : ∀ c ∈ rest.head?, isdigit c = false := fun c hc => (hrest c hc).1
  have h46 : ∀ c ∈ rest.head?, c ≠ 46 := fun c hc => (hrest c hc).2.1
  have hd : isdigit d = true := hds d (by simp)
  have hd45 : ¬ (d = 45) := by
    intro h; subst h; simp [isdigit] at hd
  by_cases hneg : v < 0
  · simp only [hneg, if_true] at htok
    have hv : v = -(digitsValue (d :: ds) : Int) := by omega
    have hfc := from_chars_integer_signed d ds rest hds hnd (by omega)
    rw [← hv] at hfc
    have hI := m_isInteger_of_numberEnd sz 45 (d :: ds) rest evs hds hrest
    have hM := m_ingestInteger_ok true sz _ evs v rest hfc h46
    simp only [List.cons_append] at hI hM
    rw [htok]
    simp only [m_ingestNumber, List.cons_append, hI, if_true, List.head?_cons, hM]
    simp
  · simp only [hneg, if_false] at htok
    have hv : v = (digitsValue (d :: ds) : Int) := by omega
    have hfc := from_chars_integer_unsigned d ds rest hds hnd (by omega)
    rw [← hv] at hfc
    have hI := m_isInteger_of_numberEnd sz d ds rest evs
      (fun c hc => hds c (by simp [hc])) hrest
    have hM := m_ingestInteger_ok false sz _ evs v rest hfc h46
    simp only [List.cons_append] at hI hM
    rw [htok]
    simp only [m_ingestNumber, List.cons_append, hI, if_true, List.head?_cons,
      Option.some.injEq, hd45, if_false, hM]
    simp
    omega

end qc.json.DecodeHelper

/-! ## Scalar tokens are read back by `m_ingestValue` -/

namespace qc.json.DecodeHelper

theorem m_ingestValue_string (s : List Nat) (hs : ∀ c ∈ s, c < 128) (fuel sz : Nat)
    (rest : List Nat) (evs : List Event) :
    m_ingestValue (fuel + 1) ⟨sz, quoted s ++ rest, evs⟩ =
      .ok ⟨sz, rest, evs ++ [.val_string s]⟩ := by
  have h := m_consumeString_quoted s hs sz rest evs
  have hq : quoted s ++ rest = 34 :: (escaped s ++ 34 :: rest) := by simp [quoted]
  rw [hq] at h ⊢
  simp [m_ingestValue, m_ingestString, h]

theorem m_ingestValue_int64 (v : Int) (hlo : -(2 ^ 63) ≤ v) (hhi : v < 2 ^ 63)
    (rest : List Nat) (hrest : NumberEnd rest) (fuel sz : Nat) (evs : List Event) :
    m_ingestValue (fuel + 1) ⟨sz, to_chars_int64 v ++ rest, evs⟩ =
      .ok ⟨sz, rest, evs ++ [.val_int64 v]⟩ := by
  have h := m_ingestNumber_int64 v hlo hhi rest hrest sz evs
  obtain ⟨d, ds, hds, _, htok⟩ := to_chars_int64_spec v hlo hhi
  have hd : isdigit d = true := hds d (by simp)
  have hd' : 48 ≤ d ∧ d ≤ 57 := by simpa [isdigit] using hd
  by_cases hneg : v < 0
  · simp only [hneg, if_true] at htok
    rw [htok] at h ⊢
    simp only [List.cons_append] at h ⊢
    simp [m_ingestValue, isdigit, h, hd']
  · simp only [hneg, if_false] at htok
    rw [htok] at h ⊢
    simp only [List.cons_append] at h ⊢
    have h1 : d ≠ 123 ∧ d ≠ 91 ∧ d ≠ 34 := by omega
    simp [m_ingestValue, h, hd, h1]

theorem m_ingestValue_bool (b : Bool) (fuel sz : Nat) (rest : List Nat) (evs : List Event) :
    m_ingestValue (fuel + 1)
        ⟨sz, (if b then [116, 114, 117, 101] else [102, 97, 108, 115, 101]) ++ rest, evs⟩ =
      .ok ⟨sz, rest, evs ++ [.val_bool b]⟩ := by
  cases b <;>
    simp [m_ingestValue, m_ingestLiteral, m_tryConsumeChars, startsWith, isdigit]

theorem m_ingestValue_null (fuel sz : Nat) (rest : List Nat) (evs : List Event) :
    m_ingestValue (fuel + 1) ⟨sz, [110, 117, 108, 108] ++ rest, evs⟩ =
      .ok ⟨sz, rest, evs ++ [.val_null]⟩ := by
  simp [m_ingestValue, m_ingestLiteral, m_tryConsumeChars, startsWith, isdigit]

end qc.json.DecodeHelper

namespace qc.json

theorem decode_of_ingest (t : List Nat) (evs : List Event)
    (hstart : t.dropWhile isspace = t)
    (h : DecodeHelper.m_ingestValue (t.length + 1) ⟨t.length, t, []⟩ = .ok ⟨t.length, [], evs⟩) :
    decode t = .ok evs := by
  simp [decode, DecodeHelper.run, hstart, h]

end qc.json

/-! ## Floater tokens are read back by `m_ingestValue` -/

theorem span_append (p : Nat → Bool) (a b : List Nat) (hb : ∀ c ∈ b.head?, p c = false) :
    (a ++ b).takeWhile p = a.takeWhile p ∧ (a ++ b).dropWhile p = a.dropWhile p ++ b := by
  induction a with
  | nil =>
    cases b with
    | nil => simp
    | cons c r =>
      have := hb c (by simp)
      simp [List.takeWhile, List.dropWhile, this]
  | cons x a ih =>
    cases hx : p x <;> simp [List.takeWhile, List.dropWhile, hx, ih]

theorem head?_append_numberEnd (s rest : List Nat) (c : Nat) (hrest : ∀ x ∈ rest.head?, x ≠ c) :
    ((s ++ rest).head? == some c) = (s.head? == some c) := by
  cases s with
  | nil =>
    cases rest with
    | nil => rfl
    | cons x r =>
      have := hrest x (by simp)
      simp [this]
  | cons a s => simp

theorem scanFraction_append (s rest : List Nat) (hrest : NumberEnd rest) :
    scanFraction (s ++ rest) =
      ((scanFraction s).1, (scanFraction s).2.1, (scanFraction s).2.2 ++ rest) := by
  have hnd : ∀ c ∈ rest.head?, isdigit c = false := fun c hc => (hrest c hc).1
  cases s with
  | nil =>
    have h46 := head?_append_numberEnd [] rest 46 (fun x hx => (hrest x hx).2.1)
    have h0 : (([] : List Nat).head? == some 46) = false := rfl
    simp only [List.nil_append, h0] at h46
    simp [scanFraction, h46]
  | cons a s =>
    by_cases ha : a = 46
    · subst ha
      obtain ⟨h1, h2⟩ := span_append isdigit s rest hnd
      simp [scanFraction, h1, h2]
    · simp [scanFraction, ha]

theorem scanExponent_cons_cons (c c2 : Nat) (s : List Nat) :
    scanExponent (c :: c2 :: s) =
      if (c = 101 ∨ c = 69) ∧
          ((if c2 = 45 ∨ c2 = 43 then s else c2 :: s).takeWhile isdigit).isEmpty = false then
        (some (if c2 = 45 then
            -(digitsValue ((if c2 = 45 ∨ c2 = 43 then s else c2 :: s).takeWhile isdigit) : Int)
          else (digitsValue ((if c2 = 45 ∨ c2 = 43 then s else c2 :: s).takeWhile isdigit) : Int)),
          (if c2 = 45 ∨ c2 = 43 then s else c2 :: s).dropWhile isdigit)
      else (none, c :: c2 :: s) := by
  simp only [scanExponent, List.head?_cons, List.drop_succ_cons, List.drop_zero]
  by_cases hE : c = 101 ∨ c = 69 <;> by_cases hs : c2 = 45 ∨ c2 = 43 <;>
    by_cases h45 : c2 = 45 <;> simp [hE, hs, h45]

theorem scanExponent_append (s rest : List Nat) (hrest : NumberEnd rest) (exp10 : Option Int)
    (h : scanExponent s = (exp10, [])) : scanExponent (s ++ rest) = (exp10, rest) := by
  have hnd : ∀ c ∈ rest.head?, isdigit c = false := fun c hc => (hrest c hc).1
  cases s with
  | nil =>
    have he : exp10 = none := by
      simp [scanExponent] at h
      exact h.symm
    subst he
    have h101 := head?_append_numberEnd [] rest 101 (fun x hx => (hrest x hx).2.2.1)
    have h69 := head?_append_numberEnd [] rest 69 (fun x hx => (hrest x hx).2.2.2)
    have h0 : ∀ c : Nat, (([] : List Nat).head? == some c) = false := fun _ => rfl
    simp only [List.nil_append, h0] at h101 h69
    simp [scanExponent, h101, h69]
  | cons c s1 =>
    cases s1 with
    | nil =>
      simp [scanExponent] at h
    | cons c2 s2 =>
      rw [scanExponent_cons_cons] at h
      simp only [List.cons_append]
      rw [scanExponent_cons_cons]
      have happ : (if c2 = 45 ∨ c2 = 43 then s2 ++ rest else c2 :: (s2 ++ rest)) =
          (if c2 = 45 ∨ c2 = 43 then s2 else c2 :: s2) ++ rest := by
        split_ifs <;> simp
      generalize (if c2 = 45 ∨ c2 = 43 then s2 else c2 :: s2) = t at happ h
      obtain ⟨h1, h2⟩ := span_append isdigit t rest hnd
      rw [happ, h1, h2]
      by_cases hcond : (c = 101 ∨ c = 69) ∧ (t.takeWhile isdigit).isEmpty = false
      · rw [if_pos hcond] at h ⊢
        simp only [Prod.mk.injEq] at h ⊢
        exact ⟨h.1, by rw [h.2]; rfl⟩
      · rw [if_neg hcond] at h
        simp at h

theorem from_chars_double_append (tok rest : List Nat) (htok : tok ≠ []) (hrest : NumberEnd rest)
    (x : Floater) (h : from_chars_double tok = .ok (x, [], false)) :
    from_chars_double (tok ++ rest) = .ok (x, rest, false) := by
  have hnd : ∀ c ∈ rest.head?, isdigit c = false := fun c hc => (hrest c hc).1
  obtain ⟨c, tl, rfl⟩ : ∃ c tl, tok = c :: tl := by
    cases tok with
    | nil => exact absurd rfl htok
    | cons c tl => exact ⟨c, tl, rfl⟩
  have hhead : ((c :: tl ++ rest).head? == some 45) = ((c :: tl).head? == some 45) := by simp
  have hs1 : (if ((c :: tl).head? == some 45) = true then (c :: tl ++ rest).drop 1
      else c :: tl ++ rest) =
      (if ((c :: tl).head? == some 45) = true then (c :: tl).drop 1 else c :: tl) ++ rest := by
    split_ifs <;> simp
  simp only [from_chars_double, hhead] at h ⊢
  rw [hs1]
  generalize (if ((c :: tl).head? == some 45) = true then (c :: tl).drop 1 else c :: tl) = s1 at h
  generalize ((c :: tl).head? == some 45) = neg at h
  obtain ⟨k1, k2⟩ := span_append isdigit s1 rest hnd
  rw [k1, k2, scanFraction_append (s1.dropWhile isdigit) rest hrest]
  generalize scanFraction (s1.dropWhile isdigit) = fr at h
  obtain ⟨hasPoint, fracDigits, s2⟩ := fr
  simp only at h ⊢
  by_cases hinv : ((s1.takeWhile isdigit).isEmpty && fracDigits.isEmpty) = true
  · rw [if_pos hinv] at h
    cases h
  · rw [if_neg hinv] at h ⊢
    cases hexp : scanExponent s2 with
    | mk exp10 rest2 =>
      simp only [hexp] at h
      by_cases hrange : (doubleOverflows (digitsValue (s1.takeWhile isdigit ++ fracDigits))
          (exp10.getD 0 - fracDigits.length) ||
          doubleUnderflows (digitsValue (s1.takeWhile isdigit ++ fracDigits))
            (exp10.getD 0 - fracDigits.length)) = true
      · rw [if_pos hrange] at h
        cases h
      · rw [if_neg hrange] at h
        simp only [Except.ok.injEq, Prod.mk.injEq] at h
        obtain ⟨hx, hr2, hflag⟩ := h
        subst hr2
        rw [scanExponent_append s2 rest hrest exp10 hexp]
        simp only [hrange, Bool.false_eq_true, if_false, hx, hflag]

namespace qc.json.DecodeHelper

theorem m_isInteger_append (c : Nat) (tl rest : List Nat) (hrest : NumberEnd rest)
    (sz sz1 : Nat) (pre pre1 : List Event) :
    m_isInteger ⟨sz, c :: tl ++ rest, pre⟩ = m_isInteger ⟨sz1, c :: tl, pre1⟩ := by
  have hnd : ∀ x ∈ rest.head?, isdigit x = false := fun x hx => (hrest x hx).1
  have h48 : ∀ x ∈ rest.head?, (fun c1 => decide (c1 = 48)) x = false := by
    intro x hx
    have := (hrest x hx).1
    simp only [isdigit, Bool.and_eq_false_iff, decide_eq_false_iff_not] at this
    simp only [decide_eq_false_iff_not]
    omega
  have hd := (span_append isdigit tl rest hnd).2
  simp only [m_isInteger, List.cons_append, List.drop_succ_cons, List.drop_zero, hd]
  cases hp : tl.dropWhile isdigit with
  | nil =>
    cases rest with
    | nil => rfl
    | cons x r =>
      obtain ⟨_, h2, h3, h4⟩ := hrest x (by simp)
      simp [h2, h3, h4]
  | cons x pos =>
    simp only [List.cons_append]
    by_cases hx : x = 46
    · simp only [hx, if_true]
      rw [(span_append (fun c1 => decide (c1 = 48)) pos rest h48).2]
      cases hq : pos.dropWhile (fun c1 => decide (c1 = 48)) with
      | nil =>
        cases rest with
        | nil => rfl
        | cons y r =>
          obtain ⟨h1, _, h3, h4⟩ := hrest y (by simp)
          simp [h1, h3, h4]
      | cons y q => rfl
    · simp only [hx, if_false]

theorem from_chars_integer_append_error (isSigned : Bool) (c : Nat) (tl rest : List Nat)
    (hrest : NumberEnd rest) (err : errc)
    (h : from_chars_integer isSigned (c :: tl) = .error err) :
    from_chars_integer isSigned (c :: tl ++ rest) = .error err := by
  have hnd : ∀ x ∈ rest.head?, isdigit x = false := fun x hx => (hrest x hx).1
  have hhead : ((c :: tl ++ rest).head? == some 45) = ((c :: tl).head? == some 45) := by simp
  have hs1 : (if (isSigned && ((c :: tl).head? == some 45)) = true
      then (c :: tl ++ rest).drop 1 else c :: tl ++ rest) =
      (if (isSigned && ((c :: tl).head? == some 45)) = true then (c :: tl).drop 1
        else c :: tl) ++ rest := by
    split_ifs <;> simp
  simp only [from_chars_integer, hhead] at h ⊢
  rw [hs1]
  generalize (if (isSigned && ((c :: tl).head? == some 45)) = true then (c :: tl).drop 1
    else c :: tl) = s1 at h
  generalize (isSigned && ((c :: tl).head? == some 45)) = neg at h
  obtain ⟨k1, k2⟩ := span_append isdigit s1 rest hnd
  rw [k1, k2]
  split_ifs at h ⊢ <;> exact h

/-- A token the decoder reads as a floater is read the same way in front of any text at
which a number ends. -/
theorem reads_floater (tok : List Nat) (h : readAsFloater tok = true) :
    Reads tok [.val_double (floaterOfText tok)] := by
  by_cases hinf : tok = [105, 110, 102]
  · subst hinf
    refine ⟨⟨105, [110, 102], rfl, by decide, by decide⟩, ?_⟩
    intro fuel sz rest pre hfuel _
    obtain ⟨f, rfl⟩ : ∃ f, fuel = f + 1 := ⟨fuel - 1, by simp at hfuel; omega⟩
    simp [m_ingestValue, m_ingestLiteral, m_tryConsumeChars, startsWith, isdigit, floaterOfText]
  by_cases hninf : tok = [45, 105, 110, 102]
  · subst hninf
    refine ⟨⟨45, [105, 110, 102], rfl, by decide, by decide⟩, ?_⟩
    intro fuel sz rest pre hfuel _
    obtain ⟨f, rfl⟩ : ∃ f, fuel = f + 1 := ⟨fuel - 1, by simp at hfuel; omega⟩
    simp [m_ingestValue, m_ingestLiteral, m_tryConsumeChars, startsWith, isdigit, floaterOfText]
  by_cases hnan : tok = [110, 97, 110]
  · subst hnan
    refine ⟨⟨110, [97, 110], rfl, by decide, by decide⟩, ?_⟩
    intro fuel sz rest pre hfuel _
    obtain ⟨f, rfl⟩ : ∃ f, fuel = f + 1 := ⟨fuel - 1, by simp at hfuel; omega⟩
    simp [m_ingestValue, m_ingestLiteral, m_tryConsumeChars, startsWith, isdigit, floaterOfText]
  simp only [readAsFloater, Bool.or_eq_true, beq_iff_eq, hinf, hninf, hnan, false_or,
    Bool.and_eq_true] at h
  obtain ⟨⟨hstart, hfc⟩, hint⟩ := h
  obtain ⟨c, tl, rfl⟩ : ∃ c tl, tok = c :: tl := by
    cases tok with
    | nil => simp [startsNumber] at hstart
    | cons c tl => exact ⟨c, tl, rfl⟩
  obtain ⟨x, hx⟩ : ∃ x, from_chars_double (c :: tl) = .ok (x, [], false) := by
    cases hfd : from_chars_double (c :: tl) with
    | error e => simp [hfd] at hfc
    | ok r =>
      obtain ⟨x, r1, fl⟩ := r
      cases r1 with
      | nil =>
        cases fl with
        | false => exact ⟨x, rfl⟩
        | true => simp [hfd] at hfc
      | cons a b => simp [hfd] at hfc
  have hfl : floaterOfText (c :: tl) = x := by
    simp [floaterOfText, hinf, hninf, hnan, hx]
  have hc : isdigit c = true ∨
      (c = 45 ∧ 1 < (c :: tl).length ∧ isdigit ((c :: tl).getD 1 0) = true) := by
    simp only [startsNumber, Bool.or_eq_true, Bool.and_eq_true, decide_eq_true_eq] at hstart
    tauto
  have hsp : isspace c = false ∧ c ≠ 93 ∧ c ≠ 123 ∧ c ≠ 91 ∧ c ≠ 34 := by
    rcases hc with hc | ⟨rfl, _⟩
    · simp only [isdigit, Bool.and_eq_true, decide_eq_true_eq] at hc
      simp only [isspace, Bool.or_eq_false_iff, Bool.and_eq_false_iff, decide_eq_false_iff_not]
      omega
    · decide
  refine ⟨⟨c, tl, rfl, hsp.1, hsp.2.1⟩, ?_⟩
  intro fuel sz rest pre hfuel hrest
  obtain ⟨f, rfl⟩ : ∃ f, fuel = f + 1 := ⟨fuel - 1, by simp at hfuel; omega⟩
  rw [hfl]
  have hnum : m_ingestValue (f + 1) ⟨sz, c :: tl ++ rest, pre⟩ =
      m_ingestNumber ⟨sz, c :: tl ++ rest, pre⟩ := by
    rcases hc with hc | ⟨rfl, hlen, hd⟩
    · simp [m_ingestValue, hsp.2.2.1, hsp.2.2.2.1, hsp.2.2.2.2, hc]
    · have h45 : isdigit 45 = false := by decide
      have hd' : isdigit ((45 :: (tl ++ rest)).getD 1 0) = true := by
        cases tl with
        | nil => simp at hlen
        | cons a b => simpa using hd
      have hlen' : 1 < (45 :: (tl ++ rest)).length := by simp at hlen ⊢; omega
      simp only [m_ingestValue, List.cons_append, h45, hd', hlen', decide_True, Bool.and_self,
        if_true, Bool.false_eq_true, if_false, (by decide : ¬ (45 = 123)),
        (by decide : ¬ (45 = 91)), (by decide : ¬ (45 = 34))]
  have hfloat : m_ingestFloater ⟨sz, c :: tl ++ rest, pre⟩ =
      .ok ⟨sz, rest, pre ++ [.val_double x]⟩ := by
    have := from_chars_double_append (c :: tl) rest (by simp) hrest x hx
    simp only [List.cons_append] at this
    simp [m_ingestFloater, this]
  rw [hnum, m_ingestNumber, m_isInteger_append c tl rest hrest sz 0 pre []]
  cases hI : m_isInteger ⟨0, c :: tl, []⟩ with
  | false => simpa using hfloat
  | true =>
    have herr : from_chars_integer ((c :: tl).head? == some 45) (c :: tl) =
        .error .result_out_of_range := by
      simpa [hI] using hint
    by_cases h45 : c = 45
    · subst h45
      have := from_chars_integer_append_error true 45 tl rest hrest _ (by simpa using herr)
      simp only [List.cons_append] at this hfloat
      simp [m_ingestInteger, this, hfloat]
    · have hb : ((c :: tl).head? == some 45) = false := by simp [h45]
      rw [hb] at herr
      have := from_chars_integer_append_error false c tl rest hrest _ herr
      simp only [List.cons_append] at this hfloat
      simp [m_ingestInteger, this, hfloat, h45]

end qc.json.DecodeHelper

/-! ## The effect of each call of the encoder -/

theorem indentText_isWs (n : Nat) : IsWs (qjson.Encoder.indentText n) := by
  induction n with
  | zero => simp [IsWs, qjson.Encoder.indentText]
  | succ n ih =>
    intro c hc
    simp only [qjson.Encoder.indentText, List.mem_append] at hc
    rcases hc with hc | hc
    · simp at hc; subst hc; decide
    · exact ih c hc

namespace qjson.Encoder

@[simp] theorem m_prefix_m_state (e : Encoder) : ( m_prefix e).m_state = e.m_state := by
  obtain ⟨oss, st, ind, isKey, isComplete⟩ := e
  cases isKey <;> cases st <;> simp [ m_prefix, m_indent, put]
  split_ifs <;> rfl

@[simp] theorem m_prefix_m_isKey (e : Encoder) : ( m_prefix e).m_isKey = e.m_isKey := by
  obtain ⟨oss, st, ind, isKey, isComplete⟩ := e
  cases isKey <;> cases st <;> simp [ m_prefix, m_indent, put]
  split_ifs <;> rfl

@[simp] theorem m_prefix_m_isComplete (e : Encoder) :
    ( m_prefix e).m_isComplete = e.m_isComplete := by
  obtain ⟨oss, st, ind, isKey, isComplete⟩ := e
  cases isKey <;> cases st <;> simp [ m_prefix, m_indent, put]
  split_ifs <;> rfl

theorem m_prefix_of_isKey (e : Encoder) (h : e.m_isKey = true) : m_prefix e = e := by
  obtain ⟨oss, st, ind, isKey, isComplete⟩ := e
  simp only at h
  subst h
  simp [ m_prefix]

theorem m_prefix_of_nil (e : Encoder) (h : e.m_state = []) : m_prefix e = e := by
  obtain ⟨oss, st, ind, isKey, isComplete⟩ := e
  simp only at h
  subst h
  cases isKey <;> simp [ m_prefix]

theorem m_prefix_text (e : Encoder) (back : m_State) (below : List m_State)
    (hk : e.m_isKey = false) (hs : e.m_state = back :: below) :
    ∃ ws, IsWs ws ∧
      ( m_prefix e).m_oss = e.m_oss ++ ((if back.content then [44] else []) ++ ws) := by
  obtain ⟨oss, st, ind, isKey, isComplete⟩ := e
  simp only at hk hs
  subst hk hs
  obtain ⟨a, c, t⟩ := back
  cases c <;> cases t
  · exact ⟨10 :: indentText (ind + 1).toNat, by
      intro x hx
      simp only [List.mem_cons] at hx
      rcases hx with rfl | hx
      · decide
      · exact indentText_isWs _ x hx, by simp [ m_prefix, m_indent, put]⟩
  · exact ⟨10 :: indentText ind.toNat, by
      intro x hx
      simp only [List.mem_cons] at hx
      rcases hx with rfl | hx
      · decide
      · exact indentText_isWs _ x hx, by simp [ m_prefix, m_indent, put]⟩
  · exact ⟨[32], by intro x hx; simp at hx; subst hx; decide, by simp [ m_prefix, put]⟩
  · exact ⟨[32], by intro x hx; simp at hx; subst hx; decide, by simp [ m_prefix, put]⟩

theorem m_encode_chars_ok (v : List Nat) (e e1 : Encoder) (h : m_encode_chars e v = .ok e1) :
    ∀ c ∈ v, c < 128 := by
  intro c hc
  by_contra hge
  obtain ⟨e2, h2⟩ := m_encode_chars_nonAscii v ⟨c, hc, by omega⟩ e
  rw [h2] at h
  cases h

theorem m_encode_string_ok (v : List Nat) (e e1 : Encoder) (h : m_encode_string e v = .ok e1) :
    (∀ c ∈ v, c < 128) ∧ e1 = e.put (quoted v) := by
  have hv : ∀ c ∈ v, c < 128 := by
    cases h1 : m_encode_chars (e.put [34]) v with
    | error err => simp [m_encode_string, h1] at h
    | ok e2 => exact m_encode_chars_ok v _ _ h1
  refine ⟨hv, ?_⟩
  rw [m_encode_string_ascii v hv e] at h
  cases h
  rfl

theorem m_encode_ok_eq (v : Scalar) (e e1 : Encoder) (h : m_encode e v = .ok e1) :
    e1 = e.put v.token ∧ ∀ s, v = .string s → ∀ c ∈ s, c < 128 := by
  cases v with
  | string s =>
    obtain ⟨h1, h2⟩ := m_encode_string_ok s e e1 h
    exact ⟨h2, fun s' hs' => by cases hs'; exact h1⟩
  | int64 v => cases h; exact ⟨rfl, fun s hs => by cases hs⟩
  | double t =>
    cases h
    refine ⟨?_, fun s hs => by cases hs⟩
    simp only [m_encode_double, Scalar.token]
    split_ifs <;> rfl
  | bool b => cases h; exact ⟨rfl, fun s hs => by cases hs⟩
  | null => cases h; exact ⟨rfl, fun s hs => by cases hs⟩

/-- The effect of a successful `val`. -/
theorem val_ok_eq (e e1 : Encoder) (v : Scalar) (h : e.val v = .ok e1) :
    m_checkPre e = .ok () ∧ (∀ s, v = .string s → ∀ c ∈ s, c < 128) ∧
      e1.m_oss = ( m_prefix e).m_oss ++ v.token ∧
      e1.m_state = markContent e.m_state ∧
      e1.m_isKey = (if e.m_state.isEmpty then e.m_isKey else false) ∧
      e1.m_isComplete = (if e.m_state.isEmpty then true else e.m_isComplete) := by
  simp only [val, m_val] at h
  cases hpre : m_checkPre e with
  | error err => simp [hpre] at h
  | ok u =>
    simp only [hpre] at h
    cases henc : m_encode ( m_prefix e) v with
    | error err => simp [henc] at h
    | ok e2 =>
      simp only [henc] at h
      obtain ⟨h2, hascii⟩ := m_encode_ok_eq v _ _ henc
      subst h2
      refine ⟨rfl, hascii, ?_⟩
      cases hst : e.m_state with
      | nil =>
        simp [hst, put] at h
        subst h
        simp [markContent, put, hst]
      | cons back below =>
        simp [hst, put] at h
        subst h
        simp [put, hst]

/-- The effect of a successful `object` or `array`. -/
theorem openContainer_ok_eq (e e1 : Encoder) (bracket : Nat) (isArray compact : Bool)
    (h : openContainer e bracket isArray compact = .ok e1) :
    m_checkPre e = .ok () ∧
      e1.m_oss = ( m_prefix e).m_oss ++ [bracket] ∧
      (∃ c, e1.m_state = ⟨isArray, c, false⟩ :: markContent e.m_state) ∧
      e1.m_isKey = (if e.m_state.isEmpty then e.m_isKey else false) ∧
      e1.m_isComplete = e.m_isComplete := by
  simp only [openContainer] at h
  cases hpre : m_checkPre e with
  | error err => simp [hpre] at h
  | ok u =>
    simp only [hpre] at h
    refine ⟨rfl, ?_⟩
    cases hst : e.m_state with
    | nil =>
      simp [hst, put] at h
      subst h
      simp [markContent, put, hst]
    | cons back below =>
      simp [hst, put] at h
      subst h
      simp [put, hst, markContent]

/-- The effect of a successful `key`. -/
theorem key_ok_eq (e e1 : Encoder) (k : List Nat) (h : e.key k = .ok e1) :
    e.m_isKey = false ∧ (∃ back below, e.m_state = back :: below ∧ back.array = false) ∧
      k ≠ [] ∧ (∀ c ∈ k, c < 128) ∧
      e1.m_oss = ( m_prefix e).m_oss ++ (quoted k ++ [58, 32]) ∧
      e1.m_state = e.m_state ∧ e1.m_isKey = true ∧ e1.m_isComplete = e.m_isComplete := by
  simp only [key] at h
  cases hk : e.m_isKey with
  | true => simp [hk] at h
  | false =>
    simp only [hk, Bool.false_eq_true, if_false] at h
    cases hst : e.m_state with
    | nil => simp [hst] at h
    | cons back below =>
      simp only [hst] at h
      cases hb : back.array with
      | true => simp [hb] at h
      | false =>
        simp only [hb, Bool.false_eq_true, if_false] at h
        cases k with
        | nil => simp at h
        | cons a k' =>
          simp only [List.isEmpty_cons, Bool.false_eq_true, if_false] at h
          cases henc : m_encode_string ( m_prefix e) (a :: k') with
          | error err => simp [henc] at h
          | ok e2 =>
            simp only [henc] at h
            obtain ⟨hascii, h2⟩ := m_encode_string_ok _ _ _ henc
            subst h2
            cases h
            exact ⟨rfl, ⟨back, below, rfl, hb⟩, by simp, hascii, by simp [put],
              by simp [put, hst], rfl, by simp [put]⟩

/-- The effect of a successful `end`. -/
theorem end_ok_eq (e e1 : Encoder) (h : e.end_ = .ok e1) :
    e.m_isKey = false ∧ ∃ back below, e.m_state = back :: below ∧
      (∃ ws, IsWs ws ∧ (back.content = false → ws = []) ∧
        e1.m_oss = e.m_oss ++ (ws ++ [if back.array then 93 else 125])) ∧
      e1.m_state = below ∧ e1.m_isKey = false ∧
      e1.m_isComplete = (if below.isEmpty then true else e.m_isComplete) := by
  obtain ⟨oss, st, ind, isKey, isComplete⟩ := e
  cases st with
  | nil => simp [end_] at h
  | cons back below =>
    cases isKey with
    | true => simp [end_] at h
    | false =>
      refine ⟨rfl, back, below, rfl, ?_⟩
      have hws : ∀ n, IsWs (10 :: indentText n) := by
        intro n x hx
        simp only [List.mem_cons] at hx
        rcases hx with rfl | hx
        · decide
        · exact indentText_isWs _ x hx
      obtain ⟨a, c, t⟩ := back
      cases t with
      | false =>
        cases below <;> simp [end_, put] at h <;> subst h <;>
          exact ⟨⟨[], by simp [IsWs], by simp, by simp⟩, rfl, rfl, rfl⟩
      | true =>
        cases c with
        | true =>
          cases below <;> simp [end_, put] at h <;> subst h <;>
            exact ⟨⟨[32], by intro x hx; simp at hx; subst hx; decide, by simp, by simp⟩,
              rfl, rfl, rfl⟩
        | false =>
          cases below <;> simp [end_, put, m_indent] at h <;> subst h <;>
            exact ⟨⟨10 :: indentText (ind - 1).toNat, hws _, by simp, by simp⟩, rfl, rfl, rfl⟩

theorem run_append (cs1 cs2 : List Call) (e e2 : Encoder)
    (h : Encoder.run e (cs1 ++ cs2) = .ok e2) :
    ∃ e1, Encoder.run e cs1 = .ok e1 ∧ Encoder.run e1 cs2 = .ok e2 := by
  induction cs1 generalizing e with
  | nil => exact ⟨e, rfl, by simpa using h⟩
  | cons c cs1 ih =>
    simp only [List.cons_append, Encoder.run] at h ⊢
    cases hc : e.call c with
    | error err => simp [hc] at h
    | ok e' =>
      simp only [hc] at h ⊢
      exact ih e' h

theorem run_cons (c : Call) (cs : List Call) (e e2 : Encoder)
    (h : Encoder.run e (c :: cs) = .ok e2) :
    ∃ e1, e.call c = .ok e1 ∧ Encoder.run e1 cs = .ok e2 := by
  simp only [Encoder.run] at h
  cases hc : e.call c with
  | error err => simp [hc] at h
  | ok e' => exact ⟨e', rfl, by simpa [hc] using h⟩

end qjson.Encoder

/-! ## The decoder reads back what the encoder writes for a container -/

theorem dropWhile_ws (ws rest : List Nat) (hws : IsWs ws)
    (hrest : ∀ c ∈ rest.head?, isspace c = false) :
    (ws ++ rest).dropWhile isspace = rest := by
  induction ws with
  | nil =>
    cases rest with
    | nil => simp
    | cons c r =>
      have := hrest c (by simp)
      simp [List.dropWhile, this]
  | cons w ws ih =>
    have hw := hws w (by simp)
    simp [List.dropWhile, hw, ih (fun c hc => hws c (by simp [hc]))]

theorem numberEnd_of_ws (ws : List Nat) (c : Nat) (rest : List Nat) (hws : IsWs ws)
    (hc : c = 44 ∨ c = 93 ∨ c = 125) : NumberEnd (ws ++ c :: rest) := by
  intro x hx
  have hx' : isspace x = true ∨ x = 44 ∨ x = 93 ∨ x = 125 := by
    cases ws with
    | nil =>
      simp at hx
      subst hx
      exact Or.inr hc
    | cons w ws =>
      simp at hx
      subst hx
      exact Or.inl (hws _ (by simp))
  simp only [isspace, isdigit, Bool.or_eq_true, Bool.and_eq_true, decide_eq_true_eq,
    Bool.and_eq_false_iff, decide_eq_false_iff_not] at hx' ⊢
  omega

namespace qc.json.DecodeHelper

open qjson

theorem reads_scalar (v : Scalar) (hsup : Readable (.val v) = true)
    (hascii : ∀ s, v = .string s → ∀ c ∈ s, c < 128) :
    Reads v.token [(Call.val v).event] := by
  cases v with
  | string s =>
    refine ⟨⟨34, escaped s ++ [34], by simp [Scalar.token, quoted], by decide, by decide⟩, ?_⟩
    intro fuel sz rest pre hfuel _
    obtain ⟨f, rfl⟩ : ∃ f, fuel = f + 1 := ⟨fuel - 1, by
      simp [Scalar.token, quoted] at hfuel; omega⟩
    exact m_ingestValue_string s (hascii s rfl) f sz rest pre
  | int64 x =>
    have hr : -(2 ^ 63) ≤ x ∧ x ≤ 2 ^ 63 - 1 := by simpa [Readable, Supported] using hsup
    obtain ⟨d, ds, hds, _, htok⟩ := to_chars_int64_spec x hr.1 (by omega)
    have hd : 48 ≤ d ∧ d ≤ 57 := by simpa [isdigit] using hds d (by simp)
    refine ⟨?_, ?_⟩
    · simp only [Scalar.token, htok]
      split_ifs
      · exact ⟨45, d :: ds, rfl, by decide, by decide⟩
      · refine ⟨d, ds, rfl, ?_, by omega⟩
        simp only [isspace, Bool.or_eq_false_iff, Bool.and_eq_false_iff,
          decide_eq_false_iff_not]
        omega
    · intro fuel sz rest pre hfuel hrest
      obtain ⟨f, rfl⟩ : ∃ f, fuel = f + 1 := ⟨fuel - 1, by
        simp only [Scalar.token, htok] at hfuel
        split_ifs at hfuel <;> simp at hfuel <;> omega⟩
      exact m_ingestValue_int64 x hr.1 (by omega) rest hrest f sz pre
  | double t =>
    have := reads_floater (Scalar.token (.double t)) (by simpa [Readable] using hsup)
    simpa [Call.event] using this
  | bool b =>
    refine ⟨?_, ?_⟩
    · cases b
      · exact ⟨102, [97, 108, 115, 101], rfl, by decide, by decide⟩
      · exact ⟨116, [114, 117, 101], rfl, by decide, by decide⟩
    · intro fuel sz rest pre hfuel _
      obtain ⟨f, rfl⟩ : ∃ f, fuel = f + 1 := ⟨fuel - 1, by
        cases b <;> simp [Scalar.token] at hfuel <;> omega⟩
      exact m_ingestValue_bool b f sz rest pre
  | null =>
    refine ⟨⟨110, [117, 108, 108], rfl, by decide, by decide⟩, ?_⟩
    intro fuel sz rest pre hfuel _
    obtain ⟨f, rfl⟩ : ∃ f, fuel = f + 1 := ⟨fuel - 1, by
      simp [Scalar.token] at hfuel; omega⟩
    exact m_ingestValue_null f sz rest pre

/-- One iteration of the loop of `m_ingestArray` on a value that is read. -/
theorem m_ingestArray_loop_step (body : List Nat) (evs : List Event) (hbody : Reads body evs)
    (F n sz : Nat) (tail : List Nat) (pre : List Event) (hn : body.length ≤ n)
    (htail : NumberEnd tail) :
    m_ingestArray_loop (m_ingestValue n) (F + 1) ⟨sz, body ++ tail, pre⟩ =
      (match m_tryConsumeChar (m_skipWhitespace ⟨sz, tail, pre ++ evs⟩) 93 with
      | (true, d3) => .ok d3
      | (false, _) =>
        match m_consumeChar (m_skipWhitespace ⟨sz, tail, pre ++ evs⟩) 44 with
        | .error err => .error err
        | .ok d3 => m_ingestArray_loop (m_ingestValue n) F (m_skipWhitespace d3)) := by
  rw [m_ingestArray_loop, hbody.2 n sz tail pre hn htail]

/-- One iteration of the loop of `m_ingestObject` on a key and a value that is read. -/
theorem m_ingestObject_loop_step (k : List Nat) (hk : k ≠ []) (hascii : ∀ c ∈ k, c < 128)
    (body : List Nat) (evs : List Event) (hbody : Reads body evs)
    (F n sz : Nat) (tail : List Nat) (pre : List Event) (hn : body.length ≤ n)
    (htail : NumberEnd tail) :
    m_ingestObject_loop (m_ingestValue n) (F + 1)
        ⟨sz, quoted k ++ ([58, 32] ++ (body ++ tail)), pre⟩ =
      (match m_tryConsumeChar (m_skipWhitespace ⟨sz, tail, pre ++ [.key k] ++ evs⟩) 125 with
      | (true, d5) => .ok d5
      | (false, _) =>
        match m_consumeChar (m_skipWhitespace ⟨sz, tail, pre ++ [.key k] ++ evs⟩) 44 with
        | .error err => .error err
        | .ok d5 => m_ingestObject_loop (m_ingestValue n) F (m_skipWhitespace d5)) := by
  have hs := m_consumeString_quoted k hascii sz ([58, 32] ++ (body ++ tail)) pre
  have hq : quoted k ++ ([58, 32] ++ (body ++ tail)) =
      34 :: (escaped k ++ 34 :: 58 :: 32 :: (body ++ tail)) := by simp [quoted]
  rw [hq] at hs ⊢
  simp only [List.cons_append, List.nil_append] at hs
  obtain ⟨⟨c, tl, hc, hsp, _⟩, hread⟩ := hbody
  have hemp : k.isEmpty = false := by
    cases k with
    | nil => exact absurd rfl hk
    | cons a b => rfl
  have h58 : isspace 58 = false := by decide
  have h32 : isspace 32 = true := by decide
  have hdrop : List.dropWhile isspace (body ++ tail) = body ++ tail := by
    rw [hc]; simp [List.dropWhile, hsp]
  have h1 : m_consumeChar (m_skipWhitespace ⟨sz, 58 :: 32 :: (body ++ tail), pre ++ [.key k]⟩) 58
      = .ok ⟨sz, 32 :: (body ++ tail), pre ++ [.key k]⟩ := by
    simp [m_consumeChar, m_tryConsumeChar, List.dropWhile, h58]
  have h2 : m_skipWhitespace ⟨sz, 32 :: (body ++ tail), pre ++ [.key k]⟩ =
      ⟨sz, body ++ tail, pre ++ [.key k]⟩ := by
    simp [List.dropWhile, h32, hdrop]
  rw [m_ingestObject_loop]
  simp only [hs, hemp, ne_eq, not_true_eq_false, if_false, Bool.false_eq_true, compose_mk, h1,
    h2, hread n sz tail (pre ++ [.key k]) hn htail]

end qc.json.DecodeHelper

namespace qc.json.DecodeHelper

open qjson

theorem skip_to_close (ws : List Nat) (hws : IsWs ws) (close : Nat)
    (hclose : isspace close = false) (sz : Nat) (rest : List Nat) (evs : List Event) :
    m_tryConsumeChar (m_skipWhitespace ⟨sz, ws ++ close :: rest, evs⟩) close =
      (true, ⟨sz, rest, evs⟩) := by
  have h := dropWhile_ws ws (close :: rest) hws (by simpa using hclose)
  simp [m_tryConsumeChar, h]

theorem skip_to_comma (ws : List Nat) (hws : IsWs ws) (close : Nat) (hclose : close ≠ 44)
    (sz : Nat) (txt : List Nat) (htxt : ∀ c ∈ txt.head?, isspace c = false)
    (evs : List Event) :
    m_tryConsumeChar (m_skipWhitespace ⟨sz, 44 :: (ws ++ txt), evs⟩) close =
        (false, ⟨sz, 44 :: (ws ++ txt), evs⟩) ∧
      m_consumeChar (m_skipWhitespace ⟨sz, 44 :: (ws ++ txt), evs⟩) 44 =
        .ok ⟨sz, ws ++ txt, evs⟩ ∧
      m_skipWhitespace ⟨sz, ws ++ txt, evs⟩ = ⟨sz, txt, evs⟩ := by
  have h44 : isspace 44 = false := by decide
  have h := dropWhile_ws ws txt hws htxt
  have hc : ¬ (44 = close) := fun h => hclose h.symm
  simp [m_tryConsumeChar, m_consumeChar, List.dropWhile, h44, h, hc]

/-- The elements of an array after the opening bracket, and the closing bracket: what the
encoder writes for them is read by the loop of `m_ingestArray`. -/
theorem array_elements (vs : List (List Call)) (hvs : ∀ v ∈ vs, ValueOK v) :
    ∀ (v0 : List Call), ValueOK v0 → ∀ (e e1 : Encoder) (isCompact content : Bool)
      (below : List m_State), e.m_state = ⟨true, isCompact, content⟩ :: below →
      e.m_isKey = false → e.m_isComplete = false →
      (∀ c ∈ v0 ++ vs.flatten, Readable c = true) →
      Encoder.run e (v0 ++ (vs.flatten ++ [.end_])) = .ok e1 →
      ∃ txt, e1.m_oss = ( Encoder.m_prefix e).m_oss ++ txt ∧ e1.m_state = below ∧
        e1.m_isKey = false ∧ e1.m_isComplete = below.isEmpty ∧
        (∃ c tl, txt = c :: tl ∧ isspace c = false ∧ c ≠ 93) ∧
        ∀ (fuel n sz : Nat) (rest : List Nat) (pre : List Event), txt.length ≤ fuel →
          txt.length ≤ n →
          m_ingestArray_loop (m_ingestValue n) fuel ⟨sz, txt ++ rest, pre⟩ =
            .ok ⟨sz, rest, pre ++ (v0 ++ vs.flatten).map Call.event⟩ := by
  induction vs with
  | nil =>
    intro v0 hv0 e e1 isCompact content below hst hkey hcomp hsup hrun
    simp only [List.flatten_nil, List.nil_append, List.append_nil] at hrun hsup ⊢
    obtain ⟨em, hrun0, hrun1⟩ := Encoder.run_append v0 [.end_] e e1 hrun
    have hpre : Encoder.m_checkPre e = .ok () := by
      simp [Encoder.m_checkPre, hcomp, hkey, hst]
    obtain ⟨body, hoss, hstm, hkeym, hcompm, hreads⟩ :=
      hv0 e em (by simp [hst]) hpre hsup hrun0
    obtain ⟨e2, hcall, hrun2⟩ := Encoder.run_cons .end_ [] em e1 hrun1
    have he2 : e2 = e1 := by simpa [Encoder.run] using hrun2
    rw [he2] at hcall
    obtain ⟨_, back, below', hst', ⟨ws, hws, _, hoss'⟩, hst1, hkey1, hcomp1⟩ :=
      Encoder.end_ok_eq em e1 hcall
    rw [hstm, hst] at hst'
    simp only [Encoder.markContent, List.cons.injEq] at hst'
    obtain ⟨hback, hbelow⟩ := hst'
    subst hback hbelow
    simp only [if_true] at hoss'
    refine ⟨body ++ (ws ++ [93]), by rw [hoss', hoss]; simp, hst1, hkey1, ?_, ?_, ?_⟩
    · rw [hcomp1, hcompm, hst]; cases below <;> simp
    · obtain ⟨c, tl, hc, h1, h2⟩ := hreads.1
      exact ⟨c, tl ++ (ws ++ [93]), by simp [hc], h1, h2⟩
    · intro fuel n sz rest pre hfuel hn
      obtain ⟨c, tl, hc, _, _⟩ := hreads.1
      obtain ⟨F, rfl⟩ : ∃ F, fuel = F + 1 := ⟨fuel - 1, by
        simp [hc] at hfuel; omega⟩
      have hlen : body.length ≤ n := by simp at hn; omega
      have hstep := m_ingestArray_loop_step body _ hreads F n sz (ws ++ 93 :: rest) pre hlen
        (numberEnd_of_ws ws 93 rest hws (by simp))
      have := skip_to_close ws hws 93 (by decide) sz rest (pre ++ v0.map Call.event)
      simp only [List.append_assoc, List.singleton_append] at hstep ⊢
      simp only [hstep, this]
  | cons v1 vs ih =>
    intro v0 hv0 e e1 isCompact content below hst hkey hcomp hsup hrun
    have hflat : (v1 :: vs).flatten = v1 ++ vs.flatten := by simp
    rw [hflat] at hrun hsup ⊢
    obtain ⟨em, hrun0, hrun1⟩ := Encoder.run_append v0 _ e e1 hrun
    have hpre : Encoder.m_checkPre e = .ok () := by
      simp [Encoder.m_checkPre, hcomp, hkey, hst]
    obtain ⟨body, hoss, hstm, hkeym, hcompm, hreads⟩ :=
      hv0 e em (by simp [hst]) hpre (fun c hc => hsup c (by simp [hc])) hrun0
    rw [hst] at hstm hcompm
    simp only [Encoder.markContent, List.isEmpty_cons] at hstm hcompm
    rw [List.append_assoc] at hrun1
    obtain ⟨txt, hoss1, hst1, hkey1, hcomp1, ⟨c1, tl1, hc1, hsp1, h931⟩, hloop⟩ :=
      ih (fun v hv => hvs v (by simp [hv])) v1 (hvs v1 (by simp)) em e1 isCompact true below
        hstm hkeym hcompm (fun c hc => hsup c (by
          simp only [List.mem_append] at hc ⊢
          rcases hc with hc | hc
          · exact Or.inr (Or.inl hc)
          · exact Or.inr (Or.inr hc))) hrun1
    obtain ⟨ws, hws, hpfx⟩ := Encoder.m_prefix_text em _ _ hkeym hstm
    simp only [if_true] at hpfx
    refine ⟨body ++ (44 :: (ws ++ txt)), by rw [hoss1, hpfx, hoss]; simp, hst1, hkey1, hcomp1,
      ?_, ?_⟩
    · obtain ⟨c, tl, hc, h1, h2⟩ := hreads.1
      exact ⟨c, tl ++ (44 :: (ws ++ txt)), by simp [hc], h1, h2⟩
    · intro fuel n sz rest pre hfuel hn
      obtain ⟨c, tl, hc, _, _⟩ := hreads.1
      obtain ⟨F, rfl⟩ : ∃ F, fuel = F + 1 := ⟨fuel - 1, by
        simp [hc] at hfuel; omega⟩
      have hlen : body.length ≤ n := by simp at hn; omega
      have hstep := m_ingestArray_loop_step body _ hreads F n sz (44 :: (ws ++ (txt ++ rest)))
        pre hlen (numberEnd_of_ws [] 44 _ (by simp [IsWs]) (by simp))
      obtain ⟨k1, k2, k3⟩ := skip_to_comma ws hws 93 (by decide) sz (txt ++ rest)
        (by rw [hc1]; simpa using hsp1) (pre ++ v0.map Call.event)
      have hl := hloop F n sz rest (pre ++ v0.map Call.event)
        (by simp at hfuel; omega) (by simp at hn; omega)
      simp only [List.append_assoc, List.cons_append, List.map_append] at hstep hl ⊢
      simp only [hstep, k1, k2, k3, hl]

/-- The members of an object after the opening brace, and the closing brace: what the
encoder writes for them is read by the loop of `m_ingestObject`. -/
theorem object_members (ms : List (List Nat × List Call)) (hms : ∀ m ∈ ms, ValueOK m.2) :
    ∀ (k0 : List Nat) (v0 : List Call), ValueOK v0 → ∀ (e e1 : Encoder)
      (isCompact content : Bool) (below : List m_State),
      e.m_state = ⟨false, isCompact, content⟩ :: below →
      e.m_isKey = false → e.m_isComplete = false →
      (∀ c ∈ v0 ++ (ms.map (fun m => Call.key m.1 :: m.2)).flatten, Readable c = true) →
      Encoder.run e (.key k0 :: (v0 ++
        ((ms.map (fun m => Call.key m.1 :: m.2)).flatten ++ [.end_]))) = .ok e1 →
      ∃ txt, e1.m_oss = ( Encoder.m_prefix e).m_oss ++ txt ∧ e1.m_state = below ∧
        e1.m_isKey = false ∧ e1.m_isComplete = below.isEmpty ∧
        (∃ tl, txt = 34 :: tl) ∧
        ∀ (fuel n sz : Nat) (rest : List Nat) (pre : List Event), txt.length ≤ fuel →
          txt.length ≤ n →
          m_ingestObject_loop (m_ingestValue n) fuel ⟨sz, txt ++ rest, pre⟩ =
            .ok ⟨sz, rest, pre ++ (Call.key k0 :: (v0 ++
              (ms.map (fun m => Call.key m.1 :: m.2)).flatten)).map Call.event⟩ := by
  induction ms with
  | nil =>
    intro k0 v0 hv0 e e1 isCompact content below hst hkey hcomp hsup hrun
    simp only [List.map_nil, List.flatten_nil, List.nil_append, List.append_nil] at hrun hsup ⊢
    obtain ⟨ek, hcallk, hrunk⟩ := Encoder.run_cons _ _ e e1 hrun
    obtain ⟨_, _, hk0, hascii, hossk, hstk, hkeyk, hcompk⟩ := Encoder.key_ok_eq e ek k0 hcallk
    obtain ⟨em, hrun0, hrun1⟩ := Encoder.run_append v0 [.end_] ek e1 hrunk
    have hpre : Encoder.m_checkPre ek = .ok () := by
      simp [Encoder.m_checkPre, hcompk, hcomp, hkeyk]
    obtain ⟨body, hoss, hstm, hkeym, hcompm, hreads⟩ :=
      hv0 ek em (by simp [hstk, hst]) hpre hsup hrun0
    rw [ Encoder.m_prefix_of_isKey ek hkeyk] at hoss
    obtain ⟨e2, hcall, hrun2⟩ := Encoder.run_cons .end_ [] em e1 hrun1
    have he2 : e2 = e1 := by simpa [Encoder.run] using hrun2
    rw [he2] at hcall
    obtain ⟨_, back, below', hst', ⟨ws, hws, _, hoss'⟩, hst1, hkey1, hcomp1⟩ :=
      Encoder.end_ok_eq em e1 hcall
    rw [hstm, hstk, hst] at hst'
    simp only [Encoder.markContent, List.cons.injEq] at hst'
    obtain ⟨hback, hbelow⟩ := hst'
    subst hback hbelow
    simp only [Bool.false_eq_true, if_false] at hoss'
    refine ⟨quoted k0 ++ ([58, 32] ++ (body ++ (ws ++ [125]))),
      by rw [hoss', hoss, hossk]; simp, hst1, hkey1, ?_, ⟨_, by simp [quoted]; rfl⟩, ?_⟩
    · rw [hcomp1, hcompm, hstk, hst]; cases below <;> simp
    · intro fuel n sz rest pre hfuel hn
      obtain ⟨F, rfl⟩ : ∃ F, fuel = F + 1 := ⟨fuel - 1, by
        simp [quoted] at hfuel; omega⟩
      have hlen : body.length ≤ n := by simp at hn; omega
      have hstep := m_ingestObject_loop_step k0 hk0 hascii body _ hreads F n sz
        (ws ++ 125 :: rest) pre hlen (numberEnd_of_ws ws 125 rest hws (by simp))
      have := skip_to_close ws hws 125 (by decide) sz rest
        (pre ++ [.key k0] ++ v0.map Call.event)
      simp only [List.append_assoc, List.singleton_append, List.cons_append,
        List.nil_append, List.map_cons, Call.event] at hstep this ⊢
      simp only [hstep, this]
  | cons m1 ms ih =>
    intro k0 v0 hv0 e e1 isCompact content below hst hkey hcomp hsup hrun
    have hflat : (List.map (fun m => Call.key m.1 :: m.2) (m1 :: ms)).flatten =
        Call.key m1.1 :: (m1.2 ++ (List.map (fun m => Call.key m.1 :: m.2) ms).flatten) := by
      simp
    rw [hflat] at hrun hsup ⊢
    obtain ⟨ek, hcallk, hrunk⟩ := Encoder.run_cons _ _ e e1 hrun
    obtain ⟨_, _, hk0, hascii, hossk, hstk, hkeyk, hcompk⟩ := Encoder.key_ok_eq e ek k0 hcallk
    obtain ⟨em, hrun0, hrun1⟩ := Encoder.run_append v0 _ ek e1 hrunk
    have hpre : Encoder.m_checkPre ek = .ok () := by
      simp [Encoder.m_checkPre, hcompk, hcomp, hkeyk]
    obtain ⟨body, hoss, hstm, hkeym, hcompm, hreads⟩ :=
      hv0 ek em (by simp [hstk, hst]) hpre (fun c hc => hsup c (by simp [hc])) hrun0
    rw [ Encoder.m_prefix_of_isKey ek hkeyk] at hoss
    rw [hstk, hst] at hstm hcompm
    simp only [Encoder.markContent, List.isEmpty_cons] at hstm hcompm
    simp only [List.cons_append, List.append_assoc] at hrun1
    obtain ⟨txt, hoss1, hst1, hkey1, hcomp1, ⟨tl1, hc1⟩, hloop⟩ :=
      ih (fun m hm => hms m (by simp [hm])) m1.1 m1.2 (hms m1 (by simp)) em e1 isCompact true
        below hstm hkeym hcompm (fun c hc => hsup c (by
          simp only [List.mem_append, List.mem_cons] at hc ⊢
          rcases hc with hc | hc
          · exact Or.inr (Or.inr (Or.inl hc))
          · exact Or.inr (Or.inr (Or.inr hc)))) hrun1
    obtain ⟨ws, hws, hpfx⟩ := Encoder.m_prefix_text em _ _ hkeym hstm
    simp only [if_true] at hpfx
    refine ⟨quoted k0 ++ ([58, 32] ++ (body ++ (44 :: (ws ++ txt)))),
      by rw [hoss1, hpfx, hoss, hossk]; simp, hst1, hkey1, hcomp1,
      ⟨_, by simp [quoted]; rfl⟩, ?_⟩
    intro fuel n sz rest pre hfuel hn
    obtain ⟨F, rfl⟩ : ∃ F, fuel = F + 1 := ⟨fuel - 1, by
      simp [quoted] at hfuel; omega⟩
    have hlen : body.length ≤ n := by simp at hn; omega
    have hstep := m_ingestObject_loop_step k0 hk0 hascii body _ hreads F n sz
      (44 :: (ws ++ (txt ++ rest))) pre hlen
      (numberEnd_of_ws [] 44 _ (by simp [IsWs]) (by simp))
    obtain ⟨k1, k2, k3⟩ := skip_to_comma ws hws 125 (by decide) sz (txt ++ rest)
      (by rw [hc1]; simp; decide) (pre ++ [.key k0] ++ v0.map Call.event)
    have hl := hloop F n sz rest (pre ++ [.key k0] ++ v0.map Call.event)
      (by simp at hfuel; omega) (by simp at hn; omega)
    simp only [List.append_assoc, List.cons_append, List.map_append, List.singleton_append,
      List.nil_append, List.map_cons, Call.event] at hstep hl k1 k2 k3 ⊢
    simp only [hstep, k1, k2, k3, hl]

end qc.json.DecodeHelper

namespace qc.json.DecodeHelper

open qjson

theorem markContent_isEmpty (st : List m_State) :
    (Encoder.markContent st).isEmpty = st.isEmpty := by
  cases st <;> rfl

/-- Every sequence of calls that writes one value has the round-trip property. -/
theorem valueOK_of_isValue (v : List Call) (hv : IsValue v) : ValueOK v := by
  induction hv with
  | scalar s =>
    intro e0 e1 hsane hpre hsup hrun
    obtain ⟨e2, hcall, hrun2⟩ := Encoder.run_cons _ [] e0 e1 hrun
    have he2 : e2 = e1 := by simpa [Encoder.run] using hrun2
    rw [he2] at hcall
    obtain ⟨_, hascii, hoss, hst, hkey, hcomp⟩ := Encoder.val_ok_eq e0 e1 s hcall
    have hnc : e0.m_isComplete = false := by
      cases h : e0.m_isComplete with
      | false => rfl
      | true => simp [Encoder.m_checkPre, h] at hpre
    refine ⟨s.token, hoss, hst, ?_, ?_, ?_⟩
    · rw [hkey]
      cases h : e0.m_state with
      | nil => simpa using hsane h
      | cons a b => simp
    · rw [hcomp, hnc]
      cases e0.m_state <;> simp
    · simpa using reads_scalar s (hsup _ (by simp)) hascii
  | array compact vs h ih =>
    intro e0 e1 hsane hpre hsup hrun
    obtain ⟨ea, hcall, hrun1⟩ := Encoder.run_cons _ _ e0 e1 hrun
    obtain ⟨_, hossa, ⟨c, hsta⟩, hkeya, hcompa⟩ :=
      Encoder.openContainer_ok_eq e0 ea 91 true compact hcall
    have hnc : e0.m_isComplete = false := by
      cases h : e0.m_isComplete with
      | false => rfl
      | true => simp [Encoder.m_checkPre, h] at hpre
    have hkeya' : ea.m_isKey = false := by
      rw [hkeya]
      cases h : e0.m_state with
      | nil => simpa using hsane h
      | cons a b => simp
    rw [hnc] at hcompa
    cases vs with
    | nil =>
      simp only [List.flatten_nil, List.nil_append] at hrun1
      obtain ⟨e2, hcall2, hrun2⟩ := Encoder.run_cons .end_ [] ea e1 hrun1
      have he2 : e2 = e1 := by simpa [Encoder.run] using hrun2
      rw [he2] at hcall2
      obtain ⟨_, back, below', hst', ⟨ws, _, hws0, hoss'⟩, hst1, hkey1, hcomp1⟩ :=
        Encoder.end_ok_eq ea e1 hcall2
      rw [hsta] at hst'
      simp only [List.cons.injEq] at hst'
      obtain ⟨hback, hbelow⟩ := hst'
      subst hback hbelow
      have hws : ws = [] := hws0 rfl
      subst hws
      simp only [if_true, List.nil_append] at hoss'
      refine ⟨[91, 93], by rw [hoss', hossa]; simp, hst1, hkey1, ?_, ?_, ?_⟩
      · rw [hcomp1, hcompa, markContent_isEmpty]
        cases e0.m_state <;> simp
      · exact ⟨91, [93], rfl, by decide, by decide⟩
      · intro fuel sz rest pre hfuel _
        obtain ⟨f, rfl⟩ : ∃ f, fuel = f + 1 := ⟨fuel - 1, by simp at hfuel; omega⟩
        have h93 : isspace 93 = false := by decide
        simp [m_ingestValue, m_ingestArray, m_tryConsumeChar, List.dropWhile, h93, Call.event]
    | cons v0 vs =>
      have hflat : (v0 :: vs).flatten = v0 ++ vs.flatten := by simp
      rw [hflat, List.append_assoc] at hrun1
      obtain ⟨txt, hoss1, hst1, hkey1, hcomp1, ⟨c1, tl1, hc1, hsp1, h931⟩, hloop⟩ :=
        array_elements vs (fun v hv => ih v (by simp [hv])) v0 (ih v0 (by simp)) ea e1 c false
          _ hsta hkeya' hcompa (fun x hx => hsup x
            (List.mem_cons_of_mem _ (List.mem_append_left _ (by rw [hflat]; exact hx)))) hrun1
      obtain ⟨ws, hws, hpfx⟩ := Encoder.m_prefix_text ea _ _ hkeya' hsta
      simp only [Bool.false_eq_true, if_false, List.nil_append] at hpfx
      refine ⟨91 :: (ws ++ txt), by rw [hoss1, hpfx, hossa]; simp, hst1, hkey1, ?_, ?_, ?_⟩
      · rw [hcomp1, markContent_isEmpty]
      · exact ⟨91, ws ++ txt, rfl, by decide, by decide⟩
      · intro fuel sz rest pre hfuel _
        obtain ⟨f, rfl⟩ : ∃ f, fuel = f + 1 := ⟨fuel - 1, by simp at hfuel; omega⟩
        have hd := dropWhile_ws ws (txt ++ rest) hws (by rw [hc1]; simpa using hsp1)
        have hl := hloop ((txt ++ rest).length + 1) f sz rest (pre ++ [.array])
          (by simp; omega) (by simp at hfuel; omega)
        have htry : m_tryConsumeChar ⟨sz, txt ++ rest, pre ++ [.array]⟩ 93 =
            (false, ⟨sz, txt ++ rest, pre ++ [.array]⟩) := by
          rw [hc1]; simp [m_tryConsumeChar, h931]
        simp only [m_ingestValue, List.cons_append, m_ingestArray, compose_mk, advance_mk,
          List.drop_succ_cons, List.drop_zero, m_skipWhitespace_mk, List.append_assoc, hd,
          htry, hl]
        simp [Call.event]
  | object compact ms h ih =>
    intro e0 e1 hsane hpre hsup hrun
    obtain ⟨ea, hcall, hrun1⟩ := Encoder.run_cons _ _ e0 e1 hrun
    obtain ⟨_, hossa, ⟨c, hsta⟩, hkeya, hcompa⟩ :=
      Encoder.openContainer_ok_eq e0 ea 123 false compact hcall
    have hnc : e0.m_isComplete = false := by
      cases h : e0.m_isComplete with
      | false => rfl
      | true => simp [Encoder.m_checkPre, h] at hpre
    have hkeya' : ea.m_isKey = false := by
      rw [hkeya]
      cases h : e0.m_state with
      | nil => simpa using hsane h
      | cons a b => simp
    rw [hnc] at hcompa
    cases ms with
    | nil =>
      simp only [List.map_nil, List.flatten_nil, List.nil_append] at hrun1
      obtain ⟨e2, hcall2, hrun2⟩ := Encoder.run_cons .end_ [] ea e1 hrun1
      have he2 : e2 = e1 := by simpa [Encoder.run] using hrun2
      rw [he2] at hcall2
      obtain ⟨_, back, below', hst', ⟨ws, _, hws0, hoss'⟩, hst1, hkey1, hcomp1⟩ :=
        Encoder.end_ok_eq ea e1 hcall2
      rw [hsta] at hst'
      simp only [List.cons.injEq] at hst'
      obtain ⟨hback, hbelow⟩ := hst'
      subst hback hbelow
      have hws : ws = [] := hws0 rfl
      subst hws
      simp only [Bool.false_eq_true, if_false, List.nil_append] at hoss'
      refine ⟨[123, 125], by rw [hoss', hossa]; simp, hst1, hkey1, ?_, ?_, ?_⟩
      · rw [hcomp1, hcompa, markContent_isEmpty]
        cases e0.m_state <;> simp
      · exact ⟨123, [125], rfl, by decide, by decide⟩
      · intro fuel sz rest pre hfuel _
        obtain ⟨f, rfl⟩ : ∃ f, fuel = f + 1 := ⟨fuel - 1, by simp at hfuel; omega⟩
        have h125 : isspace 125 = false := by decide
        simp [m_ingestValue, m_ingestObject, m_tryConsumeChar, List.dropWhile, h125,
          Call.event]
    | cons m0 ms =>
      have hflat : (List.map (fun m => Call.key m.1 :: m.2) (m0 :: ms)).flatten =
          Call.key m0.1 :: (m0.2 ++ (List.map (fun m => Call.key m.1 :: m.2) ms).flatten) := by
        simp
      rw [hflat] at hrun1 hsup ⊢
      simp only [List.cons_append, List.append_assoc] at hrun1
      obtain ⟨txt, hoss1, hst1, hkey1, hcomp1, ⟨tl1, hc1⟩, hloop⟩ :=
        object_members ms (fun m hm => ih m (by simp [hm])) m0.1 m0.2 (ih m0 (by simp)) ea e1 c
          false _ hsta hkeya' hcompa (fun x hx => hsup x
            (List.mem_cons_of_mem _ (List.mem_append_left _ (List.mem_cons_of_mem _ hx))))
          hrun1
      obtain ⟨ws, hws, hpfx⟩ := Encoder.m_prefix_text ea _ _ hkeya' hsta
      simp only [Bool.false_eq_true, if_false, List.nil_append] at hpfx
      refine ⟨123 :: (ws ++ txt), by rw [hoss1, hpfx, hossa]; simp, hst1, hkey1, ?_, ?_, ?_⟩
      · rw [hcomp1, markContent_isEmpty]
      · exact ⟨123, ws ++ txt, rfl, by decide, by decide⟩
      · intro fuel sz rest pre hfuel _
        obtain ⟨f, rfl⟩ : ∃ f, fuel = f + 1 := ⟨fuel - 1, by simp at hfuel; omega⟩
        have hd := dropWhile_ws ws (txt ++ rest) hws (by rw [hc1]; simp; decide)
        have hl := hloop ((txt ++ rest).length + 1) f sz rest (pre ++ [.object])
          (by simp; omega) (by simp at hfuel; omega)
        have htry : m_tryConsumeChar ⟨sz, txt ++ rest, pre ++ [.object]⟩ 125 =
            (false, ⟨sz, txt ++ rest, pre ++ [.object]⟩) := by
          rw [hc1]; simp [m_tryConsumeChar]
        simp only [m_ingestValue, List.cons_append, m_ingestObject, compose_mk, advance_mk,
          List.drop_succ_cons, List.drop_zero, m_skipWhitespace_mk, List.append_assoc, hd,
          htry, hl]
        simp [Call.event]

end qc.json.DecodeHelper

/-! ## The calls of a successful run form one value -/

namespace qjson

theorem partial_value {ks : List Bool} {k : Bool} {pre : List Call} (v : List Call)
    (hP : Partial ks k pre) (hpos : valuePosition ks k = true) (hv : IsValue v) :
    (ks = [] ∧ pre = []) ∨ (ks ≠ [] ∧ Partial ks false (pre ++ v)) := by
  cases hP with
  | top => exact Or.inl ⟨rfl, rfl⟩
  | array c vs hpre hpos' h =>
    refine Or.inr ⟨by simp, ?_⟩
    have := Partial.array c (vs ++ [v]) hpre hpos' (by
      intro x hx
      simp only [List.mem_append, List.mem_singleton] at hx
      rcases hx with hx | rfl
      · exact h x hx
      · exact hv)
    simpa using this
  | object c ms hpre hpos' h => simp [valuePosition] at hpos
  | key c ms k0 hpre hpos' h =>
    refine Or.inr ⟨by simp, ?_⟩
    have := Partial.object c (ms ++ [(k0, v)]) hpre hpos' (by
      intro x hx
      simp only [List.mem_append, List.mem_singleton] at hx
      rcases hx with hx | rfl
      · exact h x hx
      · exact hv)
    simpa using this

theorem kinds_markContent (st : List m_State) :
    (Encoder.markContent st).map (fun s => s.array) = st.map (fun s => s.array) := by
  cases st <;> rfl

theorem checkPre_valuePosition (e : Encoder) (h : Encoder.m_checkPre e = .ok ()) :
    e.m_isComplete = false ∧ valuePosition (kinds e) e.m_isKey = true := by
  obtain ⟨oss, st, ind, isKey, isComplete⟩ := e
  cases isComplete with
  | true => simp [Encoder.m_checkPre] at h
  | false =>
    refine ⟨rfl, ?_⟩
    cases st with
    | nil => rfl
    | cons back below =>
      cases isKey <;> cases hb : back.array <;>
        simp_all [Encoder.m_checkPre, valuePosition, kinds]

theorem partial_nil_isKey {k : Bool} {cs : List Call} (hP : Partial [] k cs) : k = false := by
  cases hP
  rfl

/-- A value completed in an incomplete document: the invariant afterwards. -/
theorem inv_value (e e1 : Encoder) (pre v : List Call) (k : Bool)
    (hP : Partial (kinds e1) k pre) (hpos : valuePosition (kinds e1) k = true)
    (hv : IsValue v) (hkey : e1.m_isKey = false)
    (hcomp : e1.m_isComplete = (if e1.m_state.isEmpty then true else e.m_isComplete))
    (hnc : e.m_isComplete = false) : Inv e1 (pre ++ v) := by
  rcases partial_value v hP hpos hv with ⟨h1, h2⟩ | ⟨h1, h2⟩
  · have hst : e1.m_state = [] := by
      simpa [kinds] using h1
    subst h2
    exact Or.inr ⟨by simp [hcomp, hst], hst, by simpa using hv⟩
  · have hst : e1.m_state.isEmpty = false := by
      cases h : e1.m_state with
      | nil => simp [kinds, h] at h1
      | cons a b => rfl
    exact Or.inl ⟨by simp [hcomp, hst, hnc], by rw [hkey]; exact h2⟩

theorem inv_step (e e1 : Encoder) (cs : List Call) (c : Call) (hI : Inv e cs)
    (hcall : e.call c = .ok e1) : Inv e1 (cs ++ [c]) := by
  cases c with
  | val v =>
    obtain ⟨hpre, _, _, hst, hkey, hcomp⟩ := Encoder.val_ok_eq e e1 v hcall
    obtain ⟨hnc, hpos⟩ := checkPre_valuePosition e hpre
    rcases hI with ⟨_, hP⟩ | ⟨hc, _⟩
    · have hk : kinds e1 = kinds e := by simp [kinds, hst, kinds_markContent]
      have hemp : e1.m_state.isEmpty = e.m_state.isEmpty := by
        rw [hst]; cases e.m_state <;> rfl
      have hkey1 : e1.m_isKey = false := by
        rw [hkey]
        cases h : e.m_state with
        | nil =>
          have : Partial [] e.m_isKey cs := by simpa [kinds, h] using hP
          simpa using partial_nil_isKey this
        | cons a b => simp
      exact inv_value e e1 cs [.val v] e.m_isKey (by rw [hk]; exact hP) (by rw [hk]; exact hpos)
        (IsValue.scalar v) hkey1 (by rw [hcomp, hemp]) hnc
    · rw [hc] at hnc; cases hnc
  | object compact =>
    obtain ⟨hpre, _, ⟨c', hst⟩, hkey, hcomp⟩ :=
      Encoder.openContainer_ok_eq e e1 123 false compact hcall
    obtain ⟨hnc, hpos⟩ := checkPre_valuePosition e hpre
    rcases hI with ⟨_, hP⟩ | ⟨hc, _⟩
    · have hk : kinds e1 = false :: kinds e := by simp [kinds, hst, kinds_markContent]
      have hkey1 : e1.m_isKey = false := by
        rw [hkey]
        cases h : e.m_state with
        | nil =>
          have : Partial [] e.m_isKey cs := by simpa [kinds, h] using hP
          simpa using partial_nil_isKey this
        | cons a b => simp
      refine Or.inl ⟨by rw [hcomp, hnc], ?_⟩
      rw [hk, hkey1]
      have := Partial.object compact [] hP hpos (by simp)
      simpa using this
    · rw [hc] at hnc; cases hnc
  | array compact =>
    obtain ⟨hpre, _, ⟨c', hst⟩, hkey, hcomp⟩ :=
      Encoder.openContainer_ok_eq e e1 91 true compact hcall
    obtain ⟨hnc, hpos⟩ := checkPre_valuePosition e hpre
    rcases hI with ⟨_, hP⟩ | ⟨hc, _⟩
    · have hk : kinds e1 = true :: kinds e := by simp [kinds, hst, kinds_markContent]
      have hkey1 : e1.m_isKey = false := by
        rw [hkey]
        cases h : e.m_state with
        | nil =>
          have : Partial [] e.m_isKey cs := by simpa [kinds, h] using hP
          simpa using partial_nil_isKey this
        | cons a b => simp
      refine Or.inl ⟨by rw [hcomp, hnc], ?_⟩
      rw [hk, hkey1]
      have := Partial.array compact [] hP hpos (by simp)
      simpa using this
    · rw [hc] at hnc; cases hnc
  | key k =>
    obtain ⟨hkey, ⟨back, below, hst, hb⟩, _, _, _, hst1, hkey1, hcomp1⟩ :=
      Encoder.key_ok_eq e e1 k hcall
    rcases hI with ⟨hnc, hP⟩ | ⟨_, hst0, _⟩
    · have hk : kinds e = false :: below.map (fun s => s.array) := by simp [kinds, hst, hb]
      rw [hk, hkey] at hP
      refine Or.inl ⟨by rw [hcomp1, hnc], ?_⟩
      have hk1 : kinds e1 = false :: below.map (fun s => s.array) := by
        simp [kinds, hst1, hst, hb]
      rw [hk1, hkey1]
      cases hP with
      | object c ms hpre hpos h =>
        have := Partial.key c ms k hpre hpos h
        simpa using this
    · rw [hst0] at hst; cases hst
  | end_ =>
    obtain ⟨hkey, back, below, hst, _, hst1, hkey1, hcomp1⟩ := Encoder.end_ok_eq e e1 hcall
    rcases hI with ⟨hnc, hP⟩ | ⟨_, hst0, _⟩
    · have hk : kinds e = back.array :: kinds e1 := by simp [kinds, hst, hst1]
      rw [hk, hkey] at hP
      have hcomp : e1.m_isComplete = (if e1.m_state.isEmpty then true else e.m_isComplete) := by
        rw [hcomp1, hst1]
      generalize back.array = b at hP
      cases hP with
      | array c vs hpre hpos h =>
        have := inv_value e e1 _ _ _ hpre hpos (IsValue.array c vs h) hkey1 hcomp hnc
        simpa using this
      | object c ms hpre hpos h =>
        have := inv_value e e1 _ _ _ hpre hpos (IsValue.object c ms h) hkey1 hcomp hnc
        simpa using this
    · rw [hst0] at hst; cases hst

theorem inv_run (cs2 : List Call) : ∀ (e e1 : Encoder) (cs1 : List Call), Inv e cs1 →
    Encoder.run e cs2 = .ok e1 → Inv e1 (cs1 ++ cs2) := by
  induction cs2 with
  | nil =>
    intro e e1 cs1 hI hrun
    have : e = e1 := by simpa [Encoder.run] using hrun
    subst this
    simpa using hI
  | cons c cs2 ih =>
    intro e e1 cs1 hI hrun
    obtain ⟨e2, hcall, hrun2⟩ := Encoder.run_cons c cs2 e e1 hrun
    have := ih e2 e1 (cs1 ++ [c]) (inv_step e e2 cs1 c hI hcall) hrun2
    simpa using this

/-- The calls of a run that succeeds on a new encoder and completes the document are the
calls of one value. -/
theorem isValue_of_run (cs : List Call) (e : Encoder) (hrun : Encoder.fresh.run cs = .ok e)
    (hdone : e.m_isComplete = true) : IsValue cs := by
  have hI : Inv Encoder.fresh [] := Or.inl ⟨rfl, Partial.top⟩
  rcases inv_run cs Encoder.fresh e [] hI hrun with ⟨h, _⟩ | ⟨_, _, h⟩
  · rw [h] at hdone; cases hdone
  · simpa using h

end qjson
/-! ## The round trip of a document -/

open qjson qc.json

theorem readable_of_supported (c : Call) (h : Supported c = true) : Readable c = true := by
  cases c with
  | val v =>
    cases v with
    | double t => simp [Supported] at h
    | string s => exact h
    | int64 x => exact h
    | bool b => exact h
    | null => exact h
  | object compact => exact h
  | array compact => exact h
  | key k => exact h
  | end_ => exact h

/-- The text of a complete run is read back as the mirrored composer calls. -/
theorem decode_encode (cs : List Call) (t : List Nat)
    (hcs : ∀ c ∈ cs, Readable c = true) (h : encode cs = .ok t) :
    decode t = .ok (cs.map Call.event) := by
  simp only [encode] at h
  cases hrun : Encoder.fresh.run cs with
  | error err => simp [hrun] at h
  | ok e =>
    simp only [hrun, Encoder.finish] at h
    cases hdone : e.m_isComplete with
    | false => simp [hdone] at h
    | true =>
      simp only [hdone, Bool.not_true, Bool.false_eq_true, if_false] at h
      have ht : e.m_oss = t := by simpa using h
      have hv := isValue_of_run cs e hrun hdone
      obtain ⟨body, hoss, _, _, _, ⟨c, tl, hc, hsp, _⟩, hread⟩ :=
        DecodeHelper.valueOK_of_isValue cs hv Encoder.fresh e (fun _ => rfl) rfl hcs hrun
      have hbody : t = body := by
        rw [← ht, hoss]
        simp [ Encoder.m_prefix, Encoder.fresh]
      subst hbody
      apply decode_of_ingest
      · rw [hc]; simp [List.dropWhile, hsp]
      · have := hread (t.length + 1) t.length [] [] (by omega) (by simp [NumberEnd])
        simpa using this

theorem replay_event (to_chars : Floater → List Nat) (c : Call) (hp : Pretty c = true)
    (hfmt : ∀ t, c = .val (.double t) →
      to_chars (floaterOfText (Scalar.token (.double t))) = t) :
    replay to_chars c.event = c := by
  cases c with
  | object compact => cases compact <;> simp_all [Pretty, Call.event, replay]
  | array compact => cases compact <;> simp_all [Pretty, Call.event, replay]
  | key k => rfl
  | val v =>
    cases v with
    | double t => simp [Call.event, replay, hfmt t rfl]
    | string s => rfl
    | int64 x => rfl
    | bool b => rfl
    | null => rfl
  | end_ => rfl

/-! ## Claims -/

/-- C1: every sequence of calls (`object` and `array` with any compact flag, `key`, `val` of a
string, of a signed 64-bit integer, of a boolean or of null, `end`) that runs without error on
a new encoder and completes the document yields, by `finish()`, a text that `decode` accepts,
making exactly the mirrored composer calls, in the same order, with the same names and
values. -/
theorem C1_encode_then_decode (cs : List Call) (t : List Nat)
    (hcs : ∀ c ∈ cs, Supported c = true) (h : encode cs = .ok t) :
    decode t = .ok (cs.map Call.event) :=
  decode_encode cs t (fun c hc => readable_of_supported c (hcs c hc)) h

theorem C1_encode_then_decode_witness :
    (∀ c ∈ exampleCalls, Supported c = true) ∧ encode exampleCalls = .ok exampleText ∧
      decode exampleText = .ok (exampleCalls.map Call.event) ∧
      exampleCalls.map Call.event =
        [.object, .key [97], .array, .val_int64 (-5), .val_string [120, 34],
          .val_bool true, .val_null, .end_, .key [98], .object, .end_, .end_] :=
  ⟨by decide, by decide,
    C1_encode_then_decode exampleCalls exampleText (by decide) (by decide), by decide⟩

/-- C2 (counterexample): the pretty document with the one field `"Price": 18.0`, as the
encoder writes it for the double 18, is read back with the integer `val` 18, and replaying
the decoder's calls into a new pretty encoder writes `"Price": 18`: a different text. -/
theorem C2_counterexample :
    encode [.object false, .key (bytes "Price"), .val (.double (bytes "18")), .end_] =
        .ok (bytes "\x7b\n    \"Price\": 18.0\n\x7d") ∧
      decode (bytes "\x7b\n    \"Price\": 18.0\n\x7d") =
        .ok [.object, .key (bytes "Price"), .val_int64 18, .end_] ∧
      ∀ to_chars : Floater → List Nat,
        encode ([Event.object, .key (bytes "Price"), .val_int64 18, .end_].map
            (replay to_chars)) = .ok (bytes "\x7b\n    \"Price\": 18\n\x7d") ∧
          bytes "\x7b\n    \"Price\": 18\n\x7d" ≠ bytes "\x7b\n    \"Price\": 18.0\n\x7d" := by
  refine ⟨by decide, by decide, fun to_chars => ⟨?_, by decide⟩⟩
  have : [Event.object, .key (bytes "Price"), .val_int64 18, .end_].map (replay to_chars) =
      [.object false, .key (bytes "Price"), .val (.int64 18), .end_] := rfl
  rw [this]
  decide

/-- C2 (amended): for every document `doc` the encoder produced in pretty form from objects,
arrays, string, signed 64-bit integer, boolean and null values, and doubles whose token the
decoder reads as a floater (`inf`, `-inf`, `nan`, a number with a fraction digit other than
`0` or with an exponent, or a whole number outside the 64-bit integer type tried first),
decoding `doc` and replaying the decoder's calls into a new pretty encoder yields `doc`
again, byte for byte, provided the number formatter `to_chars` gives back, for each double
read, the text it was written from. -/
theorem C2_pretty_round_trip (cs : List Call) (doc : List Nat)
    (hpretty : ∀ c ∈ cs, Pretty c = true) (hread : ∀ c ∈ cs, Readable c = true)
    (h : encode cs = .ok doc) (to_chars : Floater → List Nat)
    (hfmt : ∀ t, Call.val (.double t) ∈ cs →
      to_chars (floaterOfText (Scalar.token (.double t))) = t) :
    ∃ evs, decode doc = .ok evs ∧ encode (evs.map (replay to_chars)) = .ok doc := by
  refine ⟨cs.map Call.event, decode_encode cs doc hread h, ?_⟩
  have : (cs.map Call.event).map (replay to_chars) = cs := by
    rw [List.map_map]
    conv => rhs; rw [← List.map_id cs]
    apply List.map_congr_left
    intro c hc
    exact replay_event to_chars c (hpretty c hc) (fun t ht => hfmt t (ht ▸ hc))
  rw [this, h]

set_option exponentiation.threshold 2048 in
theorem C2_pretty_round_trip_witness :
    (∀ c ∈ prettyCalls, Pretty c = true) ∧ (∀ c ∈ prettyCalls, Readable c = true) ∧
      encode prettyCalls = .ok prettyText ∧
      (∀ t, Call.val (.double t) ∈ prettyCalls →
        prettyFormatter (floaterOfText (Scalar.token (.double t))) = t) ∧
      ∃ evs, decode prettyText = .ok evs ∧
        encode (evs.map (replay prettyFormatter)) = .ok prettyText :=
  have hfmt : ∀ t, Call.val (.double t) ∈ prettyCalls →
      prettyFormatter (floaterOfText (Scalar.token (.double t))) = t := by
    intro t ht
    have : t = bytes "5.45" := by
      simp only [prettyCalls, List.mem_cons, Call.val.injEq, Scalar.double.injEq,
        List.mem_singleton, reduceCtorEq, false_or, or_false, List.not_mem_nil] at ht
      exact ht
    subst this
    decide
  ⟨by decide, by decide, by decide, hfmt,
    C2_pretty_round_trip prettyCalls prettyText (by decide) (by decide) (by decide)
      prettyFormatter hfmt⟩

/-! ## The call-order checks of the encoder -/

namespace qjson.Encoder

theorem m_checkPre_ok_iff (e : Encoder) : m_checkPre e = .ok () ↔ ¬ ValueIllegal e := by
  obtain ⟨oss, st, ind, isKey, isComplete⟩ := e
  cases isComplete <;> cases isKey <;> cases st with
  | nil => simp [m_checkPre, ValueIllegal]
  | cons back below => cases h : back.array <;> simp [m_checkPre, ValueIllegal, h]

theorem m_checkPre_error (e : Encoder) (h : ValueIllegal e) :
    ∃ err, m_checkPre e = .error (err, e) := by
  obtain ⟨oss, st, ind, isKey, isComplete⟩ := e
  cases isComplete <;> cases isKey <;> cases st with
  | nil => simp [m_checkPre, ValueIllegal] at h ⊢
  | cons back below => cases hb : back.array <;> simp [m_checkPre, ValueIllegal, hb] at h ⊢

theorem m_encode_ok (e : Encoder) (v : Scalar) (hv : ∀ s, v = .string s → ∀ c ∈ s, c < 128) :
    ∃ e1, m_encode e v = .ok e1 := by
  cases v with
  | string s => exact ⟨_, by simp only [m_encode]; exact m_encode_string_ascii s (hv s rfl) e⟩
  | int64 v => exact ⟨_, rfl⟩
  | double t => exact ⟨_, rfl⟩
  | bool b => exact ⟨_, rfl⟩
  | null => exact ⟨_, rfl⟩

theorem m_val_error_iff (e : Encoder) (v : Scalar)
    (hv : ∀ s, v = .string s → ∀ c ∈ s, c < 128) :
    (∃ err, m_val e v = .error err) ↔ ValueIllegal e := by
  constructor
  · rintro ⟨err, h⟩
    by_contra hl
    obtain ⟨e1, h1⟩ := m_encode_ok ( m_prefix e) v hv
    rw [← m_checkPre_ok_iff] at hl
    simp only [m_val, hl, h1] at h
    split_ifs at h
  · intro h
    obtain ⟨err, herr⟩ := m_checkPre_error e h
    exact ⟨(err, e), by simp [m_val, herr]⟩

theorem openContainer_error_iff (e : Encoder) (bracket : Nat) (isArray compact : Bool) :
    (∃ err, openContainer e bracket isArray compact = .error err) ↔ ValueIllegal e := by
  constructor
  · rintro ⟨err, h⟩
    by_contra hl
    rw [← m_checkPre_ok_iff] at hl
    simp only [openContainer, hl] at h
    split at h <;> simp at h
  · intro h
    obtain ⟨err, herr⟩ := m_checkPre_error e h
    exact ⟨(err, e), by simp [openContainer, herr]⟩

theorem m_val_string_nonAscii (e : Encoder) (s : List Nat) (hs : ∃ c ∈ s, 128 ≤ c) :
    ∃ err, m_val e (.string s) = .error err := by
  cases hpre : m_checkPre e with
  | error err => exact ⟨err, by simp [m_val, hpre]⟩
  | ok u =>
    obtain ⟨e1, h1⟩ := m_encode_chars_nonAscii s hs (( m_prefix e).put [34])
    exact ⟨(.nonAscii, e1), by simp [m_val, hpre, m_encode, m_encode_string, h1]⟩

theorem m_prefix_appends (e : Encoder) : ∃ sep, ( m_prefix e).m_oss = e.m_oss ++ sep := by
  obtain ⟨oss, st, ind, isKey, isComplete⟩ := e
  cases isKey with
  | true => exact ⟨[], by simp [ m_prefix]⟩
  | false =>
    cases st with
    | nil => exact ⟨[], by simp [ m_prefix]⟩
    | cons back below =>
      obtain ⟨a, c, t⟩ := back
      cases c <;> cases t <;>
        simp only [ m_prefix, m_indent, put, List.append_assoc, if_true, if_false,
          Bool.false_eq_true] <;>
        exact ⟨_, rfl⟩

end qjson.Encoder


/-- C3: for every string `s` of bytes below 128, `val(s)` followed by `finish()` on a new
encoder yields a text that `decode` accepts, calling the composer exactly once, with the
string `val` of `s`. -/
theorem C3_string_round_trip (s : List Nat) (hs : ∀ c ∈ s, c < 128) :
    ∃ t, encode [.val (.string s)] = .ok t ∧ decode t = .ok [.val_string s] := by
  refine ⟨quoted s, ?_, ?_⟩
  · have h := Encoder.m_encode_string_ascii s hs Encoder.fresh
    simp [encode, Encoder.run, Encoder.call, Encoder.val, Encoder.m_val, Encoder.m_checkPre,
      Encoder.m_prefix, Encoder.fresh, Encoder.m_encode, Encoder.finish, Encoder.put] at h ⊢
    simp [h]
  · apply decode_of_ingest
    · simp [quoted, List.dropWhile, isspace]
    · have := DecodeHelper.m_ingestValue_string s hs (quoted s).length (quoted s).length [] []
      simpa using this

theorem C3_string_round_trip_witness :
    (∀ c ∈ [97, 34, 92, 0, 10, 127], c < 128) ∧
      ∃ t, encode [.val (.string [97, 34, 92, 0, 10, 127])] = .ok t ∧
        decode t = .ok [.val_string [97, 34, 92, 0, 10, 127]] :=
  ⟨by decide, C3_string_round_trip [97, 34, 92, 0, 10, 127] (by decide)⟩

/-- C4: for every signed 64-bit integer `v`, `val(int64_t v)` followed by `finish()` on a new
encoder yields a text that `decode` accepts, calling the composer exactly once, with the
signed-integer `val` of `v`. -/
theorem C4_int64_round_trip (v : Int) (hlo : -(2 ^ 63) ≤ v) (hhi : v ≤ 2 ^ 63 - 1) :
    ∃ t, encode [.val (.int64 v)] = .ok t ∧ decode t = .ok [.val_int64 v] := by
  refine ⟨to_chars_int64 v, ?_, ?_⟩
  · simp [encode, Encoder.run, Encoder.call, Encoder.val, Encoder.m_val, Encoder.m_checkPre,
      Encoder.m_prefix, Encoder.fresh, Encoder.m_encode, Encoder.finish, Encoder.put,
      Encoder.m_encode_int64]
  · obtain ⟨d, ds, hds, _, htok⟩ := to_chars_int64_spec v hlo (by omega)
    apply decode_of_ingest
    · have hd : isdigit d = true := hds d (by simp)
      have hd' : 48 ≤ d ∧ d ≤ 57 := by simpa [isdigit] using hd
      have hsp : isspace d = false := by
        simp only [isspace, Bool.or_eq_false_iff, Bool.and_eq_false_iff,
          decide_eq_false_iff_not]
        omega
      have h45 : isspace 45 = false := by decide
      rw [htok]
      split_ifs <;> simp [List.dropWhile, hsp, h45]
    · have := DecodeHelper.m_ingestValue_int64 v hlo (by omega) [] (by simp [NumberEnd])
        (to_chars_int64 v).length (to_chars_int64 v).length []
      simpa using this

theorem C4_int64_round_trip_witness :
    (-(2 ^ 63) ≤ (-9223372036854775808 : Int) ∧ (-9223372036854775808 : Int) ≤ 2 ^ 63 - 1) ∧
      ∃ t, encode [.val (.int64 (-9223372036854775808))] = .ok t ∧
        decode t = .ok [.val_int64 (-9223372036854775808)] :=
  ⟨by decide, C4_int64_round_trip (-9223372036854775808) (by decide) (by decide)⟩

/-- C5 (the code at the failing input): `val(uint64_t)` of `UINT64_MAX` followed by
`finish()` yields the text `-1`, which `decode` reports as the signed integer `-1`, not as
the unsigned integer `18446744073709551615`. -/
theorem C5_uint64_max_read_back_as_minus_one :
    encodeInteger 18446744073709551615 = .ok [45, 49] ∧
      decode [45, 49] = .ok [.val_int64 (-1)] := by
  decide

/-- C6 (the code at the failing input): `val(uint64_t)` of `UINT64_MAX` writes `-1` and not
the numeral `18446744073709551615`. -/
theorem C6_uint64_max_written_as_minus_one :
    encodeInteger 18446744073709551615 = .ok (bytes "-1") ∧
      encodeInteger 18446744073709551615 ≠ .ok (bytes "18446744073709551615") := by
  decide

/-- C7: for a string `s` of bytes below 128, `m_encode(string_view)` writes a quote, the
escape of each byte of `s` in order, and a quote; in particular this is the whole document
when `s` is the top-level value. -/
theorem C7_string_escapes (e : Encoder) (s : List Nat) (hs : ∀ c ∈ s, c < 128) :
    Encoder.m_encode_string e s = .ok (e.put ([34] ++ escaped s ++ [34])) ∧
      encode [.val (.string s)] = .ok ([34] ++ escaped s ++ [34]) := by
  have h := Encoder.m_encode_string_ascii s hs
  refine ⟨by simpa [quoted] using h e, ?_⟩
  have h1 := h Encoder.fresh
  simp [encode, Encoder.run, Encoder.call, Encoder.val, Encoder.m_val, Encoder.m_checkPre,
    Encoder.m_prefix, Encoder.fresh, Encoder.m_encode, Encoder.finish, Encoder.put,
    quoted] at h1 ⊢
  simp [h1]

theorem C7_string_escapes_witness :
    (∀ c ∈ [47, 34, 92, 8, 12, 10, 13, 9, 0, 31, 127, 126], c < 128) ∧
      Encoder.m_encode_string Encoder.fresh [47, 34, 92, 8, 12, 10, 13, 9, 0, 31, 127, 126] =
        .ok (Encoder.fresh.put
          ([34] ++ escaped [47, 34, 92, 8, 12, 10, 13, 9, 0, 31, 127, 126] ++ [34])) ∧
      encode [.val (.string [47, 34, 92, 8, 12, 10, 13, 9, 0, 31, 127, 126])] =
        .ok ([34] ++ escaped [47, 34, 92, 8, 12, 10, 13, 9, 0, 31, 127, 126] ++ [34]) :=
  ⟨by decide, C7_string_escapes Encoder.fresh _ (by decide)⟩

/-- C8: in a state in which a value is legal (`m_checkPre` passes), `val` of a string throws
an `EncodeError` if and only if the string has a byte `>= 128`; a string of bytes below 128
is accepted. -/
theorem C8_string_rejected_iff_non_ascii (e : Encoder) (s : List Nat)
    (hlegal : Encoder.m_checkPre e = .ok ()) :
    ((∃ err, e.val (.string s) = .error err) ↔ ∃ c ∈ s, 128 ≤ c) ∧
      ((∀ c ∈ s, c < 128) → ∃ e1, e.val (.string s) = .ok e1) := by
  have hacc : (∀ c ∈ s, c < 128) → ∃ e1, e.val (.string s) = .ok e1 := by
    intro hs
    have h := Encoder.m_encode_string_ascii s hs ( Encoder.m_prefix e)
    simp only [Encoder.val, Encoder.m_val, hlegal, Encoder.m_encode, h]
    split_ifs <;> exact ⟨_, rfl⟩
  refine ⟨⟨?_, fun h => Encoder.m_val_string_nonAscii e s h⟩, hacc⟩
  rintro ⟨err, herr⟩
  by_contra hno
  obtain ⟨e1, h1⟩ := hacc (by
    intro c hc
    by_contra hge
    exact hno ⟨c, hc, by omega⟩)
  rw [h1] at herr
  cases herr

theorem C8_string_rejected_iff_non_ascii_witness :
    Encoder.m_checkPre Encoder.fresh = .ok () ∧
      (((∃ err, Encoder.fresh.val (.string [97, 128]) = .error err) ↔
          ∃ c ∈ [97, 128], 128 ≤ c) ∧
        ((∀ c ∈ [97, 128], c < 128) → ∃ e1, Encoder.fresh.val (.string [97, 128]) = .ok e1)) :=
  ⟨by decide, C8_string_rejected_iff_non_ascii Encoder.fresh [97, 128] (by decide)⟩

/-- C9 (counterexample): on a new encoder no container is open and the document is not
complete, and yet `val` of the one-byte string `0x80` throws. -/
theorem C9_counterexample :
    ¬ ((∃ err, Encoder.fresh.val (.string [128]) = .error err) ↔
      ValueIllegal Encoder.fresh) := by
  intro h
  have h1 : ∃ err, Encoder.fresh.val (.string [128]) = .error err := ⟨_, rfl⟩
  have h2 := h.mp h1
  simp [ValueIllegal, Encoder.fresh] at h2

/-- C9 (amended): `val` of a scalar other than a string with a byte `>= 128`, `object` and
`array` throw exactly when the document is already complete or the innermost open container
is an object and no key is pending, that is, they are accepted exactly when the document is
not complete and either no container is open, or the innermost one is an array, or a key is
pending; `val` of a string with a byte `>= 128` throws in every state. -/
theorem C9_value_legality (e : Encoder) (v : Scalar) (compact : Bool)
    (hv : ∀ s, v = .string s → ∀ c ∈ s, c < 128) :
    ((∃ err, e.val v = .error err) ↔ ValueIllegal e) ∧
      ((∃ err, e.object compact = .error err) ↔ ValueIllegal e) ∧
      ((∃ err, e.array compact = .error err) ↔ ValueIllegal e) ∧
      (¬ ValueIllegal e ↔ e.m_isComplete = false ∧
        (e.m_state = [] ∨ (∃ back below, e.m_state = back :: below ∧ back.array = true) ∨
          e.m_isKey = true)) ∧
      (∀ s, (∃ c ∈ s, 128 ≤ c) → ∃ err, e.val (.string s) = .error err) := by
  refine ⟨Encoder.m_val_error_iff e v hv, Encoder.openContainer_error_iff e _ _ _,
    Encoder.openContainer_error_iff e _ _ _, ?_, fun s hs => Encoder.m_val_string_nonAscii e s hs⟩
  obtain ⟨oss, st, ind, isKey, isComplete⟩ := e
  cases isComplete <;> cases isKey <;> cases st with
  | nil => simp [ValueIllegal]
  | cons back below => cases hb : back.array <;> simp [ValueIllegal, hb]

theorem C9_value_legality_witness :
    (∀ s, Scalar.string [97] = .string s → ∀ c ∈ s, c < 128) ∧
      ((∃ err, Encoder.fresh.val (.string [97]) = .error err) ↔ ValueIllegal Encoder.fresh) :=
  ⟨by intro s hs c hc; cases hs; simp at hc; omega,
    (C9_value_legality Encoder.fresh (.string [97]) false
      (by intro s hs c hc; cases hs; simp at hc; omega)).1⟩

/-- C10: `key(name)` throws, leaving the encoder as it was, when a key is already pending,
when no container is open, when the innermost open container is an array, or when `name` is
empty; in every other state, for a `name` of bytes below 128, it succeeds: after the
separator written by `m_prefix` it appends the quoted escaped name, a colon and one space,
and it sets `m_isKey`, changing nothing else. -/
theorem C10_key (e : Encoder) (k : List Nat) :
    (KeyIllegal e k → ∃ err, e.key k = .error (err, e)) ∧
      (¬ KeyIllegal e k → (∀ c ∈ k, c < 128) →
        e.key k =
            .ok { ( Encoder.m_prefix e).put ([34] ++ escaped k ++ [34] ++ [58, 32]) with
              m_isKey := true } ∧
          ∃ sep, ( Encoder.m_prefix e).m_oss = e.m_oss ++ sep) := by
  obtain ⟨oss, st, ind, isKey, isComplete⟩ := e
  constructor
  · intro h
    cases isKey with
    | true => exact ⟨.keyAlreadyGiven, by simp [Encoder.key]⟩
    | false =>
      cases st with
      | nil => exact ⟨.keyOutsideObject, by simp [Encoder.key]⟩
      | cons back below =>
        cases hb : back.array with
        | true => exact ⟨.keyOutsideObject, by simp [Encoder.key, hb]⟩
        | false =>
          have hk : k = [] := by simpa [KeyIllegal, hb] using h
          exact ⟨.emptyKey, by simp [Encoder.key, hb, hk]⟩
  · intro h hk
    refine ⟨?_, Encoder.m_prefix_appends _⟩
    cases isKey with
    | true => simp [KeyIllegal] at h
    | false =>
      cases st with
      | nil => simp [KeyIllegal] at h
      | cons back below =>
        cases hb : back.array with
        | true => simp [KeyIllegal, hb] at h
        | false =>
          have hne : k ≠ [] := by
            intro hk0; exact h (Or.inr (Or.inr (Or.inr hk0)))
          have hemp : k.isEmpty = false := by
            cases k with
            | nil => exact absurd rfl hne
            | cons a b => rfl
          have h1 := Encoder.m_encode_string_ascii k hk
            ( Encoder.m_prefix ⟨oss, back :: below, ind, false, isComplete⟩)
          simp only [Encoder.key, hb, hemp, h1, Bool.false_eq_true, if_false]
          simp [quoted, Encoder.put]

theorem C10_key_witness :
    (KeyIllegal ⟨[123], [⟨false, false, false⟩], 0, false, false⟩ [] ∧
      ∃ err, Encoder.key ⟨[123], [⟨false, false, false⟩], 0, false, false⟩ [] =
        .error (err, ⟨[123], [⟨false, false, false⟩], 0, false, false⟩)) ∧
    (¬ KeyIllegal ⟨[123], [⟨false, false, false⟩], 0, false, false⟩ [97] ∧
      (∀ c ∈ [97], c < 128) ∧
      Encoder.key ⟨[123], [⟨false, false, false⟩], 0, false, false⟩ [97] =
        .ok ⟨[123, 10, 32, 32, 32, 32, 34, 97, 34, 58, 32], [⟨false, false, false⟩], 1,
          true, false⟩) :=
  ⟨⟨by simp [KeyIllegal],
      (C10_key ⟨[123], [⟨false, false, false⟩], 0, false, false⟩ []).1 (by simp [KeyIllegal])⟩,
    by simp [KeyIllegal], by decide,
    ((C10_key ⟨[123], [⟨false, false, false⟩], 0, false, false⟩ [97]).2
      (by simp [KeyIllegal]) (by decide)).1.trans (by decide)⟩

/-! ## The indentation and the frames of the encoder -/

namespace qjson.Encoder

theorem indentText_eq (n : Nat) : indentText n = spaces (4 * n) := by
  induction n with
  | zero => rfl
  | succ n ih =>
    have h : 4 * (n + 1) = 4 + 4 * n := by omega
    rw [indentText, ih, h, spaces, spaces, List.replicate_add]
    rfl

theorem m_prefix_indentation (e : Encoder) :
    ( m_prefix e).m_indentation = e.m_indentation +
      (match e.m_isKey, e.m_state with
        | false, top :: _ => if top.compact || top.content then 0 else 1
        | _, _ => 0) := by
  obtain ⟨oss, st, ind, isKey, isComplete⟩ := e
  cases isKey with
  | true => simp [ m_prefix]
  | false =>
    cases st with
    | nil => simp [ m_prefix]
    | cons top below =>
      obtain ⟨a, c, t⟩ := top
      cases c <;> cases t <;> simp [ m_prefix, m_indent, put]

theorem m_encode_indentation (v : Scalar) (e e1 : Encoder) (h : m_encode e v = .ok e1) :
    e1.m_indentation = e.m_indentation := by
  rw [(m_encode_ok_eq v e e1 h).1]
  rfl

theorem val_ok_indentation (e e1 : Encoder) (v : Scalar) (h : e.val v = .ok e1) :
    e1.m_indentation = ( m_prefix e).m_indentation := by
  simp only [val, m_val] at h
  cases hpre : m_checkPre e with
  | error err => simp [hpre] at h
  | ok u =>
    simp only [hpre] at h
    cases henc : m_encode ( m_prefix e) v with
    | error err => simp [henc] at h
    | ok e2 =>
      simp only [henc] at h
      have := m_encode_indentation v _ _ henc
      split_ifs at h <;> cases h <;> exact this

theorem openContainer_ok_indentation (e e1 : Encoder) (bracket : Nat) (isArray compact : Bool)
    (h : openContainer e bracket isArray compact = .ok e1) :
    e1.m_indentation = ( m_prefix e).m_indentation ∧
      ∀ top ∈ e1.m_state.head?, top.compact =
        (compact || (match e.m_state with | back :: _ => back.compact | [] => false)) := by
  simp only [openContainer] at h
  cases hpre : m_checkPre e with
  | error err => simp [hpre] at h
  | ok u =>
    simp only [hpre] at h
    cases hst : e.m_state with
    | nil =>
      simp [hst, put] at h
      subst h
      simp
    | cons back below =>
      simp [hst, put] at h
      subst h
      simp

theorem key_ok_indentation (e e1 : Encoder) (k : List Nat) (h : e.key k = .ok e1) :
    e1.m_indentation = ( m_prefix e).m_indentation := by
  simp only [key] at h
  cases hk : e.m_isKey with
  | true => simp [hk] at h
  | false =>
    simp only [hk, Bool.false_eq_true, if_false] at h
    cases hst : e.m_state with
    | nil => simp [hst] at h
    | cons back below =>
      simp only [hst] at h
      split_ifs at h
      cases henc : m_encode_string ( m_prefix e) k with
      | error err => simp [henc] at h
      | ok e2 =>
        simp only [henc] at h
        rw [(m_encode_string_ok _ _ _ henc).2] at h
        cases h
        rfl

theorem end_ok_exact (e e1 : Encoder) (h : e.end_ = .ok e1) :
    ∃ state below, e.m_state = state :: below ∧ e.m_isKey = false ∧
      e1.m_oss = e.m_oss ++ closingText state (e.m_indentation - 1).toNat ∧
      e1.m_state = below ∧ e1.m_isKey = false ∧
      e1.m_indentation =
        (if state.content && !state.compact then e.m_indentation - 1 else e.m_indentation) ∧
      e1.m_isComplete = (if below.isEmpty then true else e.m_isComplete) := by
  obtain ⟨oss, st, ind, isKey, isComplete⟩ := e
  cases st with
  | nil => simp [end_] at h
  | cons state below =>
    cases isKey with
    | true => simp [end_] at h
    | false =>
      refine ⟨state, below, rfl, rfl, ?_⟩
      obtain ⟨a, c, t⟩ := state
      cases t <;> cases c <;> cases below <;>
        simp [end_, put, m_indent, indentText_eq] at h <;> subst h <;>
        simp [closingText]

end qjson.Encoder

namespace qjson.Encoder

theorem consistent_fresh : Consistent fresh := by
  simp [Consistent, fresh, levels]

theorem checkPre_not_complete (e : Encoder) (h : m_checkPre e = .ok ()) :
    e.m_isComplete = false := by
  cases hc : e.m_isComplete with
  | false => rfl
  | true => simp [m_checkPre, hc] at h

/-- The frames and the indentation after a successful call that adds a value (a scalar or
the opening of a container), `new` being the frames the call pushes. -/
theorem consistent_value (e e1 : Encoder) (new : List m_State) (hC : Consistent e)
    (hpre : m_checkPre e = .ok ())
    (hnew : new = [] ∨ ∃ a c, new = [⟨a, c || (match e.m_state with
      | back :: _ => back.compact | [] => false), false⟩])
    (hst : e1.m_state = new ++ markContent e.m_state)
    (hkey : e1.m_isKey = (if e.m_state.isEmpty then e.m_isKey else false))
    (hind : e1.m_indentation = ( m_prefix e).m_indentation)
    (hcomp : e1.m_isComplete = true → e1.m_state = []) : Consistent e1 := by
  obtain ⟨h1, h2, h3, h4, h5⟩ := hC
  obtain ⟨oss1, st1, ind1, k1, c1⟩ := e1
  obtain ⟨oss, st, ind, isKey, isComplete⟩ := e
  simp only at hst hkey hind hcomp h1 h2 h3 h4 h5 hnew
  rw [m_prefix_indentation] at hind
  simp only at hind
  subst hst hkey hind
  refine ⟨hcomp, ?_, ?_, ?_, ?_⟩
  · intro h
    have : st = [] := by
      cases st with
      | nil => rfl
      | cons a b => simp [markContent] at h
    simp [this, h2 this]
  · cases st with
    | nil =>
      have hk := h2 rfl
      subst hk
      rcases hnew with rfl | ⟨a, c, rfl⟩ <;> simp [levels, markContent] at h3 ⊢ <;> exact h3
    | cons top below =>
      obtain ⟨a, c, t⟩ := top
      rcases hnew with rfl | ⟨a', c', rfl⟩ <;> cases c <;> cases t <;> cases isKey <;>
        simp [levels, markContent] at h3 ⊢ <;> omega
  · cases st with
    | nil => rcases hnew with rfl | ⟨a, c, rfl⟩ <;> simp [markContent]
    | cons top below =>
      rcases hnew with rfl | ⟨a', c', rfl⟩
      · simpa [markContent] using h4
      · simpa [markContent] using h4
  · cases st with
    | nil => rcases hnew with rfl | ⟨a, c, rfl⟩ <;> simp [markContent]
    | cons top below =>
      have hch : List.Chain' (fun upper lower : m_State => lower.compact = true →
          upper.compact = true) (markContent (top :: below)) := by
        cases below with
        | nil => simp [markContent]
        | cons b bs =>
          simp only [markContent, List.chain'_cons] at h5 ⊢
          exact h5
      rcases hnew with rfl | ⟨a', c', rfl⟩
      · simpa using hch
      · simp only [List.singleton_append, markContent, List.chain'_cons] at hch ⊢
        refine ⟨?_, hch⟩
        intro hc
        simp [hc]

theorem consistent_call (e e1 : Encoder) (c : Call) (hC : Consistent e)
    (hcall : e.call c = .ok e1) : Consistent e1 := by
  cases c with
  | val v =>
    obtain ⟨hpre, _, _, hst, hkey, hcomp⟩ := val_ok_eq e e1 v hcall
    refine consistent_value e e1 [] hC hpre (Or.inl rfl) (by simpa using hst) hkey
      (val_ok_indentation e e1 v hcall) ?_
    intro h
    rw [hcomp] at h
    rw [hst]
    cases hs : e.m_state with
    | nil => rfl
    | cons a b =>
      simp [hs] at h
      rw [checkPre_not_complete e hpre] at h
      cases h
  | object compact =>
    obtain ⟨hpre, _, ⟨c, hst⟩, hkey, hcomp⟩ := openContainer_ok_eq e e1 123 false compact hcall
    obtain ⟨hind, htop⟩ := openContainer_ok_indentation e e1 123 false compact hcall
    have hc := htop _ (by rw [hst]; rfl)
    simp only at hc
    refine consistent_value e e1 [⟨false, c, false⟩] hC hpre
      (Or.inr ⟨false, compact, by subst hc; rfl⟩) (by simpa using hst) hkey hind ?_
    intro h
    rw [hcomp, checkPre_not_complete e hpre] at h
    cases h
  | array compact =>
    obtain ⟨hpre, _, ⟨c, hst⟩, hkey, hcomp⟩ := openContainer_ok_eq e e1 91 true compact hcall
    obtain ⟨hind, htop⟩ := openContainer_ok_indentation e e1 91 true compact hcall
    have hc := htop _ (by rw [hst]; rfl)
    simp only at hc
    refine consistent_value e e1 [⟨true, c, false⟩] hC hpre
      (Or.inr ⟨true, compact, by subst hc; rfl⟩) (by simpa using hst) hkey hind ?_
    intro h
    rw [hcomp, checkPre_not_complete e hpre] at h
    cases h
  | key k =>
    obtain ⟨hk, ⟨back, below, hs, hb⟩, _, _, _, hst, hkey, hcomp⟩ := key_ok_eq e e1 k hcall
    have hind := key_ok_indentation e e1 k hcall
    obtain ⟨h1, h2, h3, h4, h5⟩ := hC
    obtain ⟨oss1, st1, ind1, k1, c1⟩ := e1
    obtain ⟨oss, st, ind, isKey, isComplete⟩ := e
    simp only at hst hkey hind hcomp h1 h2 h3 h4 h5 hk hs
    rw [m_prefix_indentation] at hind
    simp only at hind
    subst hst hkey hind hcomp hk hs
    refine ⟨by simpa using h1, by simp, ?_, h4, h5⟩
    obtain ⟨a, c, t⟩ := back
    cases c <;> cases t <;> simp [levels] at h3 ⊢ <;> omega
  | end_ =>
    obtain ⟨state, below, hs, hk, _, hst, hkey, hind, hcomp⟩ := end_ok_exact e e1 hcall
    obtain ⟨h1, h2, h3, h4, h5⟩ := hC
    obtain ⟨oss1, st1, ind1, k1, c1⟩ := e1
    obtain ⟨oss, st, ind, isKey, isComplete⟩ := e
    simp only at hst hkey hind hcomp h1 h2 h3 h4 h5 hk hs
    subst hst hkey hind hcomp hk hs
    have hnc : isComplete = false := by
      cases isComplete with
      | false => rfl
      | true => simp at h1
    subst hnc
    refine ⟨?_, by simp, ?_, ?_, ?_⟩
    · intro h
      cases st1 with
      | nil => rfl
      | cons a b => simp at h
    · obtain ⟨a, c, t⟩ := state
      have hl : ∀ (o : List Nat) (i : Int) (b : Bool), levels ⟨o, st1, i, false, b⟩ =
          (st1.filter (fun s => !s.compact && s.content)).length := by
        intro o i b
        cases st1 <;> simp [levels]
      rw [hl]
      cases c <;> cases t <;> simp [levels] at h3 ⊢ <;> omega
    · intro s hs
      exact h4 s (by simpa using List.mem_of_mem_tail hs)
    · exact List.Chain'.tail h5

theorem consistent_run (cs : List Call) (e e1 : Encoder) (hC : Consistent e)
    (hrun : Encoder.run e cs = .ok e1) : Consistent e1 := by
  induction cs generalizing e with
  | nil =>
    simp only [Encoder.run, Except.ok.injEq] at hrun
    exact hrun ▸ hC
  | cons c cs ih =>
    obtain ⟨e2, hcall, hrun2⟩ := run_cons c cs e e1 hrun
    exact ih e2 (consistent_call e e2 c hC hcall) hrun2

/-- In a pretty container every container around it is pretty. -/
theorem pretty_below (st : List m_State) (top : m_State)
    (hch : List.Chain' (fun upper lower : m_State => lower.compact = true →
      upper.compact = true) (top :: st)) (htop : top.compact = false) :
    ∀ s ∈ st, s.compact = false := by
  induction st generalizing top with
  | nil => simp
  | cons a b ih =>
    simp only [List.chain'_cons] at hch
    have ha : a.compact = false := by
      cases h : a.compact with
      | false => rfl
      | true => rw [hch.1 h] at htop; cases htop
    intro s hs
    simp only [List.mem_cons] at hs
    rcases hs with rfl | hs
    · exact ha
    · exact ih a hch.2 ha s hs

/-- The indentation while a pretty container with content is the innermost one: the number
of open containers. -/
theorem consistent_depth (e : Encoder) (state : m_State) (below : List m_State)
    (hC : Consistent e) (hs : e.m_state = state :: below) (hk : e.m_isKey = false)
    (hc : state.compact = false) (ht : state.content = true) :
    e.m_indentation = (below.length : Int) + 1 := by
  obtain ⟨_, _, h3, h4, h5⟩ := hC
  rw [hs] at h4 h5
  have hp := pretty_below below state h5 hc
  have hf : below.filter (fun s => !s.compact && s.content) = below := by
    rw [List.filter_eq_self]
    intro s hs'
    simp [hp s hs', h4 s (by simpa using hs')]
  rw [h3]
  simp [levels, hs, hk, hc, ht, hf]

end qjson.Encoder

/-! ## What `finish` returns and leaves behind -/

namespace qjson.Encoder

/-- A call that returns only appends to the text. -/
theorem call_appends (e e1 : Encoder) (c : Call) (h : e.call c = .ok e1) :
    ∃ w, e1.m_oss = e.m_oss ++ w := by
  obtain ⟨sep, hsep⟩ := m_prefix_appends e
  cases c with
  | val v =>
    obtain ⟨_, _, hoss, _⟩ := val_ok_eq e e1 v h
    exact ⟨sep ++ v.token, by rw [hoss, hsep, List.append_assoc]⟩
  | object compact =>
    obtain ⟨_, hoss, _⟩ := openContainer_ok_eq e e1 123 false compact h
    exact ⟨sep ++ [123], by rw [hoss, hsep, List.append_assoc]⟩
  | array compact =>
    obtain ⟨_, hoss, _⟩ := openContainer_ok_eq e e1 91 true compact h
    exact ⟨sep ++ [91], by rw [hoss, hsep, List.append_assoc]⟩
  | key k =>
    obtain ⟨_, _, _, _, hoss, _⟩ := key_ok_eq e e1 k h
    exact ⟨sep ++ (quoted k ++ [58, 32]), by rw [hoss, hsep, List.append_assoc]⟩
  | end_ =>
    obtain ⟨state, below, _, _, hoss, _⟩ := end_ok_exact e e1 h
    exact ⟨_, hoss⟩

theorem run_appends (cs : List Call) (e e1 : Encoder) (h : Encoder.run e cs = .ok e1) :
    ∃ w, e1.m_oss = e.m_oss ++ w := by
  induction cs generalizing e with
  | nil =>
    simp only [Encoder.run, Except.ok.injEq] at h
    exact ⟨[], by simp [h]⟩
  | cons c cs ih =>
    obtain ⟨e2, hcall, hrun2⟩ := run_cons c cs e e1 h
    obtain ⟨w1, h1⟩ := call_appends e e2 c hcall
    obtain ⟨w2, h2⟩ := ih e2 hrun2
    exact ⟨w1 ++ w2, by rw [h2, h1, List.append_assoc]⟩

/-- After calls that all returned, a successful `finish` leaves a new encoder. -/
theorem finish_fresh (e e1 : Encoder) (doc : List Nat) (hC : Consistent e)
    (h : e.finish = .ok (doc, e1)) : doc = e.m_oss ∧ e1 = fresh := by
  obtain ⟨h1, h2, h3, _, _⟩ := hC
  obtain ⟨oss, st, ind, isKey, isComplete⟩ := e
  cases isComplete with
  | false => simp [finish] at h
  | true =>
    have hst : st = [] := h1 rfl
    subst hst
    have hk : isKey = false := h2 rfl
    subst hk
    simp only [levels, List.filter_nil, List.length_nil, add_zero, Nat.cast_zero] at h3
    subst h3
    simp only [finish, Bool.not_true, Bool.false_eq_true, if_false, Except.ok.injEq,
      Prod.mk.injEq] at h
    exact ⟨h.1.symm, h.2.symm⟩

end qjson.Encoder

/-! ## Compact containers -/

namespace qjson.Encoder

theorem m_encode_accepted (e : Encoder) (v : Scalar) (h : Call.accepted (.val v) = true) :
    m_encode e v = .ok (e.put v.token) := by
  have hv : ∀ s, v = .string s → ∀ c ∈ s, c < 128 := by
    intro s hs c hc
    subst hs
    simp only [Call.accepted, List.all_eq_true, decide_eq_true_eq] at h
    exact h c hc
  obtain ⟨e1, h1⟩ := m_encode_ok e v hv
  rw [h1, (m_encode_ok_eq v e e1 h1).1]

theorem m_encode_string_accepted (e : Encoder) (k : List Nat)
    (h : Call.accepted (.key k) = true) :
    k.isEmpty = false ∧ m_encode_string e k = .ok (e.put (quoted k)) := by
  simp only [Call.accepted, Bool.and_eq_true, Bool.not_eq_true', List.all_eq_true,
    decide_eq_true_eq] at h
  exact ⟨h.1, m_encode_string_ascii k h.2 e⟩

/-- The separators and tokens of the scalars added to a compact array; `content` tells
whether the array already has content. -/
theorem run_compact_vals (vs : List Scalar) (hvs : ∀ v ∈ vs, Call.accepted (.val v) = true)
    (oss : List Nat) (below : List m_State) (ind : Int) (content : Bool) :
    Encoder.run ⟨oss, ⟨true, true, content⟩ :: below, ind, false, false⟩ (vs.map Call.val) =
      .ok ⟨oss ++ (if vs.isEmpty then [] else
          (if content then [44, 32] else [32]) ++ joinWith [44, 32] (vs.map Scalar.token)),
        ⟨true, true, content || !vs.isEmpty⟩ :: below, ind, false, false⟩ := by
  induction vs generalizing oss content with
  | nil => simp [Encoder.run]
  | cons v vs ih =>
    have hv := m_encode_accepted
      ( m_prefix ⟨oss, ⟨true, true, content⟩ :: below, ind, false, false⟩) v (hvs v (by simp))
    have hstep : Encoder.call ⟨oss, ⟨true, true, content⟩ :: below, ind, false, false⟩
        (.val v) = .ok ⟨oss ++ (if content then [44, 32] else [32]) ++ v.token,
          ⟨true, true, true⟩ :: below, ind, false, false⟩ := by
      simp only [Encoder.call, val, m_val, m_checkPre, hv]
      cases content <;> simp [ m_prefix, put, markContent]
    simp only [List.map_cons, Encoder.run, hstep]
    rw [ih (fun x hx => hvs x (by simp [hx]))]
    cases vs with
    | nil => simp [joinWith]
    | cons u us => simp [joinWith]

/-- The separators, keys and tokens of the scalar members added to a compact object. -/
theorem run_compact_members (ms : List (List Nat × Scalar))
    (hms : ∀ m ∈ ms, Call.accepted (.key m.1) = true ∧ Call.accepted (.val m.2) = true)
    (oss : List Nat) (below : List m_State) (ind : Int) (content : Bool) :
    Encoder.run ⟨oss, ⟨false, true, content⟩ :: below, ind, false, false⟩
        (ms.map (fun m => [Call.key m.1, Call.val m.2])).flatten =
      .ok ⟨oss ++ (if ms.isEmpty then [] else
          (if content then [44, 32] else [32]) ++ joinWith [44, 32] (ms.map memberText)),
        ⟨false, true, content || !ms.isEmpty⟩ :: below, ind, false, false⟩ := by
  induction ms generalizing oss content with
  | nil => simp [Encoder.run]
  | cons m ms ih =>
    obtain ⟨hk0, hv0⟩ := hms m (by simp)
    obtain ⟨hne, hk⟩ := m_encode_string_accepted
      ( m_prefix ⟨oss, ⟨false, true, content⟩ :: below, ind, false, false⟩) m.1 hk0
    have hstep1 : Encoder.call ⟨oss, ⟨false, true, content⟩ :: below, ind, false, false⟩
        (.key m.1) = .ok ⟨oss ++ (if content then [44, 32] else [32]) ++ quoted m.1 ++
          [58, 32], ⟨false, true, content⟩ :: below, ind, true, false⟩ := by
      simp only [Encoder.call, key, hne, hk]
      cases content <;> simp [ m_prefix, put]
    have hv := m_encode_accepted
      ( m_prefix ⟨oss ++ (if content then [44, 32] else [32]) ++ quoted m.1 ++ [58, 32],
        ⟨false, true, content⟩ :: below, ind, true, false⟩) m.2 hv0
    have hstep2 : Encoder.call ⟨oss ++ (if content then [44, 32] else [32]) ++ quoted m.1 ++
          [58, 32], ⟨false, true, content⟩ :: below, ind, true, false⟩ (.val m.2) =
        .ok ⟨oss ++ (if content then [44, 32] else [32]) ++ memberText m,
          ⟨false, true, true⟩ :: below, ind, false, false⟩ := by
      simp only [Encoder.call, val, m_val, m_checkPre, hv]
      cases content <;> simp [ m_prefix, put, markContent, memberText]
    have hflat : ((m :: ms).map (fun m => [Call.key m.1, Call.val m.2])).flatten =
        Call.key m.1 :: Call.val m.2 ::
          (ms.map (fun m => [Call.key m.1, Call.val m.2])).flatten := by
      simp
    rw [hflat]
    simp only [Encoder.run, hstep1, hstep2]
    rw [ih (fun x hx => hms x (by simp [hx]))]
    cases ms with
    | nil => simp [joinWith]
    | cons u us => simp [joinWith]

theorem run_append_ok (cs1 cs2 : List Call) (e e1 : Encoder)
    (h : Encoder.run e cs1 = .ok e1) : Encoder.run e (cs1 ++ cs2) = Encoder.run e1 cs2 := by
  induction cs1 generalizing e with
  | nil =>
    simp only [Encoder.run, Except.ok.injEq] at h
    rw [h, List.nil_append]
  | cons c cs1 ih =>
    obtain ⟨e2, hcall, hrun2⟩ := run_cons c cs1 e e1 h
    simp only [List.cons_append, Encoder.run, hcall]
    exact ih e2 hrun2

/-- A compact container written where a value may be added: after the separator of
`m_prefix`, the opening bracket, the text of the members, a space and the closing bracket. -/
theorem run_compact_container (e : Encoder) (bracket : Nat) (isArray c : Bool)
    (members : List Call) (text : List Nat) (hpre : m_checkPre e = .ok ())
    (hsane : e.m_state = [] → e.m_isKey = false)
    (hc : c = true ∨ ∃ top below, e.m_state = top :: below ∧ top.compact = true)
    (hmem : ∀ (oss : List Nat) (below : List m_State) (ind : Int),
      Encoder.run ⟨oss, ⟨isArray, true, false⟩ :: below, ind, false, false⟩ members =
        .ok ⟨oss ++ text, ⟨isArray, true, true⟩ :: below, ind, false, false⟩) :
    ∃ ea, openContainer e bracket isArray c = .ok ea ∧
      Encoder.run ea (members ++ [.end_]) =
        .ok ⟨( m_prefix e).m_oss ++ ([bracket] ++ text ++ [32, if isArray then 93 else 125]),
          markContent e.m_state, ( m_prefix e).m_indentation, false, e.m_state.isEmpty⟩ := by
  have hnc := checkPre_not_complete e hpre
  obtain ⟨oss, st, ind, isKey, isComplete⟩ := e
  simp only at hnc hsane hc
  subst hnc
  cases st with
  | nil =>
    have hk := hsane rfl
    subst hk
    have hct : c = true := by
      rcases hc with h | ⟨top, below, h, _⟩
      · exact h
      · cases h
    subst hct
    refine ⟨⟨oss ++ [bracket], [⟨isArray, true, false⟩], ind, false, false⟩, ?_, ?_⟩
    · simp [openContainer, m_checkPre, m_prefix, put]
    · rw [run_append_ok _ _ _ _ (hmem _ _ _)]
      cases isArray <;> simp [Encoder.run, Encoder.call, end_, put, m_prefix, markContent]
  | cons back below =>
    have hct : (c || back.compact) = true := by
      rcases hc with h | ⟨top, below', h, h2⟩
      · simp [h]
      · simp only [List.cons.injEq] at h
        rw [h.1, h2]
        simp
    refine ⟨⟨( m_prefix ⟨oss, back :: below, ind, isKey, false⟩).m_oss ++ [bracket],
      ⟨isArray, true, false⟩ :: { back with content := true } :: below,
      ( m_prefix ⟨oss, back :: below, ind, isKey, false⟩).m_indentation, false, false⟩, ?_, ?_⟩
    · simp only [openContainer, hpre]
      simp [put, hct]
    · rw [run_append_ok _ _ _ _ (hmem _ _ _)]
      cases isArray <;> simp [Encoder.run, Encoder.call, end_, put, markContent]

end qjson.Encoder

/-! ## Containers inside a compact container -/

theorem esc_no_newline (c : Nat) : 10 ∉ esc c := by
  simp only [esc, hexUpper]
  split_ifs <;> simp <;> omega

theorem escaped_no_newline (s : List Nat) : 10 ∉ escaped s := by
  induction s with
  | nil => simp [escaped]
  | cons c s ih =>
    simp only [escaped, List.mem_append, not_or]
    exact ⟨esc_no_newline c, ih⟩

theorem quoted_no_newline (s : List Nat) : 10 ∉ quoted s := by
  have := escaped_no_newline s
  simp [quoted, this]

theorem to_chars_digits_no_newline (fuel n : Nat) : 10 ∉ to_chars_digits fuel n := by
  induction fuel generalizing n with
  | zero => simp [to_chars_digits]
  | succ fuel ih =>
    simp only [to_chars_digits]
    split_ifs
    · simp only [List.mem_singleton]
      omega
    · have := ih (n / 10)
      simp only [List.mem_append, List.mem_singleton, not_or]
      exact ⟨this, by omega⟩

namespace qjson

theorem token_no_newline (v : Scalar) (hv : ∀ t, v = .double t → 10 ∉ t) :
    10 ∉ v.token := by
  cases v with
  | string s => exact quoted_no_newline s
  | int64 i =>
    have := to_chars_digits_no_newline 20 i.natAbs
    simp only [Scalar.token, to_chars_int64]
    split_ifs <;> simp [this]
  | double t =>
    have := hv t rfl
    simp only [Scalar.token]
    split_ifs <;> simp [this]
  | bool b => cases b <;> simp [Scalar.token]
  | null => simp [Scalar.token]

namespace Encoder

theorem m_prefix_compact (e : Encoder) (top : m_State) (rest : List m_State)
    (hs : e.m_state = top :: rest) (hc : top.compact = true) :
    ∃ w, ( m_prefix e).m_oss = e.m_oss ++ w ∧ 10 ∉ w := by
  obtain ⟨oss, st, ind, isKey, isComplete⟩ := e
  simp only at hs
  subst hs
  obtain ⟨a, c, t⟩ := top
  simp only at hc
  subst hc
  cases isKey with
  | true => exact ⟨[], by simp [ m_prefix]⟩
  | false =>
    cases t with
    | true => exact ⟨[44, 32], by simp [ m_prefix, put]⟩
    | false => exact ⟨[32], by simp [ m_prefix, put]⟩

theorem markContent_compact (st : List m_State) (h : ∀ s ∈ st, s.compact = true) :
    ∀ s ∈ markContent st, s.compact = true := by
  cases st with
  | nil => simp [markContent]
  | cons a b =>
    intro s hs
    simp only [markContent, List.mem_cons] at hs
    rcases hs with rfl | hs
    · exact h a (by simp)
    · exact h s (by simp [hs])

theorem markContent_append (top : m_State) (upper below : List m_State) :
    markContent ((top :: upper) ++ below) = markContent (top :: upper) ++ below := rfl

/-- One call made while the innermost open containers `top :: upper` are compact: it writes
no newline, and the containers open afterwards above `below` are compact. -/
theorem compact_call (e e1 : Encoder) (c : Call) (top : m_State) (upper below : List m_State)
    (hs : e.m_state = (top :: upper) ++ below) (hcompact : ∀ s ∈ top :: upper, s.compact = true)
    (hdouble : ∀ t, c = .val (.double t) → 10 ∉ t) (hcall : e.call c = .ok e1) :
    ∃ upper1 w, e1.m_state = upper1 ++ below ∧ (∀ s ∈ upper1, s.compact = true) ∧
      e1.m_oss = e.m_oss ++ w ∧ 10 ∉ w ∧
      upper1.length = (match c with
        | .end_ => upper.length
        | .object _ => upper.length + 2
        | .array _ => upper.length + 2
        | _ => upper.length + 1) := by
  have htop : top.compact = true := hcompact top (by simp)
  obtain ⟨sep, hsep, hnl⟩ := m_prefix_compact e top (upper ++ below) (by simpa using hs) htop
  have hmark : ∀ s ∈ markContent (top :: upper), s.compact = true :=
    markContent_compact _ hcompact
  cases c with
  | val v =>
    obtain ⟨_, _, hoss, hst, _⟩ := val_ok_eq e e1 v hcall
    refine ⟨markContent (top :: upper), sep ++ v.token, ?_, hmark, ?_, ?_, ?_⟩
    · rw [hst, hs, markContent_append]
    · rw [hoss, hsep, List.append_assoc]
    · have := token_no_newline v (fun t ht => hdouble t (by rw [ht]))
      simp [hnl, this]
    · simp [markContent]
  | object compact =>
    obtain ⟨_, hoss, ⟨c, hst⟩, _⟩ := openContainer_ok_eq e e1 123 false compact hcall
    obtain ⟨_, htop1⟩ := openContainer_ok_indentation e e1 123 false compact hcall
    have hc := htop1 _ (by rw [hst]; rfl)
    simp only [hs, List.cons_append, htop, Bool.or_true] at hc
    refine ⟨⟨false, c, false⟩ :: markContent (top :: upper), sep ++ [123], ?_, ?_, ?_, ?_, ?_⟩
    · rw [hst, hs, markContent_append]; rfl
    · intro s hs'
      simp only [List.mem_cons] at hs'
      rcases hs' with rfl | hs'
      · exact hc
      · exact hmark s (by simpa using hs')
    · rw [hoss, hsep, List.append_assoc]
    · simp [hnl]
    · simp [markContent]
  | array compact =>
    obtain ⟨_, hoss, ⟨c, hst⟩, _⟩ := openContainer_ok_eq e e1 91 true compact hcall
    obtain ⟨_, htop1⟩ := openContainer_ok_indentation e e1 91 true compact hcall
    have hc := htop1 _ (by rw [hst]; rfl)
    simp only [hs, List.cons_append, htop, Bool.or_true] at hc
    refine ⟨⟨true, c, false⟩ :: markContent (top :: upper), sep ++ [91], ?_, ?_, ?_, ?_, ?_⟩
    · rw [hst, hs, markContent_append]; rfl
    · intro s hs'
      simp only [List.mem_cons] at hs'
      rcases hs' with rfl | hs'
      · exact hc
      · exact hmark s (by simpa using hs')
    · rw [hoss, hsep, List.append_assoc]
    · simp [hnl]
    · simp [markContent]
  | key k =>
    obtain ⟨_, _, _, _, hoss, hst, _⟩ := key_ok_eq e e1 k hcall
    refine ⟨top :: upper, sep ++ (quoted k ++ [58, 32]), ?_, hcompact, ?_, ?_, ?_⟩
    · rw [hst, hs]
    · rw [hoss, hsep, List.append_assoc]
    · have := quoted_no_newline k
      simp [hnl, this]
    · simp
  | end_ =>
    obtain ⟨state, below1, hs1, _, hoss, hst, _⟩ := end_ok_exact e e1 hcall
    rw [hs] at hs1
    simp only [List.cons_append, List.cons.injEq] at hs1
    obtain ⟨rfl, rfl⟩ := hs1
    refine ⟨upper, _, hst, fun s hs' => hcompact s (by simp [hs']), hoss, ?_, rfl⟩
    simp only [closingText, htop, if_true]
    split_ifs <;> simp

end Encoder

end qjson

/-! ## The pretty layout -/

namespace qjson.Encoder

/-- The value `val` adds where a value may be added. -/
theorem val_accepted (e : Encoder) (v : Scalar) (hacc : Call.accepted (.val v) = true)
    (hpre : m_checkPre e = .ok ()) (hsane : e.m_state = [] → e.m_isKey = false) :
    e.val v = .ok ⟨( m_prefix e).m_oss ++ v.token, markContent e.m_state,
      ( m_prefix e).m_indentation, false, e.m_state.isEmpty⟩ := by
  have hnc := checkPre_not_complete e hpre
  have henc := m_encode_accepted ( m_prefix e) v hacc
  simp only [val, m_val, hpre, henc]
  obtain ⟨oss, st, ind, isKey, isComplete⟩ := e
  simp only at hnc hsane
  subst hnc
  cases st with
  | nil =>
    have hk := hsane rfl
    subst hk
    simp [put, m_prefix, markContent]
  | cons back below => simp [put, markContent]

/-- The frame `object(false)` or `array(false)` pushes where a value may be added and the
innermost open container, if any, is pretty. -/
theorem open_pretty (e : Encoder) (bracket : Nat) (isArray : Bool)
    (hpre : m_checkPre e = .ok ()) (hsane : e.m_state = [] → e.m_isKey = false)
    (hpretty : ∀ top ∈ e.m_state.head?, top.compact = false) :
    openContainer e bracket isArray false = .ok ⟨( m_prefix e).m_oss ++ [bracket],
      ⟨isArray, false, false⟩ :: markContent e.m_state, ( m_prefix e).m_indentation, false,
      false⟩ := by
  have hnc := checkPre_not_complete e hpre
  simp only [openContainer, hpre]
  obtain ⟨oss, st, ind, isKey, isComplete⟩ := e
  simp only at hnc hsane hpretty
  subst hnc
  cases st with
  | nil =>
    have hk := hsane rfl
    subst hk
    simp [put, m_prefix, markContent]
  | cons back below =>
    have := hpretty back (by simp)
    simp [put, markContent, this]

theorem m_prefix_pretty (oss : List Nat) (a t : Bool) (below : List m_State) (ind : Int)
    (c : Bool) (d : Nat) (hd : (d : Int) = ind + (if t then 0 else 1)) :
    m_prefix ⟨oss, ⟨a, false, t⟩ :: below, ind, false, c⟩ =
      ⟨oss ++ ((if t then [44] else []) ++ [10] ++ spaces (4 * d)), ⟨a, false, t⟩ :: below, d,
        false, c⟩ := by
  cases t
  · simp only [Bool.false_eq_true, if_false] at hd
    have h2 : (ind + 1).toNat = d := by omega
    simp [ m_prefix, m_indent, put, indentText_eq, h2, hd]
  · simp only [if_true, add_zero] at hd
    have h2 : ind.toNat = d := by omega
    simp [ m_prefix, m_indent, put, indentText_eq, h2, hd]

theorem end_pretty (oss : List Nat) (a t : Bool) (below : List m_State) (d : Nat) :
    end_ ⟨oss, ⟨a, false, t⟩ :: below, ((if t then d + 1 else d : Nat) : Int), false, false⟩ =
      .ok ⟨oss ++ ((if t then 10 :: spaces (4 * d) else []) ++ [if a then 93 else 125]), below,
        d, false, below.isEmpty⟩ := by
  cases t <;> cases below <;> simp [end_, put, m_indent, indentText_eq]

theorem key_pretty (oss : List Nat) (t : Bool) (below : List m_State) (ind : Int) (d : Nat)
    (k : List Nat) (hd : (d : Int) = ind + (if t then 0 else 1))
    (hacc : Call.accepted (.key k) = true) :
    key ⟨oss, ⟨false, false, t⟩ :: below, ind, false, false⟩ k =
      .ok ⟨oss ++ ((if t then [44] else []) ++ [10] ++ spaces (4 * d) ++ quoted k ++ [58, 32]),
        ⟨false, false, t⟩ :: below, d, true, false⟩ := by
  obtain ⟨hne, henc⟩ := m_encode_string_accepted
    ( m_prefix ⟨oss, ⟨false, false, t⟩ :: below, ind, false, false⟩) k hacc
  simp only [key, hne, henc, Bool.false_eq_true, if_false]
  rw [m_prefix_pretty oss false t below ind false d hd]
  simp [put]

end qjson.Encoder

namespace qjson.Encoder

mutual
/-- The calls of a value, made where a value may be added and the innermost open container,
if any, is pretty, append its layout at the indentation of `m_prefix`. -/
theorem layout_run : ∀ (v : Json) (e : Encoder) (n : Nat),
    (∀ c ∈ v.calls, c.accepted = true) → m_checkPre e = .ok () →
    (e.m_state = [] → e.m_isKey = false) → (∀ top ∈ e.m_state.head?, top.compact = false) →
    ( m_prefix e).m_indentation = (n : Int) →
    Encoder.run e v.calls = .ok ⟨( m_prefix e).m_oss ++ v.layout n, markContent e.m_state, n,
      false, e.m_state.isEmpty⟩
  | .scalar s, e, n, hacc, hpre, hsane, _, hind => by
    have := val_accepted e s (hacc _ (by simp [Json.calls])) hpre hsane
    simp only [Json.calls, Encoder.run, Encoder.call, this, Json.layout, hind]
  | .array xs, e, n, hacc, hpre, hsane, hpretty, hind => by
    have hopen := open_pretty e 91 true hpre hsane hpretty
    have hel := elems_run xs (( m_prefix e).m_oss ++ [91]) (markContent e.m_state) n false
      (n + 1) (fun c hc => hacc c (by simp [Json.calls, hc])) (by simp)
    simp only [Json.calls, Encoder.run, Encoder.call, Encoder.array, hopen, hind]
    rw [run_append_ok _ _ _ _ hel]
    cases xs with
    | nil =>
      have hend := end_pretty (( m_prefix e).m_oss ++ [91]) true false (markContent e.m_state) n
      simp only [Bool.false_eq_true, if_false] at hend
      simp [Encoder.run, Encoder.call, hend, Json.layout, Json.layoutElems, qc.json.DecodeHelper.markContent_isEmpty]
    | cons x xs =>
      have hend := end_pretty (( m_prefix e).m_oss ++ [91] ++
        Json.layoutElems (n + 1) true (x :: xs)) true true (markContent e.m_state) n
      simp only [if_true] at hend
      simp only [List.isEmpty_cons, Bool.not_false, Bool.or_true, Bool.false_eq_true, if_false,
        Encoder.run, Encoder.call, hend]
      simp [Json.layout, qc.json.DecodeHelper.markContent_isEmpty]
  | .object ms, e, n, hacc, hpre, hsane, hpretty, hind => by
    have hopen := open_pretty e 123 false hpre hsane hpretty
    have hel := members_run ms (( m_prefix e).m_oss ++ [123]) (markContent e.m_state) n false
      (n + 1) (fun c hc => hacc c (by simp [Json.calls, hc])) (by simp)
    simp only [Json.calls, Encoder.run, Encoder.call, Encoder.object, hopen, hind]
    rw [run_append_ok _ _ _ _ hel]
    cases ms with
    | nil =>
      have hend := end_pretty (( m_prefix e).m_oss ++ [123]) false false
        (markContent e.m_state) n
      simp only [Bool.false_eq_true, if_false] at hend
      simp [Encoder.run, Encoder.call, hend, Json.layout, Json.layoutMembers,
        qc.json.DecodeHelper.markContent_isEmpty]
    | cons m ms =>
      have hend := end_pretty (( m_prefix e).m_oss ++ [123] ++
        Json.layoutMembers (n + 1) true (m :: ms)) false true (markContent e.m_state) n
      simp only [if_true] at hend
      simp only [List.isEmpty_cons, Bool.not_false, Bool.or_true, Bool.false_eq_true, if_false,
        Encoder.run, Encoder.call, hend]
      simp [Json.layout, qc.json.DecodeHelper.markContent_isEmpty]
/-- The calls of the elements of a pretty array append their layout. -/
theorem elems_run : ∀ (xs : List Json) (oss : List Nat) (below : List m_State) (ind : Int)
    (t : Bool) (d : Nat), (∀ c ∈ Json.elemCalls xs, c.accepted = true) →
    (d : Int) = ind + (if t then 0 else 1) →
    Encoder.run ⟨oss, ⟨true, false, t⟩ :: below, ind, false, false⟩ (Json.elemCalls xs) =
      .ok ⟨oss ++ Json.layoutElems d (!t) xs, ⟨true, false, t || !xs.isEmpty⟩ :: below,
        if xs.isEmpty then ind else d, false, false⟩
  | [], oss, below, ind, t, d, _, _ => by
    simp [Json.elemCalls, Encoder.run, Json.layoutElems]
  | x :: xs, oss, below, ind, t, d, hacc, hd => by
    have hpfx := m_prefix_pretty oss true t below ind false d hd
    have hx := layout_run x ⟨oss, ⟨true, false, t⟩ :: below, ind, false, false⟩ d
      (fun c hc => hacc c (by simp [Json.elemCalls, hc])) rfl (by simp) (by simp)
      (by rw [hpfx])
    have hxs := elems_run xs (( m_prefix ⟨oss, ⟨true, false, t⟩ :: below, ind, false,
      false⟩).m_oss ++ x.layout d) below d true d
      (fun c hc => hacc c (by simp [Json.elemCalls, hc])) (by simp)
    simp only [Json.elemCalls]
    rw [run_append_ok _ _ _ _ hx]
    simp only [markContent, List.isEmpty_cons]
    rw [hxs, hpfx]
    cases t <;> cases xs <;> simp [Json.layoutElems]
/-- The calls of the members of a pretty object append their layout. -/
theorem members_run : ∀ (ms : List (List Nat × Json)) (oss : List Nat) (below : List m_State)
    (ind : Int) (t : Bool) (d : Nat), (∀ c ∈ Json.memberCalls ms, c.accepted = true) →
    (d : Int) = ind + (if t then 0 else 1) →
    Encoder.run ⟨oss, ⟨false, false, t⟩ :: below, ind, false, false⟩ (Json.memberCalls ms) =
      .ok ⟨oss ++ Json.layoutMembers d (!t) ms, ⟨false, false, t || !ms.isEmpty⟩ :: below,
        if ms.isEmpty then ind else d, false, false⟩
  | [], oss, below, ind, t, d, _, _ => by
    simp [Json.memberCalls, Encoder.run, Json.layoutMembers]
  | (k, x) :: ms, oss, below, ind, t, d, hacc, hd => by
    have hkey := key_pretty oss t below ind d k hd (hacc _ (by simp [Json.memberCalls]))
    have hx := layout_run x ⟨oss ++ ((if t then [44] else []) ++ [10] ++ spaces (4 * d) ++
        quoted k ++ [58, 32]), ⟨false, false, t⟩ :: below, d, true, false⟩ d
      (fun c hc => hacc c (by simp [Json.memberCalls, hc])) rfl (by simp) (by simp)
      (by simp [ m_prefix])
    have hms := members_run ms (oss ++ ((if t then [44] else []) ++ [10] ++ spaces (4 * d) ++
        quoted k ++ [58, 32]) ++ x.layout d) below d true d
      (fun c hc => hacc c (by simp [Json.memberCalls, hc])) (by simp)
    simp only [Json.memberCalls, Encoder.run, Encoder.call, hkey]
    rw [run_append_ok _ _ _ _ hx]
    simp only [markContent, List.isEmpty_cons, m_prefix]
    rw [hms]
    cases t <;> cases ms <;> simp [Json.layoutMembers]
end

end qjson.Encoder

namespace qjson

/-- The calls of a successful run carry only strings the encoder accepts. -/
theorem run_accepted (cs : List Call) (e e1 : Encoder) (h : Encoder.run e cs = .ok e1) :
    ∀ c ∈ cs, c.accepted = true := by
  induction cs generalizing e with
  | nil => simp
  | cons c cs ih =>
    obtain ⟨e2, hcall, hrun2⟩ := Encoder.run_cons c cs e e1 h
    intro x hx
    simp only [List.mem_cons] at hx
    rcases hx with rfl | hx
    · cases x with
      | val v =>
        obtain ⟨_, hascii, _⟩ := Encoder.val_ok_eq e e2 v hcall
        cases v with
        | string s =>
          simp only [Call.accepted, List.all_eq_true, decide_eq_true_eq]
          exact hascii s rfl
        | int64 i => rfl
        | double t => rfl
        | bool b => rfl
        | null => rfl
      | key k =>
        obtain ⟨_, _, hne, hascii, _⟩ := Encoder.key_ok_eq e e2 k hcall
        simp only [Call.accepted, Bool.and_eq_true, Bool.not_eq_true', List.all_eq_true,
          decide_eq_true_eq]
        refine ⟨?_, hascii⟩
        cases k with
        | nil => exact absurd rfl hne
        | cons a b => rfl
      | object c => rfl
      | array c => rfl
      | end_ => rfl
    · exact ih e2 hrun2 x hx

theorem elemCalls_of_trees (vs : List (List Call))
    (h : ∀ v ∈ vs, ∃ t : Json, t.calls = v) : ∃ ts, Json.elemCalls ts = vs.flatten := by
  induction vs with
  | nil => exact ⟨[], by simp [Json.elemCalls]⟩
  | cons v vs ih =>
    obtain ⟨t, ht⟩ := h v (by simp)
    obtain ⟨ts, hts⟩ := ih (fun x hx => h x (by simp [hx]))
    exact ⟨t :: ts, by simp [Json.elemCalls, ht, hts]⟩

theorem memberCalls_of_trees (ms : List (List Nat × List Call))
    (h : ∀ m ∈ ms, ∃ t : Json, t.calls = m.2) :
    ∃ ts, Json.memberCalls ts = (ms.map (fun m => Call.key m.1 :: m.2)).flatten := by
  induction ms with
  | nil => exact ⟨[], by simp [Json.memberCalls]⟩
  | cons m ms ih =>
    obtain ⟨t, ht⟩ := h m (by simp)
    obtain ⟨ts, hts⟩ := ih (fun x hx => h x (by simp [hx]))
    exact ⟨(m.1, t) :: ts, by simp [Json.memberCalls, ht, hts]⟩

/-- The calls of one value, all of them pretty, are the calls of a tree. -/
theorem tree_of_isValue (cs : List Call) (hv : IsValue cs) (hp : ∀ c ∈ cs, Pretty c = true) :
    ∃ t : Json, t.calls = cs := by
  induction hv with
  | scalar s => exact ⟨.scalar s, rfl⟩
  | array compact vs h ih =>
    have hc : compact = false := by simpa [Pretty] using hp (.array compact) (by simp)
    subst hc
    obtain ⟨ts, hts⟩ := elemCalls_of_trees vs (fun v hv' => ih v hv' (fun c hc' =>
      hp c (List.mem_cons_of_mem _ (List.mem_append_left _
        (List.mem_flatten_of_mem hv' hc')))))
    exact ⟨.array ts, by simp [Json.calls, hts]⟩
  | object compact ms h ih =>
    have hc : compact = false := by simpa [Pretty] using hp (.object compact) (by simp)
    subst hc
    obtain ⟨ts, hts⟩ := memberCalls_of_trees ms (fun m hm => ih m hm (fun c hc' =>
      hp c (List.mem_cons_of_mem _ (List.mem_append_left _
        (List.mem_flatten_of_mem (List.mem_map_of_mem _ hm)
          (List.mem_cons_of_mem _ hc'))))))
    exact ⟨.object ts, by simp [Json.calls, hts]⟩

/-- The document of the calls of a tree is its layout. -/
theorem encode_layout (t : Json) (hacc : ∀ c ∈ t.calls, c.accepted = true) :
    encode t.calls = .ok (t.layout 0) := by
  have := Encoder.layout_run t Encoder.fresh 0 hacc rfl (fun _ => rfl) (by simp [Encoder.fresh])
    rfl
  simp only [encode, this]
  rfl

end qjson

/-! ## Quoted strings with escapes -/

theorem hexDigitValue_eq (c : Nat) (h : isxdigit c = true) : hexDigitValue c = qc.json.hexValue c := by
  simp only [isxdigit, isdigit, Bool.or_eq_true, Bool.and_eq_true, decide_eq_true_eq] at h
  simp only [hexDigitValue, qc.json.hexValue, isdigit, Bool.and_eq_true, decide_eq_true_eq]
  split_ifs <;> omega

theorem from_chars_hex_four (h1 h2 h3 h4 : Nat) (x1 : isxdigit h1 = true)
    (x2 : isxdigit h2 = true) (x3 : isxdigit h3 = true) (x4 : isxdigit h4 = true) :
    from_chars_hex [h1, h2, h3, h4] = .ok (qc.json.unicodeValue h1 h2 h3 h4) := by
  simp only [from_chars_hex, List.takeWhile, x1, x2, x3, x4, List.isEmpty_cons,
    Bool.false_eq_true, if_false, List.foldl, hexDigitValue_eq, qc.json.unicodeValue]
  congr 1
  omega

theorem and_mask_of_lt : ∀ v, v < 128 → v &&& 0xFFFFFF80 = 0 := by
  decide

namespace qc.json.DecodeHelper

/-- One piece of the content of a string is read as the byte it denotes. -/
theorem m_consumeString_loop_piece (p : Piece) (hp : p.valid = true) (fuel sz : Nat)
    (tail : List Nat) (evs : List Event) (buffer : List Nat) :
    m_consumeString_loop (fuel + 1) ⟨sz, p.text ++ tail, evs⟩ buffer =
      m_consumeString_loop fuel ⟨sz, tail, evs⟩ (buffer ++ [p.byte]) := by
  cases p with
  | plain c =>
    simp only [Piece.valid, decide_eq_true_eq] at hp
    have h3 : isprint c = true := by simp [isprint, hp.1, hp.2.1]
    simp [m_consumeString_loop, Piece.text, Piece.byte, hp.2.2.1, hp.2.2.2, h3]
  | short letter =>
    simp only [Piece.valid, decide_eq_true_eq, List.mem_cons, List.mem_singleton,
      List.not_mem_nil, or_false] at hp
    rcases hp with rfl | rfl | rfl | rfl | rfl | rfl | rfl | rfl <;>
      simp [m_consumeString_loop, Piece.text, Piece.byte, m_consumeEscaped]
  | unicode h1 h2 h3 h4 =>
    simp only [Piece.valid, Bool.and_eq_true, decide_eq_true_eq] at hp
    obtain ⟨⟨⟨⟨x1, x2⟩, x3⟩, x4⟩, hlt⟩ := hp
    have hfc := from_chars_hex_four h1 h2 h3 h4 x1 x2 x3 x4
    have hmask := and_mask_of_lt _ hlt
    have hl : ¬ (tail.length + 1 + 1 + 1 + 1 < 4) := by omega
    simp [m_consumeString_loop, Piece.text, Piece.byte, m_consumeEscaped, m_consumeUnicode,
      hfc, hmask, hl]

theorem m_consumeString_loop_pieces (content : List Piece) (hc : ∀ p ∈ content, p.valid = true)
    (fuel sz : Nat) (hfuel : content.length < fuel) (rest : List Nat) (evs : List Event)
    (buffer : List Nat) :
    m_consumeString_loop fuel ⟨sz, (content.map Piece.text).flatten ++ 34 :: rest, evs⟩ buffer =
      .ok (buffer ++ content.map Piece.byte, ⟨sz, rest, evs⟩) := by
  induction content generalizing fuel buffer with
  | nil =>
    obtain ⟨n, rfl⟩ : ∃ n, fuel = n + 1 := ⟨fuel - 1, by simp at hfuel; omega⟩
    simp [m_consumeString_loop]
  | cons p content ih =>
    obtain ⟨n, rfl⟩ : ∃ n, fuel = n + 1 := ⟨fuel - 1, by simp at hfuel; omega⟩
    have hlen : content.length < n := by simp at hfuel; omega
    simp only [List.map_cons, List.flatten_cons, List.append_assoc]
    rw [m_consumeString_loop_piece p (hc p (by simp)),
      ih (fun x hx => hc x (by simp [hx])) n hlen]
    simp

theorem text_length_pos (p : Piece) : 1 ≤ p.text.length := by
  cases p <;> simp [Piece.text]

theorem length_le_flatten_text (content : List Piece) :
    content.length ≤ ((content.map Piece.text).flatten).length := by
  induction content with
  | nil => simp
  | cons p content ih =>
    have := text_length_pos p
    simp only [List.map_cons, List.flatten_cons, List.length_append, List.length_cons]
    omega

theorem m_consumeString_token (content : List Piece) (hc : ∀ p ∈ content, p.valid = true)
    (sz : Nat) (rest : List Nat) (evs : List Event) :
    m_consumeString ⟨sz, stringToken content ++ rest, evs⟩ =
      .ok (content.map Piece.byte, ⟨sz, rest, evs⟩) := by
  have h := length_le_flatten_text content
  have := m_consumeString_loop_pieces content hc ((stringToken content ++ rest).length) sz
    (by simp only [stringToken, List.length_append, List.length_cons, List.length_nil]; omega)
    rest evs []
  simpa [m_consumeString, stringToken] using this

end qc.json.DecodeHelper

/-! ## Number tokens that start with an integer part -/

namespace qc.json

open DecodeHelper

theorem m_ingestValue_number (neg : Bool) (d0 : Nat) (dt tail : List Nat)
    (hd0 : isdigit d0 = true) (fuel sz : Nat) (pre : List Event) :
    m_ingestValue (fuel + 1) ⟨sz, integerToken neg (d0 :: dt) ++ tail, pre⟩ =
      m_ingestNumber ⟨sz, integerToken neg (d0 :: dt) ++ tail, pre⟩ := by
  have hd : 48 ≤ d0 ∧ d0 ≤ 57 := by simpa [isdigit] using hd0
  cases neg with
  | false =>
    have h1 : d0 ≠ 123 ∧ d0 ≠ 91 ∧ d0 ≠ 34 := by omega
    simp [integerToken, m_ingestValue, h1, hd0]
  | true =>
    have h45 : isdigit 45 = false := by decide
    simp [integerToken, m_ingestValue, h45, hd0]

theorem integerToken_span (neg : Bool) (d0 : Nat) (dt tail : List Nat)
    (hds : ∀ c ∈ d0 :: dt, isdigit c = true) (htail : ∀ c ∈ tail.head?, isdigit c = false) :
    ((integerToken neg (d0 :: dt) ++ tail).drop 1).dropWhile isdigit = tail ∧
      ((integerToken neg (d0 :: dt) ++ tail).head? == some 45) = neg ∧
      ((if neg then (integerToken neg (d0 :: dt) ++ tail).drop 1
        else integerToken neg (d0 :: dt) ++ tail).takeWhile isdigit = d0 :: dt) ∧
      ((if neg then (integerToken neg (d0 :: dt) ++ tail).drop 1
        else integerToken neg (d0 :: dt) ++ tail).dropWhile isdigit = tail) := by
  obtain ⟨h1, h2⟩ := takeWhile_digits (d0 :: dt) tail hds htail
  obtain ⟨_, h4⟩ := takeWhile_digits dt tail (fun c hc => hds c (by simp [hc])) htail
  have hd : 48 ≤ d0 ∧ d0 ≤ 57 := by simpa [isdigit] using hds d0 (by simp)
  have h45 : d0 ≠ 45 := by omega
  simp only [List.cons_append] at h1 h2
  cases neg with
  | true => simp [integerToken, h1, h2]
  | false => simp [integerToken, h1, h2, h4, h45]

/-- The result of `std::from_chars` for the integer type `m_ingestNumber` chooses. -/
theorem from_chars_integer_token (neg : Bool) (d0 : Nat) (dt tail : List Nat)
    (hds : ∀ c ∈ d0 :: dt, isdigit c = true) (htail : ∀ c ∈ tail.head?, isdigit c = false) :
    from_chars_integer neg (integerToken neg (d0 :: dt) ++ tail) =
      if -(2 ^ 63) ≤ integerValue neg (d0 :: dt) ∧ integerValue neg (d0 :: dt) ≤ 2 ^ 64 - 1 ∧
          (neg = true → integerValue neg (d0 :: dt) ≤ 2 ^ 63 - 1) then
        .ok (integerValue neg (d0 :: dt), tail)
      else .error .result_out_of_range := by
  obtain ⟨_, h2, h3, h4⟩ := integerToken_span neg d0 dt tail hds htail
  have hnn : (0 : Int) ≤ (digitsValue (d0 :: dt) : Int) := Int.ofNat_nonneg _
  cases neg with
  | true =>
    simp only [if_true] at h3 h4
    simp only [from_chars_integer, h2, Bool.and_self, if_true, h3, h4, List.isEmpty_cons,
      Bool.false_eq_true, if_false, integerValue]
    by_cases hr : -(digitsValue (d0 :: dt) : Int) < -(2 ^ 63) ∨
        2 ^ 63 - 1 < -(digitsValue (d0 :: dt) : Int)
    · rw [if_pos hr, if_neg (by omega)]
    · rw [if_neg hr, if_pos (by omega)]
  | false =>
    simp only [Bool.false_eq_true, if_false] at h3 h4
    simp only [from_chars_integer, Bool.false_and, Bool.false_eq_true, if_false, h3, h4,
      List.isEmpty_cons, integerValue]
    by_cases hr : 2 ^ 64 - 1 < (digitsValue (d0 :: dt) : Int)
    · rw [if_pos hr, if_neg (by omega)]
    · rw [if_neg hr, if_pos (by
        refine ⟨by omega, by omega, ?_⟩
        intro h; cases h)]

/-- The result of `std::from_chars` for `double` on a text that starts with an integer
part: the body of `from_chars_double` after the integer digits. -/
theorem from_chars_double_token (neg : Bool) (d0 : Nat) (dt tail : List Nat)
    (hds : ∀ c ∈ d0 :: dt, isdigit c = true) (htail : ∀ c ∈ tail.head?, isdigit c = false) :
    from_chars_double (integerToken neg (d0 :: dt) ++ tail) =
      if doubleOverflows (digitsValue (d0 :: dt ++ (scanFraction tail).2.1))
            ((scanExponent (scanFraction tail).2.2).1.getD 0 -
              ((scanFraction tail).2.1.length : Int)) ||
          doubleUnderflows (digitsValue (d0 :: dt ++ (scanFraction tail).2.1))
            ((scanExponent (scanFraction tail).2.2).1.getD 0 -
              ((scanFraction tail).2.1.length : Int)) then
        .error .result_out_of_range
      else
        .ok (.decimal neg (digitsValue (d0 :: dt ++ (scanFraction tail).2.1))
            ((scanExponent (scanFraction tail).2.2).1.getD 0 -
              ((scanFraction tail).2.1.length : Int)),
          (scanExponent (scanFraction tail).2.2).2,
          (scanFraction tail).1 && (scanFraction tail).2.1.isEmpty &&
            (scanExponent (scanFraction tail).2.2).1.isNone) := by
  obtain ⟨_, h2, h3, h4⟩ := integerToken_span neg d0 dt tail hds htail
  simp only [from_chars_double, h2]
  have h3' : (if neg = true then (integerToken neg (d0 :: dt) ++ tail).drop 1
      else integerToken neg (d0 :: dt) ++ tail).takeWhile isdigit = d0 :: dt := h3
  have h4' : (if neg = true then (integerToken neg (d0 :: dt) ++ tail).drop 1
      else integerToken neg (d0 :: dt) ++ tail).dropWhile isdigit = tail := h4
  rw [h3', h4']
  simp only [List.isEmpty_cons, Bool.false_and, Bool.false_eq_true, if_false]

theorem m_isInteger_token (neg : Bool) (d0 : Nat) (dt tail : List Nat)
    (hds : ∀ c ∈ d0 :: dt, isdigit c = true) (htail : ∀ c ∈ tail.head?, isdigit c = false)
    (sz : Nat) (pre : List Event) :
    m_isInteger ⟨sz, integerToken neg (d0 :: dt) ++ tail, pre⟩ =
      (match tail with
      | [] => true
      | c :: pos =>
        if c = 46 then
          match pos.dropWhile (fun c1 => c1 = 48) with
          | [] => true
          | c1 :: _ => !(isdigit c1 || c1 = 101 || c1 = 69)
        else if c = 101 ∨ c = 69 then false
        else true) := by
  obtain ⟨h1, _⟩ := integerToken_span neg d0 dt tail hds htail
  simp only [m_isInteger, h1]
  cases tail <;> rfl

theorem m_ingestNumber_head (neg : Bool) (d0 : Nat) (dt tail : List Nat)
    (hds : ∀ c ∈ d0 :: dt, isdigit c = true) (sz : Nat) (pre : List Event) :
    m_ingestNumber ⟨sz, integerToken neg (d0 :: dt) ++ tail, pre⟩ =
      if m_isInteger ⟨sz, integerToken neg (d0 :: dt) ++ tail, pre⟩ then
        m_ingestInteger neg ⟨sz, integerToken neg (d0 :: dt) ++ tail, pre⟩
      else m_ingestFloater ⟨sz, integerToken neg (d0 :: dt) ++ tail, pre⟩ := by
  have hd : 48 ≤ d0 ∧ d0 ≤ 57 := by simpa [isdigit] using hds d0 (by simp)
  have h45 : d0 ≠ 45 := by omega
  cases neg with
  | true => simp [m_ingestNumber, integerToken]
  | false => simp [m_ingestNumber, integerToken, h45]

end qc.json

/-! ## Unsigned values reported by the decoder -/

namespace qc.json.DecodeHelper

theorem m_consumeEscaped_composer (d d1 : DecodeHelper) (c : Nat)
    (h : m_consumeEscaped d = .ok (c, d1)) : d1.m_composer = d.m_composer := by
  simp only [m_consumeEscaped] at h
  split at h
  · simp [fail] at h
  · split_ifs at h <;>
      first
      | (simp only [Except.ok.injEq, Prod.mk.injEq] at h; rw [← h.2]; rfl)
      | (simp only [m_consumeUnicode] at h
         split_ifs at h
         · simp [fail] at h
         · split at h
           · simp [fail] at h
           · split_ifs at h
             · simp [fail] at h
             · simp only [Except.ok.injEq, Prod.mk.injEq] at h
               rw [← h.2]; rfl)

theorem m_consumeString_loop_composer (fuel : Nat) (d d1 : DecodeHelper) (buf s : List Nat)
    (h : m_consumeString_loop fuel d buf = .ok (s, d1)) : d1.m_composer = d.m_composer := by
  induction fuel generalizing d buf with
  | zero => simp [m_consumeString_loop] at h
  | succ fuel ih =>
    simp only [m_consumeString_loop] at h
    split at h
    · simp [fail] at h
    · split_ifs at h
      · simp only [Except.ok.injEq, Prod.mk.injEq] at h
        rw [← h.2]; rfl
      · cases hesc : m_consumeEscaped (d.advance 1) with
        | error err => simp [hesc] at h
        | ok r =>
          obtain ⟨c1, d2⟩ := r
          simp only [hesc] at h
          rw [ih d2 _ h, m_consumeEscaped_composer _ _ _ hesc]
          rfl
      · rw [ih _ _ h]; rfl
      · simp [fail] at h

theorem m_consumeString_composer (d d1 : DecodeHelper) (s : List Nat)
    (h : m_consumeString d = .ok (s, d1)) : d1.m_composer = d.m_composer := by
  rw [m_consumeString_loop_composer _ _ _ _ _ h]
  rfl

theorem unsignedInRange_append (evs : List Event) (ev : Event) (h : UnsignedInRange evs)
    (hev : ∀ v, ev = .val_uint64 v → 2 ^ 63 ≤ v ∧ v ≤ 2 ^ 64 - 1) :
    UnsignedInRange (evs ++ [ev]) := by
  intro v hv
  simp only [List.mem_append, List.mem_singleton] at hv
  rcases hv with hv | hv
  · exact h v hv
  · exact hev v hv.symm

theorem m_ingestFloater_unsigned (d d1 : DecodeHelper) (h : m_ingestFloater d = .ok d1)
    (hP : UnsignedInRange d.m_composer) : UnsignedInRange d1.m_composer := by
  simp only [m_ingestFloater] at h
  split at h
  · simp [fail] at h
  · split_ifs at h
    · simp [fail] at h
    · simp only [Except.ok.injEq] at h
      rw [← h]
      exact unsignedInRange_append _ _ hP (fun v hv => by cases hv)

theorem from_chars_integer_unsigned_range (s : List Nat) (val : Int) (ptr : List Nat)
    (h : from_chars_integer false s = .ok (val, ptr)) : val ≤ 2 ^ 64 - 1 := by
  simp only [from_chars_integer, Bool.false_and, Bool.false_eq_true, if_false] at h
  split_ifs at h with h1 h2
  simp only [Except.ok.injEq, Prod.mk.injEq] at h
  omega

theorem m_ingestInteger_unsigned (isSigned : Bool) (d d1 : DecodeHelper)
    (h : m_ingestInteger isSigned d = .ok d1) (hP : UnsignedInRange d.m_composer) :
    UnsignedInRange d1.m_composer := by
  simp only [m_ingestInteger] at h
  split at h
  · exact m_ingestFloater_unsigned d d1 h hP
  · simp [fail] at h
  · rename_i val ptr hfc
    have hcomp : ∀ d3 : DecodeHelper,
        (match ({ d with m_pos := ptr } : DecodeHelper).m_pos with
          | 46 :: _ =>
            match (advance { d with m_pos := ptr } 1).m_pos with
            | 48 :: _ => (.ok { advance { d with m_pos := ptr } 1 with
                m_pos := ((advance { d with m_pos := ptr } 1).m_pos.drop 1).dropWhile
                  (fun c => c = 48) } : Throws DecodeHelper)
            | _ => (advance { d with m_pos := ptr } 1).fail .danglingDecimalPoint
          | _ => .ok { d with m_pos := ptr }) = .ok d3 → d3.m_composer = d.m_composer := by
      intro d3 h3
      split at h3
      · split at h3
        · simp only [Except.ok.injEq] at h3
          rw [← h3]; rfl
        · simp [fail] at h3
      · simp only [Except.ok.injEq] at h3
        rw [← h3]
    split at h
    · cases h
    · rename_i d3 h3
      have hc := hcomp d3 h3
      split_ifs at h with h1 h2
      · simp only [Except.ok.injEq] at h
        rw [← h]
        exact unsignedInRange_append _ _ (by rw [hc]; exact hP) (fun v hv => by cases hv)
      · simp only [Except.ok.injEq] at h
        rw [← h]
        exact unsignedInRange_append _ _ (by rw [hc]; exact hP) (fun v hv => by cases hv)
      · simp only [Except.ok.injEq] at h
        rw [← h]
        refine unsignedInRange_append _ _ (by rw [hc]; exact hP) ?_
        intro v hv
        simp only [Event.val_uint64.injEq] at hv
        subst hv
        have hs : isSigned = false := by simpa using h2
        subst hs
        have := from_chars_integer_unsigned_range _ _ _ hfc
        simp only [Bool.not_false, Bool.true_and, decide_eq_true_eq] at h1
        omega

theorem m_ingestNumber_unsigned (d d1 : DecodeHelper) (h : m_ingestNumber d = .ok d1)
    (hP : UnsignedInRange d.m_composer) : UnsignedInRange d1.m_composer := by
  simp only [m_ingestNumber] at h
  split_ifs at h
  · exact m_ingestInteger_unsigned _ d d1 h hP
  · exact m_ingestInteger_unsigned _ d d1 h hP
  · exact m_ingestFloater_unsigned d d1 h hP

end qc.json.DecodeHelper

namespace qc.json.DecodeHelper

theorem m_tryConsumeChars_composer (d : DecodeHelper) (str : List Nat) :
    (m_tryConsumeChars d str).2.m_composer = d.m_composer := by
  simp only [m_tryConsumeChars]
  split_ifs <;> rfl

theorem m_tryConsumeChar_composer (d : DecodeHelper) (c : Nat) :
    (m_tryConsumeChar d c).2.m_composer = d.m_composer := by
  simp only [m_tryConsumeChar]
  split
  · split_ifs <;> rfl
  · rfl

theorem m_consumeChar_composer (d d1 : DecodeHelper) (c : Nat)
    (h : m_consumeChar d c = .ok d1) : d1.m_composer = d.m_composer := by
  have h0 := m_tryConsumeChar_composer d c
  simp only [m_consumeChar] at h
  split at h
  · rename_i d2 heq
    simp only [Except.ok.injEq] at h
    rw [← h, ← h0, heq]
  · simp [fail] at h

theorem m_ingestLiteral_unsigned (d d1 : DecodeHelper) (h : m_ingestLiteral d = .ok d1)
    (hP : UnsignedInRange d.m_composer) : UnsignedInRange d1.m_composer := by
  have key : ∀ (str : List Nat) (d2 : DecodeHelper) (ev : Event),
      m_tryConsumeChars d str = (true, d2) → (∀ v, ev ≠ .val_uint64 v) →
      UnsignedInRange (d2.compose ev).m_composer := by
    intro str d2 ev h2 hev
    have := m_tryConsumeChars_composer d str
    rw [h2] at this
    simp only at this
    simp only [compose, this]
    exact unsignedInRange_append _ _ hP (fun v hv => absurd hv (hev v))
  simp only [m_ingestLiteral] at h
  split at h
  · rename_i d2 h2
    simp only [Except.ok.injEq] at h
    rw [← h]; exact key _ _ _ h2 (fun v hv => by cases hv)
  · split at h
    · rename_i d2 h2
      simp only [Except.ok.injEq] at h
      rw [← h]; exact key _ _ _ h2 (fun v hv => by cases hv)
    · split at h
      · rename_i d2 h2
        simp only [Except.ok.injEq] at h
        rw [← h]; exact key _ _ _ h2 (fun v hv => by cases hv)
      · split at h
        · rename_i d2 h2
          simp only [Except.ok.injEq] at h
          rw [← h]; exact key _ _ _ h2 (fun v hv => by cases hv)
        · split at h
          · rename_i d2 h2
            simp only [Except.ok.injEq] at h
            rw [← h]; exact key _ _ _ h2 (fun v hv => by cases hv)
          · simp [fail] at h

theorem m_ingestArray_loop_unsigned (f : DecodeHelper → Throws DecodeHelper)
    (hf : ∀ d d1, f d = .ok d1 → UnsignedInRange d.m_composer → UnsignedInRange d1.m_composer)
    (fuel : Nat) (d d1 : DecodeHelper) (h : m_ingestArray_loop f fuel d = .ok d1)
    (hP : UnsignedInRange d.m_composer) : UnsignedInRange d1.m_composer := by
  induction fuel generalizing d with
  | zero => simp [m_ingestArray_loop] at h
  | succ fuel ih =>
    simp only [m_ingestArray_loop] at h
    cases hv : f d with
    | error err => simp [hv] at h
    | ok d2 =>
      have h2 := hf d d2 hv hP
      simp only [hv] at h
      have ht := m_tryConsumeChar_composer (m_skipWhitespace d2) 93
      split at h
      · rename_i d3 h3
        simp only [Except.ok.injEq] at h
        rw [h3] at ht
        rw [← h, ht]
        exact h2
      · cases hc : m_consumeChar (m_skipWhitespace d2) 44 with
        | error err => simp [hc] at h
        | ok d4 =>
          simp only [hc] at h
          have h4 := m_consumeChar_composer _ _ _ hc
          exact ih (m_skipWhitespace d4) h (by
            show UnsignedInRange d4.m_composer
            rw [h4]; exact h2)

theorem m_ingestArray_unsigned (f : DecodeHelper → Throws DecodeHelper)
    (hf : ∀ d d1, f d = .ok d1 → UnsignedInRange d.m_composer → UnsignedInRange d1.m_composer)
    (d d1 : DecodeHelper) (h : m_ingestArray f d = .ok d1)
    (hP : UnsignedInRange d.m_composer) : UnsignedInRange d1.m_composer := by
  have h0 : UnsignedInRange (m_skipWhitespace ((d.compose .array).advance 1)).m_composer :=
    unsignedInRange_append _ _ hP (fun v hv => by cases hv)
  have ht := m_tryConsumeChar_composer (m_skipWhitespace ((d.compose .array).advance 1)) 93
  simp only [m_ingestArray] at h
  split at h
  · rename_i d2 h2
    simp only [Except.ok.injEq] at h
    rw [h2] at ht
    rw [← h]
    refine unsignedInRange_append _ _ ?_ (fun v hv => by cases hv)
    simp only at ht
    rw [ht]; exact h0
  · split at h
    · cases h
    · rename_i d2 h2
      simp only [Except.ok.injEq] at h
      rw [← h]
      exact unsignedInRange_append _ _ (m_ingestArray_loop_unsigned f hf _ _ _ h2 h0)
        (fun v hv => by cases hv)

theorem m_ingestObject_loop_unsigned (f : DecodeHelper → Throws DecodeHelper)
    (hf : ∀ d d1, f d = .ok d1 → UnsignedInRange d.m_composer → UnsignedInRange d1.m_composer)
    (fuel : Nat) (d d1 : DecodeHelper) (h : m_ingestObject_loop f fuel d = .ok d1)
    (hP : UnsignedInRange d.m_composer) : UnsignedInRange d1.m_composer := by
  induction fuel generalizing d with
  | zero => simp [m_ingestObject_loop] at h
  | succ fuel ih =>
    simp only [m_ingestObject_loop] at h
    split at h
    · cases h
    · split_ifs at h
      · simp [fail] at h
      · cases hs : m_consumeString d with
        | error err => simp [hs] at h
        | ok r =>
          obtain ⟨key, d2⟩ := r
          have h2 := m_consumeString_composer d d2 key hs
          simp only [hs] at h
          split_ifs at h
          · simp [fail] at h
          · cases hc : m_consumeChar (m_skipWhitespace (d2.compose (.key key))) 58 with
            | error err => simp [hc] at h
            | ok d3 =>
              have h3 := m_consumeChar_composer _ _ _ hc
              simp only [hc] at h
              cases hv : f (m_skipWhitespace d3) with
              | error err => simp [hv] at h
              | ok d4 =>
                have hP3 : UnsignedInRange d3.m_composer := by
                  rw [h3]
                  show UnsignedInRange (d2.m_composer ++ [.key key])
                  rw [h2]
                  exact unsignedInRange_append _ _ hP (fun v hv => by cases hv)
                have h4 := hf _ d4 hv hP3
                simp only [hv] at h
                have ht := m_tryConsumeChar_composer (m_skipWhitespace d4) 125
                split at h
                · rename_i d5 h5
                  simp only [Except.ok.injEq] at h
                  rw [h5] at ht
                  rw [← h, ht]
                  exact h4
                · cases hc2 : m_consumeChar (m_skipWhitespace d4) 44 with
                  | error err => simp [hc2] at h
                  | ok d6 =>
                    simp only [hc2] at h
                    have h6 := m_consumeChar_composer _ _ _ hc2
                    exact ih (m_skipWhitespace d6) h (by
                      show UnsignedInRange d6.m_composer
                      rw [h6]; exact h4)

theorem m_ingestObject_unsigned (f : DecodeHelper → Throws DecodeHelper)
    (hf : ∀ d d1, f d = .ok d1 → UnsignedInRange d.m_composer → UnsignedInRange d1.m_composer)
    (d d1 : DecodeHelper) (h : m_ingestObject f d = .ok d1)
    (hP : UnsignedInRange d.m_composer) : UnsignedInRange d1.m_composer := by
  have h0 : UnsignedInRange (m_skipWhitespace ((d.compose .object).advance 1)).m_composer :=
    unsignedInRange_append _ _ hP (fun v hv => by cases hv)
  have ht := m_tryConsumeChar_composer (m_skipWhitespace ((d.compose .object).advance 1)) 125
  simp only [m_ingestObject] at h
  split at h
  · rename_i d2 h2
    simp only [Except.ok.injEq] at h
    rw [h2] at ht
    rw [← h]
    refine unsignedInRange_append _ _ ?_ (fun v hv => by cases hv)
    simp only at ht
    rw [ht]; exact h0
  · split at h
    · cases h
    · rename_i d2 h2
      simp only [Except.ok.injEq] at h
      rw [← h]
      exact unsignedInRange_append _ _ (m_ingestObject_loop_unsigned f hf _ _ _ h2 h0)
        (fun v hv => by cases hv)

theorem m_ingestValue_unsigned (fuel : Nat) (d d1 : DecodeHelper)
    (h : m_ingestValue fuel d = .ok d1) (hP : UnsignedInRange d.m_composer) :
    UnsignedInRange d1.m_composer := by
  induction fuel generalizing d d1 with
  | zero => simp [m_ingestValue] at h
  | succ fuel ih =>
    simp only [m_ingestValue] at h
    split at h
    · simp [fail] at h
    · split_ifs at h
      · exact m_ingestObject_unsigned _ (fun a b => ih a b) d d1 h hP
      · exact m_ingestArray_unsigned _ (fun a b => ih a b) d d1 h hP
      · simp only [m_ingestString] at h
        cases hs : m_consumeString d with
        | error err => simp [hs] at h
        | ok r =>
          obtain ⟨v, d2⟩ := r
          simp only [hs, Except.ok.injEq] at h
          rw [← h]
          show UnsignedInRange (d2.m_composer ++ [.val_string v])
          rw [m_consumeString_composer d d2 v hs]
          exact unsignedInRange_append _ _ hP (fun v hv => by cases hv)
      · exact m_ingestNumber_unsigned d d1 h hP
      · exact m_ingestNumber_unsigned d d1 h hP
      · split at h
        · rename_i d2 h2
          simp only [Except.ok.injEq] at h
          have := m_tryConsumeChars_composer d [45, 105, 110, 102]
          rw [h2] at this
          simp only at this
          rw [← h]
          show UnsignedInRange (d2.m_composer ++ [_])
          rw [this]
          exact unsignedInRange_append _ _ hP (fun v hv => by cases hv)
        · exact m_ingestLiteral_unsigned d d1 h hP
      · exact m_ingestLiteral_unsigned d d1 h hP

/-- Every unsigned value `decode` reports has its top bit set. -/
theorem decode_unsigned (json : List Nat) (evs : List Event) (h : decode json = .ok evs) :
    UnsignedInRange evs := by
  simp only [decode, run] at h
  split at h
  · cases h
  · rename_i d hd
    split at hd
    · cases hd
    · rename_i d1 h1
      split_ifs at hd
      · simp [fail] at hd
      · simp only [Except.ok.injEq] at hd h
        rw [← h, ← hd]
        exact m_ingestValue_unsigned _ _ d1 h1 (by intro v hv; simp [m_skipWhitespace] at hv)

end qc.json.DecodeHelper

/-! ## How a number token is classified and read -/

theorem scanFraction_of_head (s : List Nat) (h : ∀ c ∈ s.head?, c ≠ 46) :
    scanFraction s = (false, [], s) := by
  cases s with
  | nil => rfl
  | cons c tl =>
    have := h c (by simp)
    simp [scanFraction, this]

theorem scanExponent_of_head (s : List Nat) (h : ∀ c ∈ s.head?, c ≠ 101 ∧ c ≠ 69) :
    scanExponent s = (none, s) := by
  cases s with
  | nil => simp [scanExponent]
  | cons c tl =>
    have := h c (by simp)
    simp [scanExponent, this.1, this.2]

theorem scanFraction_point (s : List Nat) (h : ∀ c ∈ s.head?, isdigit c = false) :
    scanFraction (46 :: s) = (true, [], s) := by
  cases s with
  | nil => simp [scanFraction]
  | cons c tl =>
    have := h c (by simp)
    simp [scanFraction, List.takeWhile, List.dropWhile, this]

theorem scanExponent_no_digits (s : List Nat) (h : qc.json.exponentDigits s = false) :
    scanExponent s = (none, s) := by
  cases s with
  | nil => simp [scanExponent]
  | cons c tl =>
    cases tl with
    | nil => simp [scanExponent]
    | cons c2 tl2 =>
      rw [scanExponent_cons_cons]
      simp only [qc.json.exponentDigits] at h
      have hemp : ((if c2 = 45 ∨ c2 = 43 then tl2 else c2 :: tl2).takeWhile isdigit).isEmpty =
          true := by
        split_ifs at h ⊢ with hs
        · cases tl2 with
          | nil => rfl
          | cons a b =>
            simp only [List.head?_cons, Option.any_some] at h
            simp [List.takeWhile, h]
        · simp [List.takeWhile, h]
      rw [if_neg (by simp [hemp])]

theorem dropWhile_zeros (k c : Nat) (t : List Nat) (hc : c ≠ 48) :
    (List.replicate k 48 ++ c :: t).dropWhile (fun x => decide (x = 48)) = c :: t := by
  induction k with
  | zero => simp [List.dropWhile, hc]
  | succ k ih => simpa [List.replicate_succ, List.dropWhile] using ih

theorem doubleOverflows_zero (n : Nat) :
    doubleOverflows n 0 = decide (2 ^ 1024 - 2 ^ 970 ≤ n) := by
  unfold doubleOverflows
  rw [if_pos (le_refl _)]
  simp only [Int.toNat_zero, pow_zero, mul_one]

theorem doubleUnderflows_zero (m : Nat) : doubleUnderflows m 0 = false := by
  unfold doubleUnderflows
  rw [show decide ((0 : Int) < 0) = false from rfl]
  simp only [Bool.and_false, Bool.false_and]

namespace qc.json

open DecodeHelper

/-- An integer token that fits neither 64-bit type is handed to `m_ingestFloater`. -/
theorem m_ingestValue_integer (neg : Bool) (d0 : Nat) (dt rest : List Nat)
    (hds : ∀ c ∈ d0 :: dt, isdigit c = true) (hrest : NumberEnd rest) (sz fuel : Nat)
    (pre : List Event) :
    m_ingestValue (fuel + 1) ⟨sz, integerToken neg (d0 :: dt) ++ rest, pre⟩ =
      if -(2 ^ 63) ≤ integerValue neg (d0 :: dt) ∧ integerValue neg (d0 :: dt) ≤ 2 ^ 64 - 1 ∧
          (neg = true → integerValue neg (d0 :: dt) ≤ 2 ^ 63 - 1) then
        .ok ⟨sz, rest, pre ++ [if integerValue neg (d0 :: dt) < 2 ^ 63 then
          .val_int64 (integerValue neg (d0 :: dt))
          else .val_uint64 (integerValue neg (d0 :: dt))]⟩
      else if doubleOverflows (digitsValue (d0 :: dt)) 0 then
        .error (.DecodeError .invalidFloater (sz - (integerToken neg (d0 :: dt) ++ rest).length),
          ⟨sz, integerToken neg (d0 :: dt) ++ rest, pre⟩)
      else .ok ⟨sz, rest, pre ++ [.val_double (.decimal neg (digitsValue (d0 :: dt)) 0)]⟩ := by
  have hnd : ∀ c ∈ rest.head?, isdigit c = false := fun c hc => (hrest c hc).1
  have hI : m_isInteger ⟨sz, integerToken neg (d0 :: dt) ++ rest, pre⟩ = true := by
    rw [m_isInteger_token neg d0 dt rest hds hnd]
    cases rest with
    | nil => rfl
    | cons c r =>
      obtain ⟨_, h46, h101, h69⟩ := hrest c (by simp)
      simp [h46, h101, h69]
  rw [m_ingestValue_number neg d0 dt rest (hds d0 (by simp)), m_ingestNumber_head neg d0 dt rest hds,
    hI, if_pos rfl]
  have hfc := from_chars_integer_token neg d0 dt rest hds hnd
  by_cases hr : -(2 ^ 63) ≤ integerValue neg (d0 :: dt) ∧
      integerValue neg (d0 :: dt) ≤ 2 ^ 64 - 1 ∧
      (neg = true → integerValue neg (d0 :: dt) ≤ 2 ^ 63 - 1)
  · rw [if_pos hr] at hfc ⊢
    rw [m_ingestInteger_ok neg sz _ pre _ rest hfc (fun c hc => (hrest c hc).2.1)]
    congr 3
    cases neg with
    | true =>
      have := hr.2.2 rfl
      simp only [Bool.not_true, Bool.false_and, Bool.false_eq_true, if_false, if_true]
      rw [if_pos (by omega)]
    | false => simp
  · rw [if_neg hr] at hfc ⊢
    have hfd := from_chars_double_token neg d0 dt rest hds hnd
    rw [scanFraction_of_head rest (fun c hc => (hrest c hc).2.1)] at hfd
    simp only at hfd
    rw [scanExponent_of_head rest (fun c hc => (hrest c hc).2.2)] at hfd
    simp only [Option.getD_none, List.length_nil, Nat.cast_zero, sub_zero, List.append_nil,
      doubleUnderflows_zero, Bool.or_false, Bool.false_and] at hfd
    simp only [m_ingestInteger, hfc, m_ingestFloater, hfd]
    split_ifs <;> simp [fail, offset, compose]

/-- After the integer part, a decimal point and zeros, the token is still an integer. -/
theorem m_ingestValue_zeros (neg : Bool) (d0 : Nat) (dt zeros rest : List Nat)
    (hds : ∀ c ∈ d0 :: dt, isdigit c = true) (hz : zeros ≠ [] ∧ ∀ c ∈ zeros, c = 48)
    (hrest : ∀ c ∈ rest.head?, isdigit c = false ∧ c ≠ 101 ∧ c ≠ 69)
    (hr : -(2 ^ 63) ≤ integerValue neg (d0 :: dt) ∧ integerValue neg (d0 :: dt) ≤ 2 ^ 64 - 1 ∧
      (neg = true → integerValue neg (d0 :: dt) ≤ 2 ^ 63 - 1))
    (sz fuel : Nat) (pre : List Event) :
    m_ingestValue (fuel + 1) ⟨sz, integerToken neg (d0 :: dt) ++ 46 :: (zeros ++ rest), pre⟩ =
      .ok ⟨sz, rest, pre ++ [if integerValue neg (d0 :: dt) < 2 ^ 63 then
        .val_int64 (integerValue neg (d0 :: dt))
        else .val_uint64 (integerValue neg (d0 :: dt))]⟩ := by
  have h46 : ∀ c ∈ (46 :: (zeros ++ rest)).head?, isdigit c = false := by
    intro c hc
    simp only [List.head?_cons, Option.mem_def, Option.some.injEq] at hc
    subst hc
    decide
  have h48 : ∀ c ∈ rest.head?, (fun c1 => decide (c1 = 48)) c = false := by
    intro c hc
    have := (hrest c hc).1
    simp only [isdigit, Bool.and_eq_false_iff, decide_eq_false_iff_not] at this
    simp only [decide_eq_false_iff_not]
    omega
  have hzs : (zeros ++ rest).dropWhile (fun c1 => decide (c1 = 48)) = rest := by
    have hz1 : zeros.dropWhile (fun c1 => decide (c1 = 48)) = [] := by
      rw [List.dropWhile_eq_nil_iff]
      intro c hc
      simp [hz.2 c hc]
    rw [(span_append _ zeros rest h48).2, hz1, List.nil_append]
  obtain ⟨z0, zt, rfl⟩ : ∃ z0 zt, zeros = z0 :: zt := by
    cases zeros with
    | nil => exact absurd rfl hz.1
    | cons a b => exact ⟨a, b, rfl⟩
  have hz0 : z0 = 48 := hz.2 z0 (by simp)
  subst hz0
  have hI : m_isInteger ⟨sz, integerToken neg (d0 :: dt) ++ 46 :: (48 :: zt ++ rest), pre⟩ =
      true := by
    rw [m_isInteger_token neg d0 dt _ hds h46]
    simp only [if_true, hzs]
    cases rest with
    | nil => rfl
    | cons c r =>
      obtain ⟨h1, h101, h69⟩ := hrest c (by simp)
      simp [h1, h101, h69]
  rw [m_ingestValue_number neg d0 dt _ (hds d0 (by simp)), m_ingestNumber_head neg d0 dt _ hds,
    hI, if_pos rfl]
  have hfc := from_chars_integer_token neg d0 dt (46 :: (48 :: zt ++ rest)) hds h46
  rw [if_pos hr] at hfc
  have hzt : (zt ++ rest).dropWhile (fun c1 => decide (c1 = 48)) = rest := by
    simpa [List.dropWhile] using hzs
  simp only [List.cons_append] at hfc ⊢
  simp only [m_ingestInteger, hfc, advance, List.drop_succ_cons, List.drop_zero, hzt]
  cases neg with
  | true =>
    have := hr.2.2 rfl
    simp only [Bool.not_true, Bool.false_and, Bool.false_eq_true, if_false, if_true]
    rw [if_pos (by omega)]
    rfl
  | false =>
    simp only [Bool.not_false, Bool.true_and, decide_eq_true_eq, Bool.false_eq_true, if_false]
    split_ifs <;> rfl

/-- A digit other than `0` or an exponent marker after the point and the zeros, or an
exponent marker after the integer part: `m_isInteger` answers no. -/
theorem m_ingestValue_floater (neg : Bool) (d0 : Nat) (dt tail : List Nat)
    (hds : ∀ c ∈ d0 :: dt, isdigit c = true)
    (htail : (∃ k c t, tail = 46 :: (List.replicate k 48 ++ c :: t) ∧
        ((isdigit c = true ∧ c ≠ 48) ∨ c = 101 ∨ c = 69)) ∨
      ∃ c t, tail = c :: t ∧ (c = 101 ∨ c = 69))
    (sz fuel : Nat) (pre : List Event) :
    m_ingestValue (fuel + 1) ⟨sz, integerToken neg (d0 :: dt) ++ tail, pre⟩ =
      m_ingestFloater ⟨sz, integerToken neg (d0 :: dt) ++ tail, pre⟩ := by
  have hnd : ∀ c ∈ tail.head?, isdigit c = false := by
    intro c hc
    rcases htail with ⟨k, c1, t, rfl, _⟩ | ⟨c1, t, rfl, h⟩
    · simp only [List.head?_cons, Option.mem_def, Option.some.injEq] at hc
      subst hc; decide
    · simp only [List.head?_cons, Option.mem_def, Option.some.injEq] at hc
      subst hc
      rcases h with rfl | rfl <;> decide
  have hI : m_isInteger ⟨sz, integerToken neg (d0 :: dt) ++ tail, pre⟩ = false := by
    rw [m_isInteger_token neg d0 dt tail hds hnd]
    rcases htail with ⟨k, c1, t, rfl, h⟩ | ⟨c1, t, rfl, h⟩
    · have hc48 : c1 ≠ 48 := by
        rcases h with h | rfl | rfl
        · exact h.2
        · decide
        · decide
      have hdw := dropWhile_zeros k c1 t hc48
      simp only [if_true, hdw]
      rcases h with h | rfl | rfl
      · simp [h.1]
      · simp
      · simp
    · have h46 : c1 ≠ 46 := by rcases h with rfl | rfl <;> decide
      simp [h46, h]
  rw [m_ingestValue_number neg d0 dt tail (hds d0 (by simp)), m_ingestNumber_head neg d0 dt tail hds,
    hI]
  simp

theorem m_ingestFloater_event (d d1 : DecodeHelper) (h : m_ingestFloater d = .ok d1) :
    ∃ x, d1.m_composer = d.m_composer ++ [.val_double x] := by
  simp only [m_ingestFloater] at h
  split at h
  · simp [fail] at h
  · rename_i val ptr afterPoint _
    split_ifs at h
    · simp [fail] at h
    · simp only [Except.ok.injEq] at h
      exact ⟨val, by rw [← h]; rfl⟩

/-- A decimal point followed by no digit: the number is rejected unless an exponent with
digits follows the point. -/
theorem m_ingestValue_dangling (neg : Bool) (d0 : Nat) (dt rest : List Nat)
    (hds : ∀ c ∈ d0 :: dt, isdigit c = true) (hrest : ∀ c ∈ rest.head?, isdigit c = false)
    (hexp : exponentDigits rest = false ∨ ∀ c ∈ rest.head?, c ≠ 101 ∧ c ≠ 69)
    (sz fuel : Nat) (pre : List Event) :
    m_ingestValue (fuel + 1) ⟨sz, integerToken neg (d0 :: dt) ++ 46 :: rest, pre⟩ =
      if (-(2 ^ 63) ≤ integerValue neg (d0 :: dt) ∧ integerValue neg (d0 :: dt) ≤ 2 ^ 64 - 1 ∧
          (neg = true → integerValue neg (d0 :: dt) ≤ 2 ^ 63 - 1)) ∧
          ∀ c ∈ rest.head?, c ≠ 101 ∧ c ≠ 69 then
        .error (.DecodeError .danglingDecimalPoint (sz - rest.length), ⟨sz, rest, pre⟩)
      else
        .error (.DecodeError .invalidFloater
            (sz - (integerToken neg (d0 :: dt) ++ 46 :: rest).length),
          ⟨sz, integerToken neg (d0 :: dt) ++ 46 :: rest, pre⟩) := by
  have h46 : ∀ c ∈ (46 :: rest).head?, isdigit c = false := by
    intro c hc
    simp only [List.head?_cons, Option.mem_def, Option.some.injEq] at hc
    subst hc
    decide
  have hse : scanExponent rest = (none, rest) := by
    rcases hexp with h | h
    · exact scanExponent_no_digits rest h
    · exact scanExponent_of_head rest h
  have hfloat : m_ingestFloater ⟨sz, integerToken neg (d0 :: dt) ++ 46 :: rest, pre⟩ =
      .error (.DecodeError .invalidFloater
          (sz - (integerToken neg (d0 :: dt) ++ 46 :: rest).length),
        ⟨sz, integerToken neg (d0 :: dt) ++ 46 :: rest, pre⟩) := by
    have hfd := from_chars_double_token neg d0 dt (46 :: rest) hds h46
    rw [scanFraction_point rest hrest] at hfd
    simp only at hfd
    rw [hse] at hfd
    simp only [m_ingestFloater, hfd]
    split_ifs <;> simp [fail, offset]
  have hzs : rest.dropWhile (fun c1 => decide (c1 = 48)) = rest := by
    cases rest with
    | nil => rfl
    | cons c r =>
      have := hrest c (by simp)
      have h48 : c ≠ 48 := by
        intro h; subst h; simp [isdigit] at this
      simp [List.dropWhile, h48]
  have hfc := from_chars_integer_token neg d0 dt (46 :: rest) hds h46
  have hint : m_ingestInteger neg ⟨sz, integerToken neg (d0 :: dt) ++ 46 :: rest, pre⟩ =
      if -(2 ^ 63) ≤ integerValue neg (d0 :: dt) ∧ integerValue neg (d0 :: dt) ≤ 2 ^ 64 - 1 ∧
          (neg = true → integerValue neg (d0 :: dt) ≤ 2 ^ 63 - 1) then
        .error (.DecodeError .danglingDecimalPoint (sz - rest.length), ⟨sz, rest, pre⟩)
      else
        .error (.DecodeError .invalidFloater
            (sz - (integerToken neg (d0 :: dt) ++ 46 :: rest).length),
          ⟨sz, integerToken neg (d0 :: dt) ++ 46 :: rest, pre⟩) := by
    by_cases hr : -(2 ^ 63) ≤ integerValue neg (d0 :: dt) ∧
        integerValue neg (d0 :: dt) ≤ 2 ^ 64 - 1 ∧
        (neg = true → integerValue neg (d0 :: dt) ≤ 2 ^ 63 - 1)
    · rw [if_pos hr] at hfc ⊢
      simp only [m_ingestInteger, hfc, advance, List.drop_succ_cons, List.drop_zero]
      cases rest with
      | nil => simp [fail, offset]
      | cons c r =>
        have h48 : c ≠ 48 := by
          intro h
          have := hrest c (by simp)
          subst h
          simp [isdigit] at this
        simp [fail, offset, h48]
    · rw [if_neg hr] at hfc ⊢
      simp only [m_ingestInteger, hfc, hfloat]
  rw [m_ingestValue_number neg d0 dt _ (hds d0 (by simp)), m_ingestNumber_head neg d0 dt _ hds,
    m_isInteger_token neg d0 dt _ hds h46]
  simp only [if_true, hzs]
  cases rest with
  | nil =>
    simp only [if_true, hint]
    have hv : ∀ c ∈ ([] : List Nat).head?, c ≠ 101 ∧ c ≠ 69 := by
      intro c hc; simp at hc
    by_cases hr : -(2 ^ 63) ≤ integerValue neg (d0 :: dt) ∧
        integerValue neg (d0 :: dt) ≤ 2 ^ 64 - 1 ∧
        (neg = true → integerValue neg (d0 :: dt) ≤ 2 ^ 63 - 1)
    · rw [if_pos hr, if_pos ⟨hr, hv⟩]
    · rw [if_neg hr, if_neg (fun h => hr h.1)]
  | cons c r =>
    have h1 := hrest c (by simp)
    by_cases hc : c = 101 ∨ c = 69
    · have hI : (!(isdigit c || decide (c = 101) || decide (c = 69))) = false := by
        rcases hc with rfl | rfl <;> simp
      have hno : ¬ ∀ x ∈ (c :: r).head?, x ≠ 101 ∧ x ≠ 69 := by
        intro h
        have := h c (by simp)
        rcases hc with h1 | h1
        · exact this.1 h1
        · exact this.2 h1
      simp only [hI, Bool.false_eq_true, if_false, hfloat]
      rw [if_neg (fun h => hno h.2)]
    · have hc2 : c ≠ 101 ∧ c ≠ 69 := ⟨fun h => hc (Or.inl h), fun h => hc (Or.inr h)⟩
      have hI : (!(isdigit c || decide (c = 101) || decide (c = 69))) = true := by
        simp [h1, hc2.1, hc2.2]
      have hv : ∀ x ∈ (c :: r).head?, x ≠ 101 ∧ x ≠ 69 := by
        intro x hx
        simp only [List.head?_cons, Option.mem_def, Option.some.injEq] at hx
        subst hx
        exact hc2
      simp only [hI, if_true, hint]
      by_cases hr : -(2 ^ 63) ≤ integerValue neg (d0 :: dt) ∧
          integerValue neg (d0 :: dt) ≤ 2 ^ 64 - 1 ∧
          (neg = true → integerValue neg (d0 :: dt) ≤ 2 ^ 63 - 1)
      · rw [if_pos hr, if_pos ⟨hr, hv⟩]
      · rw [if_neg hr, if_neg (fun h => hr h.1)]

/-- An error of `m_ingestValue` on the first value is the error of `decode`. -/
theorem decode_error_of_ingest (ws t : List Nat) (err : Failure × DecodeHelper)
    (hws : IsWs ws) (hstart : ∀ c ∈ t.head?, isspace c = false)
    (h : m_ingestValue ((ws ++ t).length + 1) ⟨(ws ++ t).length, t, []⟩ = .error err) :
    decode (ws ++ t) = .error err := by
  have hd : (ws ++ t).dropWhile isspace = t := by
    have h0 : ws.dropWhile isspace = [] := by
      rw [List.dropWhile_eq_nil_iff]
      exact hws
    rw [(span_append isspace ws t hstart).2, h0, List.nil_append]
  simp only [decode, run, m_skipWhitespace, hd, h]

end qc.json

/-! ## The encoders a program can hold -/

namespace qjson.Encoder

theorem m_prefix_flags (e : Encoder) :
    ( m_prefix e).m_isComplete = e.m_isComplete ∧ ( m_prefix e).m_state = e.m_state := by
  obtain ⟨oss, st, ind, isKey, isComplete⟩ := e
  cases isKey with
  | true => exact ⟨rfl, rfl⟩
  | false =>
    cases st with
    | nil => exact ⟨rfl, rfl⟩
    | cons state below =>
      simp only [ m_prefix]
      split_ifs <;> exact ⟨rfl, rfl⟩

theorem m_encode_chars_error (v : List Nat) :
    ∀ (e e1 : Encoder) (err : EncodeError), m_encode_chars e v = .error (err, e1) →
      e1.m_isComplete = e.m_isComplete ∧ e1.m_state = e.m_state := by
  induction v with
  | nil => intro e e1 err h; simp [m_encode_chars] at h
  | cons c v ih =>
    intro e e1 err h
    simp only [m_encode_chars] at h
    split_ifs at h
    all_goals first
      | (have h2 := ih _ _ _ h
         simpa only [put] using h2)
      | (simp only [Except.error.injEq, Prod.mk.injEq] at h
         obtain ⟨_, h1⟩ := h
         subst h1
         exact ⟨rfl, rfl⟩)

theorem m_encode_string_error (e e1 : Encoder) (v : List Nat) (err : EncodeError)
    (h : m_encode_string e v = .error (err, e1)) :
    e1.m_isComplete = e.m_isComplete ∧ e1.m_state = e.m_state := by
  simp only [m_encode_string] at h
  cases hc : m_encode_chars (e.put [34]) v with
  | ok e2 => rw [hc] at h; cases h
  | error err1 =>
    rw [hc] at h
    simp only [Except.error.injEq] at h
    subst h
    have h2 := m_encode_chars_error v _ _ _ hc
    simpa only [put] using h2

/-- A call that throws leaves the completeness flag and the frames as they were. -/
theorem call_error_flags (e e1 : Encoder) (c : Call) (err : EncodeError)
    (h : e.call c = .error (err, e1)) :
    e1.m_isComplete = e.m_isComplete ∧ e1.m_state = e.m_state := by
  have hpre : ∀ err1 e2, m_checkPre e = .error (err1, e2) → e2 = e := by
    intro err1 e2 h0
    simp only [m_checkPre] at h0
    split_ifs at h0
    · simp only [Except.error.injEq, Prod.mk.injEq] at h0
      exact h0.2.symm
    · split at h0
      · split_ifs at h0
        simp only [Except.error.injEq, Prod.mk.injEq] at h0
        exact h0.2.symm
      · cases h0
  have hopen : ∀ bracket isArray compact, openContainer e bracket isArray compact =
      .error (err, e1) → e1 = e := by
    intro bracket isArray compact h0
    simp only [openContainer] at h0
    cases hp : m_checkPre e with
    | error err1 =>
      rw [hp] at h0
      simp only [Except.error.injEq] at h0
      subst h0
      exact hpre _ _ hp
    | ok u =>
      rw [hp] at h0
      simp only at h0
      split at h0 <;> cases h0
  cases c with
  | object compact => rw [hopen _ _ _ h]; exact ⟨rfl, rfl⟩
  | array compact => rw [hopen _ _ _ h]; exact ⟨rfl, rfl⟩
  | key k =>
    simp only [call, key] at h
    cases hk : e.m_isKey with
    | true =>
      simp only [hk, if_true, Except.error.injEq, Prod.mk.injEq] at h
      rw [← h.2]; exact ⟨rfl, rfl⟩
    | false =>
      simp only [hk, Bool.false_eq_true, if_false] at h
      cases hst : e.m_state with
      | nil =>
        simp only [hst, Except.error.injEq, Prod.mk.injEq] at h
        rw [← h.2]; exact ⟨rfl, hst⟩
      | cons back below =>
        simp only [hst] at h
        cases hb : back.array with
        | true =>
          simp only [hb, if_true, Except.error.injEq, Prod.mk.injEq] at h
          rw [← h.2]; exact ⟨rfl, hst⟩
        | false =>
          simp only [hb, Bool.false_eq_true, if_false] at h
          cases hke : k.isEmpty with
          | true =>
            simp only [hke, if_true, Except.error.injEq, Prod.mk.injEq] at h
            rw [← h.2]; exact ⟨rfl, hst⟩
          | false =>
            simp only [hke, Bool.false_eq_true, if_false] at h
            cases hs : m_encode_string ( m_prefix e) k with
            | ok e2 => rw [hs] at h; cases h
            | error err1 =>
              rw [hs] at h
              simp only [Except.error.injEq] at h
              subst h
              have := m_encode_string_error _ _ _ _ hs
              rw [(m_prefix_flags e).1, (m_prefix_flags e).2] at this
              rw [← hst]
              exact this
  | val v =>
    simp only [call, val, m_val] at h
    cases hp : m_checkPre e with
    | error err1 =>
      rw [hp] at h
      simp only [Except.error.injEq] at h
      subst h
      rw [hpre _ _ hp]; exact ⟨rfl, rfl⟩
    | ok u =>
      rw [hp] at h
      simp only at h
      cases hs : m_encode ( m_prefix e) v with
      | ok e2 =>
        rw [hs] at h
        simp only at h
        split_ifs at h
      | error err1 =>
        rw [hs] at h
        simp only [Except.error.injEq] at h
        subst h
        cases v with
        | string s =>
          have := m_encode_string_error _ _ _ _ hs
          rw [(m_prefix_flags e).1, (m_prefix_flags e).2] at this
          exact this
        | int64 v => cases hs
        | double t => cases hs
        | bool b => cases hs
        | null => cases hs
  | end_ =>
    simp only [call, end_] at h
    split at h
    · simp only [Except.error.injEq, Prod.mk.injEq] at h
      rw [← h.2]; exact ⟨rfl, rfl⟩
    · split_ifs at h
      simp only [Except.error.injEq, Prod.mk.injEq] at h
      rw [← h.2]; exact ⟨rfl, rfl⟩

/-- A call that returns leaves no open container in a document it marks complete. -/
theorem call_ok_complete (e e1 : Encoder) (c : Call)
    (hW : e.m_isComplete = true → e.m_state = []) (h : e.call c = .ok e1) :
    e1.m_isComplete = true → e1.m_state = [] := by
  cases c with
  | object compact =>
    obtain ⟨hp, _, _, _, hc⟩ := openContainer_ok_eq e e1 _ _ _ h
    rw [hc, checkPre_not_complete e hp]
    intro h0; cases h0
  | array compact =>
    obtain ⟨hp, _, _, _, hc⟩ := openContainer_ok_eq e e1 _ _ _ h
    rw [hc, checkPre_not_complete e hp]
    intro h0; cases h0
  | key k =>
    obtain ⟨_, _, _, _, _, hs, _, hc⟩ := key_ok_eq e e1 k h
    rw [hc, hs]
    exact hW
  | val v =>
    obtain ⟨hp, _, _, hs, _, hc⟩ := val_ok_eq e e1 v h
    rw [hc, hs, checkPre_not_complete e hp]
    cases hst : e.m_state with
    | nil => intro _; rfl
    | cons a b => intro h0; simp at h0
  | end_ =>
    obtain ⟨state, below, hs, _, _, hst, _, _, hc⟩ := end_ok_exact e e1 h
    rw [hc, hst]
    cases below with
    | nil => intro _; rfl
    | cons a b =>
      intro h0
      simp only [List.isEmpty_cons, Bool.false_eq_true, if_false] at h0
      have := hW h0
      rw [hs] at this
      cases this

/-- In every encoder a program can hold, a document marked complete has no open container. -/
theorem reachable_complete (e : Encoder) (h : e.Reachable) :
    e.m_isComplete = true → e.m_state = [] := by
  induction h with
  | fresh => intro _; rfl
  | call e c _ ih =>
    unfold afterCall
    cases hc : e.call c with
    | ok e1 => exact call_ok_complete e e1 c ih hc
    | error err =>
      obtain ⟨err1, e1⟩ := err
      obtain ⟨h1, h2⟩ := call_error_flags e e1 c err1 hc
      simp only [h1, h2]
      exact ih
  | finish e _ ih =>
    unfold afterFinish finish
    split_ifs
    · exact ih
    · intro h0; cases h0

theorem reachable_of_run (cs : List Call) :
    ∀ (e0 e : Encoder), e0.Reachable → e0.run cs = .ok e → e.Reachable := by
  induction cs with
  | nil =>
    intro e0 e h0 h
    simp only [run, Except.ok.injEq] at h
    subst h
    exact h0
  | cons c cs ih =>
    intro e0 e h0 h
    obtain ⟨e1, hc, hr⟩ := run_cons c cs e0 e h
    have := Reachable.call e0 c h0
    simp only [afterCall, hc] at this
    exact ih e1 e this hr

end qjson.Encoder

/-! ## A value is read the same way whatever follows it -/

theorem span_append_of (p : Nat → Bool) (a b : List Nat)
    (h : a.dropWhile p = [] → ∀ c ∈ b.head?, p c = false) :
    (a ++ b).takeWhile p = a.takeWhile p ∧ (a ++ b).dropWhile p = a.dropWhile p ++ b := by
  induction a with
  | nil => exact span_append p [] b (h rfl)
  | cons x a ih =>
    cases hx : p x with
    | true =>
      have := ih (fun h0 => h (by simp [List.dropWhile, hx, h0]))
      simp [List.takeWhile, List.dropWhile, hx, this]
    | false => simp [List.takeWhile, List.dropWhile, hx]

namespace qc.json.DecodeHelper

@[simp] theorem extend_mk (sz : Nat) (p : List Nat) (evs : List Event) (rest : List Nat)
    (sz1 : Nat) : extend ⟨sz, p, evs⟩ rest sz1 = ⟨sz1, p ++ rest, evs⟩ := rfl

theorem advance_extend (d : DecodeHelper) (rest : List Nat) (sz n : Nat)
    (h : n ≤ d.m_pos.length) :
    (d.extend rest sz).advance n = (d.advance n).extend rest sz := by
  simp only [extend, advance, List.drop_append_of_le_length h]

theorem m_skipWhitespace_extend (d : DecodeHelper) (rest : List Nat) (sz : Nat)
    (h : d.m_pos.dropWhile isspace = [] → ∀ c ∈ rest.head?, isspace c = false) :
    m_skipWhitespace (d.extend rest sz) = (m_skipWhitespace d).extend rest sz := by
  simp only [extend, m_skipWhitespace, (span_append_of isspace d.m_pos rest h).2]

theorem m_tryConsumeChar_extend (d : DecodeHelper) (rest : List Nat) (sz c : Nat)
    (h : d.m_pos ≠ []) :
    m_tryConsumeChar (d.extend rest sz) c =
      ((m_tryConsumeChar d c).1, (m_tryConsumeChar d c).2.extend rest sz) := by
  obtain ⟨sz0, p, evs⟩ := d
  cases p with
  | nil => exact absurd rfl h
  | cons a b =>
    simp only [m_tryConsumeChar, extend, List.cons_append]
    split_ifs <;> simp [advance]

theorem m_tryConsumeChar_true (d d1 : DecodeHelper) (c : Nat)
    (h : m_tryConsumeChar d c = (true, d1)) : d.m_pos = c :: d1.m_pos ∧ d1 = d.advance 1 := by
  obtain ⟨sz0, p, evs⟩ := d
  cases p with
  | nil => simp [m_tryConsumeChar] at h
  | cons a b =>
    simp only [m_tryConsumeChar] at h
    split_ifs at h with hc
    · simp only [Prod.mk.injEq, true_and] at h
      subst h
      simp [advance, hc]
    · simp at h

theorem m_consumeChar_extend (d d1 : DecodeHelper) (rest : List Nat) (sz c : Nat)
    (h : m_consumeChar d c = .ok d1) :
    m_consumeChar (d.extend rest sz) c = .ok (d1.extend rest sz) := by
  have hne : d.m_pos ≠ [] := by
    intro h0
    obtain ⟨sz0, p, evs⟩ := d
    simp only at h0
    subst h0
    simp [m_consumeChar, m_tryConsumeChar, fail] at h
  simp only [m_consumeChar] at h ⊢
  rw [m_tryConsumeChar_extend d rest sz c hne]
  split at h
  · rename_i d2 h2
    simp only [Except.ok.injEq] at h
    simp [h2, h]
  · simp [fail] at h

theorem m_consumeUnicode_extend (d d1 : DecodeHelper) (rest : List Nat) (sz c : Nat)
    (h : m_consumeUnicode d = .ok (c, d1)) :
    m_consumeUnicode (d.extend rest sz) = .ok (c, d1.extend rest sz) := by
  simp only [m_consumeUnicode] at h
  split_ifs at h with hlen
  · simp [fail] at h
  · have hlen4 : 4 ≤ d.m_pos.length := by omega
    have htake : (d.m_pos ++ rest).take 4 = d.m_pos.take 4 :=
      List.take_append_of_le_length hlen4
    split at h
    · simp [fail] at h
    · rename_i val hfc
      split_ifs at h with hmask
      · simp [fail] at h
      · simp only [Except.ok.injEq, Prod.mk.injEq] at h
        have hl : ¬ ((d.m_pos ++ rest).length < 4) := by simp; omega
        simp only [m_consumeUnicode, extend, hl, if_false, htake, hfc, hmask]
        rw [← h.1, ← h.2]
        simp [advance, List.drop_append_of_le_length hlen4]

theorem m_consumeEscaped_extend (d d1 : DecodeHelper) (rest : List Nat) (sz c : Nat)
    (h : m_consumeEscaped d = .ok (c, d1)) :
    m_consumeEscaped (d.extend rest sz) = .ok (c, d1.extend rest sz) := by
  obtain ⟨sz0, p, evs⟩ := d
  cases p with
  | nil => simp [m_consumeEscaped, fail] at h
  | cons a b =>
    by_cases hu : a = 117
    · subst hu
      have h1 : m_consumeUnicode ⟨sz0, b, evs⟩ = .ok (c, d1) := by
        simpa [m_consumeEscaped] using h
      have := m_consumeUnicode_extend _ d1 rest sz c h1
      simpa [m_consumeEscaped, extend] using this
    · simp only [m_consumeEscaped, extend, List.cons_append, advance_mk, List.drop_succ_cons,
        List.drop_zero, hu, if_false] at h ⊢
      split_ifs at h ⊢
      all_goals (cases h; rfl)

theorem m_consumeString_loop_extend (fuel : Nat) (d d1 : DecodeHelper) (buf s : List Nat)
    (rest : List Nat) (sz fuel1 : Nat) (hfuel : fuel ≤ fuel1)
    (h : m_consumeString_loop fuel d buf = .ok (s, d1)) :
    m_consumeString_loop fuel1 (d.extend rest sz) buf = .ok (s, d1.extend rest sz) := by
  induction fuel generalizing d buf fuel1 with
  | zero => simp [m_consumeString_loop] at h
  | succ fuel ih =>
    obtain ⟨f1, rfl⟩ : ∃ f1, fuel1 = f1 + 1 := ⟨fuel1 - 1, by omega⟩
    have hf : fuel ≤ f1 := by omega
    obtain ⟨sz0, p, evs⟩ := d
    cases p with
    | nil => simp [m_consumeString_loop, fail] at h
    | cons a b =>
      simp only [m_consumeString_loop, extend, List.cons_append, advance_mk,
        List.drop_succ_cons, List.drop_zero] at h ⊢
      split_ifs at h ⊢
      · cases h
        rfl
      · cases hesc : m_consumeEscaped ⟨sz0, b, evs⟩ with
        | error err => simp [hesc] at h
        | ok r =>
          obtain ⟨c1, d2⟩ := r
          simp only [hesc] at h
          have he := m_consumeEscaped_extend _ d2 rest sz c1 hesc
          simp only [extend] at he
          simp only [he]
          exact ih d2 _ f1 hf h
      · exact ih ⟨sz0, b, evs⟩ _ f1 hf h
      · simp [fail] at h

theorem m_consumeString_extend (d d1 : DecodeHelper) (s rest : List Nat) (sz : Nat)
    (h : m_consumeString d = .ok (s, d1)) :
    m_consumeString (d.extend rest sz) = .ok (s, d1.extend rest sz) := by
  have hne : d.m_pos ≠ [] := by
    intro h0
    simp [m_consumeString, h0, m_consumeString_loop] at h
  simp only [m_consumeString] at h ⊢
  rw [advance_extend d rest sz 1 (by
    cases hp : d.m_pos with
    | nil => exact absurd hp hne
    | cons a b => simp)]
  exact m_consumeString_loop_extend _ _ d1 [] s rest sz _ (by simp [extend]) h

end qc.json.DecodeHelper

/-! ## A number is read the same way whatever follows the byte it ends at -/

theorem scanExponent_extend (s rest : List Nat)
    (h : NumberEnd ((scanExponent s).2 ++ rest)) :
    scanExponent (s ++ rest) = ((scanExponent s).1, (scanExponent s).2 ++ rest) := by
  cases s with
  | nil =>
    have h0 : scanExponent [] = (none, []) := by simp [scanExponent]
    rw [h0] at h ⊢
    simpa using scanExponent_of_head rest (fun c hc => (h c hc).2.2)
  | cons c s1 =>
    cases s1 with
    | nil =>
      have h0 : scanExponent [c] = (none, [c]) := by simp [scanExponent]
      rw [h0] at h ⊢
      have hc := h c (by simp)
      simpa using scanExponent_of_head (c :: rest) (fun x hx => by
        simp only [List.head?_cons, Option.mem_def, Option.some.injEq] at hx
        subst hx
        exact hc.2.2)
    | cons c2 t =>
      rw [scanExponent_cons_cons] at h ⊢
      simp only [List.cons_append]
      rw [scanExponent_cons_cons]
      have happ : (if c2 = 45 ∨ c2 = 43 then t ++ rest else c2 :: (t ++ rest)) =
          (if c2 = 45 ∨ c2 = 43 then t else c2 :: t) ++ rest := by
        split_ifs <;> simp
      rw [happ]
      generalize (if c2 = 45 ∨ c2 = 43 then t else c2 :: t) = X at h ⊢
      by_cases hcond : (c = 101 ∨ c = 69) ∧ (X.takeWhile isdigit).isEmpty = false
      · rw [if_pos hcond] at h ⊢
        simp only at h
        obtain ⟨k1, k2⟩ := span_append_of isdigit X rest (fun h0 c hc => by
          rw [h0] at h
          exact (h c hc).1)
        rw [k1, k2, if_pos hcond]
      · rw [if_neg hcond] at h ⊢
        simp only at h
        have hc := h c (by simp)
        rw [if_neg (fun hh => hc.2.2.1 (by
          rcases hh.1 with h1 | h1
          · exact absurd h1 hc.2.2.1
          · exact absurd h1 hc.2.2.2))]
        simp

theorem scanFraction_extend (s rest : List Nat) (h1 : s = [] → ∀ c ∈ rest.head?, c ≠ 46)
    (h2 : (scanFraction s).2.2 = [] → ∀ c ∈ rest.head?, isdigit c = false) :
    scanFraction (s ++ rest) =
      ((scanFraction s).1, (scanFraction s).2.1, (scanFraction s).2.2 ++ rest) := by
  cases s with
  | nil =>
    have := scanFraction_of_head rest (h1 rfl)
    simpa [scanFraction] using this
  | cons a s1 =>
    by_cases ha : a = 46
    · subst ha
      have hs : scanFraction (46 :: s1) = (true, s1.takeWhile isdigit, s1.dropWhile isdigit) := by
        simp [scanFraction]
      rw [hs] at h2 ⊢
      obtain ⟨k1, k2⟩ := span_append_of isdigit s1 rest h2
      simp [scanFraction, k1, k2]
    · simp [scanFraction, ha]

theorem scanFraction_nil : scanFraction [] = (false, [], []) := by
  simp [scanFraction]

theorem scanExponent_nil : scanExponent [] = (none, []) := by
  simp [scanExponent]

namespace qc.json

open DecodeHelper

/-- `m_ingestFloater` on a text that starts with an integer part reads the same number when
text is appended, as long as a number ends where it stopped. -/
theorem m_ingestFloater_extend (neg : Bool) (d0 : Nat) (dt tail rest : List Nat)
    (hds : ∀ c ∈ d0 :: dt, isdigit c = true) (htail : ∀ c ∈ tail.head?, isdigit c = false)
    (sz sz1 : Nat) (evs : List Event) (d1 : DecodeHelper)
    (h : m_ingestFloater ⟨sz, integerToken neg (d0 :: dt) ++ tail, evs⟩ = .ok d1)
    (hend : NumberEnd (d1.m_pos ++ rest)) :
    m_ingestFloater ⟨sz1, integerToken neg (d0 :: dt) ++ (tail ++ rest), evs⟩ =
      .ok ⟨sz1, d1.m_pos ++ rest, d1.m_composer⟩ := by
  have hfd := from_chars_double_token neg d0 dt tail hds htail
  simp only [m_ingestFloater, hfd] at h
  split_ifs at h with hrange
  · simp [fail] at h
  · simp only at h
    split_ifs at h with hflag
    · simp [fail] at h
    · simp only [Except.ok.injEq] at h
      subst h
      simp only [compose] at hend ⊢
      have hnil : tail = [] → (scanExponent (scanFraction tail).2.2).2 = [] := by
        intro ht
        subst ht
        simp [scanFraction_nil, scanExponent_nil]
      have hs2 : (scanFraction tail).2.2 = [] → (scanExponent (scanFraction tail).2.2).2 = [] := by
        intro ht
        rw [ht]
        simp [scanExponent_nil]
      have hsf := scanFraction_extend tail rest
        (fun ht c hc => by
          rw [hnil ht] at hend
          exact (hend c hc).2.1)
        (fun ht c hc => by
          rw [hs2 ht] at hend
          exact (hend c hc).1)
      have hse := scanExponent_extend (scanFraction tail).2.2 rest hend
      have htail1 : ∀ c ∈ (tail ++ rest).head?, isdigit c = false := by
        cases htl : tail with
        | nil =>
          intro c hc
          rw [hnil htl] at hend
          exact (hend c (by simpa using hc)).1
        | cons a b =>
          intro c hc
          exact htail c (by rw [htl]; simpa using hc)
      have hfd1 := from_chars_double_token neg d0 dt (tail ++ rest) hds htail1
      rw [hsf] at hfd1
      simp only at hfd1
      rw [hse] at hfd1
      simp only at hfd1
      rw [if_neg hrange] at hfd1
      simp only [m_ingestFloater, hfd1, hflag, Bool.false_eq_true, if_false]
      rfl

end qc.json

namespace qc.json

open DecodeHelper

theorem m_ingestNumber_out_of_range (neg : Bool) (d0 : Nat) (dt tail : List Nat)
    (hds : ∀ c ∈ d0 :: dt, isdigit c = true) (htail : ∀ c ∈ tail.head?, isdigit c = false)
    (hr : ¬ (-(2 ^ 63) ≤ integerValue neg (d0 :: dt) ∧ integerValue neg (d0 :: dt) ≤ 2 ^ 64 - 1 ∧
      (neg = true → integerValue neg (d0 :: dt) ≤ 2 ^ 63 - 1)))
    (sz : Nat) (evs : List Event) :
    m_ingestNumber ⟨sz, integerToken neg (d0 :: dt) ++ tail, evs⟩ =
      m_ingestFloater ⟨sz, integerToken neg (d0 :: dt) ++ tail, evs⟩ := by
  have hfc := from_chars_integer_token neg d0 dt tail hds htail
  rw [if_neg hr] at hfc
  rw [m_ingestNumber_head neg d0 dt tail hds]
  split_ifs
  · simp only [m_ingestInteger, hfc]
  · rfl

theorem m_ingestInteger_zeros (neg : Bool) (d0 : Nat) (dt tail : List Nat)
    (hds : ∀ c ∈ d0 :: dt, isdigit c = true)
    (hr : -(2 ^ 63) ≤ integerValue neg (d0 :: dt) ∧ integerValue neg (d0 :: dt) ≤ 2 ^ 64 - 1 ∧
      (neg = true → integerValue neg (d0 :: dt) ≤ 2 ^ 63 - 1))
    (sz : Nat) (evs : List Event) :
    m_ingestInteger neg ⟨sz, integerToken neg (d0 :: dt) ++ 46 :: 48 :: tail, evs⟩ =
      .ok ⟨sz, tail.dropWhile (fun c => decide (c = 48)),
        evs ++ [if integerValue neg (d0 :: dt) < 2 ^ 63 then
          .val_int64 (integerValue neg (d0 :: dt))
          else .val_uint64 (integerValue neg (d0 :: dt))]⟩ := by
  have hfc := from_chars_integer_token neg d0 dt (46 :: 48 :: tail) hds (by
    intro c hc
    simp only [List.head?_cons, Option.mem_def, Option.some.injEq] at hc
    subst hc; decide)
  rw [if_pos hr] at hfc
  simp only [m_ingestInteger, hfc, advance, List.drop_succ_cons, List.drop_zero]
  cases neg with
  | true =>
    have := hr.2.2 rfl
    simp only [Bool.not_true, Bool.false_and, Bool.false_eq_true, if_false, if_true]
    rw [if_pos (by omega)]
    rfl
  | false =>
    simp only [Bool.not_false, Bool.true_and, decide_eq_true_eq, Bool.false_eq_true, if_false]
    split_ifs <;> rfl

theorem m_ingestInteger_dangling (neg : Bool) (d0 : Nat) (dt tail : List Nat)
    (hds : ∀ c ∈ d0 :: dt, isdigit c = true) (htail : ∀ c ∈ tail.head?, c ≠ 48)
    (hr : -(2 ^ 63) ≤ integerValue neg (d0 :: dt) ∧ integerValue neg (d0 :: dt) ≤ 2 ^ 64 - 1 ∧
      (neg = true → integerValue neg (d0 :: dt) ≤ 2 ^ 63 - 1))
    (sz : Nat) (evs : List Event) (d1 : DecodeHelper) :
    m_ingestInteger neg ⟨sz, integerToken neg (d0 :: dt) ++ 46 :: tail, evs⟩ ≠ .ok d1 := by
  have hfc := from_chars_integer_token neg d0 dt (46 :: tail) hds (by
    intro c hc
    simp only [List.head?_cons, Option.mem_def, Option.some.injEq] at hc
    subst hc; decide)
  rw [if_pos hr] at hfc
  simp only [m_ingestInteger, hfc, advance, List.drop_succ_cons, List.drop_zero]
  cases tail with
  | nil => simp [fail]
  | cons c r =>
    have := htail c (by simp)
    simp [fail, this]

theorem m_ingestInteger_plain (neg : Bool) (d0 : Nat) (dt tail : List Nat)
    (hds : ∀ c ∈ d0 :: dt, isdigit c = true)
    (htail : ∀ c ∈ tail.head?, isdigit c = false ∧ c ≠ 46)
    (hr : -(2 ^ 63) ≤ integerValue neg (d0 :: dt) ∧ integerValue neg (d0 :: dt) ≤ 2 ^ 64 - 1 ∧
      (neg = true → integerValue neg (d0 :: dt) ≤ 2 ^ 63 - 1))
    (sz : Nat) (evs : List Event) :
    m_ingestInteger neg ⟨sz, integerToken neg (d0 :: dt) ++ tail, evs⟩ =
      .ok ⟨sz, tail, evs ++ [if integerValue neg (d0 :: dt) < 2 ^ 63 then
          .val_int64 (integerValue neg (d0 :: dt))
          else .val_uint64 (integerValue neg (d0 :: dt))]⟩ := by
  have hfc := from_chars_integer_token neg d0 dt tail hds (fun c hc => (htail c hc).1)
  rw [if_pos hr] at hfc
  rw [m_ingestInteger_ok neg sz _ evs _ tail hfc (fun c hc => (htail c hc).2)]
  congr 3
  cases neg with
  | true =>
    have := hr.2.2 rfl
    simp only [Bool.not_true, Bool.false_and, Bool.false_eq_true, if_false, if_true]
    rw [if_pos (by omega)]
  | false => simp

theorem m_ingestFloater_nil (neg : Bool) (d0 : Nat) (dt : List Nat)
    (hds : ∀ c ∈ d0 :: dt, isdigit c = true) (sz : Nat) (evs : List Event) (d1 : DecodeHelper)
    (h : m_ingestFloater ⟨sz, integerToken neg (d0 :: dt) ++ [], evs⟩ = .ok d1) :
    d1.m_pos = [] := by
  have hfd := from_chars_double_token neg d0 dt [] hds (by simp)
  simp only [scanFraction_nil, scanExponent_nil] at hfd
  simp only [m_ingestFloater, hfd] at h
  split_ifs at h
  · simp [fail] at h
  · simp only at h
    split_ifs at h
    · simp [fail] at h
    · simp only [Except.ok.injEq] at h
      rw [← h]
      rfl

end qc.json

namespace qc.json

open DecodeHelper

/-- `m_ingestNumber` reads the same number when text is appended, as long as a number ends
where it stopped. -/
theorem m_ingestNumber_extend (neg : Bool) (d0 : Nat) (dt tail rest : List Nat)
    (hds : ∀ c ∈ d0 :: dt, isdigit c = true) (htail : ∀ c ∈ tail.head?, isdigit c = false)
    (sz sz1 : Nat) (evs : List Event) (d1 : DecodeHelper)
    (h : m_ingestNumber ⟨sz, integerToken neg (d0 :: dt) ++ tail, evs⟩ = .ok d1)
    (hend : NumberEnd (d1.m_pos ++ rest)) :
    m_ingestNumber ⟨sz1, integerToken neg (d0 :: dt) ++ (tail ++ rest), evs⟩ =
      .ok ⟨sz1, d1.m_pos ++ rest, d1.m_composer⟩ := by
  by_cases hr : -(2 ^ 63) ≤ integerValue neg (d0 :: dt) ∧
      integerValue neg (d0 :: dt) ≤ 2 ^ 64 - 1 ∧
      (neg = true → integerValue neg (d0 :: dt) ≤ 2 ^ 63 - 1)
  · -- the integer part fits a 64-bit type
    cases tail with
    | nil =>
      have h0 := m_ingestValue_integer neg d0 dt [] hds (by simp [NumberEnd]) sz 0 evs
      rw [m_ingestValue_number neg d0 dt [] (hds d0 (by simp)), if_pos hr, h] at h0
      simp only [Except.ok.injEq] at h0
      subst h0
      simp only [List.nil_append] at hend ⊢
      have h1 := m_ingestValue_integer neg d0 dt rest hds hend sz1 0 evs
      rw [m_ingestValue_number neg d0 dt rest (hds d0 (by simp)), if_pos hr] at h1
      exact h1
    | cons c t1 =>
      have hI := m_isInteger_token neg d0 dt (c :: t1) hds htail sz evs
      have htail1 : ∀ x ∈ (c :: t1 ++ rest).head?, isdigit x = false := by
        simpa using htail
      have hI1 := m_isInteger_token neg d0 dt (c :: t1 ++ rest) hds htail1 sz1 evs
      rw [m_ingestNumber_head neg d0 dt _ hds] at h ⊢
      by_cases h46 : c = 46
      · subst h46
        simp only [if_true, List.cons_append] at hI hI1
        cases hz : t1.dropWhile (fun c1 => decide (c1 = 48)) with
        | nil =>
          rw [hz] at hI
          rw [hI, if_pos rfl] at h
          cases t1 with
          | nil => exact absurd h (m_ingestInteger_dangling neg d0 dt [] hds (by simp) hr sz evs d1)
          | cons a t2 =>
            by_cases ha : a = 48
            · subst ha
              rw [m_ingestInteger_zeros neg d0 dt t2 hds hr] at h
              simp only [Except.ok.injEq] at h
              subst h
              simp only [List.dropWhile_cons, decide_True, if_true] at hz
              simp only [hz, List.nil_append] at hend ⊢
              have hsp := span_append_of (fun c1 => decide (c1 = 48)) t2 rest (by
                intro _ x hx
                have := (hend x hx).1
                simp only [isdigit] at this
                simp only [decide_eq_false_iff_not]
                intro h48
                subst h48
                simp at this)
              simp only [List.cons_append] at hI1
              have hI2 : m_isInteger ⟨sz1, integerToken neg (d0 :: dt) ++ 46 :: 48 :: (t2 ++ rest),
                  evs⟩ = true := by
                rw [hI1]
                simp only [List.dropWhile_cons, decide_True, if_true, hsp.2, hz, List.nil_append]
                cases rest with
                | nil => rfl
                | cons x r =>
                  obtain ⟨hx1, _, hx2, hx3⟩ := hend x (by simp)
                  simp [hx1, hx2, hx3]
              simp only [List.cons_append]
              rw [hI2, if_pos rfl, m_ingestInteger_zeros neg d0 dt (t2 ++ rest) hds hr, hsp.2, hz]
              rfl
            · exact absurd h (m_ingestInteger_dangling neg d0 dt (a :: t2) hds
                (by simpa using ha) hr sz evs d1)
        | cons z zs =>
          have hsp := span_append_of (fun c1 => decide (c1 = 48)) t1 rest (by
            intro h0
            rw [hz] at h0
            cases h0)
          rw [hz] at hI
          rw [hsp.2, hz] at hI1
          simp only [List.cons_append] at hI1 ⊢
          dsimp only at hI
          cases hb : (!(isdigit z || decide (z = 101) || decide (z = 69))) with
          | true =>
            rw [hb] at hI hI1
            rw [hI, if_pos rfl] at h
            rw [hI1, if_pos rfl]
            cases t1 with
            | nil => simp at hz
            | cons a t2 =>
              by_cases ha : a = 48
              · subst ha
                rw [m_ingestInteger_zeros neg d0 dt t2 hds hr] at h
                simp only [Except.ok.injEq] at h
                subst h
                simp only [List.dropWhile_cons, decide_True, if_true] at hz
                have hsp2 := span_append_of (fun c1 => decide (c1 = 48)) t2 rest (by
                  intro h0
                  rw [hz] at h0
                  cases h0)
                simp only [List.cons_append]
                rw [m_ingestInteger_zeros neg d0 dt (t2 ++ rest) hds hr, hsp2.2]
              · exact absurd h (m_ingestInteger_dangling neg d0 dt (a :: t2) hds
                  (by simpa using ha) hr sz evs d1)
          | false =>
            rw [hb] at hI hI1
            rw [hI, if_neg (by simp)] at h
            rw [hI1, if_neg (by simp)]
            exact m_ingestFloater_extend neg d0 dt (46 :: t1) rest hds htail sz sz1 evs d1 h hend
      · simp only [if_neg h46, List.cons_append] at hI hI1
        by_cases he : c = 101 ∨ c = 69
        · simp only [if_pos he] at hI hI1
          rw [hI, if_neg (by simp)] at h
          simp only [List.cons_append]
          rw [hI1, if_neg (by simp)]
          exact m_ingestFloater_extend neg d0 dt (c :: t1) rest hds htail sz sz1 evs d1 h hend
        · simp only [if_neg he] at hI hI1
          rw [hI, if_pos rfl] at h
          simp only [List.cons_append]
          rw [hI1, if_pos rfl]
          have hc : ∀ x ∈ (c :: t1).head?, isdigit x = false ∧ x ≠ 46 := by
            intro x hx
            simp only [List.head?_cons, Option.mem_def, Option.some.injEq] at hx
            subst hx
            exact ⟨htail _ (by simp), h46⟩
          rw [m_ingestInteger_plain neg d0 dt (c :: t1) hds hc hr] at h
          simp only [Except.ok.injEq] at h
          subst h
          exact m_ingestInteger_plain neg d0 dt (c :: (t1 ++ rest)) hds
            (by simpa using hc) hr sz1 evs
  · -- the integer part fits neither: the floater path on both sides
    have htail1 : ∀ c ∈ (tail ++ rest).head?, isdigit c = false := by
      cases htl : tail with
      | nil =>
        subst htl
        rw [m_ingestNumber_out_of_range neg d0 dt [] hds htail hr] at h
        have := m_ingestFloater_nil neg d0 dt hds sz evs d1 h
        rw [this] at hend
        intro c hc
        exact (hend c (by simpa using hc)).1
      | cons a b =>
        subst htl
        simpa using htail
    rw [m_ingestNumber_out_of_range neg d0 dt tail hds htail hr] at h
    rw [m_ingestNumber_out_of_range neg d0 dt (tail ++ rest) hds htail1 hr]
    exact m_ingestFloater_extend neg d0 dt tail rest hds htail sz sz1 evs d1 h hend

end qc.json

namespace qc.json.DecodeHelper

theorem startsWith_eq : ∀ (str s : List Nat), startsWith str s = true →
    s = str ++ s.drop str.length
  | [], _, _ => rfl
  | _ :: _, [], h => by simp [startsWith] at h
  | c :: str, c1 :: s, h => by
    simp only [startsWith] at h
    split_ifs at h with hc
    have hc1 : c1 = c := by
      by_contra h0
      exact hc h0
    subst hc1
    simp only [List.length_cons, List.drop_succ_cons, List.cons_append, List.cons.injEq, true_and]
    exact startsWith_eq str s h

theorem m_tryConsumeChars_cases (sz : Nat) (p : List Nat) (evs : List Event) (str : List Nat) :
    m_tryConsumeChars ⟨sz, p, evs⟩ str = (false, ⟨sz, p, evs⟩) ∨
      ∃ t, p = str ++ t ∧ m_tryConsumeChars ⟨sz, p, evs⟩ str = (true, ⟨sz, t, evs⟩) := by
  simp only [m_tryConsumeChars]
  split_ifs with hl hs
  · right
    exact ⟨p.drop str.length, startsWith_eq str p hs, rfl⟩
  · left; rfl
  · left; rfl

theorem m_ingestLiteral_extend (d d1 : DecodeHelper) (rest : List Nat) (sz1 : Nat)
    (h : m_ingestLiteral d = .ok d1) :
    m_ingestLiteral (d.extend rest sz1) = .ok (d1.extend rest sz1) := by
  obtain ⟨sz, p, evs⟩ := d
  unfold m_ingestLiteral at h
  rcases m_tryConsumeChars_cases sz p evs [116, 114, 117, 101] with h1 | ⟨t, hp, h1⟩
  · rw [h1] at h
    dsimp only at h
    rcases m_tryConsumeChars_cases sz p evs [102, 97, 108, 115, 101] with h2 | ⟨t, hp, h2⟩
    · rw [h2] at h
      dsimp only at h
      rcases m_tryConsumeChars_cases sz p evs [110, 117, 108, 108] with h3 | ⟨t, hp, h3⟩
      · rw [h3] at h
        dsimp only at h
        rcases m_tryConsumeChars_cases sz p evs [105, 110, 102] with h4 | ⟨t, hp, h4⟩
        · rw [h4] at h
          dsimp only at h
          rcases m_tryConsumeChars_cases sz p evs [110, 97, 110] with h5 | ⟨t, hp, h5⟩
          · rw [h5] at h
            simp [fail] at h
          · rw [h5] at h
            simp only [Except.ok.injEq] at h
            subst h hp
            simp [m_ingestLiteral, m_tryConsumeChars, startsWith, advance, compose, extend]
        · rw [h4] at h
          simp only [Except.ok.injEq] at h
          subst h hp
          simp [m_ingestLiteral, m_tryConsumeChars, startsWith, advance, compose, extend]
      · rw [h3] at h
        simp only [Except.ok.injEq] at h
        subst h hp
        simp [m_ingestLiteral, m_tryConsumeChars, startsWith, advance, compose, extend]
    · rw [h2] at h
      simp only [Except.ok.injEq] at h
      subst h hp
      simp [m_ingestLiteral, m_tryConsumeChars, startsWith, advance, compose, extend]
  · rw [h1] at h
    simp only [Except.ok.injEq] at h
    subst h hp
    simp [m_ingestLiteral, m_tryConsumeChars, startsWith, advance, compose, extend]

theorem m_ingestLiteral_minus (sz : Nat) (t : List Nat) (evs : List Event) (d1 : DecodeHelper) :
    m_ingestLiteral ⟨sz, 45 :: t, evs⟩ ≠ .ok d1 := by
  simp [m_ingestLiteral, m_tryConsumeChars, startsWith, fail]

theorem compose_extend (d : DecodeHelper) (ev : Event) (rest : List Nat) (sz : Nat) :
    (d.compose ev).extend rest sz = (d.extend rest sz).compose ev := rfl

theorem numberEnd_of_skip (d : DecodeHelper) (x : Nat) (r rest : List Nat)
    (h : (m_skipWhitespace d).m_pos = x :: r) (hx : x = 44 ∨ x = 93 ∨ x = 125 ∨ x = 58) :
    NumberEnd (d.m_pos ++ rest) := by
  obtain ⟨sz, p, evs⟩ := d
  simp only [m_skipWhitespace] at h
  cases p with
  | nil => simp at h
  | cons a b =>
    intro c hc
    simp only [List.cons_append, List.head?_cons, Option.mem_def, Option.some.injEq] at hc
    subst hc
    simp only [List.dropWhile_cons] at h
    split_ifs at h with hsp
    · simp only [isspace, Bool.or_eq_true, Bool.and_eq_true, decide_eq_true_eq] at hsp
      simp only [isdigit, Bool.and_eq_false_iff, decide_eq_false_iff_not]
      omega
    · simp only [List.cons.injEq] at h
      obtain ⟨h1, _⟩ := h
      subst h1
      simp only [isdigit, Bool.and_eq_false_iff, decide_eq_false_iff_not]
      omega

theorem skip_extend_of_ne (d : DecodeHelper) (rest : List Nat) (sz : Nat)
    (h : (m_skipWhitespace d).m_pos ≠ []) :
    m_skipWhitespace (d.extend rest sz) = (m_skipWhitespace d).extend rest sz :=
  m_skipWhitespace_extend d rest sz (fun h0 => absurd h0 h)

theorem number_decompose (c : Nat) (t : List Nat) (hc : isdigit c = true) :
    ∃ dt tail, c :: t = c :: dt ++ tail ∧ (∀ x ∈ c :: dt, isdigit x = true) ∧
      ∀ x ∈ tail.head?, isdigit x = false := by
  refine ⟨t.takeWhile isdigit, t.dropWhile isdigit, ?_, ?_, ?_⟩
  · simp [List.takeWhile_append_dropWhile]
  · intro x hx
    rcases List.mem_cons.mp hx with h | h
    · subst h; exact hc
    · exact List.mem_takeWhile_imp h
  · intro x hx
    cases hd : t.dropWhile isdigit with
    | nil => rw [hd] at hx; simp at hx
    | cons a b =>
      rw [hd] at hx
      simp only [List.head?_cons, Option.mem_def, Option.some.injEq] at hx
      subst hx
      have := List.head_dropWhile_not isdigit t (by rw [hd]; simp)
      simpa [hd] using this

end qc.json.DecodeHelper

namespace qc.json.DecodeHelper

theorem m_consumeChar_ok (d d1 : DecodeHelper) (c : Nat) (h : m_consumeChar d c = .ok d1) :
    d.m_pos = c :: d1.m_pos ∧ d1 = d.advance 1 := by
  simp only [m_consumeChar] at h
  cases htc : m_tryConsumeChar d c with
  | mk b d2 =>
    rw [htc] at h
    cases b with
    | true =>
      simp only [Except.ok.injEq] at h
      subst h
      exact m_tryConsumeChar_true d d2 c htc
    | false => simp [fail] at h

theorem m_ingestArray_loop_extend (f f1 : DecodeHelper → Throws DecodeHelper) (rest : List Nat)
    (sz1 : Nat)
    (hf : ∀ d d1, f d = .ok d1 → (startsNumber d.m_pos = true → NumberEnd (d1.m_pos ++ rest)) →
      f1 (d.extend rest sz1) = .ok (d1.extend rest sz1))
    (hne : ∀ d d1, f d = .ok d1 → d.m_pos ≠ []) :
    ∀ (n n1 : Nat) (d d1 : DecodeHelper), m_ingestArray_loop f n d = .ok d1 → n ≤ n1 →
      m_ingestArray_loop f1 n1 (d.extend rest sz1) = .ok (d1.extend rest sz1)
  | 0, _, d, d1, h, _ => by simp [m_ingestArray_loop] at h
  | n + 1, 0, _, _, _, hle => by omega
  | n + 1, n1 + 1, d, d1, h, hle => by
    simp only [m_ingestArray_loop] at h ⊢
    cases hfd : f d with
    | error e => rw [hfd] at h; cases h
    | ok e1 =>
      rw [hfd] at h
      dsimp only at h
      cases htc : m_tryConsumeChar (m_skipWhitespace e1) 93 with
      | mk b d3 =>
        rw [htc] at h
        cases b with
        | true =>
          simp only [Except.ok.injEq] at h
          subst h
          obtain ⟨hpos, _⟩ := m_tryConsumeChar_true _ _ _ htc
          have hN := numberEnd_of_skip e1 93 d3.m_pos rest hpos (by simp)
          rw [hf d e1 hfd (fun _ => hN)]
          dsimp only
          rw [skip_extend_of_ne e1 rest sz1 (by rw [hpos]; simp),
            m_tryConsumeChar_extend _ rest sz1 93 (by rw [hpos]; simp), htc]
        | false =>
          dsimp only at h
          cases hcc : m_consumeChar (m_skipWhitespace e1) 44 with
          | error e => rw [hcc] at h; cases h
          | ok d4 =>
            rw [hcc] at h
            dsimp only at h
            obtain ⟨hpos, _⟩ := m_consumeChar_ok _ _ _ hcc
            have hN := numberEnd_of_skip e1 44 d4.m_pos rest hpos (by simp)
            rw [hf d e1 hfd (fun _ => hN)]
            dsimp only
            rw [skip_extend_of_ne e1 rest sz1 (by rw [hpos]; simp),
              m_tryConsumeChar_extend _ rest sz1 93 (by rw [hpos]; simp), htc]
            dsimp only
            rw [m_consumeChar_extend _ _ rest sz1 44 hcc]
            dsimp only
            have hne2 : (m_skipWhitespace d4).m_pos ≠ [] := by
              cases n with
              | zero => simp [m_ingestArray_loop] at h
              | succ n0 =>
                simp only [m_ingestArray_loop] at h
                cases hf2 : f (m_skipWhitespace d4) with
                | error e => rw [hf2] at h; cases h
                | ok e2 => exact hne _ _ hf2
            rw [skip_extend_of_ne d4 rest sz1 hne2]
            exact m_ingestArray_loop_extend f f1 rest sz1 hf hne n n1 _ d1 h (by omega)

theorem m_ingestArray_extend (f f1 : DecodeHelper → Throws DecodeHelper) (rest : List Nat)
    (sz1 : Nat)
    (hf : ∀ d d1, f d = .ok d1 → (startsNumber d.m_pos = true → NumberEnd (d1.m_pos ++ rest)) →
      f1 (d.extend rest sz1) = .ok (d1.extend rest sz1))
    (hne : ∀ d d1, f d = .ok d1 → d.m_pos ≠ [])
    (d d1 : DecodeHelper) (hd : d.m_pos ≠ []) (h : m_ingestArray f d = .ok d1) :
    m_ingestArray f1 (d.extend rest sz1) = .ok (d1.extend rest sz1) := by
  simp only [m_ingestArray] at h ⊢
  have hadv : ((d.extend rest sz1).compose .array).advance 1 =
      ((d.compose .array).advance 1).extend rest sz1 := by
    rw [← compose_extend]
    exact advance_extend _ rest sz1 1 (by
      obtain ⟨sz, p, evs⟩ := d
      cases p with
      | nil => exact absurd rfl hd
      | cons a b => simp [compose])
  rw [hadv]
  have hne1 : (m_skipWhitespace ((d.compose .array).advance 1)).m_pos ≠ [] := by
    intro h0
    have htc : m_tryConsumeChar (m_skipWhitespace ((d.compose .array).advance 1)) 93 =
        (false, m_skipWhitespace ((d.compose .array).advance 1)) := by
      simp only [m_tryConsumeChar, h0]
    rw [htc, h0] at h
    dsimp only at h
    simp only [List.length_nil, Nat.zero_add, m_ingestArray_loop] at h
    cases hf2 : f (m_skipWhitespace ((d.compose .array).advance 1)) with
    | error e => rw [hf2] at h; cases h
    | ok e2 => exact hne _ _ hf2 h0
  rw [skip_extend_of_ne _ rest sz1 hne1, m_tryConsumeChar_extend _ rest sz1 93 hne1]
  cases htc : m_tryConsumeChar (m_skipWhitespace ((d.compose .array).advance 1)) 93 with
  | mk b d3 =>
    rw [htc] at h
    cases b with
    | true =>
      simp only [Except.ok.injEq] at h
      subst h
      rfl
    | false =>
      dsimp only at h ⊢
      cases hl : m_ingestArray_loop f
          ((m_skipWhitespace ((d.compose .array).advance 1)).m_pos.length + 1)
          (m_skipWhitespace ((d.compose .array).advance 1)) with
      | error e => rw [hl] at h; cases h
      | ok d4 =>
        rw [hl] at h
        simp only [Except.ok.injEq] at h
        subst h
        rw [m_ingestArray_loop_extend f f1 rest sz1 hf hne _ _ _ d4 hl
          (by simp [extend])]
        rfl

end qc.json.DecodeHelper

namespace qc.json.DecodeHelper

theorem m_ingestObject_loop_extend (f f1 : DecodeHelper → Throws DecodeHelper) (rest : List Nat)
    (sz1 : Nat)
    (hf : ∀ d d1, f d = .ok d1 → (startsNumber d.m_pos = true → NumberEnd (d1.m_pos ++ rest)) →
      f1 (d.extend rest sz1) = .ok (d1.extend rest sz1))
    (hne : ∀ d d1, f d = .ok d1 → d.m_pos ≠ []) :
    ∀ (n n1 : Nat) (d d1 : DecodeHelper), m_ingestObject_loop f n d = .ok d1 → n ≤ n1 →
      m_ingestObject_loop f1 n1 (d.extend rest sz1) = .ok (d1.extend rest sz1)
  | 0, _, d, d1, h, _ => by simp [m_ingestObject_loop] at h
  | n + 1, 0, _, _, _, hle => by omega
  | n + 1, n1 + 1, d, d1, h, hle => by
    obtain ⟨sz, p, evs⟩ := d
    cases p with
    | nil => simp [m_ingestObject_loop] at h
    | cons c t =>
      simp only [m_ingestObject_loop, extend, List.cons_append] at h ⊢
      split_ifs at h ⊢ with hc
      · simp [fail] at h
      · cases hcs : m_consumeString ⟨sz, c :: t, evs⟩ with
        | error e => rw [hcs] at h; cases h
        | ok r =>
          obtain ⟨key, e1⟩ := r
          rw [hcs] at h
          dsimp only at h
          have hcs1 := m_consumeString_extend _ e1 key rest sz1 hcs
          simp only [extend, List.cons_append] at hcs1
          rw [hcs1]
          dsimp only
          split_ifs at h ⊢ with hk
          · simp [fail] at h
          · cases hcc : m_consumeChar (m_skipWhitespace (e1.compose (.key key))) 58 with
            | error e => rw [hcc] at h; cases h
            | ok e2 =>
              rw [hcc] at h
              dsimp only at h
              obtain ⟨hpos, _⟩ := m_consumeChar_ok _ _ _ hcc
              have hsk := skip_extend_of_ne (e1.compose (.key key)) rest sz1 (by rw [hpos]; simp)
              simp only [extend, compose] at hsk hpos hcc
              simp only [compose]
              rw [hsk]
              have hcc1 := m_consumeChar_extend _ _ rest sz1 58 hcc
              simp only [extend] at hcc1
              rw [hcc1]
              dsimp only
              cases hfv : f (m_skipWhitespace e2) with
              | error e => rw [hfv] at h; cases h
              | ok e3 =>
                rw [hfv] at h
                dsimp only at h
                have hne2 := hne _ _ hfv
                have hsk2 := skip_extend_of_ne e2 rest sz1 hne2
                simp only [extend] at hsk2
                rw [hsk2]
                cases htc : m_tryConsumeChar (m_skipWhitespace e3) 125 with
                | mk b e5 =>
                  rw [htc] at h
                  cases b with
                  | true =>
                    simp only [Except.ok.injEq] at h
                    subst h
                    obtain ⟨hpos3, _⟩ := m_tryConsumeChar_true _ _ _ htc
                    have hN := numberEnd_of_skip e3 125 e5.m_pos rest hpos3 (by simp)
                    have hf1 := hf _ e3 hfv (fun _ => hN)
                    simp only [extend] at hf1
                    rw [hf1]
                    dsimp only
                    have hsk3 := skip_extend_of_ne e3 rest sz1 (by rw [hpos3]; simp)
                    have htc1 := m_tryConsumeChar_extend (m_skipWhitespace e3) rest sz1 125
                      (by rw [hpos3]; simp)
                    simp only [extend] at hsk3 htc1
                    rw [hsk3, htc1, htc]
                  | false =>
                    dsimp only at h
                    cases hc4 : m_consumeChar (m_skipWhitespace e3) 44 with
                    | error e => rw [hc4] at h; cases h
                    | ok e6 =>
                      rw [hc4] at h
                      dsimp only at h
                      obtain ⟨hpos3, _⟩ := m_consumeChar_ok _ _ _ hc4
                      have hN := numberEnd_of_skip e3 44 e6.m_pos rest hpos3 (by simp)
                      have hf1 := hf _ e3 hfv (fun _ => hN)
                      simp only [extend] at hf1
                      rw [hf1]
                      dsimp only
                      have hsk3 := skip_extend_of_ne e3 rest sz1 (by rw [hpos3]; simp)
                      have htc1 := m_tryConsumeChar_extend (m_skipWhitespace e3) rest sz1 125
                        (by rw [hpos3]; simp)
                      have hc41 := m_consumeChar_extend _ _ rest sz1 44 hc4
                      simp only [extend] at hsk3 htc1 hc41
                      rw [hsk3, htc1, htc]
                      dsimp only
                      rw [hc41]
                      dsimp only
                      have hne3 : (m_skipWhitespace e6).m_pos ≠ [] := by
                        intro h0
                        cases n with
                        | zero => simp [m_ingestObject_loop] at h
                        | succ n0 => simp [m_ingestObject_loop, h0] at h
                      have hsk4 := skip_extend_of_ne e6 rest sz1 hne3
                      have := m_ingestObject_loop_extend f f1 rest sz1 hf hne n n1 _ d1 h (by omega)
                      simp only [extend] at hsk4 this
                      rw [hsk4]
                      exact this

theorem m_ingestObject_extend (f f1 : DecodeHelper → Throws DecodeHelper) (rest : List Nat)
    (sz1 : Nat)
    (hf : ∀ d d1, f d = .ok d1 → (startsNumber d.m_pos = true → NumberEnd (d1.m_pos ++ rest)) →
      f1 (d.extend rest sz1) = .ok (d1.extend rest sz1))
    (hne : ∀ d d1, f d = .ok d1 → d.m_pos ≠ [])
    (d d1 : DecodeHelper) (hd : d.m_pos ≠ []) (h : m_ingestObject f d = .ok d1) :
    m_ingestObject f1 (d.extend rest sz1) = .ok (d1.extend rest sz1) := by
  simp only [m_ingestObject] at h ⊢
  have hadv : ((d.extend rest sz1).compose .object).advance 1 =
      ((d.compose .object).advance 1).extend rest sz1 := by
    rw [← compose_extend]
    exact advance_extend _ rest sz1 1 (by
      obtain ⟨sz, p, evs⟩ := d
      cases p with
      | nil => exact absurd rfl hd
      | cons a b => simp [compose])
  rw [hadv]
  have hne1 : (m_skipWhitespace ((d.compose .object).advance 1)).m_pos ≠ [] := by
    intro h0
    have htc : m_tryConsumeChar (m_skipWhitespace ((d.compose .object).advance 1)) 125 =
        (false, m_skipWhitespace ((d.compose .object).advance 1)) := by
      simp only [m_tryConsumeChar, h0]
    rw [htc, h0] at h
    dsimp only at h
    simp [m_ingestObject_loop, h0] at h
  rw [skip_extend_of_ne _ rest sz1 hne1, m_tryConsumeChar_extend _ rest sz1 125 hne1]
  cases htc : m_tryConsumeChar (m_skipWhitespace ((d.compose .object).advance 1)) 125 with
  | mk b d3 =>
    rw [htc] at h
    cases b with
    | true =>
      simp only [Except.ok.injEq] at h
      subst h
      rfl
    | false =>
      dsimp only at h ⊢
      cases hl : m_ingestObject_loop f
          ((m_skipWhitespace ((d.compose .object).advance 1)).m_pos.length + 1)
          (m_skipWhitespace ((d.compose .object).advance 1)) with
      | error e => rw [hl] at h; cases h
      | ok d4 =>
        rw [hl] at h
        simp only [Except.ok.injEq] at h
        subst h
        rw [m_ingestObject_loop_extend f f1 rest sz1 hf hne _ _ _ d4 hl
          (by simp [extend])]
        rfl

end qc.json.DecodeHelper

namespace qc.json.DecodeHelper

theorem m_ingestValue_ne (fuel : Nat) (d d1 : DecodeHelper) (h : m_ingestValue fuel d = .ok d1) :
    d.m_pos ≠ [] := by
  intro h0
  cases fuel with
  | zero => simp [m_ingestValue] at h
  | succ n => simp [m_ingestValue, h0, fail] at h

/-- What `m_ingestValue` reads from a text it reads from the same text with more text after it,
provided that, when the value is a number, a number ends where the reading stopped. -/
theorem m_ingestValue_extend (rest : List Nat) (sz1 : Nat) :
    ∀ (fuel fuel1 : Nat) (d d1 : DecodeHelper), m_ingestValue fuel d = .ok d1 → fuel ≤ fuel1 →
      (startsNumber d.m_pos = true → NumberEnd (d1.m_pos ++ rest)) →
      m_ingestValue fuel1 (d.extend rest sz1) = .ok (d1.extend rest sz1)
  | 0, _, d, d1, h, _, _ => by simp [m_ingestValue] at h
  | fuel + 1, 0, _, _, _, hle, _ => by omega
  | fuel + 1, fuel1 + 1, ⟨sz, p, evs⟩, d1, h, hle, hnum => by
    have hrec : ∀ d d1, m_ingestValue fuel d = .ok d1 →
        (startsNumber d.m_pos = true → NumberEnd (d1.m_pos ++ rest)) →
        m_ingestValue fuel1 (d.extend rest sz1) = .ok (d1.extend rest sz1) :=
      fun d d1 h hn => m_ingestValue_extend rest sz1 fuel fuel1 d d1 h (by omega) hn
    cases p with
    | nil => simp [m_ingestValue, fail] at h
    | cons c t =>
      by_cases h123 : c = 123
      · subst h123
        simp only [m_ingestValue, extend, List.cons_append, if_true] at h ⊢
        exact m_ingestObject_extend (m_ingestValue fuel) (m_ingestValue fuel1) rest sz1 hrec
          (m_ingestValue_ne fuel) ⟨sz, 123 :: t, evs⟩ d1 (by simp) h
      by_cases h91 : c = 91
      · subst h91
        simp only [m_ingestValue, extend, List.cons_append, if_true,
          show ¬ (91 : Nat) = 123 by decide, if_false] at h ⊢
        exact m_ingestArray_extend (m_ingestValue fuel) (m_ingestValue fuel1) rest sz1 hrec
          (m_ingestValue_ne fuel) ⟨sz, 91 :: t, evs⟩ d1 (by simp) h
      by_cases h34 : c = 34
      · subst h34
        simp only [m_ingestValue, extend, List.cons_append, if_true,
          show ¬ (34 : Nat) = 123 by decide, show ¬ (34 : Nat) = 91 by decide, if_false,
          m_ingestString] at h ⊢
        cases hcs : m_consumeString ⟨sz, 34 :: t, evs⟩ with
        | error e => rw [hcs] at h; cases h
        | ok r =>
          obtain ⟨v, e1⟩ := r
          rw [hcs] at h
          simp only [Except.ok.injEq] at h
          subst h
          have := m_consumeString_extend _ e1 v rest sz1 hcs
          simp only [extend, List.cons_append] at this
          rw [this]
          rfl
      by_cases hdig : isdigit c = true
      · obtain ⟨dt, tail, hp, hds, htail⟩ := number_decompose c t hdig
        have hp1 : c :: t = integerToken false (c :: dt) ++ tail := by
          simpa [integerToken] using hp
        have hsn : startsNumber (c :: t) = true := by simp [startsNumber, hdig]
        have hend := hnum hsn
        rw [hp1] at h
        rw [m_ingestValue_number false c dt tail hdig] at h
        have := m_ingestNumber_extend false c dt tail rest hds htail sz sz1 evs d1 h hend
        simp only [extend]
        rw [hp1, List.append_assoc, m_ingestValue_number false c dt (tail ++ rest) hdig]
        exact this
      by_cases h45 : c = 45
      · subst h45
        cases t with
        | nil =>
          simp only [m_ingestValue, m_tryConsumeChars] at h
          simp [startsWith] at h
          exact absurd h (m_ingestLiteral_minus sz [] evs d1)
        | cons a t1 =>
          by_cases ha : isdigit a = true
          · obtain ⟨dt, tail, hp, hds, htail⟩ := number_decompose a t1 ha
            have hp1 : 45 :: a :: t1 = integerToken true (a :: dt) ++ tail := by
              simp only [integerToken, if_true, List.cons_append, List.nil_append, List.cons.injEq,
                true_and]
              simpa using hp
            have hsn : startsNumber (45 :: a :: t1) = true := by simp [startsNumber, ha]
            have hend := hnum hsn
            rw [hp1] at h
            rw [m_ingestValue_number true a dt tail ha] at h
            have := m_ingestNumber_extend true a dt tail rest hds htail sz sz1 evs d1 h hend
            simp only [extend]
            rw [hp1, List.append_assoc, m_ingestValue_number true a dt (tail ++ rest) ha]
            exact this
          · have h45d : isdigit 45 = false := by decide
            simp only [m_ingestValue, extend, List.cons_append, h45d, if_true,
              show ¬ (45 : Nat) = 123 by decide, show ¬ (45 : Nat) = 91 by decide,
              show ¬ (45 : Nat) = 34 by decide, if_false, Bool.false_eq_true, List.getD_cons_succ,
              List.getD_cons_zero, ha, Bool.and_false] at h ⊢
            rcases m_tryConsumeChars_cases sz (45 :: a :: t1) evs [45, 105, 110, 102] with
              h1 | ⟨t2, hp, h1⟩
            · rw [h1] at h
              exact absurd h (m_ingestLiteral_minus sz (a :: t1) evs d1)
            · rw [h1] at h
              simp only [Except.ok.injEq] at h
              subst h
              simp only [List.cons_append, List.nil_append, List.cons.injEq, true_and] at hp
              obtain ⟨ha1, ht1⟩ := hp
              subst ha1 ht1
              simp [m_tryConsumeChars, startsWith, advance, compose]
      · simp only [m_ingestValue, extend, List.cons_append, if_neg h123, if_neg h91, if_neg h34,
          hdig, if_neg h45, Bool.false_eq_true, if_false] at h ⊢
        have := m_ingestLiteral_extend _ d1 rest sz1 h
        simp only [extend, List.cons_append] at this
        exact this

end qc.json.DecodeHelper

namespace qc.json

open DecodeHelper

theorem m_ingestValue_head (fuel sz : Nat) (c : Nat) (t : List Nat) (evs : List Event)
    (d1 : DecodeHelper) (h : m_ingestValue fuel ⟨sz, c :: t, evs⟩ = .ok d1) :
    isspace c = false := by
  cases fuel with
  | zero => simp [m_ingestValue] at h
  | succ n =>
    by_contra hsp
    simp only [Bool.not_eq_false, isspace, Bool.or_eq_true, Bool.and_eq_true,
      decide_eq_true_eq] at hsp
    have h1 : c ≠ 123 ∧ c ≠ 91 ∧ c ≠ 34 ∧ c ≠ 45 ∧ c ≠ 116 ∧ c ≠ 102 ∧ c ≠ 110 ∧ c ≠ 105 := by
      omega
    have h2 : isdigit c = false := by
      simp only [isdigit, Bool.and_eq_false_iff, decide_eq_false_iff_not]
      omega
    obtain ⟨a1, a2, a3, a4, a5, a6, a7, a8⟩ := h1
    simp [m_ingestValue, a1, a2, a3, a4, h2, m_ingestLiteral, m_tryConsumeChars, startsWith,
      a5, a6, a7, a8, fail] at h

theorem completeValue_ingest (body : List Nat) (hbody : completeValue body = true) :
    ∃ d, m_ingestValue (body.length + 1) ⟨body.length, body, []⟩ = .ok d ∧ d.m_pos = [] ∧
      d.m_composer = valueEvents body := by
  unfold completeValue at hbody
  unfold valueEvents
  cases hm : m_ingestValue (body.length + 1) ⟨body.length, body, []⟩ with
  | error e => rw [hm] at hbody; cases hbody
  | ok d =>
    rw [hm] at hbody
    exact ⟨d, rfl, by simpa using hbody, rfl⟩

/-- What `decode` does with a text that starts with white space and one complete value. -/
theorem decode_after_value (ws0 body rest : List Nat) (hws0 : IsWs ws0)
    (hbody : completeValue body = true) (hnum : startsNumber body = true → NumberEnd rest) :
    decode (ws0 ++ body ++ rest) =
      if rest.dropWhile isspace ≠ [] then
        .error (.DecodeError .extraneousContent
            ((ws0 ++ body ++ rest).length - (rest.dropWhile isspace).length),
          ⟨(ws0 ++ body ++ rest).length, rest.dropWhile isspace, valueEvents body⟩)
      else .ok (valueEvents body) := by
  obtain ⟨d, hing, hpos, hevs⟩ := completeValue_ingest body hbody
  have hne := m_ingestValue_ne _ _ _ hing
  have hext := m_ingestValue_extend rest (ws0 ++ body ++ rest).length (body.length + 1)
    ((ws0 ++ body ++ rest).length + 1) _ _ hing (by simp; omega)
    (by simpa [hpos] using hnum)
  simp only [extend, hpos, hevs, List.nil_append] at hext
  have hstart : ∀ c ∈ (body ++ rest).head?, isspace c = false := by
    cases hb : body with
    | nil => exact absurd hb hne
    | cons c t =>
      intro x hx
      simp only [List.cons_append, List.head?_cons, Option.mem_def, Option.some.injEq] at hx
      subst hx
      rw [hb] at hing
      exact m_ingestValue_head _ _ _ _ _ _ hing
  have hd : (ws0 ++ body ++ rest).dropWhile isspace = body ++ rest := by
    have h0 : ws0.dropWhile isspace = [] := by
      rw [List.dropWhile_eq_nil_iff]
      exact hws0
    rw [List.append_assoc, (span_append isspace ws0 (body ++ rest) hstart).2, h0, List.nil_append]
  simp only [decode, run, m_skipWhitespace, hd, hext]
  split_ifs <;> rfl

end qc.json

/-! ## The calls made before a member function starts do not change what it does -/

namespace qc.json.DecodeHelper

@[simp] theorem withCalls_mk (before : List Event) (sz : Nat) (p : List Nat) (evs : List Event) :
    withCalls before ⟨sz, p, evs⟩ = ⟨sz, p, before ++ evs⟩ := rfl

theorem withCalls_advance (before : List Event) (d : DecodeHelper) (n : Nat) :
    (d.withCalls before).advance n = (d.advance n).withCalls before := rfl

theorem withCalls_compose (before : List Event) (d : DecodeHelper) (ev : Event) :
    (d.withCalls before).compose ev = (d.compose ev).withCalls before := by
  simp [withCalls, compose]

theorem withCalls_skip (before : List Event) (d : DecodeHelper) :
    m_skipWhitespace (d.withCalls before) = (m_skipWhitespace d).withCalls before := rfl

theorem withCalls_fail {α : Type} (before : List Event) (d : DecodeHelper) (msg : Message) :
    (fail (d.withCalls before) msg : Throws (α × DecodeHelper)) =
      withCallsT before (fail d msg) := rfl

theorem withCalls_failU (before : List Event) (d : DecodeHelper) (msg : Message) :
    (fail (d.withCalls before) msg : Throws DecodeHelper) = withCallsU before (fail d msg) := rfl

theorem withCalls_tryConsumeChar (before : List Event) (d : DecodeHelper) (c : Nat) :
    m_tryConsumeChar (d.withCalls before) c =
      ((m_tryConsumeChar d c).1, (m_tryConsumeChar d c).2.withCalls before) := by
  obtain ⟨sz, p, evs⟩ := d
  cases p with
  | nil => rfl
  | cons a b =>
    simp only [m_tryConsumeChar, withCalls]
    split_ifs <;> rfl

theorem withCalls_consumeChar (before : List Event) (d : DecodeHelper) (c : Nat) :
    m_consumeChar (d.withCalls before) c = withCallsU before (m_consumeChar d c) := by
  simp only [m_consumeChar, withCalls_tryConsumeChar]
  cases h : m_tryConsumeChar d c with
  | mk b d1 => cases b <;> rfl

theorem withCalls_tryConsumeChars (before : List Event) (d : DecodeHelper) (str : List Nat) :
    m_tryConsumeChars (d.withCalls before) str =
      ((m_tryConsumeChars d str).1, (m_tryConsumeChars d str).2.withCalls before) := by
  simp only [m_tryConsumeChars, withCalls]
  split_ifs <;> rfl

theorem withCalls_consumeUnicode (before : List Event) (d : DecodeHelper) :
    m_consumeUnicode (d.withCalls before) = withCallsT before (m_consumeUnicode d) := by
  simp only [m_consumeUnicode, withCalls]
  split_ifs
  · rfl
  · cases from_chars_hex (d.m_pos.take 4) with
    | error e => rfl
    | ok val =>
      simp only
      split_ifs <;> rfl

theorem withCalls_consumeEscaped (before : List Event) (d : DecodeHelper) :
    m_consumeEscaped (d.withCalls before) = withCallsT before (m_consumeEscaped d) := by
  obtain ⟨sz, p, evs⟩ := d
  cases p with
  | nil => rfl
  | cons c t =>
    simp only [m_consumeEscaped, withCalls]
    by_cases hu : c = 117
    · subst hu
      simp only [show ¬ (117 : Nat) = 34 by decide, show ¬ (117 : Nat) = 92 by decide,
        show ¬ (117 : Nat) = 47 by decide, show ¬ (117 : Nat) = 98 by decide,
        show ¬ (117 : Nat) = 102 by decide, show ¬ (117 : Nat) = 110 by decide,
        show ¬ (117 : Nat) = 114 by decide, show ¬ (117 : Nat) = 116 by decide, if_false,
        if_true]
      exact withCalls_consumeUnicode before (advance ⟨sz, 117 :: t, evs⟩ 1)
    · simp only [if_neg hu]
      split_ifs <;> rfl

theorem withCalls_consumeString_loop (before : List Event) :
    ∀ (fuel : Nat) (d : DecodeHelper) (buffer : List Nat),
      m_consumeString_loop fuel (d.withCalls before) buffer =
        withCallsT before (m_consumeString_loop fuel d buffer)
  | 0, d, buffer => rfl
  | fuel + 1, ⟨sz, p, evs⟩, buffer => by
    cases p with
    | nil => rfl
    | cons c t =>
      simp only [m_consumeString_loop, withCalls]
      by_cases h34 : c = 34
      · simp only [if_pos h34]; rfl
      · simp only [if_neg h34]
        by_cases h92 : c = 92
        · simp only [if_pos h92]
          have := withCalls_consumeEscaped before (advance ⟨sz, c :: t, evs⟩ 1)
          simp only [withCalls, advance] at this ⊢
          rw [this]
          cases m_consumeEscaped ⟨sz, List.drop 1 (c :: t), evs⟩ with
          | error e => rfl
          | ok r =>
            obtain ⟨c1, d1⟩ := r
            exact withCalls_consumeString_loop before fuel d1 _
        · simp only [if_neg h92]
          split_ifs
          · exact withCalls_consumeString_loop before fuel (advance ⟨sz, c :: t, evs⟩ 1) _
          · rfl

theorem withCalls_consumeString (before : List Event) (d : DecodeHelper) :
    m_consumeString (d.withCalls before) = withCallsT before (m_consumeString d) :=
  withCalls_consumeString_loop before d.m_pos.length (d.advance 1) []

end qc.json.DecodeHelper

namespace qc.json.DecodeHelper

theorem withCalls_ingestString (before : List Event) (d : DecodeHelper) :
    m_ingestString (d.withCalls before) = withCallsU before (m_ingestString d) := by
  simp only [m_ingestString, withCalls_consumeString]
  cases m_consumeString d with
  | error e => rfl
  | ok r =>
    obtain ⟨v, d1⟩ := r
    simp only [withCallsT, withCallsU, withCalls_compose]

theorem withCalls_ingestFloater (before : List Event) (d : DecodeHelper) :
    m_ingestFloater (d.withCalls before) = withCallsU before (m_ingestFloater d) := by
  obtain ⟨sz, p, evs⟩ := d
  simp only [m_ingestFloater, withCalls]
  cases from_chars_double p with
  | error e => rfl
  | ok r =>
    obtain ⟨val, ptr, afterPoint⟩ := r
    simp only
    split_ifs
    · rfl
    · simp [withCallsU, compose, withCalls]

/-- `m_ingestInteger` with the skipping of the decimal zeros written as tests. -/
theorem m_ingestInteger_eq (isSigned : Bool) (sz : Nat) (p : List Nat) (evs : List Event) :
    m_ingestInteger isSigned ⟨sz, p, evs⟩ =
      match from_chars_integer isSigned p with
      | .error .result_out_of_range => m_ingestFloater ⟨sz, p, evs⟩
      | .error .invalid_argument => fail ⟨sz, p, evs⟩ .invalidInteger
      | .ok (val, ptr) =>
        if ptr.head? = some 46 then
          if (ptr.drop 1).head? = some 48 then
            .ok ⟨sz, (ptr.drop 2).dropWhile (fun c => decide (c = 48)),
              evs ++ [if !isSigned && val < 2 ^ 63 then Event.val_int64 val
                else if isSigned then Event.val_int64 val else Event.val_uint64 val]⟩
          else fail ⟨sz, ptr.drop 1, evs⟩ .danglingDecimalPoint
        else .ok ⟨sz, ptr, evs ++ [if !isSigned && val < 2 ^ 63 then Event.val_int64 val
                else if isSigned then Event.val_int64 val else Event.val_uint64 val]⟩ := by
  cases h : from_chars_integer isSigned p with
  | error e => cases e <;> simp only [m_ingestInteger, h]
  | ok r =>
    obtain ⟨val, ptr⟩ := r
    simp only [m_ingestInteger, h]
    cases ptr with
    | nil => simp only [List.head?_nil, reduceCtorEq, if_false]; split_ifs <;> rfl
    | cons a t =>
      by_cases ha : a = 46
      · subst ha
        simp only [advance, List.drop_succ_cons, List.drop_zero, List.head?_cons, if_true]
        cases t with
        | nil => rfl
        | cons b t1 =>
          by_cases hb : b = 48
          · subst hb
            simp only [List.head?_cons, if_true, List.drop_succ_cons, List.drop_zero]
            split_ifs <;> rfl
          · simp only [List.head?_cons, Option.some.injEq, if_neg hb]
            split
            · rename_i err heq
              split at heq
              · rename_i heq2
                simp only [List.cons.injEq] at heq2
                exact absurd heq2.1 hb
              · simp only [fail, Except.error.injEq] at heq
                subst heq
                rfl
            · rename_i d3 heq
              split at heq
              · rename_i heq2
                simp only [List.cons.injEq] at heq2
                exact absurd heq2.1 hb
              · simp [fail] at heq
      · simp only [List.head?_cons, Option.some.injEq, if_neg ha]
        split
        · rename_i err heq
          split at heq
          · rename_i heq2
            simp only [List.cons.injEq] at heq2
            exact absurd heq2.1 ha
          · simp at heq
        · rename_i d3 heq
          split at heq
          · rename_i heq2
            simp only [List.cons.injEq] at heq2
            exact absurd heq2.1 ha
          · simp only [Except.ok.injEq] at heq
            subst heq
            split_ifs <;> rfl
theorem withCalls_ingestInteger (before : List Event) (isSigned : Bool) (d : DecodeHelper) :
    m_ingestInteger isSigned (d.withCalls before) =
      withCallsU before (m_ingestInteger isSigned d) := by
  obtain ⟨sz, p, evs⟩ := d
  have hf := withCalls_ingestFloater before ⟨sz, p, evs⟩
  simp only [withCalls] at hf
  simp only [withCalls, m_ingestInteger_eq]
  cases h : from_chars_integer isSigned p with
  | error e =>
    cases e with
    | result_out_of_range => exact hf
    | invalid_argument => rfl
  | ok r =>
    obtain ⟨val, ptr⟩ := r
    simp only
    split_ifs <;> simp [withCallsU, withCalls, fail, offset]

theorem withCalls_isInteger (before : List Event) (d : DecodeHelper) :
    m_isInteger (d.withCalls before) = m_isInteger d := rfl

theorem withCalls_ingestNumber (before : List Event) (d : DecodeHelper) :
    m_ingestNumber (d.withCalls before) = withCallsU before (m_ingestNumber d) := by
  simp only [m_ingestNumber, withCalls_isInteger, withCalls_ingestInteger]
  have : (d.withCalls before).m_pos = d.m_pos := rfl
  rw [this]
  split_ifs
  · rfl
  · rfl
  · exact withCalls_ingestFloater before d

theorem withCalls_ingestLiteral (before : List Event) (d : DecodeHelper) :
    m_ingestLiteral (d.withCalls before) = withCallsU before (m_ingestLiteral d) := by
  simp only [m_ingestLiteral, withCalls_tryConsumeChars]
  cases h1 : m_tryConsumeChars d [116, 114, 117, 101] with
  | mk b1 d1 =>
  cases b1 with
  | true => simp only [withCallsU, withCalls_compose]
  | false =>
  simp only
  cases h2 : m_tryConsumeChars d [102, 97, 108, 115, 101] with
  | mk b2 d2 =>
  cases b2 with
  | true => simp only [withCallsU, withCalls_compose]
  | false =>
  simp only
  cases h3 : m_tryConsumeChars d [110, 117, 108, 108] with
  | mk b3 d3 =>
  cases b3 with
  | true => simp only [withCallsU, withCalls_compose]
  | false =>
  simp only
  cases h4 : m_tryConsumeChars d [105, 110, 102] with
  | mk b4 d4 =>
  cases b4 with
  | true => simp only [withCallsU, withCalls_compose]
  | false =>
  simp only
  cases h5 : m_tryConsumeChars d [110, 97, 110] with
  | mk b5 d5 =>
  cases b5 with
  | true => simp only [withCallsU, withCalls_compose]
  | false => rfl

end qc.json.DecodeHelper

namespace qc.json.DecodeHelper

theorem withCallsU_ok (before : List Event) (r : Throws DecodeHelper) (d1 : DecodeHelper)
    (h : r = .ok d1) : withCallsU before r = .ok (d1.withCalls before) := by
  subst h; rfl

theorem withCalls_ingestArray_loop (before : List Event)
    (f : DecodeHelper → Throws DecodeHelper)
    (hf : ∀ d, f (d.withCalls before) = withCallsU before (f d)) :
    ∀ (n : Nat) (d : DecodeHelper),
      m_ingestArray_loop f n (d.withCalls before) =
        withCallsU before (m_ingestArray_loop f n d)
  | 0, d => rfl
  | n + 1, d => by
    simp only [m_ingestArray_loop, hf]
    cases f d with
    | error e => rfl
    | ok d1 =>
      simp only [withCallsU, withCalls_skip, withCalls_tryConsumeChar, withCalls_consumeChar]
      cases m_tryConsumeChar (m_skipWhitespace d1) 93 with
      | mk b d3 =>
        cases b with
        | true => rfl
        | false =>
          simp only
          cases m_consumeChar (m_skipWhitespace d1) 44 with
          | error e => rfl
          | ok d4 =>
            simp only [withCallsU, withCalls_skip]
            exact withCalls_ingestArray_loop before f hf n (m_skipWhitespace d4)

theorem withCalls_ingestArray (before : List Event) (f : DecodeHelper → Throws DecodeHelper)
    (hf : ∀ d, f (d.withCalls before) = withCallsU before (f d)) (d : DecodeHelper) :
    m_ingestArray f (d.withCalls before) = withCallsU before (m_ingestArray f d) := by
  simp only [m_ingestArray, withCalls_compose, withCalls_advance, withCalls_skip,
    withCalls_tryConsumeChar]
  cases m_tryConsumeChar (m_skipWhitespace ((d.compose .array).advance 1)) 93 with
  | mk b d3 =>
    cases b with
    | true => simp only [withCallsU, withCalls_compose]
    | false =>
      simp only
      have hl : (withCalls before (m_skipWhitespace ((d.compose .array).advance 1))).m_pos.length =
          (m_skipWhitespace ((d.compose .array).advance 1)).m_pos.length := rfl
      rw [hl, withCalls_ingestArray_loop before f hf]
      cases m_ingestArray_loop f _ (m_skipWhitespace ((d.compose .array).advance 1)) with
      | error e => rfl
      | ok d4 => simp only [withCallsU, withCalls_compose]

theorem withCalls_ingestObject_loop (before : List Event)
    (f : DecodeHelper → Throws DecodeHelper)
    (hf : ∀ d, f (d.withCalls before) = withCallsU before (f d)) :
    ∀ (n : Nat) (d : DecodeHelper),
      m_ingestObject_loop f n (d.withCalls before) =
        withCallsU before (m_ingestObject_loop f n d)
  | 0, d => rfl
  | n + 1, ⟨sz, p, evs⟩ => by
    cases p with
    | nil => rfl
    | cons c t =>
      simp only [m_ingestObject_loop, withCalls]
      split_ifs with hc
      · rfl
      · have hs := withCalls_consumeString before ⟨sz, c :: t, evs⟩
        simp only [withCalls] at hs
        rw [hs]
        cases m_consumeString ⟨sz, c :: t, evs⟩ with
        | error e => rfl
        | ok r =>
          obtain ⟨key, d1⟩ := r
          simp only [withCallsT]
          split_ifs with hk
          · rfl
          · simp only [withCalls_compose, withCalls_skip, withCalls_consumeChar]
            cases m_consumeChar (m_skipWhitespace (d1.compose (.key key))) 58 with
            | error e => rfl
            | ok d2 =>
              simp only [withCallsU, withCalls_skip, hf]
              cases f (m_skipWhitespace d2) with
              | error e => rfl
              | ok d3 =>
                simp only [withCallsU, withCalls_skip, withCalls_tryConsumeChar,
                  withCalls_consumeChar]
                cases m_tryConsumeChar (m_skipWhitespace d3) 125 with
                | mk b d5 =>
                  cases b with
                  | true => rfl
                  | false =>
                    simp only
                    cases m_consumeChar (m_skipWhitespace d3) 44 with
                    | error e => rfl
                    | ok d6 =>
                      simp only [withCallsU, withCalls_skip]
                      exact withCalls_ingestObject_loop before f hf n (m_skipWhitespace d6)

theorem withCalls_ingestObject (before : List Event) (f : DecodeHelper → Throws DecodeHelper)
    (hf : ∀ d, f (d.withCalls before) = withCallsU before (f d)) (d : DecodeHelper) :
    m_ingestObject f (d.withCalls before) = withCallsU before (m_ingestObject f d) := by
  simp only [m_ingestObject, withCalls_compose, withCalls_advance, withCalls_skip,
    withCalls_tryConsumeChar]
  cases m_tryConsumeChar (m_skipWhitespace ((d.compose .object).advance 1)) 125 with
  | mk b d3 =>
    cases b with
    | true => simp only [withCallsU, withCalls_compose]
    | false =>
      simp only
      have hl : (withCalls before (m_skipWhitespace ((d.compose .object).advance 1))).m_pos.length =
          (m_skipWhitespace ((d.compose .object).advance 1)).m_pos.length := rfl
      rw [hl, withCalls_ingestObject_loop before f hf]
      cases m_ingestObject_loop f _ (m_skipWhitespace ((d.compose .object).advance 1)) with
      | error e => rfl
      | ok d4 => simp only [withCallsU, withCalls_compose]

/-- What `m_ingestValue` does is the same whatever calls were made before it: they stay in
front of its own. -/
theorem withCalls_ingestValue (before : List Event) :
    ∀ (fuel : Nat) (d : DecodeHelper),
      m_ingestValue fuel (d.withCalls before) = withCallsU before (m_ingestValue fuel d)
  | 0, d => rfl
  | fuel + 1, ⟨sz, p, evs⟩ => by
    have ih := withCalls_ingestValue before fuel
    cases p with
    | nil => rfl
    | cons c t =>
      have ho := withCalls_ingestObject before (m_ingestValue fuel) ih ⟨sz, c :: t, evs⟩
      have ha := withCalls_ingestArray before (m_ingestValue fuel) ih ⟨sz, c :: t, evs⟩
      have hs := withCalls_ingestString before ⟨sz, c :: t, evs⟩
      have hn := withCalls_ingestNumber before ⟨sz, c :: t, evs⟩
      have hl := withCalls_ingestLiteral before ⟨sz, c :: t, evs⟩
      have ht := withCalls_tryConsumeChars before ⟨sz, c :: t, evs⟩ [45, 105, 110, 102]
      simp only [withCalls] at ho ha hs hn hl ht
      simp only [m_ingestValue, withCalls]
      split_ifs
      · exact ho
      · exact ha
      · exact hs
      · exact hn
      · exact hn
      · rw [ht]
        cases m_tryConsumeChars ⟨sz, c :: t, evs⟩ [45, 105, 110, 102] with
        | mk b d1 =>
          cases b with
          | true => simp [withCallsU, withCalls, compose]
          | false => exact hl
      · exact hl

end qc.json.DecodeHelper

/-! ## An error inside a container is the error of the container -/

namespace qc.json

open DecodeHelper

/-- The byte a value that `m_ingestValue` reads starts with. -/
theorem m_ingestValue_first (fuel sz : Nat) (c : Nat) (t : List Nat) (evs : List Event)
    (d1 : DecodeHelper) (h : m_ingestValue fuel ⟨sz, c :: t, evs⟩ = .ok d1) :
    c = 123 ∨ c = 91 ∨ c = 34 ∨ isdigit c = true ∨ c = 45 ∨ c = 116 ∨ c = 102 ∨ c = 110 ∨
      c = 105 := by
  cases fuel with
  | zero => simp [m_ingestValue] at h
  | succ n =>
    by_contra hno
    simp only [not_or] at hno
    obtain ⟨a1, a2, a3, a4, a5, a6, a7, a8, a9⟩ := hno
    simp [m_ingestValue, a1, a2, a3, a4, a5, m_ingestLiteral, m_tryConsumeChars, startsWith,
      a6, a7, a8, a9, fail] at h

theorem completeValue_first (v : List Nat) (hv : completeValue v = true) :
    ∃ c t, v = c :: t ∧ isspace c = false ∧ c ≠ 93 ∧ c ≠ 125 ∧ c ≠ 44 ∧ c ≠ 58 := by
  obtain ⟨d, hing, _, _⟩ := completeValue_ingest v hv
  cases hb : v with
  | nil => exact absurd hb (m_ingestValue_ne _ _ _ hing)
  | cons c t =>
    rw [hb] at hing
    have h := m_ingestValue_first _ _ _ _ _ _ hing
    refine ⟨c, t, rfl, ?_⟩
    have hd : isdigit c = true → 48 ≤ c ∧ c ≤ 57 := by
      intro h0
      simpa [isdigit] using h0
    simp only [isspace, Bool.or_eq_false_iff, Bool.and_eq_false_iff, decide_eq_false_iff_not]
    rcases h with h | h | h | h | h | h | h | h | h
    all_goals first
      | (subst h; decide)
      | (have hr := hd h
         omega)

/-- A complete value is read, with the calls of its own, wherever it stands in a text, when a
number ends there. -/
theorem completeValue_read (v rest : List Nat) (hv : completeValue v = true)
    (hnum : startsNumber v = true → NumberEnd rest) (sz fuel : Nat) (evs : List Event)
    (hfuel : v.length + 1 ≤ fuel) :
    m_ingestValue fuel ⟨sz, v ++ rest, evs⟩ = .ok ⟨sz, rest, evs ++ valueEvents v⟩ := by
  obtain ⟨d, hing, hpos, hevs⟩ := completeValue_ingest v hv
  have hext := m_ingestValue_extend rest sz (v.length + 1) fuel _ _ hing hfuel
    (by simpa [hpos] using hnum)
  simp only [extend, hpos, hevs, List.nil_append] at hext
  have hfr := withCalls_ingestValue evs fuel ⟨sz, v ++ rest, []⟩
  simp only [withCalls, List.append_nil] at hfr
  rw [hfr, hext]
  rfl

theorem skip_ws_token (ws s : List Nat) (hws : IsWs ws) (hs : StartsToken s) (sz : Nat)
    (evs : List Event) : m_skipWhitespace ⟨sz, ws ++ s, evs⟩ = ⟨sz, s, evs⟩ := by
  have h0 : ws.dropWhile isspace = [] := by
    rw [List.dropWhile_eq_nil_iff]
    exact hws
  simp only [m_skipWhitespace, (span_append isspace ws s hs).2, h0, List.nil_append]

theorem numberEnd_ws_sep (w : List Nat) (c : Nat) (rest : List Nat) (hw : IsWs w)
    (hc : c = 44 ∨ c = 93 ∨ c = 125 ∨ c = 58) : NumberEnd (w ++ c :: rest) := by
  intro x hx
  cases w with
  | nil =>
    simp only [List.nil_append, List.head?_cons, Option.mem_def, Option.some.injEq] at hx
    subst hx
    simp only [isdigit, Bool.and_eq_false_iff, decide_eq_false_iff_not]
    omega
  | cons a b =>
    simp only [List.cons_append, List.head?_cons, Option.mem_def, Option.some.injEq] at hx
    subst hx
    have := hw a (by simp)
    simp only [isspace, Bool.or_eq_true, Bool.and_eq_true, decide_eq_true_eq] at this
    simp only [isdigit, Bool.and_eq_false_iff, decide_eq_false_iff_not]
    omega

end qc.json

namespace qc.json

open DecodeHelper

theorem m_tryConsumeChar_head (sz : Nat) (s : List Nat) (evs : List Event) (c : Nat)
    (h : s.head? ≠ some c) : m_tryConsumeChar ⟨sz, s, evs⟩ c = (false, ⟨sz, s, evs⟩) := by
  cases s with
  | nil => rfl
  | cons a t =>
    have : a ≠ c := by simpa using h
    simp [m_tryConsumeChar, this]

theorem m_tryConsumeChar_eq (sz : Nat) (t : List Nat) (evs : List Event) (c : Nat) :
    m_tryConsumeChar ⟨sz, c :: t, evs⟩ c = (true, ⟨sz, t, evs⟩) := by
  simp [m_tryConsumeChar, advance]

theorem m_consumeChar_eq (sz : Nat) (t : List Nat) (evs : List Event) (c : Nat) :
    m_consumeChar ⟨sz, c :: t, evs⟩ c = .ok ⟨sz, t, evs⟩ := by
  simp [m_consumeChar, m_tryConsumeChar, advance]

theorem m_consumeChar_head (sz : Nat) (s : List Nat) (evs : List Event) (c : Nat)
    (h : s.head? ≠ some c) :
    m_consumeChar ⟨sz, s, evs⟩ c =
      .error (.DecodeError (.expected c) (sz - s.length), ⟨sz, s, evs⟩) := by
  simp only [m_consumeChar, m_tryConsumeChar_head sz s evs c h]
  rfl

theorem startsToken_cons (c : Nat) (t : List Nat) (h : isspace c = false) :
    StartsToken (c :: t) := by
  intro x hx
  simp only [List.head?_cons, Option.mem_def, Option.some.injEq] at hx
  subst hx
  exact h

theorem startsToken_value (v rest : List Nat) (hv : completeValue v = true) :
    StartsToken (v ++ rest) := by
  obtain ⟨c, t, rfl, hc, _⟩ := completeValue_first v hv
  exact startsToken_cons c _ hc

/-- The `[` of an array whose elements make the loop throw. -/
theorem failsValue_array (ws s : List Nat) (msg : Message) (back : Nat) (r : List Nat) (ev : List Event)
    (hws : IsWs ws) (hs : StartsToken s) (h : FailsElements s msg back r ev)
    (h93 : s.head? ≠ some 93) : FailsValue (91 :: (ws ++ s)) msg back r (.array :: ev) := by
  intro sz fuel evs hfuel
  obtain ⟨f, rfl⟩ : ∃ f, fuel = f + 1 := ⟨fuel - 1, by omega⟩
  simp only [List.length_cons, List.length_append] at hfuel
  simp only [m_ingestValue, show ¬ (91 : Nat) = 123 by decide, if_false, if_true, m_ingestArray,
    compose, advance, List.drop_succ_cons, List.drop_zero, skip_ws_token ws s hws hs,
    m_tryConsumeChar_head sz s _ 93 h93]
  rw [h sz f (s.length + 1) (evs ++ [Event.array]) (by omega) (by omega)]
  simp

/-- The opening brace of an object whose members make the loop throw. -/
theorem failsValue_object (ws s : List Nat) (msg : Message) (back : Nat) (r : List Nat) (ev : List Event)
    (hws : IsWs ws) (hs : StartsToken s) (h : FailsMembers s msg back r ev)
    (h125 : s.head? ≠ some 125) : FailsValue (123 :: (ws ++ s)) msg back r (.object :: ev) := by
  intro sz fuel evs hfuel
  obtain ⟨f, rfl⟩ : ∃ f, fuel = f + 1 := ⟨fuel - 1, by omega⟩
  simp only [List.length_cons, List.length_append] at hfuel
  simp only [m_ingestValue, if_true, m_ingestObject,
    compose, advance, List.drop_succ_cons, List.drop_zero, skip_ws_token ws s hws hs,
    m_tryConsumeChar_head sz s _ 125 h125]
  rw [h sz f (s.length + 1) (evs ++ [Event.object]) (by omega) (by omega)]
  simp

/-- An element that makes `m_ingestValue` throw makes the loop of the array throw. -/
theorem failsElements_value (s : List Nat) (msg : Message) (back : Nat) (r : List Nat) (ev : List Event)
    (h : FailsValue s msg back r ev) : FailsElements s msg back r ev := by
  intro sz fuel n evs hfuel hn
  obtain ⟨m, rfl⟩ : ∃ m, n = m + 1 := ⟨n - 1, by omega⟩
  simp only [m_ingestArray_loop, h sz fuel evs hfuel]

/-- A complete element and a comma in front of elements that make the loop throw. -/
theorem failsElements_next (v w1 w2 s : List Nat) (msg : Message) (back : Nat) (r : List Nat)
    (ev : List Event) (hv : completeValue v = true) (hw1 : IsWs w1) (hw2 : IsWs w2)
    (hs : StartsToken s) (h : FailsElements s msg back r ev) :
    FailsElements (v ++ (w1 ++ 44 :: (w2 ++ s))) msg back r (valueEvents v ++ ev) := by
  intro sz fuel n evs hfuel hn
  obtain ⟨m, rfl⟩ : ∃ m, n = m + 1 := ⟨n - 1, by omega⟩
  simp only [List.length_cons, List.length_append] at hfuel hn
  have hread := completeValue_read v (w1 ++ 44 :: (w2 ++ s)) hv
    (fun _ => numberEnd_ws_sep w1 44 _ hw1 (Or.inl rfl)) sz fuel evs (by omega)
  have h44 : StartsToken (44 :: (w2 ++ s)) := startsToken_cons 44 _ (by decide)
  simp only [m_ingestArray_loop, hread, skip_ws_token w1 _ hw1 h44,
    m_tryConsumeChar_head sz (44 :: (w2 ++ s)) _ 93 (by simp), m_consumeChar_eq,
    skip_ws_token w2 s hw2 hs]
  rw [h sz fuel m (evs ++ valueEvents v) (by omega) (by omega)]
  simp

end qc.json

namespace qc.json

open DecodeHelper

theorem key_isEmpty (content : List Piece) (h : content ≠ []) :
    (content.map Piece.byte).isEmpty = false := by
  cases content with
  | nil => exact absurd rfl h
  | cons a b => rfl

theorem stringToken_cons (content : List Piece) (rest : List Nat) :
    stringToken content ++ rest = 34 :: ((content.map Piece.text).flatten ++ 34 :: rest) := by
  simp [stringToken]

/-- A key and a colon in front of a value that makes `m_ingestValue` throw. -/
theorem failsMembers_key (content : List Piece) (w1 w2 s : List Nat) (msg : Message)
    (back : Nat) (r : List Nat) (ev : List Event) (hne : content ≠ [])
    (hvalid : ∀ p ∈ content, p.valid = true) (hw1 : IsWs w1) (hw2 : IsWs w2)
    (hs : StartsToken s) (h : FailsValue s msg back r ev) :
    FailsMembers (stringToken content ++ (w1 ++ 58 :: (w2 ++ s))) msg back r
      (.key (content.map Piece.byte) :: ev) := by
  intro sz fuel n evs hfuel hn
  obtain ⟨m, rfl⟩ : ∃ m, n = m + 1 := ⟨n - 1, by omega⟩
  simp only [List.length_cons, List.length_append] at hfuel
  have htok := m_consumeString_token content hvalid sz (w1 ++ 58 :: (w2 ++ s)) evs
  have h58 : StartsToken (58 :: (w2 ++ s)) := startsToken_cons 58 _ (by decide)
  rw [stringToken_cons] at htok ⊢
  simp only [m_ingestObject_loop, ne_eq, not_true_eq_false, if_false, htok, key_isEmpty content hne,
    Bool.false_eq_true, compose, skip_ws_token w1 _ hw1 h58, m_consumeChar_eq,
    skip_ws_token w2 s hw2 hs]
  rw [h sz fuel (evs ++ [Event.key (content.map Piece.byte)]) (by omega)]
  simp

/-- A complete member and a comma in front of members that make the loop throw. -/
theorem failsMembers_next (content : List Piece) (w1 w2 v w3 w4 s : List Nat) (msg : Message)
    (back : Nat) (r : List Nat) (ev : List Event) (hne : content ≠ [])
    (hvalid : ∀ p ∈ content, p.valid = true) (hw1 : IsWs w1) (hw2 : IsWs w2)
    (hv : completeValue v = true) (hw3 : IsWs w3) (hw4 : IsWs w4)
    (hs : StartsToken s) (h : FailsMembers s msg back r ev) :
    FailsMembers (stringToken content ++ (w1 ++ 58 :: (w2 ++ (v ++ (w3 ++ 44 :: (w4 ++ s))))))
      msg back r (.key (content.map Piece.byte) :: (valueEvents v ++ ev)) := by
  intro sz fuel n evs hfuel hn
  obtain ⟨m, rfl⟩ : ∃ m, n = m + 1 := ⟨n - 1, by omega⟩
  simp only [List.length_cons, List.length_append] at hfuel hn
  have htok := m_consumeString_token content hvalid sz
    (w1 ++ 58 :: (w2 ++ (v ++ (w3 ++ 44 :: (w4 ++ s))))) evs
  have h58 : StartsToken (58 :: (w2 ++ (v ++ (w3 ++ 44 :: (w4 ++ s))))) :=
    startsToken_cons 58 _ (by decide)
  have h44 : StartsToken (44 :: (w4 ++ s)) := startsToken_cons 44 _ (by decide)
  have hread := completeValue_read v (w3 ++ 44 :: (w4 ++ s)) hv
    (fun _ => numberEnd_ws_sep w3 44 _ hw3 (Or.inl rfl)) sz fuel
    (evs ++ [Event.key (content.map Piece.byte)]) (by omega)
  rw [stringToken_cons] at htok ⊢
  simp only [m_ingestObject_loop, ne_eq, not_true_eq_false, if_false, htok, key_isEmpty content hne,
    Bool.false_eq_true, compose, skip_ws_token w1 _ hw1 h58, m_consumeChar_eq,
    skip_ws_token w2 _ hw2 (startsToken_value v _ hv), hread, skip_ws_token w3 _ hw3 h44,
    m_tryConsumeChar_head sz (44 :: (w4 ++ s)) _ 125 (by simp), skip_ws_token w4 s hw4 hs]
  rw [h sz fuel m _ (by omega) (by omega)]
  simp

/-- A text that makes `m_ingestValue` throw makes the decoder throw at every place where a
value is expected, when it does not close an empty array. -/
theorem failsAt_value (k : Place) (s : List Nat) (msg : Message) (back : Nat) (r : List Nat)
    (ev : List Event) (hk : k.isValue = true) (h93 : s.head? ≠ some 93)
    (h : FailsValue s msg back r ev) : FailsAt k s msg back r ev := by
  cases k with
  | top => exact h
  | memberValue => exact h
  | element first => exact ⟨failsElements_value s msg back r ev h, fun _ => h93⟩
  | member first => cases hk

/-- The error of the decoder at a place of the text is the error of `decode`: the position
is the offset of the unread text in the whole text, and the calls made are those for the start
of the text followed by those made at the place. -/
theorem decode_fails_at (k : Place) (pre : List Nat) (evs : List Event) (hat : At k pre evs) :
    ∀ (s : List Nat) (msg : Message) (back : Nat) (r : List Nat) (ev : List Event),
      StartsToken s →
      FailsAt k s msg back r ev →
      decode (pre ++ s) = .error (.DecodeError msg ((pre ++ s).length - back),
        ⟨(pre ++ s).length, r, evs ++ ev⟩) := by
  induction hat with
  | top ws hws =>
    intro s msg back r ev hs h
    have := h (ws ++ s).length ((ws ++ s).length + 1) [] (by simp)
    simp only [decode, run, skip_ws_token ws s hws hs, this, List.nil_append]
  | array k pre evs ws _ hk hws ih =>
    intro s msg back r ev hs h
    have hv := failsValue_array ws s msg back r ev hws hs h.1 (h.2 rfl)
    have := ih (91 :: (ws ++ s)) msg back r (.array :: ev) (startsToken_cons 91 _ (by decide))
      (failsAt_value k _ msg back r _ hk (by simp) hv)
    simpa using this
  | object k pre evs ws _ hk hws ih =>
    intro s msg back r ev hs h
    have hv := failsValue_object ws s msg back r ev hws hs h.1 (h.2 rfl)
    have := ih (123 :: (ws ++ s)) msg back r (.object :: ev) (startsToken_cons 123 _ (by decide))
      (failsAt_value k _ msg back r _ hk (by simp) hv)
    simpa using this
  | nextElement first pre evs v w1 w2 _ hv hw1 hw2 ih =>
    intro s msg back r ev hs h
    have hn := failsElements_next v w1 w2 s msg back r ev hv hw1 hw2 hs h.1
    have h93 : first = true → (v ++ (w1 ++ 44 :: (w2 ++ s))).head? ≠ some 93 := by
      intro _
      obtain ⟨c, t, rfl, _, hc, _⟩ := completeValue_first v hv
      simpa using hc
    have := ih (v ++ (w1 ++ 44 :: (w2 ++ s))) msg back r (valueEvents v ++ ev)
      (startsToken_value v _ hv) ⟨hn, h93⟩
    simpa using this
  | key first pre evs content w1 w2 _ hne hvalid hw1 hw2 ih =>
    intro s msg back r ev hs h
    have hn := failsMembers_key content w1 w2 s msg back r ev hne hvalid hw1 hw2 hs h
    have := ih (stringToken content ++ (w1 ++ 58 :: (w2 ++ s))) msg back r
      (.key (content.map Piece.byte) :: ev)
      (by rw [stringToken_cons]; exact startsToken_cons 34 _ (by decide))
      ⟨hn, fun _ => by rw [stringToken_cons]; simp⟩
    simpa using this
  | nextMember first pre evs content w1 w2 v w3 w4 _ hne hvalid hw1 hw2 hv hw3 hw4 ih =>
    intro s msg back r ev hs h
    have hn := failsMembers_next content w1 w2 v w3 w4 s msg back r ev hne hvalid hw1 hw2 hv hw3
      hw4 hs h.1
    have := ih (stringToken content ++ (w1 ++ 58 :: (w2 ++ (v ++ (w3 ++ 44 :: (w4 ++ s))))))
      msg back r (.key (content.map Piece.byte) :: (valueEvents v ++ ev))
      (by rw [stringToken_cons]; exact startsToken_cons 34 _ (by decide))
      ⟨hn, fun _ => by rw [stringToken_cons]; simp⟩
    simpa using this

end qc.json

/-! ## Strings that make the decoder throw -/

namespace qc.json

open DecodeHelper

/-- A text that starts with a quote and makes `m_consumeString` throw makes the decoder throw
at every place, a key or a value. -/
theorem failsAt_string (k : Place) (body : List Nat) (msg : Message) (back : Nat)
    (r : List Nat)
    (h : ∀ (sz : Nat) (evs : List Event), m_consumeString ⟨sz, 34 :: body, evs⟩ =
      .error (.DecodeError msg (sz - back), ⟨sz, r, evs⟩)) :
    FailsAt k (34 :: body) msg back r [] := by
  have hv : FailsValue (34 :: body) msg back r [] := by
    intro sz fuel evs hfuel
    obtain ⟨f, rfl⟩ : ∃ f, fuel = f + 1 := ⟨fuel - 1, by omega⟩
    simp only [m_ingestValue, show ¬ (34 : Nat) = 123 by decide, show ¬ (34 : Nat) = 91 by decide,
      if_false, if_true, m_ingestString, h sz evs, List.append_nil]
  cases k with
  | top => exact hv
  | memberValue => exact hv
  | element first => exact ⟨failsElements_value _ msg back r [] hv, fun _ => by simp⟩
  | member first =>
    refine ⟨?_, fun _ => by simp⟩
    intro sz fuel n evs hfuel hn
    obtain ⟨m, rfl⟩ : ∃ m, n = m + 1 := ⟨n - 1, by omega⟩
    simp only [m_ingestObject_loop, ne_eq, not_true_eq_false, if_false, h sz evs,
      List.append_nil]

/-- The pieces at the start of the content of a string are read one by one. -/
theorem m_consumeString_loop_content (content : List Piece)
    (hc : ∀ p ∈ content, p.valid = true) (fuel sz : Nat) (tail : List Nat) (evs : List Event)
    (buffer : List Nat) :
    m_consumeString_loop (content.length + fuel)
        ⟨sz, (content.map Piece.text).flatten ++ tail, evs⟩ buffer =
      m_consumeString_loop fuel ⟨sz, tail, evs⟩ (buffer ++ content.map Piece.byte) := by
  induction content generalizing buffer with
  | nil => simp
  | cons p content ih =>
    have hf : (p :: content).length + fuel = (content.length + fuel) + 1 := by
      simp only [List.length_cons]; omega
    simp only [List.map_cons, List.flatten_cons, List.append_assoc]
    rw [hf, m_consumeString_loop_piece p (hc p (by simp)),
      ih (fun x hx => hc x (by simp [hx]))]
    simp

/-- When the text after valid pieces makes the loop of `m_consumeString` throw, so does the
string. -/
theorem m_consumeString_fails (content : List Piece) (hc : ∀ p ∈ content, p.valid = true)
    (tail : List Nat) (msg : Message) (back : Nat) (r : List Nat)
    (h : ∀ (sz fuel : Nat) (evs : List Event) (buffer : List Nat), tail.length + 1 ≤ fuel →
      m_consumeString_loop fuel ⟨sz, tail, evs⟩ buffer =
        .error (.DecodeError msg (sz - back), ⟨sz, r, evs⟩))
    (sz : Nat) (evs : List Event) :
    m_consumeString ⟨sz, 34 :: ((content.map Piece.text).flatten ++ tail), evs⟩ =
      .error (.DecodeError msg (sz - back), ⟨sz, r, evs⟩) := by
  have hlen := length_le_flatten_text content
  obtain ⟨f, hf⟩ : ∃ f, ((content.map Piece.text).flatten ++ tail).length + 1 =
      content.length + f ∧ tail.length + 1 ≤ f :=
    ⟨((content.map Piece.text).flatten ++ tail).length + 1 - content.length, by
      simp only [List.length_append]; omega, by simp only [List.length_append]; omega⟩
  simp only [m_consumeString, advance, List.drop_succ_cons, List.drop_zero, List.length_cons]
  rw [hf.1, m_consumeString_loop_content content hc, h sz f evs _ hf.2]

end qc.json

namespace qc.json

open DecodeHelper

theorem and_mask_of_ge (v : Nat) (h1 : 128 ≤ v) (h2 : v < 65536) : v &&& 0xFFFFFF80 ≠ 0 := by
  intro h0
  obtain ⟨i, hi, hbit⟩ := Nat.ge_two_pow_implies_high_bit_true (show v ≥ 2 ^ 7 from h1)
  have hlt : i < 16 := by
    by_contra hge
    have : v < 2 ^ i := lt_of_lt_of_le h2 (by
      calc 65536 = 2 ^ 16 := by norm_num
        _ ≤ 2 ^ i := Nat.pow_le_pow_right (by norm_num) (by omega))
    rw [Nat.testBit_lt_two_pow this] at hbit
    cases hbit
  have hm : (0xFFFFFF80 : Nat).testBit i = true := by
    interval_cases i <;> decide
  have : (v &&& 0xFFFFFF80).testBit i = true := by
    rw [Nat.testBit_and, hbit, hm]; rfl
  rw [h0, Nat.zero_testBit] at this
  cases this

theorem hexValue_lt (c : Nat) (h : isxdigit c = true) : hexValue c < 16 := by
  simp only [isxdigit, isdigit, Bool.or_eq_true, Bool.and_eq_true, decide_eq_true_eq] at h
  unfold hexValue
  split_ifs <;> omega

theorem unicodeValue_lt (h1 h2 h3 h4 : Nat) (x1 : isxdigit h1 = true) (x2 : isxdigit h2 = true)
    (x3 : isxdigit h3 = true) (x4 : isxdigit h4 = true) : unicodeValue h1 h2 h3 h4 < 65536 := by
  have := hexValue_lt h1 x1
  have := hexValue_lt h2 x2
  have := hexValue_lt h3 x3
  have := hexValue_lt h4 x4
  unfold unicodeValue
  omega

/-- The text ends inside a string. -/
theorem loop_fails_end (sz fuel : Nat) (evs : List Event) (buffer : List Nat)
    (hfuel : ([] : List Nat).length + 1 ≤ fuel) :
    m_consumeString_loop fuel ⟨sz, [], evs⟩ buffer =
      .error (.DecodeError .expectedEndQuote (sz - 0), ⟨sz, [], evs⟩) := by
  obtain ⟨f, rfl⟩ : ∃ f, fuel = f + 1 := ⟨fuel - 1, by simp at hfuel; omega⟩
  rfl

/-- A byte that is not printable stands in a string. -/
theorem loop_fails_content (c : Nat) (rest : List Nat) (hc : isprint c = false)
    (sz fuel : Nat) (evs : List Event) (buffer : List Nat)
    (hfuel : (c :: rest).length + 1 ≤ fuel) :
    m_consumeString_loop fuel ⟨sz, c :: rest, evs⟩ buffer =
      .error (.DecodeError .unknownStringContent (sz - (rest.length + 1)),
        ⟨sz, c :: rest, evs⟩) := by
  obtain ⟨f, rfl⟩ : ∃ f, fuel = f + 1 := ⟨fuel - 1, by simp at hfuel; omega⟩
  have h34 : c ≠ 34 := by rintro rfl; simp [isprint] at hc
  have h92 : c ≠ 92 := by rintro rfl; simp [isprint] at hc
  simp [m_consumeString_loop, h34, h92, hc, fail, offset]

/-- The text ends after a backslash. -/
theorem loop_fails_escape_end (sz fuel : Nat) (evs : List Event) (buffer : List Nat)
    (hfuel : ([92] : List Nat).length + 1 ≤ fuel) :
    m_consumeString_loop fuel ⟨sz, [92], evs⟩ buffer =
      .error (.DecodeError .expectedEscapeSequence (sz - 0), ⟨sz, [], evs⟩) := by
  obtain ⟨f, rfl⟩ : ∃ f, fuel = f + 1 := ⟨fuel - 1, by simp at hfuel; omega⟩
  simp [m_consumeString_loop, m_consumeEscaped, advance, fail, offset]

/-- A backslash is followed by a byte that starts no escape. -/
theorem loop_fails_escape (c : Nat) (rest : List Nat)
    (hc : c ∉ [34, 92, 47, 98, 102, 110, 114, 116, 117])
    (sz fuel : Nat) (evs : List Event) (buffer : List Nat)
    (hfuel : (92 :: c :: rest).length + 1 ≤ fuel) :
    m_consumeString_loop fuel ⟨sz, 92 :: c :: rest, evs⟩ buffer =
      .error (.DecodeError .unknownEscapeSequence (sz - (rest.length + 1)), ⟨sz, rest, evs⟩) := by
  obtain ⟨f, rfl⟩ : ∃ f, fuel = f + 1 := ⟨fuel - 1, by simp at hfuel; omega⟩
  simp only [List.mem_cons, List.mem_singleton, List.not_mem_nil, or_false, not_or] at hc
  obtain ⟨a1, a2, a3, a4, a5, a6, a7, a8, a9⟩ := hc
  simp [m_consumeString_loop, m_consumeEscaped, advance, offset, a1, a2, a3, a4, a5, a6, a7,
    a8, a9, Nat.sub_sub]

/-- Fewer than four bytes follow `\u`. -/
theorem loop_fails_unicode_short (rest : List Nat) (hlen : rest.length < 4)
    (sz fuel : Nat) (evs : List Event) (buffer : List Nat)
    (hfuel : (92 :: 117 :: rest).length + 1 ≤ fuel) :
    m_consumeString_loop fuel ⟨sz, 92 :: 117 :: rest, evs⟩ buffer =
      .error (.DecodeError .expectedFourDigits (sz - rest.length), ⟨sz, rest, evs⟩) := by
  obtain ⟨f, rfl⟩ : ∃ f, fuel = f + 1 := ⟨fuel - 1, by simp at hfuel; omega⟩
  simp [m_consumeString_loop, m_consumeEscaped, m_consumeUnicode, advance, fail, offset, hlen]

/-- The byte after `\u` is not a hexadecimal digit. -/
theorem loop_fails_unicode_invalid (h1 : Nat) (rest : List Nat) (hx : isxdigit h1 = false)
    (hlen : 3 ≤ rest.length) (sz fuel : Nat) (evs : List Event) (buffer : List Nat)
    (hfuel : (92 :: 117 :: h1 :: rest).length + 1 ≤ fuel) :
    m_consumeString_loop fuel ⟨sz, 92 :: 117 :: h1 :: rest, evs⟩ buffer =
      .error (.DecodeError .invalidUnicode (sz - (rest.length + 1)),
        ⟨sz, h1 :: rest, evs⟩) := by
  obtain ⟨f, rfl⟩ : ∃ f, fuel = f + 1 := ⟨fuel - 1, by simp at hfuel; omega⟩
  have hl : ¬ (rest.length + 1 < 4) := by omega
  have hfc : from_chars_hex ((h1 :: rest).take 4) = .error .invalid_argument := by
    simp [from_chars_hex, List.takeWhile, hx]
  simp only [m_consumeString_loop, m_consumeEscaped, m_consumeUnicode, advance,
    List.drop_succ_cons, List.drop_zero, show ¬ (92 : Nat) = 34 by decide,
    show ¬ (117 : Nat) = 34 by decide, show ¬ (117 : Nat) = 92 by decide,
    show ¬ (117 : Nat) = 47 by decide, show ¬ (117 : Nat) = 98 by decide,
    show ¬ (117 : Nat) = 102 by decide, show ¬ (117 : Nat) = 110 by decide,
    show ¬ (117 : Nat) = 114 by decide, show ¬ (117 : Nat) = 116 by decide, if_false, if_true,
    List.length_cons, hl, hfc]
  rfl

/-- The four hexadecimal digits after `\u` have a value of `0x80` or more. -/
theorem loop_fails_unicode_value (h1 h2 h3 h4 : Nat) (rest : List Nat)
    (x1 : isxdigit h1 = true) (x2 : isxdigit h2 = true) (x3 : isxdigit h3 = true)
    (x4 : isxdigit h4 = true) (hv : 128 ≤ unicodeValue h1 h2 h3 h4)
    (sz fuel : Nat) (evs : List Event) (buffer : List Nat)
    (hfuel : (92 :: 117 :: h1 :: h2 :: h3 :: h4 :: rest).length + 1 ≤ fuel) :
    m_consumeString_loop fuel ⟨sz, 92 :: 117 :: h1 :: h2 :: h3 :: h4 :: rest, evs⟩ buffer =
      .error (.DecodeError .nonAsciiUnicode (sz - (rest.length + 4)),
        ⟨sz, h1 :: h2 :: h3 :: h4 :: rest, evs⟩) := by
  obtain ⟨f, rfl⟩ : ∃ f, fuel = f + 1 := ⟨fuel - 1, by simp at hfuel; omega⟩
  have hl : ¬ (rest.length + 1 + 1 + 1 + 1 < 4) := by omega
  have hfc := from_chars_hex_four h1 h2 h3 h4 x1 x2 x3 x4
  have hmask := and_mask_of_ge _ hv (unicodeValue_lt h1 h2 h3 h4 x1 x2 x3 x4)
  simp only [m_consumeString_loop, m_consumeEscaped, m_consumeUnicode, advance,
    List.drop_succ_cons, List.drop_zero, show ¬ (92 : Nat) = 34 by decide,
    show ¬ (117 : Nat) = 34 by decide, show ¬ (117 : Nat) = 92 by decide,
    show ¬ (117 : Nat) = 47 by decide, show ¬ (117 : Nat) = 98 by decide,
    show ¬ (117 : Nat) = 102 by decide, show ¬ (117 : Nat) = 110 by decide,
    show ¬ (117 : Nat) = 114 by decide, show ¬ (117 : Nat) = 116 by decide, if_false, if_true,
    List.length_cons, hl, List.take_succ_cons, List.take_zero, hfc, ne_eq, hmask,
    not_false_eq_true]
  rfl

end qc.json

namespace qc.json

open DecodeHelper

/-- A text without any quote makes the loop of `m_consumeString` throw a `DecodeError`: the
string it continues is not terminated. -/
theorem loop_fails_no_quote : ∀ (n : Nat) (junk : List Nat), junk.length ≤ n → 34 ∉ junk →
    ∃ (msg : Message) (back : Nat) (r : List Nat),
      ∀ (sz fuel : Nat) (evs : List Event) (buffer : List Nat), junk.length + 1 ≤ fuel →
        m_consumeString_loop fuel ⟨sz, junk, evs⟩ buffer =
          .error (.DecodeError msg (sz - back), ⟨sz, r, evs⟩)
  | _, [], _, _ => ⟨.expectedEndQuote, 0, [], fun sz fuel evs buffer hf =>
      loop_fails_end sz fuel evs buffer hf⟩
  | 0, c :: t, hn, _ => by simp at hn
  | n + 1, c :: t, hn, hq => by
    have hc34 : c ≠ 34 := by
      intro h; exact hq (by simp [h])
    have hqt : 34 ∉ t := fun h => hq (by simp [h])
    have hnt : t.length ≤ n := by simpa using hn
    by_cases h92 : c = 92
    · subst h92
      cases t with
      | nil => exact ⟨.expectedEscapeSequence, 0, [], fun sz fuel evs buffer hf =>
          loop_fails_escape_end sz fuel evs buffer hf⟩
      | cons c1 t1 =>
        have hqt1 : 34 ∉ t1 := fun h => hqt (by simp [h])
        have hnt1 : t1.length ≤ n := by simp at hnt; omega
        by_cases hshort : c1 ∈ [34, 92, 47, 98, 102, 110, 114, 116]
        · obtain ⟨msg, back, r, h⟩ := loop_fails_no_quote n t1 hnt1 hqt1
          refine ⟨msg, back, r, fun sz fuel evs buffer hf => ?_⟩
          obtain ⟨f, rfl⟩ : ∃ f, fuel = f + 1 := ⟨fuel - 1, by simp at hf; omega⟩
          have hp := m_consumeString_loop_piece (.short c1) (by simpa [Piece.valid] using hshort)
            f sz t1 evs buffer
          simp only [Piece.text, List.cons_append, List.nil_append] at hp
          rw [hp]
          exact h sz f evs _ (by simp at hf; omega)
        · by_cases hu : c1 = 117
          · subst hu
            by_cases hlen : t1.length < 4
            · exact ⟨.expectedFourDigits, t1.length, t1, fun sz fuel evs buffer hf =>
                loop_fails_unicode_short t1 hlen sz fuel evs buffer hf⟩
            · cases hfc : from_chars_hex (t1.take 4) with
              | error e =>
                refine ⟨.invalidUnicode, t1.length, t1, fun sz fuel evs buffer hf => ?_⟩
                obtain ⟨f, rfl⟩ : ∃ f, fuel = f + 1 := ⟨fuel - 1, by simp at hf; omega⟩
                simp [m_consumeString_loop, m_consumeEscaped, m_consumeUnicode, advance, fail,
                  offset, hlen, hfc]
              | ok val =>
                by_cases hmask : val &&& 0xFFFFFF80 = 0
                · obtain ⟨msg, back, r, h⟩ := loop_fails_no_quote n (t1.drop 4)
                    (by simp; omega) (fun hm => hqt1 (List.mem_of_mem_drop hm))
                  refine ⟨msg, back, r, fun sz fuel evs buffer hf => ?_⟩
                  obtain ⟨f, rfl⟩ : ∃ f, fuel = f + 1 := ⟨fuel - 1, by simp at hf; omega⟩
                  have := h sz f evs (buffer ++ [val]) (by simp at hf ⊢; omega)
                  simp [m_consumeString_loop, m_consumeEscaped, m_consumeUnicode, advance,
                    hlen, hfc, hmask, this]
                · refine ⟨.nonAsciiUnicode, t1.length, t1, fun sz fuel evs buffer hf => ?_⟩
                  obtain ⟨f, rfl⟩ : ∃ f, fuel = f + 1 := ⟨fuel - 1, by simp at hf; omega⟩
                  simp [m_consumeString_loop, m_consumeEscaped, m_consumeUnicode, advance, fail,
                    offset, hlen, hfc, hmask]
          · exact ⟨.unknownEscapeSequence, t1.length + 1, t1, fun sz fuel evs buffer hf =>
              loop_fails_escape c1 t1 (by
                simp only [List.mem_cons, List.mem_singleton, List.not_mem_nil, or_false,
                  not_or] at hshort ⊢
                obtain ⟨a1, a2, a3, a4, a5, a6, a7, a8⟩ := hshort
                exact ⟨a1, a2, a3, a4, a5, a6, a7, a8, hu⟩) sz fuel evs buffer hf⟩
    · by_cases hp : isprint c = true
      · obtain ⟨msg, back, r, h⟩ := loop_fails_no_quote n t hnt hqt
        refine ⟨msg, back, r, fun sz fuel evs buffer hf => ?_⟩
        obtain ⟨f, rfl⟩ : ∃ f, fuel = f + 1 := ⟨fuel - 1, by simp at hf; omega⟩
        have hv : (Piece.plain c).valid = true := by
          simp only [isprint, Bool.and_eq_true, decide_eq_true_eq] at hp
          simp [Piece.valid, hp.1, hp.2, hc34, h92]
        have hpc := m_consumeString_loop_piece (.plain c) hv f sz t evs buffer
        simp only [Piece.text, List.cons_append, List.nil_append] at hpc
        rw [hpc]
        exact h sz f evs _ (by simp at hf; omega)
      · exact ⟨.unknownStringContent, t.length + 1, c :: t, fun sz fuel evs buffer hf =>
          loop_fails_content c t (by simpa using hp) sz fuel evs buffer hf⟩

end qc.json

namespace qc.json

open DecodeHelper

/-- A string token made of valid pieces is accepted as the whole text. -/
theorem decode_stringToken (content : List Piece) (hvalid : ∀ p ∈ content, p.valid = true) :
    decode (stringToken content) = .ok [.val_string (content.map Piece.byte)] := by
  apply decode_of_ingest
  · simp [stringToken, List.dropWhile, isspace]
  · generalize (stringToken content).length = sz
    have h := m_consumeString_token content hvalid sz [] []
    rw [List.append_nil] at h
    have hq : stringToken content = 34 :: ((content.map Piece.text).flatten ++ [34]) := by
      simp [stringToken]
    rw [hq] at h ⊢
    simp only [m_ingestValue, show ¬ (34 : Nat) = 123 by decide, show ¬ (34 : Nat) = 91 by decide,
      if_false, if_true, m_ingestString, h]
    rfl

end qc.json

/-! ## Containers that make the decoder throw -/

namespace qc.json

open DecodeHelper

/-- A byte that starts no value: it is none of the brackets, the quote, a digit, `-`, and the
first letters of the literals. -/
theorem failsValue_unknown (c : Nat) (rest : List Nat)
    (hc : c ≠ 123 ∧ c ≠ 91 ∧ c ≠ 34 ∧ isdigit c = false ∧ c ≠ 45 ∧ c ≠ 116 ∧ c ≠ 102 ∧
      c ≠ 110 ∧ c ≠ 105) :
    FailsValue (c :: rest) .unknownValue (rest.length + 1) (c :: rest) [] := by
  intro sz fuel evs hfuel
  obtain ⟨f, rfl⟩ : ∃ f, fuel = f + 1 := ⟨fuel - 1, by omega⟩
  obtain ⟨a1, a2, a3, a4, a5, a6, a7, a8, a9⟩ := hc
  simp [m_ingestValue, a1, a2, a3, a4, a5, m_ingestLiteral, m_tryConsumeChars, startsWith,
    a6, a7, a8, a9, fail, offset]

/-- A key does not start with a quote. -/
theorem failsMembers_unquoted (c : Nat) (rest : List Nat) (hc : c ≠ 34) :
    FailsMembers (c :: rest) .expectedKey (rest.length + 1) (c :: rest) [] := by
  intro sz fuel n evs hfuel hn
  obtain ⟨m, rfl⟩ : ∃ m, n = m + 1 := ⟨n - 1, by omega⟩
  simp [m_ingestObject_loop, hc, fail, offset]

/-- A key is the empty string. -/
theorem failsMembers_emptyKey (rest : List Nat) :
    FailsMembers (34 :: 34 :: rest) .keyIsEmpty rest.length rest [] := by
  intro sz fuel n evs hfuel hn
  obtain ⟨m, rfl⟩ : ∃ m, n = m + 1 := ⟨n - 1, by omega⟩
  have h := m_consumeString_token [] (by simp) sz rest evs
  simp only [stringToken, List.map_nil, List.flatten_nil, List.append_nil, List.cons_append,
    List.nil_append] at h
  simp [m_ingestObject_loop, h, fail, offset]

/-- No colon follows a key. -/
theorem failsMembers_noColon (content : List Piece) (w rest : List Nat)
    (hne : content ≠ []) (hvalid : ∀ p ∈ content, p.valid = true) (hw : IsWs w)
    (hs : StartsToken rest) (h58 : rest.head? ≠ some 58) :
    FailsMembers (stringToken content ++ (w ++ rest)) (.expected 58) rest.length rest
      [.key (content.map Piece.byte)] := by
  intro sz fuel n evs hfuel hn
  obtain ⟨m, rfl⟩ : ∃ m, n = m + 1 := ⟨n - 1, by omega⟩
  have htok := m_consumeString_token content hvalid sz (w ++ rest) evs
  rw [stringToken_cons] at htok ⊢
  simp only [m_ingestObject_loop, ne_eq, not_true_eq_false, if_false, htok,
    key_isEmpty content hne, Bool.false_eq_true, compose, skip_ws_token w rest hw hs,
    m_consumeChar_head sz rest _ 58 h58]

/-- After a complete element stands a byte that is neither a comma nor `]`. -/
theorem failsElements_separator (v w : List Nat) (c : Nat) (rest : List Nat)
    (hv : completeValue v = true) (hw : IsWs w) (hc : isspace c = false) (h44 : c ≠ 44)
    (h93 : c ≠ 93)
    (hsep : startsNumber v = true → w = [] → isdigit c = false ∧ c ≠ 46 ∧ c ≠ 101 ∧ c ≠ 69) :
    FailsElements (v ++ (w ++ c :: rest)) (.expected 44) (rest.length + 1) (c :: rest)
      (valueEvents v) := by
  intro sz fuel n evs hfuel hn
  obtain ⟨m, rfl⟩ : ∃ m, n = m + 1 := ⟨n - 1, by omega⟩
  simp only [List.length_cons, List.length_append] at hfuel
  have hend : startsNumber v = true → NumberEnd (w ++ c :: rest) := by
    intro hnum
    cases hw0 : w with
    | nil =>
      intro x hx
      simp only [List.nil_append, List.head?_cons, Option.mem_def, Option.some.injEq] at hx
      subst hx
      exact hsep hnum hw0
    | cons a b =>
      intro x hx
      simp only [List.cons_append, List.head?_cons, Option.mem_def, Option.some.injEq] at hx
      subst hx
      have := hw a (by rw [hw0]; simp)
      simp only [isspace, Bool.or_eq_true, Bool.and_eq_true, decide_eq_true_eq] at this
      simp only [isdigit, Bool.and_eq_false_iff, decide_eq_false_iff_not]
      omega
  have hread := completeValue_read v (w ++ c :: rest) hv hend sz fuel evs (by omega)
  simp only [m_ingestArray_loop, hread, skip_ws_token w _ hw (startsToken_cons c rest hc),
    m_tryConsumeChar_head sz (c :: rest) _ 93 (by simpa using h93),
    m_consumeChar_head sz (c :: rest) _ 44 (by simpa using h44), List.length_cons]

/-- After a complete member stands a byte that is neither a comma nor the closing brace. -/
theorem failsMembers_separator (content : List Piece) (w1 w2 v w3 : List Nat) (c : Nat)
    (rest : List Nat) (hne : content ≠ []) (hvalid : ∀ p ∈ content, p.valid = true)
    (hw1 : IsWs w1) (hw2 : IsWs w2) (hv : completeValue v = true) (hw3 : IsWs w3)
    (hc : isspace c = false) (h44 : c ≠ 44) (h125 : c ≠ 125)
    (hsep : startsNumber v = true → w3 = [] → isdigit c = false ∧ c ≠ 46 ∧ c ≠ 101 ∧ c ≠ 69) :
    FailsMembers (stringToken content ++ (w1 ++ 58 :: (w2 ++ (v ++ (w3 ++ c :: rest)))))
      (.expected 44) (rest.length + 1) (c :: rest)
      (.key (content.map Piece.byte) :: valueEvents v) := by
  intro sz fuel n evs hfuel hn
  obtain ⟨m, rfl⟩ : ∃ m, n = m + 1 := ⟨n - 1, by omega⟩
  simp only [List.length_cons, List.length_append] at hfuel
  have hend : startsNumber v = true → NumberEnd (w3 ++ c :: rest) := by
    intro hnum
    cases hw0 : w3 with
    | nil =>
      intro x hx
      simp only [List.nil_append, List.head?_cons, Option.mem_def, Option.some.injEq] at hx
      subst hx
      exact hsep hnum hw0
    | cons a b =>
      intro x hx
      simp only [List.cons_append, List.head?_cons, Option.mem_def, Option.some.injEq] at hx
      subst hx
      have := hw3 a (by rw [hw0]; simp)
      simp only [isspace, Bool.or_eq_true, Bool.and_eq_true, decide_eq_true_eq] at this
      simp only [isdigit, Bool.and_eq_false_iff, decide_eq_false_iff_not]
      omega
  have htok := m_consumeString_token content hvalid sz
    (w1 ++ 58 :: (w2 ++ (v ++ (w3 ++ c :: rest)))) evs
  have h58 : StartsToken (58 :: (w2 ++ (v ++ (w3 ++ c :: rest)))) :=
    startsToken_cons 58 _ (by decide)
  have hread := completeValue_read v (w3 ++ c :: rest) hv hend sz fuel
    (evs ++ [Event.key (content.map Piece.byte)]) (by omega)
  rw [stringToken_cons] at htok ⊢
  simp only [m_ingestObject_loop, ne_eq, not_true_eq_false, if_false, htok,
    key_isEmpty content hne, Bool.false_eq_true, compose, skip_ws_token w1 _ hw1 h58,
    m_consumeChar_eq, skip_ws_token w2 _ hw2 (startsToken_value v _ hv), hread,
    skip_ws_token w3 _ hw3 (startsToken_cons c rest hc),
    m_tryConsumeChar_head sz (c :: rest) _ 125 (by simpa using h125),
    m_consumeChar_head sz (c :: rest) _ 44 (by simpa using h44), List.length_cons,
    List.append_assoc, List.singleton_append]

end qc.json

/-! ## Literals -/

namespace qc.json

open DecodeHelper

theorem startsWith_iff : ∀ (str s : List Nat), startsWith str s = true ↔ str <+: s
  | [], s => by simp [startsWith]
  | c :: str, [] => by simp [startsWith]
  | c :: str, c1 :: s => by
    simp only [startsWith, List.cons_prefix_cons]
    by_cases h : c1 = c
    · subst h
      simp [startsWith_iff str s]
    · have h2 : ¬ c = c1 := fun h0 => h h0.symm
      simp [h, h2]

theorem m_tryConsumeChars_false (d : DecodeHelper) (str : List Nat) (h : ¬ str <+: d.m_pos) :
    m_tryConsumeChars d str = (false, d) := by
  simp only [m_tryConsumeChars]
  split_ifs with h1 h2
  · exact absurd ((startsWith_iff str d.m_pos).mp h2) h
  · rfl
  · rfl

/-- A text that starts neither as a container, a string or a number, nor with one of the six
literals, makes `m_ingestValue` throw "Unknown value" at its first byte. -/
theorem failsValue_noLiteral (c : Nat) (rest : List Nat)
    (hc : c ≠ 123 ∧ c ≠ 91 ∧ c ≠ 34 ∧ isdigit c = false)
    (hminus : c = 45 → ∀ c1 ∈ rest.head?, isdigit c1 = false)
    (hlit : ¬ [116, 114, 117, 101] <+: c :: rest ∧ ¬ [102, 97, 108, 115, 101] <+: c :: rest ∧
      ¬ [110, 117, 108, 108] <+: c :: rest ∧ ¬ [105, 110, 102] <+: c :: rest ∧
      ¬ [45, 105, 110, 102] <+: c :: rest ∧ ¬ [110, 97, 110] <+: c :: rest) :
    FailsValue (c :: rest) .unknownValue (rest.length + 1) (c :: rest) [] := by
  intro sz fuel evs hfuel
  obtain ⟨f, rfl⟩ : ∃ f, fuel = f + 1 := ⟨fuel - 1, by omega⟩
  obtain ⟨a1, a2, a3, a4⟩ := hc
  obtain ⟨l1, l2, l3, l4, l5, l6⟩ := hlit
  have hL : m_ingestLiteral ⟨sz, c :: rest, evs⟩ =
      .error (.DecodeError .unknownValue (sz - (rest.length + 1)), ⟨sz, c :: rest, evs ++ []⟩) := by
    simp only [m_ingestLiteral, m_tryConsumeChars_false ⟨sz, c :: rest, evs⟩ _ l1,
      m_tryConsumeChars_false ⟨sz, c :: rest, evs⟩ _ l2,
      m_tryConsumeChars_false ⟨sz, c :: rest, evs⟩ _ l3,
      m_tryConsumeChars_false ⟨sz, c :: rest, evs⟩ _ l4,
      m_tryConsumeChars_false ⟨sz, c :: rest, evs⟩ _ l6, List.append_nil]
    rfl
  by_cases h45 : c = 45
  · have hd : (decide (1 < (c :: rest).length) && isdigit ((c :: rest).getD 1 0)) = false := by
      cases rest with
      | nil => simp
      | cons c1 t =>
        have := hminus h45 c1 (by simp)
        simp [this]
    simp only [m_ingestValue, if_neg a1, if_neg a2, if_neg a3, a4, Bool.false_eq_true, if_false,
      if_pos h45, hd, m_tryConsumeChars_false ⟨sz, c :: rest, evs⟩ _ l5]
    exact hL
  · simp only [m_ingestValue, if_neg a1, if_neg a2, if_neg a3, a4, Bool.false_eq_true, if_false,
      if_neg h45]
    exact hL

end qc.json

/-! ## The token of a `double` and how it is read back -/

/-- A byte of a text is its first byte, its last byte, or one of the bytes strictly between
them, which are the ones the loop of `Encoder::m_encode(double)` looks at. -/
theorem mem_ends_or_middle (t : List Nat) (x : Nat) :
    x ∈ t ↔ (t.head? = some x ∨ x ∈ (t.drop 1).take (t.length - 2) ∨ t.getLast? = some x) := by
  cases t with
  | nil => simp
  | cons a tl =>
    have hmid : ((a :: tl).drop 1).take ((a :: tl).length - 2) = tl.dropLast := by
      simp only [List.drop_succ_cons, List.drop_zero, List.length_cons]
      rw [List.dropLast_eq_take]
      rfl
    rw [hmid]
    rcases List.eq_nil_or_concat tl with rfl | ⟨l, b, rfl⟩
    · simp [eq_comm]
    · rw [List.concat_eq_append]
      have hl : (a :: (l ++ [b])).getLast? = some b := by
        rw [show a :: (l ++ [b]) = (a :: l) ++ [b] from rfl, List.getLast?_append]
        rfl
      rw [hl]
      simp only [List.mem_cons, List.mem_append, List.mem_singleton, List.head?_cons,
        Option.some.injEq, List.dropLast_concat, List.not_mem_nil, or_false]
      constructor
      · rintro (h | h | h)
        · exact Or.inl h.symm
        · exact Or.inr (Or.inl h)
        · exact Or.inr (Or.inr h.symm)
      · rintro (h | h | h)
        · exact Or.inl h.symm
        · exact Or.inr (Or.inl h)
        · exact Or.inr (Or.inr h.symm)

/-- The answer of the loop of `Encoder::m_encode(double)`, on a text that neither starts nor
ends with `.` or `e`: whether the text has no `.` and no `e` at all. -/
theorem needsDecimal_iff (t : List Nat) (hfirst : ∀ c ∈ t.head?, c ≠ 46 ∧ c ≠ 101)
    (hlast : ∀ c ∈ t.getLast?, c ≠ 46 ∧ c ≠ 101) :
    qjson.Encoder.needsDecimal t = true ↔ 46 ∉ t ∧ 101 ∉ t := by
  have h1 : qjson.Encoder.needsDecimal t = true ↔
      46 ∉ (t.drop 1).take (t.length - 2) ∧ 101 ∉ (t.drop 1).take (t.length - 2) := by
    simp only [qjson.Encoder.needsDecimal, List.all_eq_true, Bool.not_eq_true',
      Bool.or_eq_false_iff, decide_eq_false_iff_not]
    constructor
    · intro h
      exact ⟨fun hm => (h 46 hm).1 rfl, fun hm => (h 101 hm).2 rfl⟩
    · intro h c hc
      exact ⟨fun he => h.1 (he ▸ hc), fun he => h.2 (he ▸ hc)⟩
  rw [h1, mem_ends_or_middle t 46, mem_ends_or_middle t 101]
  have a1 : t.head? ≠ some 46 := fun h => (hfirst 46 h).1 rfl
  have a2 : t.head? ≠ some 101 := fun h => (hfirst 101 h).2 rfl
  have a3 : t.getLast? ≠ some 46 := fun h => (hlast 46 h).1 rfl
  have a4 : t.getLast? ≠ some 101 := fun h => (hlast 101 h).2 rfl
  simp only [a1, a2, a3, a4, false_or, or_false]

/-- The last byte that `m_encode(double)` tests, when the text is not empty. -/
theorem getLastD_eq (t : List Nat) (c : Nat) (h : t.getLast? = some c) : t.getLastD 0 = c := by
  rw [List.getLastD_eq_getLast?, h]
  rfl

theorem isdigit_not_mark (c : Nat) (h : isdigit c = true) : c ≠ 46 ∧ c ≠ 101 ∧ c ≠ 45 := by
  simp only [isdigit, Bool.and_eq_true, decide_eq_true_eq] at h
  omega

/-- An integer token gets the suffix `.0` from `m_encode(double)`. -/
theorem integerToken_suffixed (neg : Bool) (d0 : Nat) (dt : List Nat)
    (hds : ∀ c ∈ d0 :: dt, isdigit c = true) :
    (isdigit ((integerToken neg (d0 :: dt)).getLastD 0) &&
      qjson.Encoder.needsDecimal (integerToken neg (d0 :: dt))) = true := by
  have hne : d0 :: dt ≠ [] := by simp
  have hlast : (integerToken neg (d0 :: dt)).getLast? = some ((d0 :: dt).getLast hne) := by
    unfold integerToken
    rw [List.getLast?_append, List.getLast?_eq_getLast _ hne]
    rfl
  have hdig : isdigit ((d0 :: dt).getLast hne) = true := hds _ (List.getLast_mem hne)
  have hmem : ∀ c ∈ integerToken neg (d0 :: dt), c ≠ 46 ∧ c ≠ 101 := by
    intro c hc
    unfold integerToken at hc
    rw [List.mem_append] at hc
    rcases hc with hc | hc
    · cases neg with
      | true =>
        simp only [if_true, List.mem_singleton] at hc
        subst hc
        exact ⟨by decide, by decide⟩
      | false => simp at hc
    · have := isdigit_not_mark c (hds c hc)
      exact ⟨this.1, this.2.1⟩
  rw [Bool.and_eq_true, getLastD_eq _ _ hlast]
  refine ⟨hdig, ?_⟩
  rw [needsDecimal_iff]
  · exact ⟨fun h => (hmem 46 h).1 rfl, fun h => (hmem 101 h).2 rfl⟩
  · intro c hc
    exact hmem c (List.mem_of_mem_head? hc)
  · intro c hc
    exact hmem c (List.mem_of_mem_getLast? hc)

namespace qc.json

open DecodeHelper

set_option exponentiation.threshold 2048 in
/-- An integer token outside both 64-bit ranges, followed by `.0` and the end of the text, is
read by `m_ingestFloater`: `from_chars` for the integer type reports `result_out_of_range`. -/
theorem m_ingestValue_point_zero_big (neg : Bool) (d0 : Nat) (dt : List Nat)
    (hds : ∀ c ∈ d0 :: dt, isdigit c = true)
    (hr : ¬ (-(2 ^ 63) ≤ integerValue neg (d0 :: dt) ∧ integerValue neg (d0 :: dt) ≤ 2 ^ 64 - 1 ∧
      (neg = true → integerValue neg (d0 :: dt) ≤ 2 ^ 63 - 1)))
    (hfin : digitsValue (d0 :: dt) < 2 ^ 1024 - 2 ^ 970)
    (sz fuel : Nat) (pre : List Event) :
    m_ingestValue (fuel + 1) ⟨sz, integerToken neg (d0 :: dt) ++ [46, 48], pre⟩ =
      .ok ⟨sz, [], pre ++ [.val_double (.decimal neg (10 * digitsValue (d0 :: dt)) (-1))]⟩ := by
  have h46 : ∀ c ∈ ([46, 48] : List Nat).head?, isdigit c = false := by
    intro c hc
    simp only [List.head?_cons, Option.mem_def, Option.some.injEq] at hc
    subst hc
    decide
  have hI : m_isInteger ⟨sz, integerToken neg (d0 :: dt) ++ [46, 48], pre⟩ = true := by
    rw [m_isInteger_token neg d0 dt _ hds h46]
    rfl
  rw [m_ingestValue_number neg d0 dt _ (hds d0 (by simp)), m_ingestNumber_head neg d0 dt _ hds,
    hI, if_pos rfl]
  have hfc := from_chars_integer_token neg d0 dt [46, 48] hds h46
  rw [if_neg hr] at hfc
  have hfd := from_chars_double_token neg d0 dt [46, 48] hds h46
  have hsf : scanFraction [46, 48] = (true, [48], []) := by decide
  rw [hsf] at hfd
  simp only [scanExponent_nil, Option.getD_none, List.length_singleton, Nat.cast_one,
    zero_sub] at hfd
  have hdv : digitsValue (d0 :: dt ++ [48]) = 10 * digitsValue (d0 :: dt) := by
    rw [digitsValue_append]
    rfl
  rw [hdv] at hfd
  have hbig : 1 ≤ digitsValue (d0 :: dt) := by
    by_contra hlt
    have h0 : digitsValue (d0 :: dt) = 0 := by omega
    apply hr
    unfold integerValue
    rw [h0]
    cases neg <;> simp
  have hov : doubleOverflows (10 * digitsValue (d0 :: dt)) (-1) = false := by
    unfold doubleOverflows
    rw [if_neg (by decide)]
    rw [decide_eq_false_iff_not]
    have : (- (-1 : Int)).toNat = 1 := by decide
    rw [this, pow_one]
    generalize (2 : Nat) ^ 1024 - 2 ^ 970 = K at hfin ⊢
    omega
  have hun : doubleUnderflows (10 * digitsValue (d0 :: dt)) (-1) = false := by
    unfold doubleUnderflows
    have : (- (-1 : Int)).toNat = 1 := by decide
    rw [this, pow_one]
    have hK : (10 : Nat) < 2 ^ 1075 :=
      lt_of_lt_of_le (by decide : (10 : Nat) < 2 ^ 4) (Nat.pow_le_pow_right (by decide) (by decide))
    generalize (2 : Nat) ^ 1075 = K at hK ⊢
    have hle : K ≤ 10 * digitsValue (d0 :: dt) * K :=
      Nat.le_mul_of_pos_left K (by omega)
    have : ¬ (10 * digitsValue (d0 :: dt) * K ≤ 10) := by omega
    simp [this]
  rw [hov, hun] at hfd
  simp only [Bool.or_self, Bool.false_eq_true, if_false] at hfd
  simp only [m_ingestInteger, hfc, m_ingestFloater, hfd]
  simp [compose]

end qc.json

/-- Whether the last byte that `m_encode(double)` tests is a digit: the text is not empty and
its last byte is one. -/
theorem isdigit_getLastD (t : List Nat) :
    isdigit (t.getLastD 0) = true ↔ ∃ c, t.getLast? = some c ∧ isdigit c = true := by
  cases h : t.getLast? with
  | none =>
    have : t = [] := List.getLast?_eq_none_iff.mp h
    subst this
    simp [isdigit]
  | some c =>
    rw [getLastD_eq t c h]
    simp

/-- The text `m_encode(double)` appends is the token of the `double`. -/
theorem m_encode_double_eq (e : qjson.Encoder) (t : List Nat) :
    qjson.Encoder.m_encode_double e t = e.put (qjson.Scalar.token (.double t)) := by
  simp only [qjson.Encoder.m_encode_double, qjson.Scalar.token]
  split <;> rfl

/-- The document made of one `double`: the token `m_encode(double)` writes. -/
theorem encode_double (t : List Nat) :
    qjson.encode [.val (.double t)] = .ok (qjson.Scalar.token (.double t)) := by
  simp only [qjson.encode, qjson.Encoder.run, qjson.Encoder.call, qjson.Encoder.val,
    qjson.Encoder.m_val, qjson.Encoder.m_checkPre, qjson.Encoder.fresh,
    qjson.Encoder.m_prefix, qjson.Encoder.m_encode, m_encode_double_eq, qjson.Encoder.put,
    qjson.Encoder.finish]
  simp

/-! ## The numeric value of a `double` and its integer conversion -/

namespace qc.json

/-- A `double` without fractional part has the value of the integer it converts to. -/
theorem Number.value_of_isWhole (neg : Bool) (m : Nat) (e : Int)
    (h : Number.isWhole m e = true) :
    Number.value (.double neg m e) = (Number.wholePart neg m e : ℚ) := by
  unfold Number.value Number.wholePart
  by_cases he : 0 ≤ e
  · obtain ⟨k, rfl⟩ := Int.eq_ofNat_of_zero_le he
    simp only [he, if_true, Int.toNat_ofNat, zpow_natCast]
    cases neg <;> simp
  · have hk : e = -((-e).toNat : Int) := by omega
    simp only [Number.isWhole, he, decide_False, Bool.false_or, decide_eq_true_eq] at h
    simp only [he, if_false]
    generalize (-e).toNat = k at h hk
    obtain ⟨q, hq⟩ := Nat.dvd_of_mod_eq_zero h
    have hq2 : m / 2 ^ k = q := by
      rw [hq]
      exact Nat.mul_div_cancel_left q (Nat.pos_pow_of_pos k (by decide))
    have hpow : ((2 : ℚ) ^ k) ≠ 0 := pow_ne_zero k (by norm_num)
    rw [hq2, hk, zpow_neg, zpow_natCast, hq]
    cases neg
    · simp only [Bool.false_eq_true, if_false, one_mul, Nat.cast_mul, Nat.cast_pow,
        Nat.cast_ofNat, Int.cast_natCast]
      field_simp
    · simp only [if_true, Nat.cast_mul, Nat.cast_pow, Nat.cast_ofNat, Int.cast_neg,
        Int.cast_natCast]
      field_simp
      ring

/-- A `double` whose value is an integer has no fractional part, and converts to that
integer. -/
theorem Number.isWhole_of_value (neg : Bool) (m : Nat) (e : Int) (z : Int)
    (h : Number.value (.double neg m e) = z) :
    Number.isWhole m e = true ∧ Number.wholePart neg m e = z := by
  have hw : Number.isWhole m e = true := by
    by_cases he : 0 ≤ e
    · simp [Number.isWhole, he]
    · have hk : e = -((-e).toNat : Int) := by omega
      simp only [Number.isWhole, he, decide_False, Bool.false_or, decide_eq_true_eq]
      simp only [Number.value] at h
      generalize (-e).toNat = k at hk ⊢
      have hpow : ((2 : ℚ) ^ k) ≠ 0 := pow_ne_zero k (by norm_num)
      rw [hk, zpow_neg, zpow_natCast] at h
      have h2 : ((if neg = true then -1 else 1 : Int) * (m : Int) : ℚ) = ((z * 2 ^ k : Int) : ℚ) := by
        push_cast
        cases neg
        · simp only [Bool.false_eq_true, if_false, one_mul] at h ⊢
          field_simp at h
          linarith
        · simp only [if_true] at h ⊢
          field_simp at h
          linarith
      have h3 : (if neg = true then -1 else 1 : Int) * (m : Int) = z * 2 ^ k := by
        exact_mod_cast h2
      have h4 : ((2 : Int) ^ k) ∣ (m : Int) := by
        cases neg
        · simp only [Bool.false_eq_true, if_false, one_mul] at h3
          exact ⟨z, by rw [h3]; ring⟩
        · simp only [if_true] at h3
          exact ⟨-z, by linarith⟩
      have h5 : (2 ^ k : Nat) ∣ m := by
        exact_mod_cast h4
      exact Nat.mod_eq_zero_of_dvd h5
  refine ⟨hw, ?_⟩
  have := Number.value_of_isWhole neg m e hw
  rw [h] at this
  exact_mod_cast this.symm

/-- The range test of `fitsIn` on an integer payload: an unsigned type has minimum 0, so the
sign test is part of the range test. -/
theorem IntegerType.sign_of_min (T : IntegerType) (v : Int) (h : T.min ≤ v) :
    (T.isSigned || decide (0 ≤ v)) = true := by
  cases T <;> simp_all [IntegerType.min, IntegerType.isSigned]

theorem IntegerType.min_le_max (T : IntegerType) : T.min ≤ T.max := by
  cases T <;> decide

end qc.json

namespace qc.json

/-- On a `Number` whose value is the integer `z`, `fitsIn<T>` is the range test of `z`, and
the integer handed out is `z`. -/
theorem Number.fitsIn_of_value (T : IntegerType) (n : Number) (z : Int)
    (h : n.value = z) :
    n.fitsIn T = (decide (T.min ≤ z) && decide (z ≤ T.max)) ∧ n.integer = z := by
  have hint : ∀ v : Int, ((T.isSigned || decide (0 ≤ v)) && decide (T.min ≤ v) &&
      decide (v ≤ T.max)) = (decide (T.min ≤ v) && decide (v ≤ T.max)) := by
    intro v
    by_cases hv : T.min ≤ v
    · rw [IntegerType.sign_of_min T v hv, Bool.true_and]
    · simp [hv]
  cases n with
  | signed64 v =>
    have hv : v = z := by
      simp only [Number.value] at h
      exact_mod_cast h
    subst hv
    exact ⟨hint v, rfl⟩
  | unsigned64 v =>
    have hv : v = z := by
      simp only [Number.value] at h
      exact_mod_cast h
    subst hv
    exact ⟨hint v, rfl⟩
  | double neg m e =>
    obtain ⟨hw, hz⟩ := Number.isWhole_of_value neg m e z h
    simp only [Number.fitsIn, Number.integer, hw, hz, Bool.true_and, and_self]

/-- A `Number` whose value is not an integer fits no integer type. -/
theorem Number.fitsIn_of_fraction (T : IntegerType) (n : Number)
    (h : ¬ ∃ z : Int, n.value = z) : n.fitsIn T = false := by
  cases n with
  | signed64 v => exact absurd ⟨v, rfl⟩ h
  | unsigned64 v => exact absurd ⟨v, rfl⟩ h
  | double neg m e =>
    have hw : Number.isWhole m e = false := by
      by_contra hw
      rw [Bool.not_eq_false] at hw
      exact h ⟨_, Number.value_of_isWhole neg m e hw⟩
    simp only [Number.fitsIn, hw, Bool.false_and]

end qc.json

/-! ## The text a member function of the decoder consumes -/

namespace qc.json

open DecodeHelper

/-- What `m_consumeEscaped` reads after the backslash: one of the eight escape letters, or
`u` and four more bytes. -/
theorem m_consumeEscaped_text (sz : Nat) (s : List Nat) (evs : List Event) (c : Nat)
    (d1 : DecodeHelper) (h : m_consumeEscaped ⟨sz, s, evs⟩ = .ok (c, d1)) :
    ∃ r, d1 = ⟨sz, r, evs⟩ ∧
      ((∃ x, x ∈ [34, 92, 47, 98, 102, 110, 114, 116] ∧ s = x :: r) ∨
        ∃ h1 h2 h3 h4, s = 117 :: h1 :: h2 :: h3 :: h4 :: r) := by
  cases s with
  | nil => simp [m_consumeEscaped, fail] at h
  | cons a t =>
    simp only [m_consumeEscaped, advance, List.drop_succ_cons, List.drop_zero] at h
    split_ifs at h with h1 h2 h3 h4 h5 h6 h7 h8 h9
    all_goals first
      | (simp only [Except.ok.injEq, Prod.mk.injEq] at h
         subst a
         exact ⟨t, h.2.symm, Or.inl ⟨_, by simp, rfl⟩⟩)
      | skip
    · subst h9
      simp only [m_consumeUnicode] at h
      split_ifs at h with hlen
      · simp [fail] at h
      · split at h
        · simp [fail] at h
        · split_ifs at h
          · simp [fail] at h
          · simp only [Except.ok.injEq, Prod.mk.injEq, advance] at h
            simp only [not_lt] at hlen
            match t, hlen with
            | x1 :: x2 :: x3 :: x4 :: r, _ =>
              exact ⟨r, h.2.symm, Or.inr ⟨x1, x2, x3, x4, rfl⟩⟩

/-- What the loop of `m_consumeString` reads: the body of a string token and the closing
quote. -/
theorem m_consumeString_loop_text : ∀ (fuel sz : Nat) (s : List Nat) (evs : List Event)
    (buf v : List Nat) (d1 : DecodeHelper),
    m_consumeString_loop fuel ⟨sz, s, evs⟩ buf = .ok (v, d1) →
    ∃ body r, d1 = ⟨sz, r, evs⟩ ∧ s = body ++ 34 :: r ∧ StringBody body := by
  intro fuel
  induction fuel with
  | zero => intro sz s evs buf v d1 h; simp [m_consumeString_loop] at h
  | succ fuel ih =>
    intro sz s evs buf v d1 h
    cases s with
    | nil => simp [m_consumeString_loop, fail] at h
    | cons c t =>
      simp only [m_consumeString_loop, advance, List.drop_succ_cons, List.drop_zero] at h
      split_ifs at h with h34 h92 hp
      · simp only [Except.ok.injEq, Prod.mk.injEq] at h
        subst h34
        exact ⟨[], t, h.2.symm, rfl, .nil⟩
      · subst h92
        cases hesc : m_consumeEscaped ⟨sz, t, evs⟩ with
        | error err => simp [hesc] at h
        | ok res =>
          obtain ⟨c1, d2⟩ := res
          simp only [hesc] at h
          obtain ⟨r2, rfl, hr2⟩ := m_consumeEscaped_text sz t evs c1 d2 hesc
          obtain ⟨body, r, hd1, hs, hb⟩ := ih sz r2 evs _ v d1 h
          rcases hr2 with ⟨x, hx, rfl⟩ | ⟨x1, x2, x3, x4, rfl⟩
          · exact ⟨92 :: x :: body, r, hd1, by rw [hs]; rfl, .escape x body hx hb⟩
          · exact ⟨92 :: 117 :: x1 :: x2 :: x3 :: x4 :: body, r, hd1, by rw [hs]; rfl,
              .unicode x1 x2 x3 x4 body hb⟩
      · obtain ⟨body, r, hd1, hs, hb⟩ := ih sz t evs _ v d1 h
        exact ⟨c :: body, r, hd1, by rw [hs]; rfl, .plain c body hp h34 h92 hb⟩
      · simp [fail] at h

/-- What `m_consumeString` reads when it is called at a quote: a string token. -/
theorem m_consumeString_text (sz : Nat) (s : List Nat) (evs : List Event) (v : List Nat)
    (d1 : DecodeHelper) (h : m_consumeString ⟨sz, 34 :: s, evs⟩ = .ok (v, d1)) :
    ∃ t r, d1 = ⟨sz, r, evs⟩ ∧ 34 :: s = t ++ r ∧ QuotedToken t := by
  simp only [m_consumeString, advance, List.drop_succ_cons, List.drop_zero] at h
  obtain ⟨body, r, hd1, hs, hb⟩ := m_consumeString_loop_text _ sz s evs [] v d1 h
  refine ⟨34 :: body ++ [34], r, hd1, ?_, body, hb, rfl⟩
  rw [hs]
  simp

end qc.json

/-! ## The text of a number or a literal -/

theorem isBare_digit (c : Nat) (h : isdigit c = true) : qc.json.isBare c = true := by
  simp only [isdigit, Bool.and_eq_true, decide_eq_true_eq] at h
  simp only [qc.json.isBare, isspace, Bool.and_eq_true, Bool.not_eq_true', Bool.or_eq_false_iff,
    Bool.and_eq_false_iff, decide_eq_false_iff_not]
  omega

theorem isBare_takeWhile_digit (s : List Nat) : ∀ c ∈ s.takeWhile isdigit,
    qc.json.isBare c = true :=
  fun c hc => isBare_digit c (List.mem_takeWhile_imp hc)

/-- A text that starts with the byte `c`. -/
theorem cons_of_head (s : List Nat) (c : Nat) (h : s.head? = some c) : s = c :: s.drop 1 := by
  cases s with
  | nil => simp at h
  | cons a t =>
    simp only [List.head?_cons, Option.some.injEq] at h
    subst h
    rfl

/-- The text `scanFraction` reads: nothing, or a decimal point and digits. -/
theorem scanFraction_text (s : List Nat) (hp : Bool) (fd s2 : List Nat)
    (h : scanFraction s = (hp, fd, s2)) :
    ∃ t, s = t ++ s2 ∧ fd.length ≤ t.length ∧ ∀ c ∈ t, qc.json.isBare c = true := by
  simp only [scanFraction] at h
  split_ifs at h with h46
  · simp only [Prod.mk.injEq] at h
    obtain ⟨_, rfl, rfl⟩ := h
    have hs := cons_of_head s 46 (by simpa using h46)
    refine ⟨46 :: (s.drop 1).takeWhile isdigit, ?_, by simp, ?_⟩
    · rw [List.cons_append, List.takeWhile_append_dropWhile]
      exact hs
    · intro c hc
      rcases List.mem_cons.mp hc with rfl | hc
      · decide
      · exact isBare_takeWhile_digit _ c hc
  · simp only [Prod.mk.injEq] at h
    obtain ⟨_, rfl, rfl⟩ := h
    exact ⟨[], rfl, by simp, by simp⟩

/-- The text `scanExponent` reads: nothing, or an exponent marker, an optional sign and
digits. -/
theorem scanExponent_text (s : List Nat) (e : Option Int) (rest : List Nat)
    (h : scanExponent s = (e, rest)) :
    ∃ t, s = t ++ rest ∧ ∀ c ∈ t, qc.json.isBare c = true := by
  have key : ∀ s2 : List Nat, (s.head? == some 101 || s.head? == some 69) = true →
      (s.drop 1 = s2 ∨ ∃ c2, (c2 = 45 ∨ c2 = 43) ∧ s.drop 1 = c2 :: s2) →
      ∃ t, s = t ++ s2.dropWhile isdigit ∧ ∀ c ∈ t, qc.json.isBare c = true := by
    intro s2 hE hs2
    simp only [Bool.or_eq_true, beq_iff_eq] at hE
    obtain ⟨c, hc, hs⟩ : ∃ c, (c = 101 ∨ c = 69) ∧ s = c :: s.drop 1 := by
      rcases hE with h1 | h1
      · exact ⟨101, Or.inl rfl, cons_of_head s 101 h1⟩
      · exact ⟨69, Or.inr rfl, cons_of_head s 69 h1⟩
    rcases hs2 with hs2 | ⟨c2, hc2, hs2⟩
    · refine ⟨c :: s2.takeWhile isdigit, ?_, ?_⟩
      · rw [List.cons_append, List.takeWhile_append_dropWhile, ← hs2]
        exact hs
      · intro x hx
        rcases List.mem_cons.mp hx with rfl | hx
        · rcases hc with rfl | rfl <;> decide
        · exact isBare_takeWhile_digit _ x hx
    · refine ⟨c :: c2 :: s2.takeWhile isdigit, ?_, ?_⟩
      · rw [List.cons_append, List.cons_append, List.takeWhile_append_dropWhile, ← hs2]
        exact hs
      · intro x hx
        rcases List.mem_cons.mp hx with rfl | hx
        · rcases hc with rfl | rfl <;> decide
        · rcases List.mem_cons.mp hx with rfl | hx
          · rcases hc2 with rfl | rfl <;> decide
          · exact isBare_takeWhile_digit _ x hx
  simp only [scanExponent] at h
  by_cases hsign : ((s.drop 1).head? == some 45 || (s.drop 1).head? == some 43) = true
  · simp only [hsign, if_true] at h
    by_cases hE : ((s.head? == some 101 || s.head? == some 69) &&
        !(List.takeWhile isdigit ((s.drop 1).drop 1)).isEmpty) = true
    · rw [if_pos hE] at h
      simp only [Prod.mk.injEq] at h
      obtain ⟨_, rfl⟩ := h
      apply key _ (by simp only [Bool.and_eq_true] at hE; exact hE.1)
      right
      simp only [Bool.or_eq_true, beq_iff_eq] at hsign
      rcases hsign with h1 | h1
      · exact ⟨45, Or.inl rfl, cons_of_head _ 45 h1⟩
      · exact ⟨43, Or.inr rfl, cons_of_head _ 43 h1⟩
    · rw [if_neg hE] at h
      simp only [Prod.mk.injEq] at h
      obtain ⟨_, rfl⟩ := h
      exact ⟨[], rfl, by simp⟩
  · simp only [hsign, Bool.false_eq_true, if_false] at h
    by_cases hE : ((s.head? == some 101 || s.head? == some 69) &&
        !(List.takeWhile isdigit (s.drop 1)).isEmpty) = true
    · rw [if_pos hE] at h
      simp only [Prod.mk.injEq] at h
      obtain ⟨_, rfl⟩ := h
      exact key _ (by simp only [Bool.and_eq_true] at hE; exact hE.1) (Or.inl rfl)
    · rw [if_neg hE] at h
      simp only [Prod.mk.injEq] at h
      obtain ⟨_, rfl⟩ := h
      exact ⟨[], rfl, by simp⟩

/-- The optional minus sign and the digits `from_chars` starts with. -/
theorem sign_digits_text (neg : Bool) (s : List Nat) (hneg : neg = true → s.head? = some 45) :
    ∃ t, s = t ++ (if neg then s.drop 1 else s).dropWhile isdigit ∧
      ((if neg then s.drop 1 else s).takeWhile isdigit).length ≤ t.length ∧
      ∀ c ∈ t, qc.json.isBare c = true := by
  cases neg with
  | true =>
    have hs := cons_of_head s 45 (hneg rfl)
    refine ⟨45 :: (s.drop 1).takeWhile isdigit, ?_, by simp, ?_⟩
    · simp only [if_true]
      rw [List.cons_append, List.takeWhile_append_dropWhile]
      exact hs
    · intro c hc
      rcases List.mem_cons.mp hc with rfl | hc
      · decide
      · exact isBare_takeWhile_digit _ c hc
  | false =>
    refine ⟨s.takeWhile isdigit, ?_, by simp, ?_⟩
    · simp only [Bool.false_eq_true, if_false]
      rw [List.takeWhile_append_dropWhile]
    · exact isBare_takeWhile_digit _

/-- The text `std::from_chars` reads for an integer: at least one byte, all of them bare. -/
theorem from_chars_integer_text (isSigned : Bool) (s : List Nat) (v : Int) (ptr : List Nat)
    (h : from_chars_integer isSigned s = .ok (v, ptr)) :
    ∃ t, s = t ++ ptr ∧ t ≠ [] ∧ ∀ c ∈ t, qc.json.isBare c = true := by
  obtain ⟨t, hs, hlen, hbare⟩ := sign_digits_text (isSigned && s.head? == some 45) s
    (by simp only [Bool.and_eq_true, beq_iff_eq]; exact fun h => h.2)
  simp only [from_chars_integer] at h
  generalize (if (isSigned && s.head? == some 45) = true then s.drop 1 else s) = s1 at h hs hlen
  by_cases hemp : (s1.takeWhile isdigit).isEmpty = true
  · simp [hemp] at h
  · have hne : t ≠ [] := by
      intro ht
      rw [ht, List.length_nil, Nat.le_zero, List.length_eq_zero] at hlen
      simp [hlen] at hemp
    simp only [hemp, Bool.false_eq_true, if_false] at h
    split_ifs at h
    all_goals
      simp only [Except.ok.injEq, Prod.mk.injEq] at h
      obtain ⟨_, rfl⟩ := h
      exact ⟨t, hs, hne, hbare⟩

/-- The text `std::from_chars` reads for a `double`: at least one byte, all of them bare. -/
theorem from_chars_double_text (s : List Nat) (x : Floater) (ptr : List Nat) (ap : Bool)
    (h : from_chars_double s = .ok (x, ptr, ap)) :
    ∃ t, s = t ++ ptr ∧ t ≠ [] ∧ ∀ c ∈ t, qc.json.isBare c = true := by
  obtain ⟨t0, hs0, hlen0, hbare0⟩ := sign_digits_text (s.head? == some 45) s
    (by simp only [beq_iff_eq]; exact fun h => h)
  simp only [from_chars_double] at h
  generalize (if (s.head? == some 45) = true then s.drop 1 else s) = s1 at h hs0 hlen0
  rcases hsf : scanFraction (s1.dropWhile isdigit) with ⟨hp, fd, s2⟩
  obtain ⟨t1, hs1, hlen1, hbare1⟩ := scanFraction_text _ hp fd s2 hsf
  rw [hsf] at h
  simp only at h
  by_cases hemp : ((s1.takeWhile isdigit).isEmpty && fd.isEmpty) = true
  · simp [hemp] at h
  · simp only [hemp, Bool.false_eq_true, if_false] at h
    rcases hse : scanExponent s2 with ⟨e, rest⟩
    obtain ⟨t2, hs2, hbare2⟩ := scanExponent_text s2 e rest hse
    rw [hse] at h
    simp only at h
    split_ifs at h
    simp only [Except.ok.injEq, Prod.mk.injEq] at h
    obtain ⟨_, rfl, _⟩ := h
    refine ⟨t0 ++ t1 ++ t2, ?_, ?_, ?_⟩
    · rw [List.append_assoc, List.append_assoc, ← hs2, ← hs1]
      exact hs0
    · intro ht
      simp only [List.append_eq_nil] at ht
      obtain ⟨⟨h0, h1⟩, _⟩ := ht
      rw [h0, List.length_nil, Nat.le_zero, List.length_eq_zero] at hlen0
      rw [h1, List.length_nil, Nat.le_zero, List.length_eq_zero] at hlen1
      apply hemp
      simp [hlen0, hlen1]
    · intro c hc
      simp only [List.mem_append] at hc
      rcases hc with (hc | hc) | hc
      · exact hbare0 c hc
      · exact hbare1 c hc
      · exact hbare2 c hc

namespace qc.json

open DecodeHelper

/-- What `m_ingestFloater` reads: a bare token, reported by one `val` call of a `double`. -/
theorem m_ingestFloater_text (sz : Nat) (s : List Nat) (evs : List Event) (d1 : DecodeHelper)
    (h : m_ingestFloater ⟨sz, s, evs⟩ = .ok d1) :
    ∃ t r ev, d1 = ⟨sz, r, evs ++ [ev]⟩ ∧ s = t ++ r ∧ BareToken t ∧ ev.isBareVal = true := by
  simp only [m_ingestFloater] at h
  cases hfd : from_chars_double s with
  | error e => simp [hfd, fail] at h
  | ok res =>
    obtain ⟨x, ptr, ap⟩ := res
    simp only [hfd] at h
    split_ifs at h
    · simp [fail] at h
    · simp only [Except.ok.injEq, compose] at h
      obtain ⟨t, hs, hne, hbare⟩ := from_chars_double_text s x ptr ap hfd
      exact ⟨t, ptr, .val_double x, h.symm, hs, ⟨hne, hbare⟩, rfl⟩

/-- What `m_ingestInteger` reads: a bare token, reported by one `val` call of a number. -/
theorem m_ingestInteger_text (isSigned : Bool) (sz : Nat) (s : List Nat) (evs : List Event)
    (d1 : DecodeHelper) (h : m_ingestInteger isSigned ⟨sz, s, evs⟩ = .ok d1) :
    ∃ t r ev, d1 = ⟨sz, r, evs ++ [ev]⟩ ∧ s = t ++ r ∧ BareToken t ∧ ev.isBareVal = true := by
  rw [m_ingestInteger_eq] at h
  cases hfc : from_chars_integer isSigned s with
  | error e =>
    cases e with
    | result_out_of_range =>
      simp only [hfc] at h
      exact m_ingestFloater_text sz s evs d1 h
    | invalid_argument => simp [hfc, fail] at h
  | ok res =>
    obtain ⟨val, ptr⟩ := res
    simp only [hfc] at h
    obtain ⟨t, hs, hne, hbare⟩ := from_chars_integer_text isSigned s val ptr hfc
    have hev : (if (!isSigned && decide (val < 2 ^ 63)) = true then Event.val_int64 val
        else if isSigned = true then Event.val_int64 val else Event.val_uint64 val).isBareVal =
        true := by
      split_ifs <;> rfl
    generalize (if (!isSigned && decide (val < 2 ^ 63)) = true then Event.val_int64 val
        else if isSigned = true then Event.val_int64 val else Event.val_uint64 val) = ev
      at h hev
    by_cases h46 : ptr.head? = some 46
    · rw [if_pos h46] at h
      by_cases h48 : (ptr.drop 1).head? = some 48
      · rw [if_pos h48] at h
        simp only [Except.ok.injEq] at h
        have hp1 := cons_of_head ptr 46 h46
        have hp2 := cons_of_head (ptr.drop 1) 48 h48
        refine ⟨t ++ 46 :: 48 :: (ptr.drop 2).takeWhile (fun c => decide (c = 48)), _, _,
          h.symm, ?_, ⟨by simp, ?_⟩, hev⟩
        · rw [List.append_assoc, List.cons_append, List.cons_append,
            List.takeWhile_append_dropWhile]
          have : ptr.drop 2 = (ptr.drop 1).drop 1 := by simp
          rw [this, ← hp2, ← hp1]
          exact hs
        · intro c hc
          rcases List.mem_append.mp hc with hc | hc
          · exact hbare c hc
          · rcases List.mem_cons.mp hc with rfl | hc
            · decide
            · rcases List.mem_cons.mp hc with rfl | hc
              · decide
              · have := List.mem_takeWhile_imp hc
                simp only [decide_eq_true_eq] at this
                subst this
                decide
      · rw [if_neg h48] at h
        simp [fail] at h
    · rw [if_neg h46] at h
      simp only [Except.ok.injEq] at h
      exact ⟨t, ptr, _, h.symm, hs, ⟨hne, hbare⟩, hev⟩

/-- What `m_ingestNumber` reads: a bare token, reported by one `val` call of a number. -/
theorem m_ingestNumber_text (sz : Nat) (s : List Nat) (evs : List Event) (d1 : DecodeHelper)
    (h : m_ingestNumber ⟨sz, s, evs⟩ = .ok d1) :
    ∃ t r ev, d1 = ⟨sz, r, evs ++ [ev]⟩ ∧ s = t ++ r ∧ BareToken t ∧ ev.isBareVal = true := by
  simp only [m_ingestNumber] at h
  split_ifs at h
  · exact m_ingestInteger_text true sz s evs d1 h
  · exact m_ingestInteger_text false sz s evs d1 h
  · exact m_ingestFloater_text sz s evs d1 h

/-- What `m_tryConsumeChars` reads when it answers yes: the characters asked for. -/
theorem m_tryConsumeChars_text (sz : Nat) (s : List Nat) (evs : List Event) (str : List Nat)
    (d1 : DecodeHelper) (h : m_tryConsumeChars ⟨sz, s, evs⟩ str = (true, d1)) :
    ∃ r, d1 = ⟨sz, r, evs⟩ ∧ s = str ++ r := by
  simp only [m_tryConsumeChars] at h
  split_ifs at h with hlen hst
  · simp only [Prod.mk.injEq, true_and, advance] at h
    obtain ⟨r, hr⟩ := (startsWith_iff str s).mp hst
    refine ⟨r, ?_, hr.symm⟩
    rw [← h, ← hr]
    simp
  · simp at h
  · simp at h

/-- What `m_ingestLiteral` reads: a bare token, reported by one `val` call. -/
theorem m_ingestLiteral_text (sz : Nat) (s : List Nat) (evs : List Event) (d1 : DecodeHelper)
    (h : m_ingestLiteral ⟨sz, s, evs⟩ = .ok d1) :
    ∃ t r ev, d1 = ⟨sz, r, evs ++ [ev]⟩ ∧ s = t ++ r ∧ BareToken t ∧ ev.isBareVal = true := by
  have key : ∀ (str : List Nat) (d2 : DecodeHelper) (ev : Event),
      m_tryConsumeChars ⟨sz, s, evs⟩ str = (true, d2) → BareToken str → ev.isBareVal = true →
      d1 = d2.compose ev →
      ∃ t r ev, d1 = ⟨sz, r, evs ++ [ev]⟩ ∧ s = t ++ r ∧ BareToken t ∧ ev.isBareVal = true := by
    intro str d2 ev htry hb hev hd1
    obtain ⟨r, rfl, hs⟩ := m_tryConsumeChars_text sz s evs str d2 htry
    exact ⟨str, r, ev, hd1, hs, hb, hev⟩
  simp only [m_ingestLiteral] at h
  split at h
  · rename_i d2 heq
    simp only [Except.ok.injEq] at h
    exact key _ d2 (.val_bool true) heq ⟨by decide, by decide⟩ rfl h.symm
  · split at h
    · rename_i d2 heq
      simp only [Except.ok.injEq] at h
      exact key _ d2 (.val_bool false) heq ⟨by decide, by decide⟩ rfl h.symm
    · split at h
      · rename_i d2 heq
        simp only [Except.ok.injEq] at h
        exact key _ d2 .val_null heq ⟨by decide, by decide⟩ rfl h.symm
      · split at h
        · rename_i d2 heq
          simp only [Except.ok.injEq] at h
          exact key _ d2 (.val_double (.infinity false)) heq ⟨by decide, by decide⟩ rfl h.symm
        · split at h
          · rename_i d2 heq
            simp only [Except.ok.injEq] at h
            exact key _ d2 (.val_double .nan) heq ⟨by decide, by decide⟩ rfl h.symm
          · simp [fail] at h

end qc.json

/-! ## The shape of the text and of the calls of an accepted document -/

theorem isWs_takeWhile (s : List Nat) : IsWs (s.takeWhile isspace) :=
  fun _ hc => List.mem_takeWhile_imp hc

namespace qc.json

open DecodeHelper

/-- What `m_tryConsumeChar` reads when it answers yes. -/
theorem m_tryConsumeChar_text (sz : Nat) (s : List Nat) (evs : List Event) (c : Nat)
    (d1 : DecodeHelper) (h : m_tryConsumeChar ⟨sz, s, evs⟩ c = (true, d1)) :
    ∃ r, d1 = ⟨sz, r, evs⟩ ∧ s = c :: r := by
  cases s with
  | nil => simp [m_tryConsumeChar] at h
  | cons a t =>
    simp only [m_tryConsumeChar, advance, List.drop_succ_cons, List.drop_zero] at h
    split_ifs at h with hc
    · simp only [Prod.mk.injEq, true_and] at h
      exact ⟨t, h.symm, by rw [hc]⟩
    · simp at h

/-- What `m_consumeChar` reads when it returns. -/
theorem m_consumeChar_text (sz : Nat) (s : List Nat) (evs : List Event) (c : Nat)
    (d1 : DecodeHelper) (h : m_consumeChar ⟨sz, s, evs⟩ c = .ok d1) :
    ∃ r, d1 = ⟨sz, r, evs⟩ ∧ s = c :: r := by
  simp only [m_consumeChar] at h
  split at h
  · rename_i d2 heq
    simp only [Except.ok.injEq] at h
    subst h
    exact m_tryConsumeChar_text sz s evs c d2 heq
  · simp [fail] at h

/-- The elements the loop of `m_ingestArray` reads, up to the closing bracket. -/
theorem m_ingestArray_loop_shape (f : DecodeHelper → Throws DecodeHelper) (hf : ReadsShape f) :
    ∀ (n sz : Nat) (s : List Nat) (evs0 : List Event) (d1 : DecodeHelper),
      m_ingestArray_loop f n ⟨sz, s, evs0⟩ = .ok d1 →
      ∃ body r evs, d1 = ⟨sz, r, evs0 ++ evs⟩ ∧ s = body ++ 93 :: r ∧
        Shape .elements body evs := by
  intro n
  induction n with
  | zero => intro sz s evs0 d1 h; simp [m_ingestArray_loop] at h
  | succ n ih =>
    intro sz s evs0 d1 h
    simp only [m_ingestArray_loop] at h
    cases hv : f ⟨sz, s, evs0⟩ with
    | error err => simp [hv] at h
    | ok d2 =>
      obtain ⟨t, r, evs, rfl, hs, hsh⟩ := hf sz s evs0 d2 hv
      simp only [hv, m_skipWhitespace] at h
      have hws := isWs_takeWhile r
      have hr : r = r.takeWhile isspace ++ r.dropWhile isspace :=
        (List.takeWhile_append_dropWhile isspace r).symm
      split at h
      · rename_i d3 h3
        simp only [Except.ok.injEq] at h
        subst h
        obtain ⟨r3, rfl, hr3⟩ := m_tryConsumeChar_text _ _ _ _ _ h3
        refine ⟨t ++ r.takeWhile isspace, r3, evs, rfl, ?_, .lastElement t _ evs hsh hws⟩
        rw [hs, List.append_assoc, ← hr3, ← hr]
      · cases hc : m_consumeChar ⟨sz, r.dropWhile isspace, evs0 ++ evs⟩ 44 with
        | error err => simp [hc] at h
        | ok d4 =>
          simp only [hc] at h
          obtain ⟨r4, rfl, hr4⟩ := m_consumeChar_text _ _ _ _ _ hc
          obtain ⟨body, r5, evs2, hd1, hb, hsh2⟩ := ih sz _ _ d1 h
          refine ⟨t ++ r.takeWhile isspace ++ 44 :: r4.takeWhile isspace ++ body, r5,
            evs ++ evs2, ?_, ?_, .element t _ _ body evs evs2 hsh hws (isWs_takeWhile r4) hsh2⟩
          · rw [hd1, List.append_assoc]
          · have h4 : r4 = r4.takeWhile isspace ++ (body ++ 93 :: r5) := by
              rw [← hb, List.takeWhile_append_dropWhile]
            rw [hs]
            conv_lhs => rw [hr, hr4, h4]
            simp only [List.append_assoc, List.cons_append]

/-- What `m_ingestArray` reads when it is called at a `[`: an array. -/
theorem m_ingestArray_shape (f : DecodeHelper → Throws DecodeHelper) (hf : ReadsShape f)
    (sz : Nat) (s : List Nat) (evs0 : List Event) (d1 : DecodeHelper)
    (h : m_ingestArray f ⟨sz, 91 :: s, evs0⟩ = .ok d1) :
    ∃ t r evs, d1 = ⟨sz, r, evs0 ++ evs⟩ ∧ 91 :: s = t ++ r ∧ Shape .value t evs := by
  have hws := isWs_takeWhile s
  have hr : s = s.takeWhile isspace ++ s.dropWhile isspace :=
    (List.takeWhile_append_dropWhile isspace s).symm
  simp only [m_ingestArray, compose, advance, List.drop_succ_cons, List.drop_zero,
    m_skipWhitespace] at h
  split at h
  · rename_i d2 h2
    simp only [Except.ok.injEq] at h
    subst h
    obtain ⟨r2, rfl, hr2⟩ := m_tryConsumeChar_text _ _ _ _ _ h2
    refine ⟨91 :: s.takeWhile isspace ++ [93], r2, [.array, .end_], by simp, ?_,
      .emptyArray _ hws⟩
    conv_lhs => rw [hr, hr2]
    simp
  · split at h
    · cases h
    · rename_i d2 h2
      simp only [Except.ok.injEq] at h
      subst h
      obtain ⟨body, r, evs, rfl, hb, hsh⟩ := m_ingestArray_loop_shape f hf _ _ _ _ _ h2
      refine ⟨91 :: s.takeWhile isspace ++ body ++ [93], r, .array :: evs ++ [.end_],
        by simp, ?_, .array _ body evs hws hsh⟩
      conv_lhs => rw [hr, hb]
      simp

/-- The members the loop of `m_ingestObject` reads, up to the closing brace. -/
theorem m_ingestObject_loop_shape (f : DecodeHelper → Throws DecodeHelper) (hf : ReadsShape f) :
    ∀ (n sz : Nat) (s : List Nat) (evs0 : List Event) (d1 : DecodeHelper),
      m_ingestObject_loop f n ⟨sz, s, evs0⟩ = .ok d1 →
      ∃ body r evs, d1 = ⟨sz, r, evs0 ++ evs⟩ ∧ s = body ++ 125 :: r ∧
        Shape .members body evs := by
  intro n
  induction n with
  | zero => intro sz s evs0 d1 h; simp [m_ingestObject_loop] at h
  | succ n ih =>
    intro sz s evs0 d1 h
    cases s with
    | nil => simp [m_ingestObject_loop] at h
    | cons c s0 =>
      simp only [m_ingestObject_loop] at h
      by_cases h34 : c = 34
      · subst h34
        simp only [ne_eq, not_true_eq_false, if_false] at h
        cases hstr : m_consumeString ⟨sz, 34 :: s0, evs0⟩ with
        | error err => simp [hstr] at h
        | ok res =>
          obtain ⟨key, d2⟩ := res
          simp only [hstr] at h
          obtain ⟨k, r1, rfl, hk, hqk⟩ := m_consumeString_text sz s0 evs0 key d2 hstr
          split_ifs at h with hemp
          · simp [fail] at h
          · have hname : key ≠ [] := by
              intro hn
              apply hemp
              rw [hn]
              rfl
            simp only [compose, m_skipWhitespace] at h
            cases hc : m_consumeChar ⟨sz, r1.dropWhile isspace, evs0 ++ [.key key]⟩ 58 with
            | error err => simp [hc] at h
            | ok d3 =>
              simp only [hc] at h
              obtain ⟨r2, rfl, hr2⟩ := m_consumeChar_text _ _ _ _ _ hc
              cases hv : f ⟨sz, r2.dropWhile isspace, evs0 ++ [.key key]⟩ with
              | error err => simp [hv] at h
              | ok d4 =>
                simp only [hv] at h
                obtain ⟨v, r3, evs, rfl, hr3, hsh⟩ := hf _ _ _ d4 hv
                have e1 : r1 = r1.takeWhile isspace ++ 58 :: r2 := by
                  rw [← hr2, List.takeWhile_append_dropWhile]
                have e2 : r2 = r2.takeWhile isspace ++ (v ++ r3) := by
                  rw [← hr3, List.takeWhile_append_dropWhile]
                have e3 : r3 = r3.takeWhile isspace ++ r3.dropWhile isspace :=
                  (List.takeWhile_append_dropWhile isspace r3).symm
                have hE : evs0 ++ [Event.key key] ++ evs = evs0 ++ Event.key key :: evs := by
                  simp
                generalize evs0 ++ [Event.key key] ++ evs = E at h hE
                split at h
                · rename_i d5 h5
                  simp only [Except.ok.injEq] at h
                  subst h
                  obtain ⟨r5, rfl, hr5⟩ := m_tryConsumeChar_text _ _ _ _ _ h5
                  refine ⟨k ++ r1.takeWhile isspace ++ 58 :: r2.takeWhile isspace ++ v ++
                      r3.takeWhile isspace, r5, .key key :: evs, by rw [hE], ?_,
                    .lastMember k key _ _ v _ evs hqk hname (isWs_takeWhile r1)
                      (isWs_takeWhile r2) hsh (isWs_takeWhile r3)⟩
                  rw [hk]
                  conv_lhs => rw [e1, e2, e3, hr5]
                  simp only [List.append_assoc, List.cons_append]
                · cases hc2 : m_consumeChar ⟨sz, r3.dropWhile isspace, E⟩ 44 with
                  | error err => simp [hc2] at h
                  | ok d6 =>
                    simp only [hc2] at h
                    obtain ⟨r6, rfl, hr6⟩ := m_consumeChar_text _ _ _ _ _ hc2
                    obtain ⟨body, r7, evs2, hd1, hb, hsh2⟩ := ih sz _ _ d1 h
                    have e6 : r6 = r6.takeWhile isspace ++ (body ++ 125 :: r7) := by
                      rw [← hb, List.takeWhile_append_dropWhile]
                    refine ⟨k ++ r1.takeWhile isspace ++ 58 :: r2.takeWhile isspace ++ v ++
                        r3.takeWhile isspace ++ 44 :: r6.takeWhile isspace ++ body, r7,
                      .key key :: evs ++ evs2, ?_, ?_,
                      .member k key _ _ v _ _ body evs evs2 hqk hname (isWs_takeWhile r1)
                        (isWs_takeWhile r2) hsh (isWs_takeWhile r3) (isWs_takeWhile r6) hsh2⟩
                    · rw [hd1, hE]
                      simp
                    · rw [hk]
                      conv_lhs => rw [e1, e2, e3, hr6, e6]
                      simp only [List.append_assoc, List.cons_append]
      · simp [h34, fail] at h

/-- What `m_ingestObject` reads when it is called at an opening brace: an object. -/
theorem m_ingestObject_shape (f : DecodeHelper → Throws DecodeHelper) (hf : ReadsShape f)
    (sz : Nat) (s : List Nat) (evs0 : List Event) (d1 : DecodeHelper)
    (h : m_ingestObject f ⟨sz, 123 :: s, evs0⟩ = .ok d1) :
    ∃ t r evs, d1 = ⟨sz, r, evs0 ++ evs⟩ ∧ 123 :: s = t ++ r ∧ Shape .value t evs := by
  have hws := isWs_takeWhile s
  have hr : s = s.takeWhile isspace ++ s.dropWhile isspace :=
    (List.takeWhile_append_dropWhile isspace s).symm
  simp only [m_ingestObject, compose, advance, List.drop_succ_cons, List.drop_zero,
    m_skipWhitespace] at h
  split at h
  · rename_i d2 h2
    simp only [Except.ok.injEq] at h
    subst h
    obtain ⟨r2, rfl, hr2⟩ := m_tryConsumeChar_text _ _ _ _ _ h2
    refine ⟨123 :: s.takeWhile isspace ++ [125], r2, [.object, .end_], by simp, ?_,
      .emptyObject _ hws⟩
    conv_lhs => rw [hr, hr2]
    simp
  · split at h
    · cases h
    · rename_i d2 h2
      simp only [Except.ok.injEq] at h
      subst h
      obtain ⟨body, r, evs, rfl, hb, hsh⟩ := m_ingestObject_loop_shape f hf _ _ _ _ _ h2
      refine ⟨123 :: s.takeWhile isspace ++ body ++ [125], r, .object :: evs ++ [.end_],
        by simp, ?_, .object _ body evs hws hsh⟩
      conv_lhs => rw [hr, hb]
      simp

/-- Whatever `m_ingestValue` reads has the shape of one value. -/
theorem m_ingestValue_shape : ∀ fuel : Nat, ReadsShape (m_ingestValue fuel) := by
  intro fuel
  induction fuel with
  | zero => intro sz s evs0 d1 h; simp [m_ingestValue] at h
  | succ fuel ih =>
    intro sz s evs0 d1 h
    have bare : (∃ t r ev, d1 = ⟨sz, r, evs0 ++ [ev]⟩ ∧ s = t ++ r ∧ BareToken t ∧
        ev.isBareVal = true) →
        ∃ t r evs, d1 = ⟨sz, r, evs0 ++ evs⟩ ∧ s = t ++ r ∧ Shape .value t evs := by
      rintro ⟨t, r, ev, hd1, hs, hb, hev⟩
      exact ⟨t, r, [ev], hd1, hs, .bare t ev hb hev⟩
    cases s with
    | nil => simp [m_ingestValue, fail] at h
    | cons c s0 =>
      simp only [m_ingestValue] at h
      split_ifs at h with h123 h91 h34 hdig h45 hnum
      · subst h123
        exact m_ingestObject_shape _ ih sz s0 evs0 d1 h
      · subst h91
        exact m_ingestArray_shape _ ih sz s0 evs0 d1 h
      · subst h34
        simp only [m_ingestString] at h
        cases hstr : m_consumeString ⟨sz, 34 :: s0, evs0⟩ with
        | error err => simp [hstr] at h
        | ok res =>
          obtain ⟨v, d2⟩ := res
          simp only [hstr, Except.ok.injEq] at h
          obtain ⟨t, r, rfl, hs, hq⟩ := m_consumeString_text sz s0 evs0 v d2 hstr
          exact ⟨t, r, [.val_string v], h.symm, hs, .string t v hq⟩
      · exact bare (m_ingestNumber_text sz _ evs0 d1 h)
      · exact bare (m_ingestNumber_text sz _ evs0 d1 h)
      · split at h
        · rename_i d2 h2
          simp only [Except.ok.injEq] at h
          obtain ⟨r, rfl, hs⟩ := m_tryConsumeChars_text sz _ evs0 _ d2 h2
          exact ⟨[45, 105, 110, 102], r, [.val_double (.infinity true)], h.symm, hs,
            .bare _ _ ⟨by decide, by decide⟩ rfl⟩
        · exact bare (m_ingestLiteral_text sz _ evs0 d1 h)
      · exact bare (m_ingestLiteral_text sz _ evs0 d1 h)

/-- An accepted text is white space, one value and white space, and the calls made on the
composer are those of the value. -/
theorem decode_shape (json : List Nat) (evs : List Event) (h : decode json = .ok evs) :
    ∃ ws0 body ws1, json = ws0 ++ body ++ ws1 ∧ IsWs ws0 ∧ IsWs ws1 ∧
      Shape .value body evs := by
  simp only [decode, run, m_skipWhitespace] at h
  split at h
  · cases h
  · rename_i d hd
    split at hd
    · cases hd
    · rename_i d1 h1
      obtain ⟨t, r, evs1, rfl, hs, hsh⟩ := m_ingestValue_shape _ _ _ _ _ h1
      split_ifs at hd with hrest
      · simp [fail] at hd
      · simp only [Except.ok.injEq] at hd h
        subst hd
        simp only [List.nil_append] at h
        subst h
        simp only [ne_eq, not_not] at hrest
        refine ⟨json.takeWhile isspace, t, r, ?_, isWs_takeWhile json, ?_, hsh⟩
        · rw [List.append_assoc, ← hs, List.takeWhile_append_dropWhile]
        · intro c hc
          by_contra hn
          have : r.dropWhile isspace ≠ [] := by
            intro h0
            rw [List.dropWhile_eq_nil_iff] at h0
            exact hn (h0 c hc)
          exact this hrest

end qc.json

/-! ## Strings without a closing quote -/

namespace qc.json

open DecodeHelper

/-- A text in which no body of a string token is followed by a quote makes the loop of
`m_consumeString` throw a `DecodeError`: the string it continues is not terminated. -/
theorem loop_fails_unterminated : ∀ (n : Nat) (tail : List Nat), tail.length ≤ n →
    (¬ ∃ body r, StringBody body ∧ tail = body ++ 34 :: r) →
    ∃ (msg : Message) (back : Nat) (r : List Nat),
      ∀ (sz fuel : Nat) (evs : List Event) (buffer : List Nat), tail.length + 1 ≤ fuel →
        m_consumeString_loop fuel ⟨sz, tail, evs⟩ buffer =
          .error (.DecodeError msg (sz - back), ⟨sz, r, evs⟩)
  | _, [], _, _ => ⟨.expectedEndQuote, 0, [], fun sz fuel evs buffer hf =>
      loop_fails_end sz fuel evs buffer hf⟩
  | 0, c :: t, hn, _ => by simp at hn
  | n + 1, c :: t, hn, hu => by
    have hc34 : c ≠ 34 := by
      intro h
      exact hu ⟨[], t, .nil, by rw [h]; rfl⟩
    have hnt : t.length ≤ n := by simpa using hn
    by_cases h92 : c = 92
    · subst h92
      cases t with
      | nil => exact ⟨.expectedEscapeSequence, 0, [], fun sz fuel evs buffer hf =>
          loop_fails_escape_end sz fuel evs buffer hf⟩
      | cons c1 t1 =>
        have hnt1 : t1.length ≤ n := by simp at hnt; omega
        by_cases hshort : c1 ∈ [34, 92, 47, 98, 102, 110, 114, 116]
        · have hu1 : ¬ ∃ body r, StringBody body ∧ t1 = body ++ 34 :: r := by
            rintro ⟨body, r, hb, rfl⟩
            exact hu ⟨92 :: c1 :: body, r, .escape c1 body hshort hb, rfl⟩
          obtain ⟨msg, back, r, h⟩ := loop_fails_unterminated n t1 hnt1 hu1
          refine ⟨msg, back, r, fun sz fuel evs buffer hf => ?_⟩
          obtain ⟨f, rfl⟩ : ∃ f, fuel = f + 1 := ⟨fuel - 1, by simp at hf; omega⟩
          have hp := m_consumeString_loop_piece (.short c1) (by simpa [Piece.valid] using hshort)
            f sz t1 evs buffer
          simp only [Piece.text, List.cons_append, List.nil_append] at hp
          rw [hp]
          exact h sz f evs _ (by simp at hf; omega)
        · by_cases h117 : c1 = 117
          · subst h117
            by_cases hlen : t1.length < 4
            · exact ⟨.expectedFourDigits, t1.length, t1, fun sz fuel evs buffer hf =>
                loop_fails_unicode_short t1 hlen sz fuel evs buffer hf⟩
            · cases hfc : from_chars_hex (t1.take 4) with
              | error e =>
                refine ⟨.invalidUnicode, t1.length, t1, fun sz fuel evs buffer hf => ?_⟩
                obtain ⟨f, rfl⟩ : ∃ f, fuel = f + 1 := ⟨fuel - 1, by simp at hf; omega⟩
                simp [m_consumeString_loop, m_consumeEscaped, m_consumeUnicode, advance, fail,
                  offset, hlen, hfc]
              | ok val =>
                by_cases hmask : val &&& 0xFFFFFF80 = 0
                · have hu4 : ¬ ∃ body r, StringBody body ∧ t1.drop 4 = body ++ 34 :: r := by
                    rintro ⟨body, r, hb, hd⟩
                    match t1, hlen, hd with
                    | x1 :: x2 :: x3 :: x4 :: rest, _, hd =>
                      simp only [List.drop_succ_cons, List.drop_zero] at hd
                      exact hu ⟨92 :: 117 :: x1 :: x2 :: x3 :: x4 :: body, r,
                        .unicode x1 x2 x3 x4 body hb, by rw [hd]; rfl⟩
                    | [], hl, _ => exact hl (by simp)
                    | [_], hl, _ => exact hl (by simp)
                    | [_, _], hl, _ => exact hl (by simp)
                    | [_, _, _], hl, _ => exact hl (by simp)
                  obtain ⟨msg, back, r, h⟩ := loop_fails_unterminated n (t1.drop 4)
                    (by simp; omega) hu4
                  refine ⟨msg, back, r, fun sz fuel evs buffer hf => ?_⟩
                  obtain ⟨f, rfl⟩ : ∃ f, fuel = f + 1 := ⟨fuel - 1, by simp at hf; omega⟩
                  have := h sz f evs (buffer ++ [val]) (by simp at hf ⊢; omega)
                  simp [m_consumeString_loop, m_consumeEscaped, m_consumeUnicode, advance,
                    hlen, hfc, hmask, this]
                · refine ⟨.nonAsciiUnicode, t1.length, t1, fun sz fuel evs buffer hf => ?_⟩
                  obtain ⟨f, rfl⟩ : ∃ f, fuel = f + 1 := ⟨fuel - 1, by simp at hf; omega⟩
                  simp [m_consumeString_loop, m_consumeEscaped, m_consumeUnicode, advance, fail,
                    offset, hlen, hfc, hmask]
          · exact ⟨.unknownEscapeSequence, t1.length + 1, t1, fun sz fuel evs buffer hf =>
              loop_fails_escape c1 t1 (by
                simp only [List.mem_cons, List.mem_singleton, List.not_mem_nil, or_false,
                  not_or] at hshort ⊢
                obtain ⟨a1, a2, a3, a4, a5, a6, a7, a8⟩ := hshort
                exact ⟨a1, a2, a3, a4, a5, a6, a7, a8, h117⟩) sz fuel evs buffer hf⟩
    · by_cases hp : isprint c = true
      · have hut : ¬ ∃ body r, StringBody body ∧ t = body ++ 34 :: r := by
          rintro ⟨body, r, hb, rfl⟩
          exact hu ⟨c :: body, r, .plain c body hp hc34 h92 hb, rfl⟩
        obtain ⟨msg, back, r, h⟩ := loop_fails_unterminated n t hnt hut
        refine ⟨msg, back, r, fun sz fuel evs buffer hf => ?_⟩
        obtain ⟨f, rfl⟩ : ∃ f, fuel = f + 1 := ⟨fuel - 1, by simp at hf; omega⟩
        have hv : (Piece.plain c).valid = true := by
          simp only [isprint, Bool.and_eq_true, decide_eq_true_eq] at hp
          simp [Piece.valid, hp.1, hp.2, hc34, h92]
        have hpc := m_consumeString_loop_piece (.plain c) hv f sz t evs buffer
        simp only [Piece.text, List.cons_append, List.nil_append] at hpc
        rw [hpc]
        exact h sz f evs _ (by simp at hf; omega)
      · exact ⟨.unknownStringContent, t.length + 1, c :: t, fun sz fuel evs buffer hf =>
          loop_fails_content c t (by simpa using hp) sz fuel evs buffer hf⟩

end qc.json

/-! ## White space and leading zeros -/

/-- The class of `std::isspace` in the "C" locale has six characters. -/
theorem isspace_iff (c : Nat) :
    isspace c = true ↔ c = 32 ∨ c = 9 ∨ c = 10 ∨ c = 11 ∨ c = 12 ∨ c = 13 := by
  simp only [isspace, Bool.or_eq_true, Bool.and_eq_true, decide_eq_true_eq]
  omega

/-- Leading zeros do not change the value of a run of digits. -/
theorem digitsValue_zeros (k : Nat) (ds : List Nat) :
    digitsValue (List.replicate k 48 ++ ds) = digitsValue ds := by
  induction k with
  | zero => rfl
  | succ k ih =>
    have : digitsValue (List.replicate (k + 1) 48 ++ ds) =
        digitsValue (List.replicate k 48 ++ ds) := by
      simp [digitsValue, List.replicate_succ]
    rw [this, ih]

theorem integerValue_zeros (neg : Bool) (k : Nat) (ds : List Nat) :
    integerValue neg (List.replicate k 48 ++ ds) = integerValue neg ds := by
  simp only [integerValue, digitsValue_zeros]

theorem integerToken_dropWhile (neg : Bool) (d0 : Nat) (dt : List Nat)
    (hd0 : isdigit d0 = true) :
    (integerToken neg (d0 :: dt)).dropWhile isspace = integerToken neg (d0 :: dt) := by
  have hs : isspace d0 = false := by
    simp only [isdigit, Bool.and_eq_true, decide_eq_true_eq] at hd0
    simp only [isspace, Bool.or_eq_false_iff, Bool.and_eq_false_iff, decide_eq_false_iff_not]
    omega
  cases neg with
  | true =>
    have : isspace 45 = false := by decide
    simp [integerToken, List.dropWhile, this]
  | false => simp [integerToken, List.dropWhile, hs]

namespace qc.json

open DecodeHelper

/-- What `decode` does with a text that is one integer token. -/
theorem decode_integerToken (neg : Bool) (d0 : Nat) (dt : List Nat)
    (hds : ∀ c ∈ d0 :: dt, isdigit c = true) :
    decode (integerToken neg (d0 :: dt)) =
      if -(2 ^ 63) ≤ integerValue neg (d0 :: dt) ∧ integerValue neg (d0 :: dt) ≤ 2 ^ 64 - 1 ∧
          (neg = true → integerValue neg (d0 :: dt) ≤ 2 ^ 63 - 1) then
        .ok [if integerValue neg (d0 :: dt) < 2 ^ 63 then
          .val_int64 (integerValue neg (d0 :: dt))
          else .val_uint64 (integerValue neg (d0 :: dt))]
      else if doubleOverflows (digitsValue (d0 :: dt)) 0 then
        .error (.DecodeError .invalidFloater 0,
          ⟨(integerToken neg (d0 :: dt)).length, integerToken neg (d0 :: dt), []⟩)
      else .ok [.val_double (.decimal neg (digitsValue (d0 :: dt)) 0)] := by
  have h := m_ingestValue_integer neg d0 dt [] hds (by intro c hc; simp at hc)
    (integerToken neg (d0 :: dt)).length (integerToken neg (d0 :: dt)).length []
  rw [List.append_nil] at h
  simp only [decode, run, m_skipWhitespace, integerToken_dropWhile neg d0 dt (hds d0 (by simp)),
    h]
  split_ifs <;> simp [fail, offset]

end qc.json

/-! ## Calls of the encoder that throw -/

namespace qjson.Encoder

/-- The loop of `m_encode(string_view)` stops at the first byte `>= 128`: it has written the
escapes of the bytes before it. -/
theorem m_encode_chars_stop (pre : List Nat) (c : Nat) (rest : List Nat)
    (hpre : ∀ x ∈ pre, x < 128) (hc : 128 ≤ c) (e : Encoder) :
    m_encode_chars e (pre ++ c :: rest) = .error (.nonAscii, e.put (escaped pre)) := by
  induction pre generalizing e with
  | nil =>
    have h1 : isprint c = false := by
      simp only [isprint, Bool.and_eq_false_iff, decide_eq_false_iff_not]
      omega
    have h8 : c ≠ 8 ∧ c ≠ 12 ∧ c ≠ 10 ∧ c ≠ 13 ∧ c ≠ 9 ∧ ¬ c < 128 := by omega
    simp [m_encode_chars, h1, h8, escaped]
  | cons a pre ih =>
    rw [List.cons_append, m_encode_chars_cons e a _ (hpre a (by simp)),
      ih (fun x hx => hpre x (by simp [hx])), put_put]
    rfl

/-- `m_encode(string_view)` on a string with a byte `>= 128`. -/
theorem m_encode_string_stop (pre : List Nat) (c : Nat) (rest : List Nat)
    (hpre : ∀ x ∈ pre, x < 128) (hc : 128 ≤ c) (e : Encoder) :
    m_encode_string e (pre ++ c :: rest) = .error (.nonAscii, e.put (34 :: escaped pre)) := by
  simp only [m_encode_string, m_encode_chars_stop pre c rest hpre hc, put_put]
  rfl

/-- The first byte `>= 128` of a string that has one, and the bytes before it. -/
theorem first_nonAscii (s : List Nat) (h : ∃ c ∈ s, 128 ≤ c) :
    ∃ pre c rest, s = pre ++ c :: rest ∧ (∀ x ∈ pre, x < 128) ∧ 128 ≤ c := by
  induction s with
  | nil => simp at h
  | cons a s ih =>
    by_cases ha : a < 128
    · obtain ⟨pre, c, rest, hs, hpre, hc⟩ := ih (by
        obtain ⟨x, hx, hx128⟩ := h
        rcases List.mem_cons.mp hx with rfl | hx
        · omega
        · exact ⟨x, hx, hx128⟩)
      refine ⟨a :: pre, c, rest, by rw [hs]; rfl, ?_, hc⟩
      intro x hx
      rcases List.mem_cons.mp hx with rfl | hx
      · exact ha
      · exact hpre x hx
    · exact ⟨[], a, s, rfl, by simp, by omega⟩

/-- When `m_encode(string_view)` throws, the error is "Non-ASCII unicode is not supported" and
the encoder has only got text appended. -/
theorem m_encode_string_throws (e e1 : Encoder) (v : List Nat) (err : EncodeError)
    (h : m_encode_string e v = .error (err, e1)) :
    err = .nonAscii ∧ ∃ w, e1 = e.put (34 :: w) := by
  by_cases hv : ∃ c ∈ v, 128 ≤ c
  · obtain ⟨pre, c, rest, rfl, hpre, hc⟩ := first_nonAscii v hv
    rw [m_encode_string_stop pre c rest hpre hc] at h
    simp only [Except.error.injEq, Prod.mk.injEq] at h
    exact ⟨h.1.symm, _, h.2.symm⟩
  · rw [m_encode_string_ascii v (fun c hc => by
      by_contra hn
      exact hv ⟨c, hc, by omega⟩)] at h
    cases h

/-- The error of `m_checkPre` carries the encoder as it is. -/
theorem m_checkPre_throws (e e1 : Encoder) (err : EncodeError)
    (h : m_checkPre e = .error (err, e1)) : e1 = e ∧ err ≠ .nonAscii := by
  simp only [m_checkPre] at h
  split_ifs at h
  · simp only [Except.error.injEq, Prod.mk.injEq] at h
    exact ⟨h.2.symm, by rw [← h.1]; decide⟩
  · split at h
    · split_ifs at h
      simp only [Except.error.injEq, Prod.mk.injEq] at h
      exact ⟨h.2.symm, by rw [← h.1]; decide⟩
    · cases h

/-- A call that throws: either the error is "Non-ASCII unicode is not supported" and the
encoder has `m_prefix` done and text appended, or the encoder is as it was. -/
theorem call_throws (e e1 : Encoder) (c : Call) (err : EncodeError)
    (h : e.call c = .error (err, e1)) :
    (err ≠ .nonAscii ∧ e1 = e) ∨
      (err = .nonAscii ∧ ∃ w, e1 = ( m_prefix e).put (34 :: w)) := by
  have hopen : ∀ bracket isArray compact, openContainer e bracket isArray compact =
      .error (err, e1) → err ≠ .nonAscii ∧ e1 = e := by
    intro bracket isArray compact h0
    simp only [openContainer] at h0
    cases hp : m_checkPre e with
    | error err1 =>
      rw [hp] at h0
      simp only [Except.error.injEq] at h0
      subst h0
      obtain ⟨h1, h2⟩ := m_checkPre_throws _ _ _ hp
      exact ⟨h2, h1⟩
    | ok u =>
      rw [hp] at h0
      simp only at h0
      split at h0 <;> cases h0
  cases c with
  | object compact => exact Or.inl (hopen _ _ _ h)
  | array compact => exact Or.inl (hopen _ _ _ h)
  | key k =>
    simp only [call, key] at h
    cases hk : e.m_isKey with
    | true =>
      simp only [hk, if_true, Except.error.injEq, Prod.mk.injEq] at h
      exact Or.inl ⟨by rw [← h.1]; decide, h.2.symm⟩
    | false =>
      simp only [hk, Bool.false_eq_true, if_false] at h
      cases hst : e.m_state with
      | nil =>
        simp only [hst, Except.error.injEq, Prod.mk.injEq] at h
        exact Or.inl ⟨by rw [← h.1]; decide, h.2.symm⟩
      | cons back below =>
        simp only [hst] at h
        cases hb : back.array with
        | true =>
          simp only [hb, if_true, Except.error.injEq, Prod.mk.injEq] at h
          exact Or.inl ⟨by rw [← h.1]; decide, h.2.symm⟩
        | false =>
          simp only [hb, Bool.false_eq_true, if_false] at h
          cases hke : k.isEmpty with
          | true =>
            simp only [hke, if_true, Except.error.injEq, Prod.mk.injEq] at h
            exact Or.inl ⟨by rw [← h.1]; decide, h.2.symm⟩
          | false =>
            simp only [hke, Bool.false_eq_true, if_false] at h
            cases hs : m_encode_string ( m_prefix e) k with
            | ok e2 => rw [hs] at h; cases h
            | error err1 =>
              rw [hs] at h
              simp only [Except.error.injEq] at h
              subst h
              exact Or.inr (m_encode_string_throws _ _ _ _ hs)
  | val v =>
    simp only [call, val, m_val] at h
    cases hp : m_checkPre e with
    | error err1 =>
      rw [hp] at h
      simp only [Except.error.injEq] at h
      subst h
      obtain ⟨h1, h2⟩ := m_checkPre_throws _ _ _ hp
      exact Or.inl ⟨h2, h1⟩
    | ok u =>
      rw [hp] at h
      simp only at h
      cases hs : m_encode ( m_prefix e) v with
      | ok e2 =>
        rw [hs] at h
        simp only at h
        split_ifs at h
      | error err1 =>
        rw [hs] at h
        simp only [Except.error.injEq] at h
        subst h
        cases v with
        | string s => exact Or.inr (m_encode_string_throws _ _ _ _ hs)
        | int64 v => cases hs
        | double t => cases hs
        | bool b => cases hs
        | null => cases hs
  | end_ =>
    simp only [call, end_] at h
    split at h
    · simp only [Except.error.injEq, Prod.mk.injEq] at h
      exact Or.inl ⟨by rw [← h.1]; decide, h.2.symm⟩
    · split_ifs at h
      simp only [Except.error.injEq, Prod.mk.injEq] at h
      exact Or.inl ⟨by rw [← h.1]; decide, h.2.symm⟩

/-- A call that throws leaves the frames and the two flags as they were. -/
theorem call_throws_state (e e1 : Encoder) (c : Call) (err : EncodeError)
    (h : e.call c = .error (err, e1)) :
    e1.m_state = e.m_state ∧ e1.m_isKey = e.m_isKey ∧ e1.m_isComplete = e.m_isComplete := by
  rcases call_throws e e1 c err h with ⟨_, rfl⟩ | ⟨_, w, rfl⟩
  · exact ⟨rfl, rfl, rfl⟩
  · exact ⟨m_prefix_m_state e, m_prefix_m_isKey e, m_prefix_m_isComplete e⟩

/-- A pending key belongs to an object: the property of the encoder that every call that
returns keeps. -/
theorem call_ok_key (e e1 : Encoder) (c : Call)
    (hK : e.m_isKey = true → ∃ top below, e.m_state = top :: below ∧ top.array = false)
    (h : e.call c = .ok e1) :
    e1.m_isKey = true → ∃ top below, e1.m_state = top :: below ∧ top.array = false := by
  have hval : e1.m_isKey = (if e.m_state.isEmpty then e.m_isKey else false) →
      e1.m_isKey = true → ∃ top below, e1.m_state = top :: below ∧ top.array = false := by
    intro hk h1
    rw [hk] at h1
    cases hst : e.m_state with
    | nil =>
      rw [hst] at h1
      simp only [List.isEmpty_nil, if_true] at h1
      obtain ⟨top, below, h2, _⟩ := hK h1
      rw [hst] at h2
      cases h2
    | cons a b =>
      rw [hst] at h1
      simp at h1
  cases c with
  | object compact =>
    obtain ⟨_, _, _, hk, _⟩ := openContainer_ok_eq e e1 _ _ _ h
    exact hval hk
  | array compact =>
    obtain ⟨_, _, _, hk, _⟩ := openContainer_ok_eq e e1 _ _ _ h
    exact hval hk
  | key k =>
    obtain ⟨_, hob, _, _, _, hs, _, _⟩ := key_ok_eq e e1 k h
    intro _
    rw [hs]
    exact hob
  | val v =>
    obtain ⟨_, _, _, _, hk, _⟩ := val_ok_eq e e1 v h
    exact hval hk
  | end_ =>
    obtain ⟨_, _, _, _, _, _, hk, _⟩ := end_ok_eq e e1 h
    intro h1
    rw [hk] at h1
    cases h1

/-- In every encoder a program can hold, a pending key belongs to an object that is open. -/
theorem reachable_key (e : Encoder) (h : e.Reachable) :
    e.m_isKey = true → ∃ top below, e.m_state = top :: below ∧ top.array = false := by
  induction h with
  | fresh => intro h0; cases h0
  | call e c _ ih =>
    unfold afterCall
    cases hc : e.call c with
    | ok e1 => exact call_ok_key e e1 c ih hc
    | error err =>
      obtain ⟨err1, e1⟩ := err
      obtain ⟨h1, h2, _⟩ := call_throws_state e e1 c err1 hc
      simp only [h1, h2]
      exact ih
  | finish e _ ih =>
    unfold afterFinish finish
    split_ifs
    · exact ih
    · exact ih

/-- On a complete document every call of the streaming interface throws, and leaves the
encoder as it is. -/
theorem call_complete (e : Encoder) (c : Call) (hc : e.m_isComplete = true)
    (hs : e.m_state = []) : ∃ err, e.call c = .error (err, e) := by
  obtain ⟨oss, st, ind, isKey, isComplete⟩ := e
  simp only at hc hs
  subst hc hs
  cases c with
  | object compact => exact ⟨.completeJson, rfl⟩
  | array compact => exact ⟨.completeJson, rfl⟩
  | key k => cases isKey <;> exact ⟨_, rfl⟩
  | val v => exact ⟨.completeJson, rfl⟩
  | end_ => exact ⟨.nothingToEnd, rfl⟩

/-- `val` of a string with a byte `>= 128`, in a state in which a value may be added. -/
theorem val_nonAscii (e : Encoder) (pre : List Nat) (c : Nat) (rest : List Nat)
    (hpre : ∀ x ∈ pre, x < 128) (hc : 128 ≤ c) (hok : m_checkPre e = .ok ()) :
    e.val (.string (pre ++ c :: rest)) =
      .error (.nonAscii, ( m_prefix e).put (34 :: escaped pre)) := by
  simp only [val, m_val, hok, m_encode, m_encode_string_stop pre c rest hpre hc]

/-- `key` with a name that has a byte `>= 128`, in a state in which a key may be given. -/
theorem key_nonAscii (e : Encoder) (pre : List Nat) (c : Nat) (rest : List Nat)
    (hpre : ∀ x ∈ pre, x < 128) (hc : 128 ≤ c) (hk : e.m_isKey = false)
    (back : m_State) (below : List m_State) (hs : e.m_state = back :: below)
    (hb : back.array = false) :
    e.key (pre ++ c :: rest) =
      .error (.nonAscii, ( m_prefix e).put (34 :: escaped pre)) := by
  have hne : (pre ++ c :: rest).isEmpty = false := by
    cases pre <;> rfl
  simp only [key, hk, hs, hb, hne, Bool.false_eq_true, if_false]
  rw [m_encode_string_stop pre c rest hpre hc]

end qjson.Encoder

/-! ## The read position only moves forward -/

namespace qc.json

open DecodeHelper

theorem later_refl (d : DecodeHelper) : d.Later d :=
  ⟨rfl, [], [], rfl, (List.append_nil _).symm, le_refl _⟩

theorem later_trans (d d1 d2 : DecodeHelper) (h1 : d.Later d1) (h2 : d1.Later d2) :
    d.Later d2 := by
  obtain ⟨hs1, t1, e1, hp1, hc1, hl1⟩ := h1
  obtain ⟨hs2, t2, e2, hp2, hc2, hl2⟩ := h2
  refine ⟨hs2.trans hs1, t1 ++ t2, e1 ++ e2, ?_, ?_, ?_⟩
  · rw [hp1, hp2, List.append_assoc]
  · rw [hc2, hc1, List.append_assoc]
  · simp only [List.length_append]
    omega

theorem later_mk (sz : Nat) (s : List Nat) (evs0 : List Event) (t r : List Nat)
    (evs : List Event) (hs : s = t ++ r) (hl : evs.length ≤ t.length) :
    Later ⟨sz, s, evs0⟩ ⟨sz, r, evs0 ++ evs⟩ :=
  ⟨rfl, t, evs, hs, rfl, hl⟩

/-- Reading without calling the composer. -/
theorem later_read (sz : Nat) (s : List Nat) (evs0 : List Event) (t r : List Nat)
    (hs : s = t ++ r) : Later ⟨sz, s, evs0⟩ ⟨sz, r, evs0⟩ :=
  ⟨rfl, t, [], hs, (List.append_nil _).symm, Nat.zero_le _⟩

theorem later_length (d d1 : DecodeHelper) (h : d.Later d1) :
    d1.m_pos.length ≤ d.m_pos.length ∧
      d1.m_composer.length + d1.m_pos.length ≤ d.m_composer.length + d.m_pos.length := by
  obtain ⟨_, t, evs, hp, hc, hl⟩ := h
  rw [hp, hc]
  simp only [List.length_append]
  omega

theorem later_suffix (d d1 : DecodeHelper) (h : d.Later d1) :
    d1.m_pos <:+ d.m_pos ∧ d.m_composer <+: d1.m_composer := by
  obtain ⟨_, t, evs, hp, hc, _⟩ := h
  exact ⟨⟨t, hp.symm⟩, ⟨evs, hc.symm⟩⟩

theorem later_skipWhitespace (d : DecodeHelper) : d.Later (m_skipWhitespace d) :=
  ⟨rfl, d.m_pos.takeWhile isspace, [], (List.takeWhile_append_dropWhile _ _).symm,
    (List.append_nil _).symm, Nat.zero_le _⟩

theorem later_advance (d : DecodeHelper) (n : Nat) : d.Later (d.advance n) :=
  ⟨rfl, d.m_pos.take n, [], (List.take_append_drop _ _).symm, (List.append_nil _).symm,
    Nat.zero_le _⟩

theorem skipWhitespace_length (d : DecodeHelper) :
    (m_skipWhitespace d).m_pos.length ≤ d.m_pos.length :=
  (later_length _ _ (later_skipWhitespace d)).1

theorem quotedToken_length (t : List Nat) (h : QuotedToken t) : 2 ≤ t.length := by
  obtain ⟨body, _, rfl⟩ := h
  simp

/-- A text of the grammar has at least as many bytes as it has composer calls, and a value has
at least one byte. -/
theorem shape_length (part : Part) (t : List Nat) (evs : List Event) (h : Shape part t evs) :
    evs.length ≤ t.length ∧ (part = .value → 1 ≤ t.length) := by
  induction h with
  | string t v hq =>
    have := quotedToken_length t hq
    exact ⟨by simp only [List.length_singleton]; omega, fun _ => by omega⟩
  | bare t ev hb _ =>
    have : 1 ≤ t.length := by
      cases t with
      | nil => exact absurd rfl hb.1
      | cons a t => simp
    exact ⟨by simpa using this, fun _ => this⟩
  | emptyArray ws _ => exact ⟨by simp, fun _ => by simp⟩
  | array ws body evs _ _ ih =>
    have := ih.1
    exact ⟨by simp only [List.length_cons, List.length_append, List.length_nil]; omega,
      fun _ => by simp⟩
  | emptyObject ws _ => exact ⟨by simp, fun _ => by simp⟩
  | object ws body evs _ _ ih =>
    have := ih.1
    exact ⟨by simp only [List.length_cons, List.length_append, List.length_nil]; omega,
      fun _ => by simp⟩
  | lastElement v ws evs _ _ ih =>
    have := ih.1
    exact ⟨by simp only [List.length_append]; omega, fun h => by cases h⟩
  | element v w1 w2 rest evs evs2 _ _ _ _ ih1 ih2 =>
    have := ih1.1
    have := ih2.1
    exact ⟨by simp only [List.length_cons, List.length_append]; omega, fun h => by cases h⟩
  | lastMember k name w1 w2 v w3 evs hq _ _ _ _ _ ih =>
    have := ih.1
    have := quotedToken_length k hq
    exact ⟨by simp only [List.length_cons, List.length_append]; omega, fun h => by cases h⟩
  | member k name w1 w2 v w3 w4 rest evs evs2 hq _ _ _ _ _ _ _ ih1 ih2 =>
    have := ih1.1
    have := ih2.1
    have := quotedToken_length k hq
    exact ⟨by simp only [List.length_cons, List.length_append]; omega, fun h => by cases h⟩

/-- A reader of values that returned has moved forward, by at least one byte. -/
theorem readsShape_later (f : DecodeHelper → Throws DecodeHelper) (hf : ReadsShape f)
    (d d1 : DecodeHelper) (h : f d = .ok d1) :
    d.Later d1 ∧ d1.m_pos.length < d.m_pos.length := by
  obtain ⟨sz, s, evs0⟩ := d
  obtain ⟨t, r, evs, rfl, hs, hsh⟩ := hf sz s evs0 d1 h
  obtain ⟨hl, hne⟩ := shape_length _ _ _ hsh
  refine ⟨later_mk sz s evs0 t r evs hs hl, ?_⟩
  have := hne rfl
  simp only [hs, List.length_append]
  omega

/-- The state a `throw DecodeError(msg, m_pos - m_start)` leaves. -/
theorem fail_later {α : Type} (d : DecodeHelper) (msg : Message) (fl : Failure)
    (d1 : DecodeHelper) (h : (d.fail msg : Throws α) = .error (fl, d1)) :
    fl ≠ .outOfFuel ∧ d1 = d := by
  simp only [fail, Except.error.injEq, Prod.mk.injEq] at h
  refine ⟨?_, h.2.symm⟩
  rw [← h.1]
  exact Failure.noConfusion

theorem m_tryConsumeChar_false (d d1 : DecodeHelper) (c : Nat)
    (h : m_tryConsumeChar d c = (false, d1)) : d1 = d := by
  simp only [m_tryConsumeChar] at h
  split at h
  · split_ifs at h
    · simp at h
    · simp only [Prod.mk.injEq, true_and] at h
      exact h.symm
  · simp only [Prod.mk.injEq, true_and] at h
    exact h.symm

theorem m_consumeChar_throws (d : DecodeHelper) (c : Nat) (fl : Failure) (d1 : DecodeHelper)
    (h : m_consumeChar d c = .error (fl, d1)) : fl ≠ .outOfFuel ∧ d1 = d := by
  simp only [m_consumeChar] at h
  split at h
  · cases h
  · rename_i d2 h2
    obtain ⟨h3, h4⟩ := fail_later _ _ _ _ h
    exact ⟨h3, h4.trans (m_tryConsumeChar_false d d2 c h2)⟩

theorem m_consumeUnicode_throws (d : DecodeHelper) (fl : Failure) (d1 : DecodeHelper)
    (h : m_consumeUnicode d = .error (fl, d1)) : fl ≠ .outOfFuel ∧ d1 = d := by
  simp only [m_consumeUnicode] at h
  split_ifs at h
  · exact fail_later _ _ _ _ h
  · split at h
    · exact fail_later _ _ _ _ h
    · split_ifs at h
      exact fail_later _ _ _ _ h

theorem m_consumeEscaped_throws (d : DecodeHelper) (fl : Failure) (d1 : DecodeHelper)
    (h : m_consumeEscaped d = .error (fl, d1)) : fl ≠ .outOfFuel ∧ d.Later d1 := by
  simp only [m_consumeEscaped] at h
  split at h
  · obtain ⟨h1, h2⟩ := fail_later _ _ _ _ h
    exact ⟨h1, h2 ▸ later_refl d⟩
  · split_ifs at h
    · obtain ⟨h1, h2⟩ := m_consumeUnicode_throws _ _ _ h
      exact ⟨h1, h2 ▸ later_advance d 1⟩
    · simp only [Except.error.injEq, Prod.mk.injEq] at h
      refine ⟨?_, h.2 ▸ later_advance d 1⟩
      rw [← h.1]
      exact Failure.noConfusion

end qc.json

/-! ## Tokens: the read position after a token and after a throw inside one -/

namespace qc.json

open DecodeHelper

theorem m_consumeEscaped_later (d : DecodeHelper) (c : Nat) (d1 : DecodeHelper)
    (h : m_consumeEscaped d = .ok (c, d1)) :
    d.Later d1 ∧ d1.m_pos.length < d.m_pos.length := by
  obtain ⟨sz, s, evs⟩ := d
  obtain ⟨r, rfl, hs⟩ := m_consumeEscaped_text sz s evs c d1 h
  rcases hs with ⟨x, _, rfl⟩ | ⟨h1, h2, h3, h4, rfl⟩
  · exact ⟨later_read sz _ evs [x] r rfl, by simp⟩
  · exact ⟨later_read sz _ evs [117, h1, h2, h3, h4] r rfl, by
      simp only [List.length_cons]
      omega⟩

/-- The loop of `m_consumeString` reads at least one byte in every iteration: as many
iterations as there are unread bytes, and one more, are enough for it to return or throw, and
a throw leaves the position where it was or further on. -/
theorem m_consumeString_loop_throws : ∀ (fuel : Nat) (d : DecodeHelper) (buf : List Nat)
    (fl : Failure) (d1 : DecodeHelper), d.m_pos.length < fuel →
    m_consumeString_loop fuel d buf = .error (fl, d1) → fl ≠ .outOfFuel ∧ d.Later d1 := by
  intro fuel
  induction fuel with
  | zero => intro d buf fl d1 hlt; omega
  | succ fuel ih =>
    intro d buf fl d1 hlt h
    obtain ⟨sz, s, evs⟩ := d
    cases s with
    | nil =>
      simp only [m_consumeString_loop] at h
      obtain ⟨h1, h2⟩ := fail_later _ _ _ _ h
      exact ⟨h1, h2 ▸ later_refl _⟩
    | cons c rest =>
      simp only [m_consumeString_loop, advance, List.drop_succ_cons, List.drop_zero] at h
      simp only [List.length_cons] at hlt
      have hstep : Later ⟨sz, c :: rest, evs⟩ ⟨sz, rest, evs⟩ :=
        later_read sz _ evs [c] rest rfl
      by_cases h34 : c = 34
      · rw [if_pos h34] at h
        cases h
      · rw [if_neg h34] at h
        by_cases h92 : c = 92
        · rw [if_pos h92] at h
          cases he : m_consumeEscaped ⟨sz, rest, evs⟩ with
          | error err =>
            rw [he] at h
            simp only [Except.error.injEq] at h
            subst h
            obtain ⟨h1, h2⟩ := m_consumeEscaped_throws _ _ _ he
            exact ⟨h1, later_trans _ _ _ hstep h2⟩
          | ok res =>
            obtain ⟨c1, d2⟩ := res
            rw [he] at h
            simp only at h
            obtain ⟨hl, hlen⟩ := m_consumeEscaped_later _ _ _ he
            simp only at hlen
            obtain ⟨h1, h2⟩ := ih d2 _ fl d1 (by omega) h
            exact ⟨h1, later_trans _ _ _ (later_trans _ _ _ hstep hl) h2⟩
        · rw [if_neg h92] at h
          by_cases hp : isprint c = true
          · rw [if_pos hp] at h
            obtain ⟨h1, h2⟩ := ih ⟨sz, rest, evs⟩ _ fl d1 (by simp only; omega) h
            exact ⟨h1, later_trans _ _ _ hstep h2⟩
          · rw [if_neg hp] at h
            obtain ⟨h1, h2⟩ := fail_later _ _ _ _ h
            exact ⟨h1, h2 ▸ later_refl _⟩

/-- `m_consumeString` called at a byte of the text (the opening quote) that throws. -/
theorem m_consumeString_throws (d : DecodeHelper) (hne : d.m_pos ≠ []) (fl : Failure)
    (d1 : DecodeHelper) (h : m_consumeString d = .error (fl, d1)) :
    fl ≠ .outOfFuel ∧ d.Later d1 := by
  obtain ⟨sz, s, evs⟩ := d
  cases s with
  | nil => exact absurd rfl hne
  | cons c rest =>
    simp only [m_consumeString, advance, List.drop_succ_cons, List.drop_zero,
      List.length_cons] at h
    obtain ⟨h1, h2⟩ := m_consumeString_loop_throws _ ⟨sz, rest, evs⟩ _ fl d1
      (by simp only; omega) h
    exact ⟨h1, later_trans _ _ _ (later_read sz _ evs [c] rest rfl) h2⟩

/-- `m_consumeString` called at a quote that returns: it has read the token. -/
theorem m_consumeString_later (d : DecodeHelper) (hq : d.m_pos.head? = some 34) (v : List Nat)
    (d1 : DecodeHelper) (h : m_consumeString d = .ok (v, d1)) :
    d.Later d1 ∧ d1.m_pos.length + 2 ≤ d.m_pos.length := by
  obtain ⟨sz, s, evs⟩ := d
  cases s with
  | nil => simp at hq
  | cons c rest =>
    simp only [List.head?_cons, Option.some.injEq] at hq
    subst hq
    obtain ⟨t, r, rfl, hs, hqt⟩ := m_consumeString_text sz rest evs v d1 h
    have := quotedToken_length t hqt
    refine ⟨later_read sz _ evs t r hs, ?_⟩
    simp only [hs, List.length_append]
    omega

theorem m_ingestString_throws (d : DecodeHelper) (hne : d.m_pos ≠ []) (fl : Failure)
    (d1 : DecodeHelper) (h : m_ingestString d = .error (fl, d1)) :
    fl ≠ .outOfFuel ∧ d.Later d1 := by
  simp only [m_ingestString] at h
  cases hs : m_consumeString d with
  | error err =>
    rw [hs] at h
    simp only [Except.error.injEq] at h
    subst h
    exact m_consumeString_throws d hne fl d1 hs
  | ok res =>
    rw [hs] at h
    cases h

theorem m_ingestFloater_throws (d : DecodeHelper) (fl : Failure) (d1 : DecodeHelper)
    (h : m_ingestFloater d = .error (fl, d1)) : fl ≠ .outOfFuel ∧ d.Later d1 := by
  simp only [m_ingestFloater] at h
  split at h
  · obtain ⟨h1, h2⟩ := fail_later _ _ _ _ h
    exact ⟨h1, h2 ▸ later_refl _⟩
  · split_ifs at h
    obtain ⟨h1, h2⟩ := fail_later _ _ _ _ h
    exact ⟨h1, h2 ▸ later_refl _⟩

theorem m_ingestInteger_throws (isSigned : Bool) (d : DecodeHelper) (fl : Failure)
    (d1 : DecodeHelper) (h : m_ingestInteger isSigned d = .error (fl, d1)) :
    fl ≠ .outOfFuel ∧ d.Later d1 := by
  obtain ⟨sz, s, evs⟩ := d
  rw [m_ingestInteger_eq] at h
  cases hfc : from_chars_integer isSigned s with
  | error e =>
    cases e with
    | result_out_of_range =>
      simp only [hfc] at h
      exact m_ingestFloater_throws _ _ _ h
    | invalid_argument =>
      simp only [hfc] at h
      obtain ⟨h1, h2⟩ := fail_later _ _ _ _ h
      exact ⟨h1, h2 ▸ later_refl _⟩
  | ok res =>
    obtain ⟨val, ptr⟩ := res
    simp only [hfc] at h
    obtain ⟨t, hs, _, _⟩ := from_chars_integer_text isSigned s val ptr hfc
    split_ifs at h
    obtain ⟨h1, h2⟩ := fail_later _ _ _ _ h
    refine ⟨h1, h2 ▸ later_read sz s evs (t ++ ptr.take 1) (ptr.drop 1) ?_⟩
    rw [List.append_assoc, List.take_append_drop]
    exact hs

theorem m_ingestNumber_throws (d : DecodeHelper) (fl : Failure) (d1 : DecodeHelper)
    (h : m_ingestNumber d = .error (fl, d1)) : fl ≠ .outOfFuel ∧ d.Later d1 := by
  simp only [m_ingestNumber] at h
  split_ifs at h
  · exact m_ingestInteger_throws _ _ _ _ h
  · exact m_ingestInteger_throws _ _ _ _ h
  · exact m_ingestFloater_throws _ _ _ h

theorem m_ingestLiteral_throws (d : DecodeHelper) (fl : Failure) (d1 : DecodeHelper)
    (h : m_ingestLiteral d = .error (fl, d1)) : fl ≠ .outOfFuel ∧ d.Later d1 := by
  simp only [m_ingestLiteral] at h
  split at h
  · cases h
  · split at h
    · cases h
    · split at h
      · cases h
      · split at h
        · cases h
        · split at h
          · cases h
          · obtain ⟨h1, h2⟩ := fail_later _ _ _ _ h
            exact ⟨h1, h2 ▸ later_refl _⟩

end qc.json

/-! ## Containers: the loops end within the text -/

namespace qc.json

open DecodeHelper

theorem m_tryConsumeChar_later (d : DecodeHelper) (c : Nat) (d1 : DecodeHelper)
    (h : m_tryConsumeChar d c = (true, d1)) :
    d.Later d1 ∧ d1.m_pos.length < d.m_pos.length := by
  obtain ⟨sz, s, evs⟩ := d
  obtain ⟨r, rfl, rfl⟩ := m_tryConsumeChar_text sz s evs c d1 h
  exact ⟨later_read sz _ evs [c] r rfl, by simp⟩

theorem m_consumeChar_later (d : DecodeHelper) (c : Nat) (d1 : DecodeHelper)
    (h : m_consumeChar d c = .ok d1) :
    d.Later d1 ∧ d1.m_pos.length < d.m_pos.length := by
  obtain ⟨sz, s, evs⟩ := d
  obtain ⟨r, rfl, rfl⟩ := m_consumeChar_text sz s evs c d1 h
  exact ⟨later_read sz _ evs [c] r rfl, by simp⟩

/-- A call on the composer made right after at least one byte was read. -/
theorem later_compose (d d1 : DecodeHelper) (ev : Event) (h : d.Later d1)
    (hc : d1.m_composer = d.m_composer) (hlt : d1.m_pos.length < d.m_pos.length) :
    d.Later (d1.compose ev) := by
  obtain ⟨hs, t, evs, hp, _, _⟩ := h
  refine ⟨hs, t, [ev], hp, by simp only [compose, hc], ?_⟩
  have := congrArg List.length hp
  simp only [List.length_append] at this
  simp only [List.length_singleton]
  omega

/-- The opening of a container: the call on the composer, the bracket and the white space
after it. -/
theorem later_open (d : DecodeHelper) (ev : Event) (hne : d.m_pos ≠ []) :
    d.Later (m_skipWhitespace ((d.compose ev).advance 1)) ∧
      (m_skipWhitespace ((d.compose ev).advance 1)).m_pos.length < d.m_pos.length := by
  obtain ⟨sz, s, evs⟩ := d
  cases s with
  | nil => exact absurd rfl hne
  | cons c rest =>
    have h1 : Later ⟨sz, c :: rest, evs⟩ ((compose ⟨sz, c :: rest, evs⟩ ev).advance 1) :=
      later_mk sz _ evs [c] rest [ev] rfl (le_refl _)
    refine ⟨later_trans _ _ _ h1 (later_skipWhitespace _), ?_⟩
    have := skipWhitespace_length ((compose ⟨sz, c :: rest, evs⟩ ev).advance 1)
    simp only [compose, advance, List.drop_succ_cons, List.drop_zero, List.length_cons] at this ⊢
    omega

/-- The loop of `m_ingestArray` reads at least one byte in every iteration: with more
iterations allowed than there are unread bytes it returns or throws, and a throw leaves the
position where the loop started or further on.  `f` is `m_ingestValue` one level down, which
behaves so on every text shorter than `k`. -/
theorem m_ingestArray_loop_throws (f : DecodeHelper → Throws DecodeHelper) (hok : ReadsShape f)
    (k : Nat)
    (herr : ∀ d : DecodeHelper, d.m_pos.length < k → ∀ fl d1, f d = .error (fl, d1) →
      fl ≠ .outOfFuel ∧ d.Later d1) :
    ∀ (n : Nat) (d : DecodeHelper) (fl : Failure) (d1 : DecodeHelper), d.m_pos.length < n →
      d.m_pos.length < k → m_ingestArray_loop f n d = .error (fl, d1) →
      fl ≠ .outOfFuel ∧ d.Later d1 := by
  intro n
  induction n with
  | zero => intro d fl d1 hn; omega
  | succ n ih =>
    intro d fl d1 hn hk h
    simp only [m_ingestArray_loop] at h
    cases hv : f d with
    | error err =>
      rw [hv] at h
      simp only [Except.error.injEq] at h
      subst h
      exact herr d hk fl d1 hv
    | ok d2 =>
      rw [hv] at h
      simp only at h
      obtain ⟨hl2, hlen2⟩ := readsShape_later f hok d d2 hv
      have hl3 := later_trans _ _ _ hl2 (later_skipWhitespace d2)
      have hlen3 := skipWhitespace_length d2
      split at h
      · cases h
      · cases hc : m_consumeChar (m_skipWhitespace d2) 44 with
        | error err =>
          rw [hc] at h
          simp only [Except.error.injEq] at h
          subst h
          obtain ⟨h1, h2⟩ := m_consumeChar_throws _ _ _ _ hc
          exact ⟨h1, h2 ▸ hl3⟩
        | ok d4 =>
          rw [hc] at h
          simp only at h
          obtain ⟨hl4, hlen4⟩ := m_consumeChar_later _ _ _ hc
          have hlen5 := skipWhitespace_length d4
          obtain ⟨h1, h2⟩ := ih (m_skipWhitespace d4) fl d1 (by omega) (by omega) h
          exact ⟨h1, later_trans _ _ _ (later_trans _ _ _ hl3 hl4)
            (later_trans _ _ _ (later_skipWhitespace d4) h2)⟩

/-- `m_ingestArray`, called at a byte of the text (the `[`), that throws. -/
theorem m_ingestArray_throws (f : DecodeHelper → Throws DecodeHelper) (hok : ReadsShape f)
    (k : Nat)
    (herr : ∀ d : DecodeHelper, d.m_pos.length < k → ∀ fl d1, f d = .error (fl, d1) →
      fl ≠ .outOfFuel ∧ d.Later d1)
    (d : DecodeHelper) (hne : d.m_pos ≠ []) (hk : d.m_pos.length ≤ k) (fl : Failure)
    (d1 : DecodeHelper) (h : m_ingestArray f d = .error (fl, d1)) :
    fl ≠ .outOfFuel ∧ d.Later d1 := by
  obtain ⟨hl, hlen⟩ := later_open d .array hne
  simp only [m_ingestArray] at h
  split at h
  · cases h
  · cases hloop : m_ingestArray_loop f
        ((m_skipWhitespace ((d.compose .array).advance 1)).m_pos.length + 1)
        (m_skipWhitespace ((d.compose .array).advance 1)) with
    | error err =>
      rw [hloop] at h
      simp only [Except.error.injEq] at h
      subst h
      obtain ⟨h1, h2⟩ := m_ingestArray_loop_throws f hok k herr _ _ fl d1 (by omega)
        (by omega) hloop
      exact ⟨h1, later_trans _ _ _ hl h2⟩
    | ok d2 =>
      rw [hloop] at h
      cases h

/-- The loop of `m_ingestObject` reads at least one byte in every iteration: with more
iterations allowed than there are unread bytes it returns, throws, or reads the byte at the end
of the text; the position is then where the loop started or further on. -/
theorem m_ingestObject_loop_throws (f : DecodeHelper → Throws DecodeHelper) (hok : ReadsShape f)
    (k : Nat)
    (herr : ∀ d : DecodeHelper, d.m_pos.length < k → ∀ fl d1, f d = .error (fl, d1) →
      fl ≠ .outOfFuel ∧ d.Later d1) :
    ∀ (n : Nat) (d : DecodeHelper) (fl : Failure) (d1 : DecodeHelper), d.m_pos.length < n →
      d.m_pos.length < k → m_ingestObject_loop f n d = .error (fl, d1) →
      fl ≠ .outOfFuel ∧ d.Later d1 := by
  intro n
  induction n with
  | zero => intro d fl d1 hn; omega
  | succ n ih =>
    intro d fl d1 hn hk h
    simp only [m_ingestObject_loop] at h
    cases hpos : d.m_pos with
    | nil =>
      rw [hpos] at h
      simp only [Except.error.injEq, Prod.mk.injEq] at h
      refine ⟨?_, h.2 ▸ later_refl d⟩
      rw [← h.1]
      exact Failure.noConfusion
    | cons c rest =>
      rw [hpos] at h
      simp only at h
      by_cases h34 : c = 34
      · rw [if_neg (not_not.mpr h34)] at h
        have hq : d.m_pos.head? = some 34 := by rw [hpos, h34]; rfl
        cases hs : m_consumeString d with
        | error err =>
          rw [hs] at h
          simp only [Except.error.injEq] at h
          subst h
          exact m_consumeString_throws d (by rw [hpos]; exact List.cons_ne_nil _ _) fl d1 hs
        | ok res =>
          obtain ⟨name, d2⟩ := res
          rw [hs] at h
          simp only at h
          obtain ⟨hl2, hlen2⟩ := m_consumeString_later d hq name d2 hs
          by_cases hname : name.isEmpty = true
          · rw [if_pos hname] at h
            obtain ⟨h1, h2⟩ := fail_later _ _ _ _ h
            exact ⟨h1, h2 ▸ hl2⟩
          · rw [if_neg hname] at h
            have hc2 : d2.m_composer = d.m_composer := by
              obtain ⟨sz, s, evs⟩ := d
              cases s with
              | nil => simp at hq
              | cons a s0 =>
                simp only [List.head?_cons, Option.some.injEq] at hq
                subst hq
                obtain ⟨t, r, rfl, _, _⟩ := m_consumeString_text sz s0 evs name d2 hs
                rfl
            have hl3 : d.Later (m_skipWhitespace (d2.compose (.key name))) :=
              later_trans _ _ _ (later_compose d d2 (.key name) hl2 hc2 (by omega))
                (later_skipWhitespace _)
            have hlen3 : (m_skipWhitespace (d2.compose (.key name))).m_pos.length ≤
                d2.m_pos.length := skipWhitespace_length (d2.compose (.key name))
            cases hc : m_consumeChar (m_skipWhitespace (d2.compose (.key name))) 58 with
            | error err =>
              rw [hc] at h
              simp only [Except.error.injEq] at h
              subst h
              obtain ⟨h1, h2⟩ := m_consumeChar_throws _ _ _ _ hc
              exact ⟨h1, h2 ▸ hl3⟩
            | ok d3 =>
              rw [hc] at h
              simp only at h
              obtain ⟨hl4, hlen4⟩ := m_consumeChar_later _ _ _ hc
              have hl5 := later_trans _ _ _ (later_trans _ _ _ hl3 hl4) (later_skipWhitespace d3)
              have hlen5 := skipWhitespace_length d3
              cases hv : f (m_skipWhitespace d3) with
              | error err =>
                rw [hv] at h
                simp only [Except.error.injEq] at h
                subst h
                obtain ⟨h1, h2⟩ := herr (m_skipWhitespace d3) (by omega) fl d1 hv
                exact ⟨h1, later_trans _ _ _ hl5 h2⟩
              | ok d4 =>
                rw [hv] at h
                simp only at h
                obtain ⟨hl6, hlen6⟩ := readsShape_later f hok _ d4 hv
                have hl7 := later_trans _ _ _ (later_trans _ _ _ hl5 hl6)
                  (later_skipWhitespace d4)
                have hlen7 := skipWhitespace_length d4
                split at h
                · cases h
                · cases hc2 : m_consumeChar (m_skipWhitespace d4) 44 with
                  | error err =>
                    rw [hc2] at h
                    simp only [Except.error.injEq] at h
                    subst h
                    obtain ⟨h1, h2⟩ := m_consumeChar_throws _ _ _ _ hc2
                    exact ⟨h1, h2 ▸ hl7⟩
                  | ok d5 =>
                    rw [hc2] at h
                    simp only at h
                    obtain ⟨hl8, hlen8⟩ := m_consumeChar_later _ _ _ hc2
                    have hlen9 := skipWhitespace_length d5
                    obtain ⟨h1, h2⟩ := ih (m_skipWhitespace d5) fl d1 (by omega) (by omega) h
                    exact ⟨h1, later_trans _ _ _ (later_trans _ _ _ hl7 hl8)
                      (later_trans _ _ _ (later_skipWhitespace d5) h2)⟩
      · rw [if_pos h34] at h
        obtain ⟨h1, h2⟩ := fail_later _ _ _ _ h
        exact ⟨h1, h2 ▸ later_refl d⟩

/-- `m_ingestObject`, called at a byte of the text (the opening brace), that does not
return. -/
theorem m_ingestObject_throws (f : DecodeHelper → Throws DecodeHelper) (hok : ReadsShape f)
    (k : Nat)
    (herr : ∀ d : DecodeHelper, d.m_pos.length < k → ∀ fl d1, f d = .error (fl, d1) →
      fl ≠ .outOfFuel ∧ d.Later d1)
    (d : DecodeHelper) (hne : d.m_pos ≠ []) (hk : d.m_pos.length ≤ k) (fl : Failure)
    (d1 : DecodeHelper) (h : m_ingestObject f d = .error (fl, d1)) :
    fl ≠ .outOfFuel ∧ d.Later d1 := by
  obtain ⟨hl, hlen⟩ := later_open d .object hne
  simp only [m_ingestObject] at h
  split at h
  · cases h
  · cases hloop : m_ingestObject_loop f
        ((m_skipWhitespace ((d.compose .object).advance 1)).m_pos.length + 1)
        (m_skipWhitespace ((d.compose .object).advance 1)) with
    | error err =>
      rw [hloop] at h
      simp only [Except.error.injEq] at h
      subst h
      obtain ⟨h1, h2⟩ := m_ingestObject_loop_throws f hok k herr _ _ fl d1 (by omega)
        (by omega) hloop
      exact ⟨h1, later_trans _ _ _ hl h2⟩
    | ok d2 =>
      rw [hloop] at h
      cases h

/-- The recursion of `m_ingestValue` is never deeper than the unread text is long: with a
depth allowed above that length it returns or throws (or reads the byte at the end of the
text), and the position is then where the value started or further on. -/
theorem m_ingestValue_throws : ∀ (fuel : Nat) (d : DecodeHelper) (fl : Failure)
    (d1 : DecodeHelper), d.m_pos.length < fuel → m_ingestValue fuel d = .error (fl, d1) →
    fl ≠ .outOfFuel ∧ d.Later d1 := by
  intro fuel
  induction fuel with
  | zero => intro d fl d1 hn; omega
  | succ fuel ih =>
    intro d fl d1 hn h
    have ih2 : ∀ d : DecodeHelper, d.m_pos.length < fuel → ∀ fl d1,
        m_ingestValue fuel d = .error (fl, d1) → fl ≠ .outOfFuel ∧ d.Later d1 :=
      fun d hd fl d1 hv => ih d fl d1 hd hv
    cases hpos : d.m_pos with
    | nil =>
      simp only [m_ingestValue, hpos] at h
      obtain ⟨h1, h2⟩ := fail_later _ _ _ _ h
      exact ⟨h1, h2 ▸ later_refl d⟩
    | cons c s0 =>
      have hne : d.m_pos ≠ [] := by rw [hpos]; exact List.cons_ne_nil _ _
      simp only [m_ingestValue, hpos] at h
      rw [← hpos] at h
      split_ifs at h with h123 h91 h34 hdig h45 hnum
      · exact m_ingestObject_throws _ (m_ingestValue_shape fuel) fuel ih2 d hne (by omega) fl d1 h
      · exact m_ingestArray_throws _ (m_ingestValue_shape fuel) fuel ih2 d hne (by omega) fl d1 h
      · exact m_ingestString_throws d hne fl d1 h
      · exact m_ingestNumber_throws d fl d1 h
      · exact m_ingestNumber_throws d fl d1 h
      · split at h
        · cases h
        · exact m_ingestLiteral_throws d fl d1 h
      · exact m_ingestLiteral_throws d fl d1 h

/-- A value that `m_ingestValue` has read: at least one byte, and no more calls than bytes. -/
theorem m_ingestValue_later (fuel : Nat) (d d1 : DecodeHelper)
    (h : m_ingestValue fuel d = .ok d1) : d.Later d1 ∧ d1.m_pos.length < d.m_pos.length :=
  readsShape_later _ (m_ingestValue_shape fuel) d d1 h

end qc.json

/-! ## The bound on the recursion does not change the result -/

namespace qc.json

open DecodeHelper

/-- The loop of `m_ingestArray` calls the reader of values only on texts that are not longer
than the one it started on. -/
theorem m_ingestArray_loop_congr (f g : DecodeHelper → Throws DecodeHelper) (hok : ReadsShape f)
    (k : Nat) (hfg : ∀ d : DecodeHelper, d.m_pos.length < k → g d = f d) :
    ∀ (n : Nat) (d : DecodeHelper), d.m_pos.length < k →
      m_ingestArray_loop g n d = m_ingestArray_loop f n d := by
  intro n
  induction n with
  | zero => intro d _; rfl
  | succ n ih =>
    intro d hk
    simp only [m_ingestArray_loop]
    rw [hfg d hk]
    cases hv : f d with
    | error err => rfl
    | ok d2 =>
      simp only
      obtain ⟨_, hlen2⟩ := readsShape_later f hok d d2 hv
      have hlen3 := skipWhitespace_length d2
      rcases ht : m_tryConsumeChar (m_skipWhitespace d2) 93 with ⟨b, d3⟩
      cases b with
      | true => rfl
      | false =>
        simp only
        cases hc : m_consumeChar (m_skipWhitespace d2) 44 with
        | error err => rfl
        | ok d4 =>
          simp only
          obtain ⟨_, hlen4⟩ := m_consumeChar_later _ _ _ hc
          have hlen5 := skipWhitespace_length d4
          exact ih _ (by omega)

theorem m_ingestArray_congr (f g : DecodeHelper → Throws DecodeHelper) (hok : ReadsShape f)
    (k : Nat) (hfg : ∀ d : DecodeHelper, d.m_pos.length < k → g d = f d)
    (d : DecodeHelper) (hne : d.m_pos ≠ []) (hk : d.m_pos.length ≤ k) :
    m_ingestArray g d = m_ingestArray f d := by
  obtain ⟨_, hlen⟩ := later_open d .array hne
  simp only [m_ingestArray]
  rw [m_ingestArray_loop_congr f g hok k hfg _ _ (by omega)]

/-- The loop of `m_ingestObject` calls the reader of values only on texts that are not longer
than the one it started on. -/
theorem m_ingestObject_loop_congr (f g : DecodeHelper → Throws DecodeHelper)
    (hok : ReadsShape f) (k : Nat)
    (hfg : ∀ d : DecodeHelper, d.m_pos.length < k → g d = f d) :
    ∀ (n : Nat) (d : DecodeHelper), d.m_pos.length < k →
      m_ingestObject_loop g n d = m_ingestObject_loop f n d := by
  intro n
  induction n with
  | zero => intro d _; rfl
  | succ n ih =>
    intro d hk
    simp only [m_ingestObject_loop]
    cases hpos : d.m_pos with
    | nil => rfl
    | cons c rest =>
      simp only
      by_cases h34 : c = 34
      · rw [if_neg (not_not.mpr h34), if_neg (not_not.mpr h34)]
        have hq : d.m_pos.head? = some 34 := by rw [hpos, h34]; rfl
        cases hs : m_consumeString d with
        | error err => rfl
        | ok res =>
          obtain ⟨name, d2⟩ := res
          simp only
          obtain ⟨_, hlen2⟩ := m_consumeString_later d hq name d2 hs
          by_cases hname : name.isEmpty = true
          · rw [if_pos hname, if_pos hname]
          · rw [if_neg hname, if_neg hname]
            have hlen3 : (m_skipWhitespace (d2.compose (.key name))).m_pos.length ≤
                d2.m_pos.length := skipWhitespace_length (d2.compose (.key name))
            cases hc : m_consumeChar (m_skipWhitespace (d2.compose (.key name))) 58 with
            | error err => rfl
            | ok d3 =>
              simp only
              obtain ⟨_, hlen4⟩ := m_consumeChar_later _ _ _ hc
              have hlen5 := skipWhitespace_length d3
              rw [hfg (m_skipWhitespace d3) (by omega)]
              cases hv : f (m_skipWhitespace d3) with
              | error err => rfl
              | ok d4 =>
                simp only
                obtain ⟨_, hlen6⟩ := readsShape_later f hok _ d4 hv
                have hlen7 := skipWhitespace_length d4
                rcases ht : m_tryConsumeChar (m_skipWhitespace d4) 125 with ⟨b, d5⟩
                cases b with
                | true => rfl
                | false =>
                  simp only
                  cases hc2 : m_consumeChar (m_skipWhitespace d4) 44 with
                  | error err => rfl
                  | ok d6 =>
                    simp only
                    obtain ⟨_, hlen8⟩ := m_consumeChar_later _ _ _ hc2
                    have hlen9 := skipWhitespace_length d6
                    exact ih _ (by omega)
      · rw [if_pos h34, if_pos h34]

theorem m_ingestObject_congr (f g : DecodeHelper → Throws DecodeHelper) (hok : ReadsShape f)
    (k : Nat) (hfg : ∀ d : DecodeHelper, d.m_pos.length < k → g d = f d)
    (d : DecodeHelper) (hne : d.m_pos ≠ []) (hk : d.m_pos.length ≤ k) :
    m_ingestObject g d = m_ingestObject f d := by
  obtain ⟨_, hlen⟩ := later_open d .object hne
  simp only [m_ingestObject]
  rw [m_ingestObject_loop_congr f g hok k hfg _ _ (by omega)]

/-- A bound on the depth of the recursion above the length of the unread text gives the
result of every greater bound. -/
theorem m_ingestValue_fuel : ∀ (fuel : Nat) (d : DecodeHelper), d.m_pos.length < fuel →
    ∀ fuel2, fuel ≤ fuel2 → m_ingestValue fuel2 d = m_ingestValue fuel d := by
  intro fuel
  induction fuel with
  | zero => intro d hn; omega
  | succ fuel ih =>
    intro d hn fuel2 hle
    obtain ⟨fuel3, rfl⟩ : ∃ fuel3, fuel2 = fuel3 + 1 := ⟨fuel2 - 1, by omega⟩
    have hfg : ∀ d : DecodeHelper, d.m_pos.length < fuel →
        m_ingestValue fuel3 d = m_ingestValue fuel d :=
      fun d hd => ih d hd fuel3 (by omega)
    cases hpos : d.m_pos with
    | nil => simp only [m_ingestValue, hpos]
    | cons c s0 =>
      have hne : d.m_pos ≠ [] := by rw [hpos]; exact List.cons_ne_nil _ _
      simp only [m_ingestValue, hpos]
      rw [← hpos]
      by_cases h123 : c = 123
      · rw [if_pos h123, if_pos h123]
        exact m_ingestObject_congr _ _ (m_ingestValue_shape fuel) fuel hfg d hne (by omega)
      · rw [if_neg h123, if_neg h123]
        by_cases h91 : c = 91
        · rw [if_pos h91, if_pos h91]
          exact m_ingestArray_congr _ _ (m_ingestValue_shape fuel) fuel hfg d hne (by omega)
        · rw [if_neg h91, if_neg h91]

end qc.json

/-! ## One more round of a loop starts further on in the text -/

namespace qc.json

open DecodeHelper

/-- The loop of `m_consumeString` after a byte that is neither a quote nor a backslash. -/
theorem m_consumeString_loop_plain (n : Nat) (d : DecodeHelper) (buf : List Nat) (c : Nat)
    (rest : List Nat) (hpos : d.m_pos = c :: rest) (h34 : c ≠ 34) (h92 : c ≠ 92)
    (hp : isprint c = true) :
    m_consumeString_loop (n + 1) d buf = m_consumeString_loop n (d.advance 1) (buf ++ [c]) ∧
      (d.advance 1).m_pos.length < d.m_pos.length := by
  refine ⟨?_, ?_⟩
  · simp only [m_consumeString_loop, hpos]
    rw [if_neg h34, if_neg h92, if_pos hp]
  · simp only [advance, hpos, List.drop_succ_cons, List.drop_zero, List.length_cons]
    omega

/-- The loop of `m_consumeString` after an escape sequence. -/
theorem m_consumeString_loop_escape (n : Nat) (d : DecodeHelper) (buf : List Nat)
    (rest : List Nat) (hpos : d.m_pos = 92 :: rest) (c1 : Nat) (d1 : DecodeHelper)
    (he : m_consumeEscaped (d.advance 1) = .ok (c1, d1)) :
    m_consumeString_loop (n + 1) d buf = m_consumeString_loop n d1 (buf ++ [c1]) ∧
      d1.m_pos.length < d.m_pos.length := by
  refine ⟨?_, ?_⟩
  · simp only [m_consumeString_loop, hpos]
    rw [if_neg (by decide), if_pos trivial, he]
  · obtain ⟨_, hlen⟩ := m_consumeEscaped_later _ _ _ he
    have := (later_length _ _ (later_advance d 1)).1
    omega

/-- The loop of `m_ingestArray` after an element and a comma. -/
theorem m_ingestArray_loop_next (f : DecodeHelper → Throws DecodeHelper) (hok : ReadsShape f)
    (n : Nat) (d d2 d4 : DecodeHelper) (hv : f d = .ok d2)
    (ht : (m_tryConsumeChar (m_skipWhitespace d2) 93).1 = false)
    (hc : m_consumeChar (m_skipWhitespace d2) 44 = .ok d4) :
    m_ingestArray_loop f (n + 1) d = m_ingestArray_loop f n (m_skipWhitespace d4) ∧
      (m_skipWhitespace d4).m_pos.length < d.m_pos.length := by
  refine ⟨?_, ?_⟩
  · simp only [m_ingestArray_loop, hv]
    rcases ht2 : m_tryConsumeChar (m_skipWhitespace d2) 93 with ⟨b, d3⟩
    rw [ht2] at ht
    simp only at ht
    subst ht
    simp only [hc]
  · obtain ⟨_, h2⟩ := readsShape_later f hok d d2 hv
    have h3 := skipWhitespace_length d2
    obtain ⟨_, h4⟩ := m_consumeChar_later _ _ _ hc
    have h5 := skipWhitespace_length d4
    omega

/-- The loop of `m_ingestObject` after a member and a comma. -/
theorem m_ingestObject_loop_next (f : DecodeHelper → Throws DecodeHelper) (hok : ReadsShape f)
    (n : Nat) (d d2 d3 d4 d6 : DecodeHelper) (name : List Nat)
    (hq : d.m_pos.head? = some 34) (hs : m_consumeString d = .ok (name, d2))
    (hname : name.isEmpty = false)
    (hc : m_consumeChar (m_skipWhitespace (d2.compose (.key name))) 58 = .ok d3)
    (hv : f (m_skipWhitespace d3) = .ok d4)
    (ht : (m_tryConsumeChar (m_skipWhitespace d4) 125).1 = false)
    (hc2 : m_consumeChar (m_skipWhitespace d4) 44 = .ok d6) :
    m_ingestObject_loop f (n + 1) d = m_ingestObject_loop f n (m_skipWhitespace d6) ∧
      (m_skipWhitespace d6).m_pos.length < d.m_pos.length := by
  refine ⟨?_, ?_⟩
  · cases hpos : d.m_pos with
    | nil => simp [hpos] at hq
    | cons c rest =>
      simp only [hpos, List.head?_cons, Option.some.injEq] at hq
      simp only [m_ingestObject_loop, hpos]
      rw [if_neg (not_not.mpr hq)]
      simp only [hs, hname, Bool.false_eq_true, if_false, hc, hv]
      rcases ht2 : m_tryConsumeChar (m_skipWhitespace d4) 125 with ⟨b, d5⟩
      rw [ht2] at ht
      simp only at ht
      subst ht
      simp only [hc2]
  · obtain ⟨_, h2⟩ := m_consumeString_later d hq name d2 hs
    have h3 : (m_skipWhitespace (d2.compose (.key name))).m_pos.length ≤ d2.m_pos.length :=
      skipWhitespace_length (d2.compose (.key name))
    obtain ⟨_, h4⟩ := m_consumeChar_later _ _ _ hc
    have h5 := skipWhitespace_length d3
    obtain ⟨_, h6⟩ := readsShape_later f hok _ d4 hv
    have h7 := skipWhitespace_length d4
    obtain ⟨_, h8⟩ := m_consumeChar_later _ _ _ hc2
    have h9 := skipWhitespace_length d6
    omega

/-- `DecodeHelper::operator()` that does not return. -/
theorem run_throws (fuel : Nat) (d : DecodeHelper) (hlt : d.m_pos.length < fuel) (fl : Failure)
    (d1 : DecodeHelper) (h : run fuel d = .error (fl, d1)) : fl ≠ .outOfFuel ∧ d.Later d1 := by
  simp only [run] at h
  have hl0 := later_skipWhitespace d
  have hlen0 := skipWhitespace_length d
  cases hv : m_ingestValue fuel (m_skipWhitespace d) with
  | error err =>
    rw [hv] at h
    simp only [Except.error.injEq] at h
    subst h
    obtain ⟨h1, h2⟩ := m_ingestValue_throws fuel _ fl d1 (by omega) hv
    exact ⟨h1, later_trans _ _ _ hl0 h2⟩
  | ok d2 =>
    rw [hv] at h
    simp only at h
    obtain ⟨hl2, _⟩ := m_ingestValue_later fuel _ d2 hv
    split_ifs at h
    obtain ⟨h1, h2⟩ := fail_later _ _ _ _ h
    exact ⟨h1, h2 ▸ later_trans _ _ _ (later_trans _ _ _ hl0 hl2) (later_skipWhitespace d2)⟩

/-- `DecodeHelper::operator()` that returns. -/
theorem run_later (fuel : Nat) (d d1 : DecodeHelper) (h : run fuel d = .ok d1) :
    d.Later d1 := by
  simp only [run] at h
  cases hv : m_ingestValue fuel (m_skipWhitespace d) with
  | error err =>
    rw [hv] at h
    cases h
  | ok d2 =>
    rw [hv] at h
    simp only at h
    obtain ⟨hl2, _⟩ := m_ingestValue_later fuel _ d2 hv
    split_ifs at h
    · cases h
    · simp only [Except.ok.injEq] at h
      exact h ▸ later_trans _ _ _ (later_trans _ _ _ (later_skipWhitespace d) hl2)
        (later_skipWhitespace d2)

theorem run_fuel (fuel : Nat) (d : DecodeHelper) (hlt : d.m_pos.length < fuel) (fuel2 : Nat)
    (hle : fuel ≤ fuel2) : run fuel2 d = run fuel d := by
  have hlen0 := skipWhitespace_length d
  simp only [run]
  rw [m_ingestValue_fuel fuel (m_skipWhitespace d) (by omega) fuel2 hle]

end qc.json

/-! ## Encoders on which no call threw while raising the indentation -/

namespace qjson.Encoder

/-- The relations between the data members do not depend on the text written. -/
theorem consistent_of_fields (e e1 : Encoder) (hC : Consistent e) (hs : e1.m_state = e.m_state)
    (hk : e1.m_isKey = e.m_isKey) (hc : e1.m_isComplete = e.m_isComplete)
    (hi : e1.m_indentation = e.m_indentation) : Consistent e1 := by
  obtain ⟨h1, h2, h3, h4, h5⟩ := hC
  refine ⟨?_, ?_, ?_, ?_, ?_⟩
  · rw [hc, hs]; exact h1
  · rw [hs, hk]; exact h2
  · rw [hi, h3]
    simp only [levels, hs, hk]
  · rw [hs]; exact h4
  · rw [hs]; exact h5

/-- Where `m_prefix` leaves the indentation as it is. -/
theorem m_prefix_indentation_same (e : Encoder) (h : e.atFirstPrettyMember = false) :
    ( m_prefix e).m_indentation = e.m_indentation := by
  rw [m_prefix_indentation]
  obtain ⟨oss, st, ind, isKey, isComplete⟩ := e
  cases isKey with
  | true => simp
  | false =>
    cases st with
    | nil => simp
    | cons top below =>
      obtain ⟨a, c, t⟩ := top
      cases c <;> cases t <;> simp [atFirstPrettyMember] at h ⊢

/-- A call that throws keeps the relations between the data members, unless it throws
"Non-ASCII unicode is not supported" for the first member of a pretty container. -/
theorem consistent_afterCall (e : Encoder) (c : Call) (hC : Consistent e)
    (h : ∀ e1, e.call c = .error (.nonAscii, e1) → e.atFirstPrettyMember = false) :
    Consistent (e.afterCall c) := by
  unfold afterCall
  cases hc : e.call c with
  | ok e1 => exact consistent_call e e1 c hC hc
  | error err =>
    obtain ⟨err1, e1⟩ := err
    simp only
    rcases call_throws e e1 c err1 hc with ⟨_, rfl⟩ | ⟨rfl, w, rfl⟩
    · exact hC
    · exact consistent_of_fields e _ hC (m_prefix_m_state e) (m_prefix_m_isKey e)
        (m_prefix_m_isComplete e) (m_prefix_indentation_same e (h _ hc))

theorem consistent_afterFinish (e : Encoder) (hC : Consistent e) :
    Consistent e.afterFinish := by
  unfold afterFinish
  cases hf : e.finish with
  | ok res =>
    obtain ⟨doc, e1⟩ := res
    simp only
    rw [(finish_fresh e e1 doc hC hf).2]
    exact consistent_fresh
  | error err =>
    obtain ⟨err1, e1⟩ := err
    simp only
    simp only [finish] at hf
    split_ifs at hf
    simp only [Except.error.injEq, Prod.mk.injEq] at hf
    rw [← hf.2]
    exact hC

theorem steady_consistent (e : Encoder) (h : e.Steady) : Consistent e := by
  induction h with
  | fresh => exact consistent_fresh
  | call e c _ hc ih => exact consistent_afterCall e c ih hc
  | finish e _ ih => exact consistent_afterFinish e ih

theorem steady_reachable (e : Encoder) (h : e.Steady) : e.Reachable := by
  induction h with
  | fresh => exact Reachable.fresh
  | call e c _ _ ih => exact Reachable.call e c ih
  | finish e _ ih => exact Reachable.finish e ih

/-- The encoder left by calls that all returned. -/
theorem steady_of_run (cs : List Call) :
    ∀ (e0 e : Encoder), e0.Steady → e0.run cs = .ok e → e.Steady := by
  induction cs with
  | nil =>
    intro e0 e h0 h
    simp only [run, Except.ok.injEq] at h
    subst h
    exact h0
  | cons c cs ih =>
    intro e0 e h0 h
    obtain ⟨e1, hc, hr⟩ := run_cons c cs e0 e h
    have := Steady.call e0 c h0 (fun e2 h2 => by rw [hc] at h2; cases h2)
    simp only [afterCall, hc] at this
    exact ih e1 e this hr

/-- A call only appends to the text, whether it returns or throws. -/
theorem afterCall_appends (e : Encoder) (c : Call) :
    ∃ w, (e.afterCall c).m_oss = e.m_oss ++ w := by
  unfold afterCall
  cases hc : e.call c with
  | ok e1 => exact call_appends e e1 c hc
  | error err =>
    obtain ⟨err1, e1⟩ := err
    simp only
    rcases call_throws e e1 c err1 hc with ⟨_, rfl⟩ | ⟨_, w, rfl⟩
    · exact ⟨[], (List.append_nil _).symm⟩
    · obtain ⟨sep, hsep⟩ := m_prefix_appends e
      exact ⟨sep ++ 34 :: w, by simp only [put, hsep, List.append_assoc]⟩

end qjson.Encoder

/-! ## A decimal point followed by an exponent -/

/-- An exponent marker followed by an optional sign and a digit: `std::from_chars` reads an
exponent. -/
theorem scanExponent_some (rest : List Nat) (hE : ¬ ∀ c ∈ rest.head?, c ≠ 101 ∧ c ≠ 69)
    (hx : qc.json.exponentDigits rest = true) :
    ∃ x tail, scanExponent rest = (some x, tail) := by
  cases rest with
  | nil => simp [qc.json.exponentDigits] at hx
  | cons c tl =>
    cases tl with
    | nil => simp [qc.json.exponentDigits] at hx
    | cons c2 tl2 =>
      have hc : c = 101 ∨ c = 69 := by
        by_contra hn
        apply hE
        intro x hxm
        simp only [List.head?_cons, Option.mem_def, Option.some.injEq] at hxm
        subst hxm
        exact ⟨fun h => hn (Or.inl h), fun h => hn (Or.inr h)⟩
      rw [scanExponent_cons_cons]
      simp only [qc.json.exponentDigits] at hx
      have hemp : ((if c2 = 45 ∨ c2 = 43 then tl2 else c2 :: tl2).takeWhile isdigit).isEmpty =
          false := by
        by_cases hs : c2 = 45 ∨ c2 = 43
        · rw [if_pos hs] at hx ⊢
          cases tl2 with
          | nil => simp at hx
          | cons a t =>
            simp only [List.head?_cons, Option.any_some] at hx
            simp [List.takeWhile, hx]
        · rw [if_neg hs] at hx ⊢
          simp [List.takeWhile, hx]
      rw [if_pos ⟨hc, hemp⟩]
      exact ⟨_, _, rfl⟩

/-- The text of an exponent: the marker, an optional sign, digits, and the text after them. -/
theorem scanExponent_digits (e : Nat) (sign : List Nat) (x0 : Nat) (xt tail : List Nat)
    (he : e = 101 ∨ e = 69) (hsign : sign = [] ∨ sign = [45] ∨ sign = [43])
    (hxs : ∀ c ∈ x0 :: xt, isdigit c = true) (htail : ∀ c ∈ tail.head?, isdigit c = false) :
    scanExponent (e :: (sign ++ (x0 :: xt ++ tail))) =
      (some (if sign = [45] then -(digitsValue (x0 :: xt) : Int) else (digitsValue (x0 :: xt) : Int)),
        tail) := by
  obtain ⟨h1, h2⟩ := takeWhile_digits (x0 :: xt) tail hxs htail
  have hd : 48 ≤ x0 ∧ x0 ≤ 57 := by simpa [isdigit] using hxs x0 (by simp)
  rcases hsign with rfl | rfl | rfl
  · simp only [List.nil_append, List.cons_append]
    rw [scanExponent_cons_cons]
    have hns : ¬ (x0 = 45 ∨ x0 = 43) := by omega
    have h45 : ¬ x0 = 45 := by omega
    simp only [List.cons_append] at h1 h2
    simp only [if_neg hns, if_neg h45, h1, h2]
    rw [if_pos ⟨he, rfl⟩]
    simp
  · simp only [List.cons_append, List.nil_append]
    rw [scanExponent_cons_cons]
    simp only [List.cons_append] at h1 h2
    simp only [true_or, if_true, h1, h2]
    rw [if_pos ⟨he, rfl⟩]
  · simp only [List.cons_append, List.nil_append]
    rw [scanExponent_cons_cons]
    simp only [List.cons_append] at h1 h2
    have h43 : ¬ (43 : Nat) = 45 := by decide
    simp only [or_true, if_true, h1, h2, if_neg h43]
    rw [if_pos ⟨he, rfl⟩]
    simp

namespace qc.json

open DecodeHelper

/-- A number whose decimal point is followed by an exponent: `m_isInteger` answers no, and
`std::from_chars` for `double` reads the integer digits, the point and the exponent; the
number is refused when it is out of the range of `double` and is a `double` otherwise. -/
theorem m_ingestValue_point_exponent (neg : Bool) (d0 : Nat) (dt rest : List Nat)
    (hds : ∀ c ∈ d0 :: dt, isdigit c = true) (x : Int) (tail : List Nat)
    (hse : scanExponent rest = (some x, tail)) (sz fuel : Nat) (pre : List Event) :
    m_ingestValue (fuel + 1) ⟨sz, integerToken neg (d0 :: dt) ++ 46 :: rest, pre⟩ =
      if (doubleOverflows (digitsValue (d0 :: dt)) x ||
          doubleUnderflows (digitsValue (d0 :: dt)) x) = true then
        .error (.DecodeError .invalidFloater
            (sz - (integerToken neg (d0 :: dt) ++ 46 :: rest).length),
          ⟨sz, integerToken neg (d0 :: dt) ++ 46 :: rest, pre⟩)
      else .ok ⟨sz, tail, pre ++ [.val_double (.decimal neg (digitsValue (d0 :: dt)) x)]⟩ := by
  obtain ⟨c, t, rfl, hc⟩ : ∃ c t, rest = c :: t ∧ (c = 101 ∨ c = 69) := by
    cases rest with
    | nil => simp [scanExponent] at hse
    | cons c t =>
      refine ⟨c, t, rfl, ?_⟩
      by_contra hn
      have := scanExponent_of_head (c :: t) (by
        intro y hy
        simp only [List.head?_cons, Option.mem_def, Option.some.injEq] at hy
        subst hy
        exact ⟨fun h => hn (Or.inl h), fun h => hn (Or.inr h)⟩)
      rw [this] at hse
      cases hse
  have hrest : ∀ y ∈ (c :: t).head?, isdigit y = false := by
    intro y hy
    simp only [List.head?_cons, Option.mem_def, Option.some.injEq] at hy
    subst hy
    rcases hc with rfl | rfl <;> decide
  have h46 : ∀ y ∈ (46 :: c :: t).head?, isdigit y = false := by
    intro y hy
    simp only [List.head?_cons, Option.mem_def, Option.some.injEq] at hy
    subst hy
    decide
  rw [m_ingestValue_floater neg d0 dt (46 :: c :: t) hds
    (Or.inl ⟨0, c, t, rfl, Or.inr hc⟩)]
  have hfd := from_chars_double_token neg d0 dt (46 :: c :: t) hds h46
  rw [scanFraction_point (c :: t) hrest] at hfd
  simp only at hfd
  rw [hse] at hfd
  simp only [List.append_nil, Option.getD_some, List.length_nil, Nat.cast_zero, sub_zero,
    List.isEmpty_nil, Option.isNone_some, Bool.and_false] at hfd
  simp only [m_ingestFloater, hfd]
  by_cases hov : (doubleOverflows (digitsValue (d0 :: dt)) x ||
      doubleUnderflows (digitsValue (d0 :: dt)) x) = true
  · rw [if_pos hov, if_pos hov]
    rfl
  · rw [if_neg hov, if_neg hov]
    simp [compose]

/-- A value read at the start of a text, with only white space after it, is the document. -/
theorem decode_ok_of_ingest (ws t tail : List Nat) (evs : List Event) (hws : IsWs ws)
    (hstart : ∀ c ∈ t.head?, isspace c = false) (htail : IsWs tail)
    (h : m_ingestValue ((ws ++ t).length + 1) ⟨(ws ++ t).length, t, []⟩ =
      .ok ⟨(ws ++ t).length, tail, evs⟩) :
    decode (ws ++ t) = .ok evs := by
  have hd : (ws ++ t).dropWhile isspace = t := by
    have h0 : ws.dropWhile isspace = [] := by
      rw [List.dropWhile_eq_nil_iff]
      exact hws
    rw [(span_append isspace ws t hstart).2, h0, List.nil_append]
  have ht : tail.dropWhile isspace = [] := by
    rw [List.dropWhile_eq_nil_iff]
    exact htail
  simp only [decode, run, m_skipWhitespace, hd, h, ht, ne_eq, not_true_eq_false, if_false]

/-- The first byte of an integer token is not white space. -/
theorem integerToken_start (neg : Bool) (d0 : Nat) (dt tail : List Nat)
    (hd0 : isdigit d0 = true) :
    ∀ c ∈ (integerToken neg (d0 :: dt) ++ tail).head?, isspace c = false := by
  intro c hc
  have hd : 48 ≤ d0 ∧ d0 ≤ 57 := by simpa [isdigit] using hd0
  cases neg with
  | true =>
    simp only [integerToken, if_true, List.cons_append, List.nil_append, List.head?_cons,
      Option.mem_def, Option.some.injEq] at hc
    subst hc
    decide
  | false =>
    simp only [integerToken, Bool.false_eq_true, if_false, List.nil_append, List.cons_append,
      List.head?_cons, Option.mem_def, Option.some.injEq] at hc
    subst hc
    simp only [isspace, Bool.or_eq_false_iff, Bool.and_eq_false_iff, decide_eq_false_iff_not]
    omega

end qc.json

/-! ## Closing a container and finishing a document -/

/-- C11 (counterexample): on a new encoder `array()` returns, `val` of the one-byte string
`0x80` throws after `m_prefix` has raised the indentation, `val("a")` returns, and `end()` then
closes the array, which is the outermost container, after a newline and four spaces: the
bracket is indented by one level although the array has no parent. -/
theorem C11_counterexample :
    Encoder.fresh.array false = .ok ⟨[91], [⟨true, false, false⟩], 0, false, false⟩ ∧
      Encoder.val ⟨[91], [⟨true, false, false⟩], 0, false, false⟩ (.string [128]) =
        .error (.nonAscii, ⟨bytes "[\n    \"", [⟨true, false, false⟩], 1, false, false⟩) ∧
      Encoder.val ⟨bytes "[\n    \"", [⟨true, false, false⟩], 1, false, false⟩
          (.string (bytes "a")) =
        .ok ⟨bytes "[\n    \"\n        \"a\"", [⟨true, false, true⟩], 2, false, false⟩ ∧
      Encoder.end_ ⟨bytes "[\n    \"\n        \"a\"", [⟨true, false, true⟩], 2, false, false⟩ =
        .ok ⟨bytes "[\n    \"\n        \"a\"" ++ bytes "\n    ]", [], 1, false, true⟩ ∧
      closingText ⟨true, false, true⟩ 0 = bytes "\n]" ∧
      closingText ⟨true, false, true⟩ 1 = bytes "\n    ]" := by
  decide

/-- C11 (amended): in every encoder a program can hold (a new one, or the one left by any calls
on such an encoder, whether they returned or threw), `end` throws exactly when no container is
open or a key is pending; otherwise it removes exactly the innermost frame and appends `]` for
an array frame or `}` for an object frame, preceded by one space when the frame is compact and
has content, by a newline and four spaces for each of `m_indentation - 1` levels when the
frame is pretty and has content, and by nothing when the frame has no content; afterwards the
document is marked complete exactly when no frame remains.  The `m_indentation - 1` levels are
the indentation of the parent, one level for each container that stays open, whenever no
earlier `val` or `key` call threw "Non-ASCII unicode is not supported" while adding the first
member of a pretty container. -/
theorem C11_end (e : Encoder) (hreach : e.Reachable) :
    ((∃ err, e.end_ = .error err) ↔ (e.m_state = [] ∨ e.m_isKey = true)) ∧
      ∀ state below, e.m_state = state :: below → e.m_isKey = false →
        ∃ e1, e.end_ = .ok e1 ∧ e1.m_state = below ∧
          e1.m_oss = e.m_oss ++ closingText state (e.m_indentation - 1).toNat ∧
          (e1.m_isComplete = true ↔ below = []) ∧
          (e.Steady → state.compact = false → state.content = true →
            (e.m_indentation - 1).toNat = below.length) := by
  have hW := Encoder.reachable_complete e hreach
  constructor
  · constructor
    · rintro ⟨err, herr⟩
      by_contra hno
      simp only [not_or, Bool.not_eq_true] at hno
      obtain ⟨h1, h2⟩ := hno
      cases hs : e.m_state with
      | nil => exact h1 hs
      | cons state below =>
        simp only [Encoder.end_, hs, h2, Bool.false_eq_true, if_false] at herr
        split_ifs at herr
    · rintro (h | h)
      · exact ⟨(.nothingToEnd, e), by simp [Encoder.end_, h]⟩
      · cases hs : e.m_state with
        | nil => exact ⟨(.nothingToEnd, e), by simp [Encoder.end_, hs]⟩
        | cons state below => exact ⟨(.danglingKey, e), by simp [Encoder.end_, hs, h]⟩
  · intro state below hs hk
    cases hend : e.end_ with
    | error err =>
      simp only [Encoder.end_, hs, hk, Bool.false_eq_true, if_false] at hend
      split_ifs at hend
    | ok e1 =>
      obtain ⟨state1, below1, hs1, _, hoss, hst, _, _, hcomp⟩ := Encoder.end_ok_exact e e1 hend
      rw [hs] at hs1
      simp only [List.cons.injEq] at hs1
      obtain ⟨rfl, rfl⟩ := hs1
      refine ⟨e1, rfl, hst, hoss, ?_, ?_⟩
      · have hnc : e.m_isComplete = false := by
          cases h : e.m_isComplete with
          | false => rfl
          | true =>
            have := hW h
            rw [hs] at this
            cases this
        rw [hcomp, hnc]
        cases below <;> simp
      · intro hsteady hc ht
        have hC := Encoder.steady_consistent e hsteady
        have := Encoder.consistent_depth e state below hC hs hk hc ht
        omega

/-- After `endExampleCalls` the encoder `endExample` is inside a pretty array with content,
itself inside a pretty object: `end` closes the array after a newline and four spaces, the
indentation of the object that stays open. -/
theorem C11_end_witness :
    Encoder.fresh.run endExampleCalls = .ok endExample ∧
      (endExample.m_indentation - 1).toNat = [(⟨false, false, true⟩ : m_State)].length ∧
      ∃ e1, endExample.end_ = .ok e1 ∧ e1.m_state = [⟨false, false, true⟩] ∧
        e1.m_oss = endExample.m_oss ++
          closingText ⟨true, false, true⟩ (endExample.m_indentation - 1).toNat ∧
        (e1.m_isComplete = true ↔ [(⟨false, false, true⟩ : m_State)] = []) :=
  ⟨by decide,
    by
      obtain ⟨_, _, _, _, _, h⟩ := (C11_end endExample
        (Encoder.reachable_of_run endExampleCalls _ _ Encoder.Reachable.fresh (by decide))).2
        ⟨true, false, true⟩ [⟨false, false, true⟩] rfl rfl
      exact h (Encoder.steady_of_run endExampleCalls _ _ Encoder.Steady.fresh (by decide))
        rfl rfl,
    by
      obtain ⟨e1, h1, h2, h3, h4, _⟩ := (C11_end endExample
        (Encoder.reachable_of_run endExampleCalls _ _ Encoder.Reachable.fresh (by decide))).2
        ⟨true, false, true⟩ [⟨false, false, true⟩] rfl rfl
      exact ⟨e1, h1, h2, h3, h4⟩⟩

/-- C12 (counterexample): on a new encoder `array()` returns, `val` of the one-byte string
`0x80` throws after `m_prefix` has raised the indentation, `end()` returns and `finish()`
succeeds; the encoder it leaves has indentation 1, not 0, and the next document written on it
is indented one level more than the same document written on a new encoder. -/
theorem C12_counterexample :
    Encoder.fresh.array false = .ok ⟨[91], [⟨true, false, false⟩], 0, false, false⟩ ∧
      Encoder.val ⟨[91], [⟨true, false, false⟩], 0, false, false⟩ (.string [128]) =
        .error (.nonAscii, ⟨bytes "[\n    \"", [⟨true, false, false⟩], 1, false, false⟩) ∧
      Encoder.end_ ⟨bytes "[\n    \"", [⟨true, false, false⟩], 1, false, false⟩ =
        .ok ⟨bytes "[\n    \"]", [], 1, false, true⟩ ∧
      Encoder.finish ⟨bytes "[\n    \"]", [], 1, false, true⟩ =
        .ok (bytes "[\n    \"]", ⟨[], [], 1, false, false⟩) ∧
      (⟨[], [], 1, false, false⟩ : Encoder) ≠ Encoder.fresh ∧
      Encoder.encodeOn ⟨[], [], 1, false, false⟩ finishExampleCalls =
        .ok (bytes "[\n        1\n    ]", ⟨[], [], 1, false, false⟩) ∧
      Encoder.fresh.encodeOn finishExampleCalls = .ok (bytes "[\n    1\n]", Encoder.fresh) := by
  decide

/-- C12 (amended): `finish` throws exactly when the document is not complete, and then
leaves the encoder as it was; when it succeeds it returns the text of the buffer, to which
every call since construction or since the previous successful `finish` has only appended
(whether it returned or threw), and it clears the buffer and the complete flag.  When no `val`
or `key` call made on the encoder since its construction threw "Non-ASCII unicode is not
supported" while adding the first member of a pretty container, a successful `finish` leaves
the encoder in the state of a newly constructed one (empty text, no open frame, indentation 0,
no pending key, not complete), so that the document any further calls write on it is the one
they write on a new encoder. -/
theorem C12_finish (e : Encoder) :
    ((∃ err, e.finish = .error err) ↔ e.m_isComplete = false) ∧
      (e.m_isComplete = false → e.finish = .error (.notComplete, e)) ∧
      (e.m_isComplete = true →
        e.finish = .ok (e.m_oss, { e with m_oss := [], m_isComplete := false })) ∧
      (∀ c, ∃ w, (e.afterCall c).m_oss = e.m_oss ++ w) ∧
      (∀ cs e0, Encoder.run e0 cs = .ok e → ∃ w, e.m_oss = e0.m_oss ++ w) ∧
      (e.Steady → ∀ doc e1, e.finish = .ok (doc, e1) →
        e1 = ⟨[], [], 0, false, false⟩ ∧
          ∀ cs2, e1.encodeOn cs2 = Encoder.fresh.encodeOn cs2) := by
  refine ⟨?_, ?_, ?_, Encoder.afterCall_appends e, ?_, ?_⟩
  · cases hc : e.m_isComplete <;> simp [Encoder.finish, hc]
  · intro hc
    simp [Encoder.finish, hc]
  · intro hc
    simp [Encoder.finish, hc]
  · intro cs e0 hrun
    exact Encoder.run_appends cs e0 e hrun
  · intro hsteady doc e1 h
    obtain ⟨_, h1⟩ := Encoder.finish_fresh e e1 doc (Encoder.steady_consistent e hsteady) h
    subst h1
    exact ⟨rfl, fun _ => rfl⟩

/-- After `finishExampleCalls` on a new encoder, `finish` returns the document and leaves a
new encoder. -/
theorem C12_finish_witness :
    Encoder.fresh.run finishExampleCalls = .ok finishExample ∧
      finishExample.finish =
        .ok (finishExample.m_oss, { finishExample with m_oss := [], m_isComplete := false }) ∧
      ∀ doc e1, finishExample.finish = .ok (doc, e1) →
        e1 = ⟨[], [], 0, false, false⟩ ∧
          ∀ cs2, e1.encodeOn cs2 = Encoder.fresh.encodeOn cs2 :=
  ⟨by decide, (C12_finish finishExample).2.2.1 (by decide),
    (C12_finish finishExample).2.2.2.2.2
      (Encoder.steady_of_run finishExampleCalls _ _ Encoder.Steady.fresh (by decide))⟩

/-! ## Compact containers of scalars -/

/-- C14: a compact array of one or more accepted scalars is written as `[ `, the tokens of
the values joined by `, `, and ` ]`; a compact object of one or more members with accepted
keys and scalar values as `{ `, the members (quoted key, colon, space, token) joined by `, `,
and ` }`.  This is the document on a new encoder, and the text appended after the separator of
`m_prefix` wherever a value may be added and the container is compact (opened compact, or
opened inside a compact container); `array(true).val(69).val(420).end()` gives `[ 69, 420 ]`. -/
theorem C14_compact_scalars (vs : List Scalar) (ms : List (List Nat × Scalar))
    (hvs : vs ≠ [] ∧ ∀ v ∈ vs, Call.accepted (.val v) = true)
    (hms : ms ≠ [] ∧
      ∀ m ∈ ms, Call.accepted (.key m.1) = true ∧ Call.accepted (.val m.2) = true) :
    encode (arrayCalls true vs) =
        .ok ([91, 32] ++ joinWith [44, 32] (vs.map Scalar.token) ++ [32, 93]) ∧
      encode (objectCalls true ms) =
        .ok ([123, 32] ++ joinWith [44, 32] (ms.map memberText) ++ [32, 125]) ∧
      (∀ (pre : List Call) (e : Encoder) (c : Bool), Encoder.fresh.run pre = .ok e →
        Encoder.m_checkPre e = .ok () →
        (c = true ∨ ∃ top below, e.m_state = top :: below ∧ top.compact = true) →
        (∃ e1, e.run (arrayCalls c vs) = .ok e1 ∧ e1.m_oss = ( Encoder.m_prefix e).m_oss ++
            ([91, 32] ++ joinWith [44, 32] (vs.map Scalar.token) ++ [32, 93])) ∧
          ∃ e1, e.run (objectCalls c ms) = .ok e1 ∧ e1.m_oss = ( Encoder.m_prefix e).m_oss ++
            ([123, 32] ++ joinWith [44, 32] (ms.map memberText) ++ [32, 125])) ∧
      encode (arrayCalls true [.int64 69, .int64 420]) = .ok (bytes "[ 69, 420 ]") := by
  obtain ⟨hvne, hvacc⟩ := hvs
  obtain ⟨hmne, hmacc⟩ := hms
  have hve : vs.isEmpty = false := by cases vs <;> simp_all
  have hme : ms.isEmpty = false := by cases ms <;> simp_all
  have harr : ∀ (oss : List Nat) (below : List m_State) (ind : Int),
      Encoder.run ⟨oss, ⟨true, true, false⟩ :: below, ind, false, false⟩ (vs.map Call.val) =
        .ok ⟨oss ++ ([32] ++ joinWith [44, 32] (vs.map Scalar.token)),
          ⟨true, true, true⟩ :: below, ind, false, false⟩ := by
    intro oss below ind
    rw [Encoder.run_compact_vals vs hvacc]
    simp [hve]
  have hobj : ∀ (oss : List Nat) (below : List m_State) (ind : Int),
      Encoder.run ⟨oss, ⟨false, true, false⟩ :: below, ind, false, false⟩
          (ms.map (fun m => [Call.key m.1, Call.val m.2])).flatten =
        .ok ⟨oss ++ ([32] ++ joinWith [44, 32] (ms.map memberText)),
          ⟨false, true, true⟩ :: below, ind, false, false⟩ := by
    intro oss below ind
    rw [Encoder.run_compact_members ms hmacc]
    simp [hme]
  have hgen : ∀ (e : Encoder) (c : Bool), Encoder.m_checkPre e = .ok () →
      (e.m_state = [] → e.m_isKey = false) →
      (c = true ∨ ∃ top below, e.m_state = top :: below ∧ top.compact = true) →
      Encoder.run e (arrayCalls c vs) = .ok ⟨( Encoder.m_prefix e).m_oss ++
          ([91, 32] ++ joinWith [44, 32] (vs.map Scalar.token) ++ [32, 93]),
          Encoder.markContent e.m_state, ( Encoder.m_prefix e).m_indentation, false,
          e.m_state.isEmpty⟩ ∧
        Encoder.run e (objectCalls c ms) = .ok ⟨( Encoder.m_prefix e).m_oss ++
          ([123, 32] ++ joinWith [44, 32] (ms.map memberText) ++ [32, 125]),
          Encoder.markContent e.m_state, ( Encoder.m_prefix e).m_indentation, false,
          e.m_state.isEmpty⟩ := by
    intro e c hpre hsane hc
    constructor
    · obtain ⟨ea, hopen, hrun⟩ := Encoder.run_compact_container e 91 true c _ _ hpre hsane hc harr
      simp only [arrayCalls, Encoder.run, Encoder.call, Encoder.array, hopen, hrun]
      simp
    · obtain ⟨ea, hopen, hrun⟩ :=
        Encoder.run_compact_container e 123 false c _ _ hpre hsane hc hobj
      simp only [objectCalls, Encoder.run, Encoder.call, Encoder.object, hopen, hrun]
      simp
  refine ⟨?_, ?_, ?_, by decide⟩
  · have := (hgen Encoder.fresh true rfl (fun _ => rfl) (Or.inl rfl)).1
    simp only [encode, this]
    rfl
  · have := (hgen Encoder.fresh true rfl (fun _ => rfl) (Or.inl rfl)).2
    simp only [encode, this]
    rfl
  · intro pre e c hrun hpre hc
    have hC := Encoder.consistent_run pre _ e Encoder.consistent_fresh hrun
    obtain ⟨h1, h2⟩ := hgen e c hpre hC.2.1 hc
    exact ⟨⟨_, h1, rfl⟩, ⟨_, h2, rfl⟩⟩

theorem C14_compact_scalars_witness :
    (([.int64 69, .int64 420] : List Scalar) ≠ [] ∧
        ∀ v ∈ ([.int64 69, .int64 420] : List Scalar), Call.accepted (.val v) = true) ∧
      (([(bytes "v", .string (bytes "hello"))] : List (List Nat × Scalar)) ≠ [] ∧
        ∀ m ∈ ([(bytes "v", .string (bytes "hello"))] : List (List Nat × Scalar)),
          Call.accepted (.key m.1) = true ∧ Call.accepted (.val m.2) = true) ∧
      encode (arrayCalls true [.int64 69, .int64 420]) = .ok (bytes "[ 69, 420 ]") ∧
      encode (objectCalls true [(bytes "v", .string (bytes "hello"))]) =
        .ok (bytes "\x7b \"v\": \"hello\" \x7d") :=
  ⟨by decide, by decide,
    (C14_compact_scalars [.int64 69, .int64 420] [(bytes "v", .string (bytes "hello"))]
      (by decide) (by decide)).1.trans (by decide),
    (C14_compact_scalars [.int64 69, .int64 420] [(bytes "v", .string (bytes "hello"))]
      (by decide) (by decide)).2.1.trans (by decide)⟩

/-! ## Compactness is inherited -/

/-- C15: while the innermost open containers `upper` of an encoder are compact, every call
made before the outermost of them is closed, its closing call included, writes no newline
(`std::to_chars` writing none for a `double`), and every container open afterwards above the
frames `below` is compact, whatever flag it was opened with.  With `upper` the one frame of a
compact container just opened, these are all the calls up to its closing bracket. -/
theorem C15_compact_inherited (cs : List Call) (e e1 : Encoder) (upper below : List m_State)
    (hs : e.m_state = upper ++ below) (hcompact : ∀ s ∈ upper, s.compact = true)
    (hin : insideContainer upper.length cs = true)
    (hdouble : ∀ t, Call.val (.double t) ∈ cs → 10 ∉ t) (hrun : e.run cs = .ok e1) :
    ∃ upper1 w, e1.m_state = upper1 ++ below ∧ (∀ s ∈ upper1, s.compact = true) ∧
      e1.m_oss = e.m_oss ++ w ∧ 10 ∉ w := by
  induction cs generalizing e upper with
  | nil =>
    simp only [Encoder.run, Except.ok.injEq] at hrun
    subst hrun
    exact ⟨upper, [], hs, hcompact, by simp, by simp⟩
  | cons c cs ih =>
    cases upper with
    | nil => simp [insideContainer] at hin
    | cons top upper =>
      obtain ⟨e2, hcall, hrun2⟩ := Encoder.run_cons c cs e e1 hrun
      obtain ⟨upper1, w1, hs1, hc1, hoss1, hnl1, hlen⟩ :=
        Encoder.compact_call e e2 c top upper below hs hcompact
          (fun t ht => hdouble t (by simp [ht])) hcall
      have hin2 : insideContainer upper1.length cs = true := by
        rw [hlen]
        cases c <;> simpa [insideContainer] using hin
      obtain ⟨upper2, w2, hs2, hc2, hoss2, hnl2⟩ :=
        ih e2 upper1 hs1 hc1 hin2 (fun t ht => hdouble t (by simp [ht])) hrun2
      refine ⟨upper2, w1 ++ w2, hs2, hc2, by rw [hoss2, hoss1, List.append_assoc], ?_⟩
      simp [hnl1, hnl2]

theorem C15_compact_inherited_witness :
    compactExample.m_state = [⟨true, true, false⟩] ++ [] ∧
      (∀ s ∈ [(⟨true, true, false⟩ : m_State)], s.compact = true) ∧
      insideContainer [(⟨true, true, false⟩ : m_State)].length compactExampleCalls = true ∧
      (∀ t, Call.val (.double t) ∈ compactExampleCalls → 10 ∉ t) ∧
      compactExample.run compactExampleCalls =
        .ok ⟨bytes "[ \x7b \"a\": [ 1, \"\\n\", 2.5 ] \x7d ]", [], 0, false, true⟩ ∧
      ∃ upper1 w, (⟨bytes "[ \x7b \"a\": [ 1, \"\\n\", 2.5 ] \x7d ]", [], 0, false, true⟩ :
          Encoder).m_state = upper1 ++ [] ∧
        (∀ s ∈ upper1, s.compact = true) ∧
        (⟨bytes "[ \x7b \"a\": [ 1, \"\\n\", 2.5 ] \x7d ]", [], 0, false, true⟩ : Encoder).m_oss =
          compactExample.m_oss ++ w ∧ 10 ∉ w :=
  have hdouble : ∀ t, Call.val (.double t) ∈ compactExampleCalls → 10 ∉ t := by
    intro t ht
    have : t = bytes "2.5" := by
      simp only [compactExampleCalls, List.mem_cons, Call.val.injEq, Scalar.double.injEq,
        reduceCtorEq, false_or, or_false, List.not_mem_nil] at ht
      exact ht
    subst this
    decide
  ⟨rfl, by decide, by decide, hdouble, by decide,
    C15_compact_inherited compactExampleCalls compactExample
      ⟨bytes "[ \x7b \"a\": [ 1, \"\\n\", 2.5 ] \x7d ]", [], 0, false, true⟩
      [⟨true, true, false⟩] [] rfl (by decide) (by decide) hdouble (by decide)⟩

/-! ## The pretty layout of a document -/

/-- C13: every document written with pretty containers only is the layout of a tree of
values whose calls were made: a container without members is `[]` or `{}` with nothing between
the brackets; in a container with members that has `d - 1` containers around it (nesting depth
`d`), every member is preceded by a comma when it is not the first, then by a newline and
exactly `4 * d` spaces, and the closing bracket is preceded by a newline and exactly
`4 * (d - 1)` spaces.  Conversely the calls of every tree whose strings the encoder accepts
produce its layout. -/
theorem C13_pretty_layout (cs : List Call) (doc : List Nat)
    (hpretty : ∀ c ∈ cs, Pretty c = true) (h : encode cs = .ok doc) :
    (∃ t : Json, t.calls = cs ∧ doc = t.layout 0) ∧
      ∀ t : Json, (∀ c ∈ t.calls, c.accepted = true) → encode t.calls = .ok (t.layout 0) := by
  refine ⟨?_, encode_layout⟩
  have h0 := h
  simp only [encode] at h
  cases hrun : Encoder.fresh.run cs with
  | error err => simp [hrun] at h
  | ok e =>
    simp only [hrun, Encoder.finish] at h
    cases hdone : e.m_isComplete with
    | false => simp [hdone] at h
    | true =>
      obtain ⟨t, ht⟩ := tree_of_isValue cs (isValue_of_run cs e hrun hdone) hpretty
      refine ⟨t, ht, ?_⟩
      have hl := encode_layout t (by rw [ht]; exact run_accepted cs _ e hrun)
      rw [ht, h0] at hl
      cases hl
      rfl

theorem C13_pretty_layout_witness :
    (∀ c ∈ prettyCalls, Pretty c = true) ∧ encode prettyCalls = .ok prettyText ∧
      ∃ t : Json, t.calls = prettyCalls ∧ prettyText = t.layout 0 :=
  ⟨by decide, by decide, (C13_pretty_layout prettyCalls prettyText (by decide) (by decide)).1⟩

/-! ## Strings with escapes -/

/-- C20: for every quoted string token whose content is made of printable ASCII bytes other
than the quote and the backslash, of the escapes `\"`, `\\`, `\/`, `\b`, `\f`, `\n`, `\r`, `\t`,
and of `\uXXXX` with four hexadecimal digits (of either case) of value below `0x80`, the string
`m_consumeString` returns, which `m_ingestValue` hands to the composer, is the content with
each escape replaced by the byte it denotes and every other byte kept, in order; the token is
read up to its closing quote, whatever follows it. -/
theorem C20_string_escapes (content : List Piece) (hvalid : ∀ p ∈ content, p.valid = true)
    (sz fuel : Nat) (rest : List Nat) (evs : List Event) :
    DecodeHelper.m_consumeString ⟨sz, stringToken content ++ rest, evs⟩ =
        .ok (content.map Piece.byte, ⟨sz, rest, evs⟩) ∧
      DecodeHelper.m_ingestValue (fuel + 1) ⟨sz, stringToken content ++ rest, evs⟩ =
        .ok ⟨sz, rest, evs ++ [.val_string (content.map Piece.byte)]⟩ ∧
      decode (stringToken content) = .ok [.val_string (content.map Piece.byte)] := by
  have h := DecodeHelper.m_consumeString_token content hvalid
  have hq : ∀ r, stringToken content ++ r =
      34 :: ((content.map Piece.text).flatten ++ 34 :: r) := by
    intro r; simp [stringToken]
  have hing : ∀ (sz fuel : Nat) (rest : List Nat) (evs : List Event),
      DecodeHelper.m_ingestValue (fuel + 1) ⟨sz, stringToken content ++ rest, evs⟩ =
        .ok ⟨sz, rest, evs ++ [.val_string (content.map Piece.byte)]⟩ := by
    intro sz fuel rest evs
    have h1 := h sz rest evs
    rw [hq] at h1 ⊢
    simp [DecodeHelper.m_ingestValue, DecodeHelper.m_ingestString, h1]
  refine ⟨h sz rest evs, hing sz fuel rest evs, ?_⟩
  apply decode_of_ingest
  · simp [stringToken, List.dropWhile, isspace]
  · have h1 := hing (stringToken content).length (stringToken content).length [] []
    rw [List.append_nil, List.nil_append] at h1
    exact h1

theorem C20_string_escapes_witness :
    (∀ p ∈ stringExample, p.valid = true) ∧
      stringToken stringExample =
        bytes "\"a\\\"\\\\\\/\\b\\f\\n\\r\\t\\u004a\\u004A\\u007f\"" ∧
      decode (bytes "\"a\\\"\\\\\\/\\b\\f\\n\\r\\t\\u004a\\u004A\\u007f\"") =
        .ok [.val_string [97, 34, 92, 47, 8, 12, 10, 13, 9, 74, 74, 127]] :=
  ⟨by decide, by decide,
    (C20_string_escapes stringExample (by decide) 0 0 [] []).2.2⟩

/-! ## Number tokens -/

set_option exponentiation.threshold 2048 in
set_option maxRecDepth 100000 in
/-- C17 (counterexample): the integer token `2` followed by 308 zeros stands for `2 * 10^308`,
outside both 64-bit ranges; `std::from_chars` for `double` reports `result_out_of_range` for it
and `decode` throws "Invalid floater" at offset 0: the composer receives no `double`. -/
theorem C17_counterexample :
    2 ^ 64 - 1 < integerValue false (50 :: List.replicate 308 48) ∧
      decode (integerToken false (50 :: List.replicate 308 48)) =
        .error (.DecodeError .invalidFloater 0,
          ⟨309, integerToken false (50 :: List.replicate 308 48), []⟩) := by
  decide

/-- C17 (amended): for every integer token (an optional `-`, then decimal digits, followed by
the end of the text or by a byte that is neither a digit, nor `.`, nor `e`, nor `E`) of value
`n`: when `-2^63 <= n <= 2^63 - 1` the composer receives the signed 64-bit `val` of `n`; when
the token has no `-` and `2^63 <= n <= 2^64 - 1`, the unsigned 64-bit `val` of `n`; when `n` is
outside both ranges and its magnitude is below `2^1024 - 2^970` (it rounds to a finite
`double`), the `double` `val` of `n`; when the magnitude is `2^1024 - 2^970` or more the
decoder throws "Invalid floater" at the offset of the token.  No value below `2^63` is ever
reported through the unsigned `val` by `decode`. -/
theorem C17_integer_tokens (neg : Bool) (ds rest : List Nat) (hne : ds ≠ [])
    (hds : ∀ c ∈ ds, isdigit c = true) (hrest : NumberEnd rest) (sz fuel : Nat)
    (pre : List Event) :
    (-(2 ^ 63) ≤ integerValue neg ds → integerValue neg ds ≤ 2 ^ 63 - 1 →
        DecodeHelper.m_ingestValue (fuel + 1) ⟨sz, integerToken neg ds ++ rest, pre⟩ =
          .ok ⟨sz, rest, pre ++ [.val_int64 (integerValue neg ds)]⟩) ∧
      (neg = false → 2 ^ 63 ≤ integerValue neg ds → integerValue neg ds ≤ 2 ^ 64 - 1 →
        DecodeHelper.m_ingestValue (fuel + 1) ⟨sz, integerToken neg ds ++ rest, pre⟩ =
          .ok ⟨sz, rest, pre ++ [.val_uint64 (integerValue neg ds)]⟩) ∧
      ((integerValue neg ds < -(2 ^ 63) ∨ 2 ^ 64 - 1 < integerValue neg ds) →
        digitsValue ds < 2 ^ 1024 - 2 ^ 970 →
        DecodeHelper.m_ingestValue (fuel + 1) ⟨sz, integerToken neg ds ++ rest, pre⟩ =
          .ok ⟨sz, rest, pre ++ [.val_double (.decimal neg (digitsValue ds) 0)]⟩) ∧
      (2 ^ 1024 - 2 ^ 970 ≤ digitsValue ds →
        DecodeHelper.m_ingestValue (fuel + 1) ⟨sz, integerToken neg ds ++ rest, pre⟩ =
          .error (.DecodeError .invalidFloater (sz - (integerToken neg ds ++ rest).length),
            ⟨sz, integerToken neg ds ++ rest, pre⟩)) ∧
      ∀ json evs v, decode json = .ok evs → Event.val_uint64 v ∈ evs →
        2 ^ 63 ≤ v ∧ v ≤ 2 ^ 64 - 1 := by
  obtain ⟨d0, dt, rfl⟩ : ∃ d0 dt, ds = d0 :: dt := by
    cases ds with
    | nil => exact absurd rfl hne
    | cons a b => exact ⟨a, b, rfl⟩
  have h := m_ingestValue_integer neg d0 dt rest hds hrest sz fuel pre
  have hv : integerValue neg (d0 :: dt) = if neg then -(digitsValue (d0 :: dt) : Int)
      else (digitsValue (d0 :: dt) : Int) := rfl
  have hnn : (0 : Int) ≤ (digitsValue (d0 :: dt) : Int) := Int.ofNat_nonneg _
  refine ⟨?_, ?_, ?_, ?_, ?_⟩
  · intro hlo hhi
    rw [h, if_pos ⟨hlo, by omega, fun _ => hhi⟩, if_pos (by omega)]
  · intro hn hlo hhi
    rw [h, if_pos ⟨by omega, hhi, fun h => by rw [hn] at h; cases h⟩, if_neg (by omega)]
  · intro hout hfin
    have hno : ¬ (-(2 ^ 63) ≤ integerValue neg (d0 :: dt) ∧
        integerValue neg (d0 :: dt) ≤ 2 ^ 64 - 1 ∧
        (neg = true → integerValue neg (d0 :: dt) ≤ 2 ^ 63 - 1)) := by
      intro hr
      rcases hout with h1 | h1
      · omega
      · omega
    rw [h, if_neg hno, doubleOverflows_zero, if_neg (by rw [decide_eq_true_eq]; exact Nat.not_le.mpr hfin)]
  · intro hbig
    have h2 : 2 ^ 64 ≤ 2 ^ 1024 - 2 ^ 970 := by norm_num
    have h3 : 2 ^ 64 ≤ digitsValue (d0 :: dt) := le_trans h2 hbig
    have hno : ¬ (-(2 ^ 63) ≤ integerValue neg (d0 :: dt) ∧
        integerValue neg (d0 :: dt) ≤ 2 ^ 64 - 1 ∧
        (neg = true → integerValue neg (d0 :: dt) ≤ 2 ^ 63 - 1)) := by
      intro hr
      cases neg with
      | true => simp only [if_true] at hv; omega
      | false => simp only [Bool.false_eq_true, if_false] at hv; omega
    rw [h, if_neg hno, doubleOverflows_zero, if_pos (by rw [decide_eq_true_eq]; exact hbig)]
  · intro json evs v hdec hv'
    exact DecodeHelper.decode_unsigned json evs hdec v hv'

theorem C17_integer_tokens_witness :
    ([49, 56] : List Nat) ≠ [] ∧ (∀ c ∈ ([49, 56] : List Nat), isdigit c = true) ∧
      NumberEnd [93] ∧
      DecodeHelper.m_ingestValue 1 ⟨4, integerToken true [49, 56] ++ [93], [.array]⟩ =
        .ok ⟨4, [93], [.array] ++ [.val_int64 (integerValue true [49, 56])]⟩ :=
  ⟨by decide, by decide, by simp [NumberEnd, isdigit],
    (C17_integer_tokens true [49, 56] [93] (by decide) (by decide)
      (by simp [NumberEnd, isdigit]) 4 0 [.array]).1 (by decide) (by decide)⟩

/-- C18: a number token made of an integer part in one of the 64-bit ranges, a `.` and one or
more `0` digits, with neither a further digit nor an exponent marker after the zeros, is
reported to the composer as the same integer `val` as its integer part alone, and the `.` and
all the zeros are consumed; when a digit other than `0` or an `e`/`E` follows the point and the
zeros, or an `e`/`E` directly follows the integer part, the token is handed to
`m_ingestFloater`, which reports a `double` when it succeeds. -/
theorem C18_trailing_zeros (neg : Bool) (ds : List Nat) (hne : ds ≠ [])
    (hds : ∀ c ∈ ds, isdigit c = true) (sz fuel : Nat) (pre : List Event) :
    (∀ zeros rest : List Nat, zeros ≠ [] → (∀ c ∈ zeros, c = 48) →
        (∀ c ∈ rest.head?, isdigit c = false ∧ c ≠ 101 ∧ c ≠ 69) →
        -(2 ^ 63) ≤ integerValue neg ds → integerValue neg ds ≤ 2 ^ 64 - 1 →
        ∃ ev, (ev = .val_int64 (integerValue neg ds) ∨ ev = .val_uint64 (integerValue neg ds)) ∧
          DecodeHelper.m_ingestValue (fuel + 1)
              ⟨sz, integerToken neg ds ++ 46 :: (zeros ++ rest), pre⟩ =
            .ok ⟨sz, rest, pre ++ [ev]⟩ ∧
          DecodeHelper.m_ingestValue (fuel + 1) ⟨sz, integerToken neg ds, pre⟩ =
            .ok ⟨sz, [], pre ++ [ev]⟩) ∧
      (∀ (k c : Nat) (tail : List Nat), ((isdigit c = true ∧ c ≠ 48) ∨ c = 101 ∨ c = 69) →
        DecodeHelper.m_ingestValue (fuel + 1)
            ⟨sz, integerToken neg ds ++ 46 :: (List.replicate k 48 ++ c :: tail), pre⟩ =
          DecodeHelper.m_ingestFloater
            ⟨sz, integerToken neg ds ++ 46 :: (List.replicate k 48 ++ c :: tail), pre⟩) ∧
      (∀ (c : Nat) (tail : List Nat), (c = 101 ∨ c = 69) →
        DecodeHelper.m_ingestValue (fuel + 1) ⟨sz, integerToken neg ds ++ c :: tail, pre⟩ =
          DecodeHelper.m_ingestFloater ⟨sz, integerToken neg ds ++ c :: tail, pre⟩) ∧
      ∀ d d1 : DecodeHelper, DecodeHelper.m_ingestFloater d = .ok d1 →
        ∃ x, d1.m_composer = d.m_composer ++ [.val_double x] := by
  obtain ⟨d0, dt, rfl⟩ : ∃ d0 dt, ds = d0 :: dt := by
    cases ds with
    | nil => exact absurd rfl hne
    | cons a b => exact ⟨a, b, rfl⟩
  have hv : integerValue neg (d0 :: dt) = if neg then -(digitsValue (d0 :: dt) : Int)
      else (digitsValue (d0 :: dt) : Int) := rfl
  have hnn : (0 : Int) ≤ (digitsValue (d0 :: dt) : Int) := Int.ofNat_nonneg _
  refine ⟨?_, ?_, ?_, m_ingestFloater_event⟩
  · intro zeros rest hz1 hz2 hrest hlo hhi
    have hr : -(2 ^ 63) ≤ integerValue neg (d0 :: dt) ∧
        integerValue neg (d0 :: dt) ≤ 2 ^ 64 - 1 ∧
        (neg = true → integerValue neg (d0 :: dt) ≤ 2 ^ 63 - 1) := by
      refine ⟨hlo, hhi, ?_⟩
      intro hn
      subst hn
      simp only [if_true] at hv
      omega
    have h1 := m_ingestValue_zeros neg d0 dt zeros rest hds ⟨hz1, hz2⟩ hrest hr sz fuel pre
    have h2 := m_ingestValue_integer neg d0 dt [] hds (by simp [NumberEnd]) sz fuel pre
    rw [if_pos hr, List.append_nil] at h2
    refine ⟨_, ?_, h1, h2⟩
    split_ifs
    · exact Or.inl rfl
    · exact Or.inr rfl
  · intro k c tail hc
    exact m_ingestValue_floater neg d0 dt _ hds (Or.inl ⟨k, c, tail, rfl, hc⟩) sz fuel pre
  · intro c tail hc
    exact m_ingestValue_floater neg d0 dt _ hds (Or.inr ⟨c, tail, rfl, hc⟩) sz fuel pre

theorem C18_trailing_zeros_witness :
    ([53] : List Nat) ≠ [] ∧ (∀ c ∈ ([53] : List Nat), isdigit c = true) ∧
      integerToken false [53] ++ 46 :: ([48, 48, 48] ++ [44, 55]) = bytes "5.000,7" ∧
      ∃ ev, (ev = .val_int64 (integerValue false [53]) ∨
          ev = .val_uint64 (integerValue false [53])) ∧
        DecodeHelper.m_ingestValue 1
            ⟨7, integerToken false [53] ++ 46 :: ([48, 48, 48] ++ [44, 55]), []⟩ =
          .ok ⟨7, [44, 55], [] ++ [ev]⟩ ∧
        DecodeHelper.m_ingestValue 1 ⟨7, integerToken false [53], []⟩ =
          .ok ⟨7, [], [] ++ [ev]⟩ :=
  ⟨by decide, by decide, by decide,
    (C18_trailing_zeros false [53] (by decide) (by decide) 7 0 []).1 [48, 48, 48] [44, 55]
      (by decide) (by decide) (by simp [isdigit]) (by decide) (by decide)⟩

set_option exponentiation.threshold 2048 in
/-- C19 (counterexample): in `1.e5` the decimal point is followed by an exponent marker, not
by a digit, and `decode` accepts the text as the `double` `1e5`. -/
theorem C19_counterexample :
    decode (bytes "1.e5") = .ok [.val_double (.decimal false 1 5)] := by
  decide

set_option exponentiation.threshold 2048 in
/-- C19 (amended): when the decimal point after the integer part of a number is not followed
by a digit, `m_ingestValue` throws a `DecodeError`, "Dangling decimal point" or "Invalid
floater", and so does `decode` on every text in which such a number stands where a value is
expected (after a well-formed start `pre` of a document), in each of these cases: the point is
followed by the end of the text, by a byte that is not an exponent marker, by an exponent
marker without exponent digits (`1.`, `1.x`, `1.e`, `1.e+`), or by an exponent with digits for
which the number is out of the range of `double` (`1.e999`).  In the one remaining case, an
exponent with digits and a number in the range of `double`, the number is read as that
`double`, and `decode` accepts the text made of the number with white space around it (`1.e5`
is the `double` `1e5`).  The exponent `std::from_chars` reads is the marker, an optional sign
and the digits. -/
theorem C19_dangling_point (neg : Bool) (ds rest : List Nat) (hne : ds ≠ [])
    (hds : ∀ c ∈ ds, isdigit c = true) (hrest : ∀ c ∈ rest.head?, isdigit c = false)
    (k : Place) (pre : List Nat) (evs : List Event) (hat : At k pre evs)
    (hk : k.isValue = true) (ws : List Nat) (hws : IsWs ws) (sz fuel : Nat)
    (calls : List Event) :
    (((∀ c ∈ rest.head?, c ≠ 101 ∧ c ≠ 69) ∨ exponentDigits rest = false) →
        (∃ msg pos d1,
          DecodeHelper.m_ingestValue (fuel + 1)
              ⟨sz, integerToken neg ds ++ 46 :: rest, calls⟩ =
            .error (.DecodeError msg pos, d1) ∧
          (msg = .danglingDecimalPoint ∨ msg = .invalidFloater)) ∧
        ∃ msg pos d1, decode (pre ++ (integerToken neg ds ++ 46 :: rest)) =
            .error (.DecodeError msg pos, d1) ∧
          (msg = .danglingDecimalPoint ∨ msg = .invalidFloater) ∧ d1.m_composer = evs) ∧
      (¬ ((∀ c ∈ rest.head?, c ≠ 101 ∧ c ≠ 69) ∨ exponentDigits rest = false) →
        ∃ x tail, scanExponent rest = (some x, tail)) ∧
      (∀ x tail, scanExponent rest = (some x, tail) →
        (doubleOverflows (digitsValue ds) x || doubleUnderflows (digitsValue ds) x) = true →
        DecodeHelper.m_ingestValue (fuel + 1)
              ⟨sz, integerToken neg ds ++ 46 :: rest, calls⟩ =
            .error (.DecodeError .invalidFloater
                (sz - (integerToken neg ds ++ 46 :: rest).length),
              ⟨sz, integerToken neg ds ++ 46 :: rest, calls⟩) ∧
          decode (pre ++ (integerToken neg ds ++ 46 :: rest)) =
            .error (.DecodeError .invalidFloater pre.length,
              ⟨(pre ++ (integerToken neg ds ++ 46 :: rest)).length,
                integerToken neg ds ++ 46 :: rest, evs⟩)) ∧
      (∀ x tail, scanExponent rest = (some x, tail) →
        (doubleOverflows (digitsValue ds) x || doubleUnderflows (digitsValue ds) x) = false →
        DecodeHelper.m_ingestValue (fuel + 1)
              ⟨sz, integerToken neg ds ++ 46 :: rest, calls⟩ =
            .ok ⟨sz, tail, calls ++ [.val_double (.decimal neg (digitsValue ds) x)]⟩ ∧
          (IsWs tail → decode (ws ++ (integerToken neg ds ++ 46 :: rest)) =
            .ok [.val_double (.decimal neg (digitsValue ds) x)])) ∧
      ∀ (e : Nat) (sign : List Nat) (x0 : Nat) (xt tail : List Nat), (e = 101 ∨ e = 69) →
        (sign = [] ∨ sign = [45] ∨ sign = [43]) → (∀ c ∈ x0 :: xt, isdigit c = true) →
        (∀ c ∈ tail.head?, isdigit c = false) →
        scanExponent (e :: (sign ++ (x0 :: xt ++ tail))) =
          (some (if sign = [45] then -(digitsValue (x0 :: xt) : Int)
            else (digitsValue (x0 :: xt) : Int)), tail) := by
  obtain ⟨d0, dt, rfl⟩ : ∃ d0 dt, ds = d0 :: dt := by
    cases ds with
    | nil => exact absurd rfl hne
    | cons a b => exact ⟨a, b, rfl⟩
  have hstart := integerToken_start neg d0 dt (46 :: rest) (hds d0 (by simp))
  have hst : StartsToken (integerToken neg (d0 :: dt) ++ 46 :: rest) := hstart
  have h93 : (integerToken neg (d0 :: dt) ++ 46 :: rest).head? ≠ some 93 := by
    have hd : 48 ≤ d0 ∧ d0 ≤ 57 := by simpa [isdigit] using hds d0 (by simp)
    cases neg with
    | true => simp [integerToken]
    | false =>
      simp only [integerToken, Bool.false_eq_true, if_false, List.nil_append, List.cons_append,
        List.head?_cons, ne_eq, Option.some.injEq]
      omega
  have hfails : ∀ (msg : Message) (back : Nat) (r : List Nat),
      (∀ sz fuel calls, DecodeHelper.m_ingestValue (fuel + 1)
          ⟨sz, integerToken neg (d0 :: dt) ++ 46 :: rest, calls⟩ =
        .error (.DecodeError msg (sz - back), ⟨sz, r, calls⟩)) →
      decode (pre ++ (integerToken neg (d0 :: dt) ++ 46 :: rest)) =
        .error (.DecodeError msg
            ((pre ++ (integerToken neg (d0 :: dt) ++ 46 :: rest)).length - back),
          ⟨(pre ++ (integerToken neg (d0 :: dt) ++ 46 :: rest)).length, r, evs⟩) := by
    intro msg back r h
    have hf : FailsValue (integerToken neg (d0 :: dt) ++ 46 :: rest) msg back r [] := by
      intro sz fuel calls hfuel
      obtain ⟨f, rfl⟩ : ∃ f, fuel = f + 1 := ⟨fuel - 1, by omega⟩
      rw [h sz f calls, List.append_nil]
    have := decode_fails_at k pre evs hat _ msg back r [] hst (failsAt_value k _ _ _ _ _ hk h93 hf)
    rw [List.append_nil] at this
    exact this
  refine ⟨?_, ?_, ?_, ?_, ?_⟩
  · intro hexp
    have h := fun sz fuel calls =>
      m_ingestValue_dangling neg d0 dt rest hds hrest hexp.symm sz fuel calls
    by_cases hcond : (-(2 ^ 63) ≤ integerValue neg (d0 :: dt) ∧
        integerValue neg (d0 :: dt) ≤ 2 ^ 64 - 1 ∧
        (neg = true → integerValue neg (d0 :: dt) ≤ 2 ^ 63 - 1)) ∧
        ∀ c ∈ rest.head?, c ≠ 101 ∧ c ≠ 69
    · refine ⟨⟨_, _, _, by rw [h, if_pos hcond], Or.inl rfl⟩, ?_⟩
      exact ⟨_, _, _, hfails .danglingDecimalPoint rest.length rest
        (fun sz fuel calls => by rw [h, if_pos hcond]), Or.inl rfl, rfl⟩
    · refine ⟨⟨_, _, _, by rw [h, if_neg hcond], Or.inr rfl⟩, ?_⟩
      exact ⟨_, _, _, hfails .invalidFloater
        (integerToken neg (d0 :: dt) ++ 46 :: rest).length _
        (fun sz fuel calls => by rw [h, if_neg hcond]), Or.inr rfl, rfl⟩
  · intro hno
    simp only [not_or, Bool.not_eq_false] at hno
    exact scanExponent_some rest hno.1 hno.2
  · intro x tail hse hov
    have h := fun sz fuel calls =>
      m_ingestValue_point_exponent neg d0 dt rest hds x tail hse sz fuel calls
    refine ⟨by rw [h, if_pos hov], ?_⟩
    rw [hfails .invalidFloater (integerToken neg (d0 :: dt) ++ 46 :: rest).length _
      (fun sz fuel calls => by rw [h, if_pos hov])]
    congr 3
    simp only [List.length_append]
    omega
  · intro x tail hse hov
    have h := fun sz fuel calls =>
      m_ingestValue_point_exponent neg d0 dt rest hds x tail hse sz fuel calls
    refine ⟨by rw [h, if_neg (by rw [hov]; decide)], ?_⟩
    intro htail
    have h1 := h (ws ++ (integerToken neg (d0 :: dt) ++ 46 :: rest)).length
      (ws ++ (integerToken neg (d0 :: dt) ++ 46 :: rest)).length []
    rw [if_neg (by rw [hov]; decide)] at h1
    exact decode_ok_of_ingest ws _ tail _ hws hstart htail (by simpa using h1)
  · intro e sign x0 xt tail he hsign hxs htail
    exact scanExponent_digits e sign x0 xt tail he hsign hxs htail

set_option exponentiation.threshold 2048 in
/-- C19 (witness): in an array, after `[`, the number `1.e+` is refused and `1.e999` is refused
with "Invalid floater" at offset 1; the text ` 1.e5` is accepted as the `double` `1e5`. -/
theorem C19_dangling_point_witness :
    ([49] : List Nat) ≠ [] ∧ (∀ c ∈ ([49] : List Nat), isdigit c = true) ∧
      At (.element true) ([] ++ 91 :: []) ([] ++ [.array]) ∧ IsWs [32] ∧
      exponentDigits [101, 43] = false ∧
      ([] ++ 91 :: []) ++ (integerToken false [49] ++ 46 :: [101, 43]) = bytes "[1.e+" ∧
      (∃ msg pos d1,
        decode (([] ++ 91 :: []) ++ (integerToken false [49] ++ 46 :: [101, 43])) =
          .error (.DecodeError msg pos, d1) ∧
        (msg = .danglingDecimalPoint ∨ msg = .invalidFloater) ∧
        d1.m_composer = [] ++ [.array]) ∧
      scanExponent (bytes "e999]") = (some 999, [93]) ∧
      ([] ++ 91 :: []) ++ (integerToken false [49] ++ 46 :: bytes "e999]") = bytes "[1.e999]" ∧
      decode (([] ++ 91 :: []) ++ (integerToken false [49] ++ 46 :: bytes "e999]")) =
        .error (.DecodeError .invalidFloater ([] ++ 91 :: [] : List Nat).length,
          ⟨(([] ++ 91 :: []) ++ (integerToken false [49] ++ 46 :: bytes "e999]")).length,
            integerToken false [49] ++ 46 :: bytes "e999]", [] ++ [.array]⟩) ∧
      scanExponent (bytes "e5") = (some 5, []) ∧
      [32] ++ (integerToken false [49] ++ 46 :: bytes "e5") = bytes " 1.e5" ∧
      decode ([32] ++ (integerToken false [49] ++ 46 :: bytes "e5")) =
        .ok [.val_double (.decimal false (digitsValue [49]) 5)] :=
  ⟨by decide, by decide,
    At.array .top [] [] [] (At.top [] (by simp [IsWs])) rfl (by simp [IsWs]),
    by intro c hc; simp at hc; subst hc; decide, by decide, by decide,
    ((C19_dangling_point false [49] [101, 43] (by decide) (by decide) (by decide)
      (.element true) _ _
      (At.array .top [] [] [] (At.top [] (by simp [IsWs])) rfl (by simp [IsWs])) rfl
      [32] (by intro c hc; simp at hc; subst hc; decide) 0 0 []).1 (Or.inr (by decide))).2,
    by decide, by decide,
    ((C19_dangling_point false [49] (bytes "e999]") (by decide) (by decide) (by decide)
      (.element true) _ _
      (At.array .top [] [] [] (At.top [] (by simp [IsWs])) rfl (by simp [IsWs])) rfl
      [32] (by intro c hc; simp at hc; subst hc; decide) 0 0 []).2.2.1 999 [93] (by decide)
      (by decide)).2,
    by decide, by decide,
    ((C19_dangling_point false [49] (bytes "e5") (by decide) (by decide) (by decide)
      (.element true) _ _
      (At.array .top [] [] [] (At.top [] (by simp [IsWs])) rfl (by simp [IsWs])) rfl
      [32] (by intro c hc; simp at hc; subst hc; decide) 0 0 []).2.2.2.1 5 [] (by decide)
      (by decide)).2 (by intro c hc; simp at hc)⟩

/-- C16: a text made of white space, one complete value (a text that `m_ingestValue` reads to
its end as one value), white space and then a byte `c` that is not white space is refused by
`decode` with the error "Extraneous content" whose position is the offset of `c`, the first
byte after the value that is not white space; the calls for the value have been made by then.
The value ends where its text ends: when it is a number and no white space follows it, `c` is
not a byte that continues a number (a digit, a decimal point, `e` or `E`).  The same value with
only white space around it is accepted, with exactly the calls of the value. -/
theorem C16_trailing_content (ws0 body ws1 : List Nat) (c : Nat) (tail : List Nat)
    (hws0 : IsWs ws0) (hws1 : IsWs ws1) (hbody : completeValue body = true)
    (hc : isspace c = false)
    (hsep : startsNumber body = true → ws1 = [] →
      isdigit c = false ∧ c ≠ 46 ∧ c ≠ 101 ∧ c ≠ 69) :
    decode (ws0 ++ body ++ ws1 ++ c :: tail) =
        .error (.DecodeError .extraneousContent (ws0.length + body.length + ws1.length),
          ⟨(ws0 ++ body ++ ws1 ++ c :: tail).length, c :: tail, valueEvents body⟩) ∧
      decode (ws0 ++ body ++ ws1) = .ok (valueEvents body) := by
  have hspace : ∀ x, isspace x = true → isdigit x = false ∧ x ≠ 46 ∧ x ≠ 101 ∧ x ≠ 69 := by
    intro x hx
    simp only [isspace, Bool.or_eq_true, Bool.and_eq_true, decide_eq_true_eq] at hx
    simp only [isdigit, Bool.and_eq_false_iff, decide_eq_false_iff_not]
    omega
  have hdrop1 : ws1.dropWhile isspace = [] := by
    rw [List.dropWhile_eq_nil_iff]
    exact hws1
  have hdrop : (ws1 ++ c :: tail).dropWhile isspace = c :: tail := by
    rw [(span_append isspace ws1 (c :: tail) (by simpa using hc)).2, hdrop1, List.nil_append]
  constructor
  · have h := decode_after_value ws0 body (ws1 ++ c :: tail) hws0 hbody (by
      intro hnum
      cases hw : ws1 with
      | nil =>
        intro x hx
        simp only [List.nil_append, List.head?_cons, Option.mem_def, Option.some.injEq] at hx
        subst hx
        exact hsep hnum hw
      | cons a b =>
        intro x hx
        simp only [List.cons_append, List.head?_cons, Option.mem_def, Option.some.injEq] at hx
        subst hx
        exact hspace _ (hws1 _ (by rw [hw]; simp)))
    rw [hdrop, if_pos (by simp)] at h
    rw [List.append_assoc (ws0 ++ body), h]
    congr 3
    simp only [List.length_append, List.length_cons]
    omega
  · have h := decode_after_value ws0 body ws1 hws0 hbody (by
      intro _
      cases hw : ws1 with
      | nil => simp [NumberEnd]
      | cons a b =>
        intro x hx
        simp only [List.head?_cons, Option.mem_def, Option.some.injEq] at hx
        subst hx
        exact hspace _ (hws1 _ (by rw [hw]; simp)))
    rw [hdrop1, if_neg (by simp)] at h
    exact h

/-- The text ` 12xy` is refused at offset 3, after the call for the integer 12, and ` 12` is
accepted. -/
theorem C16_trailing_content_witness :
    IsWs [32] ∧ completeValue (bytes "12") = true ∧ isspace 120 = false ∧
      valueEvents (bytes "12") = [.val_int64 12] ∧
      decode ([32] ++ bytes "12" ++ [] ++ 120 :: [121]) =
        .error (.DecodeError .extraneousContent
            (([32] : List Nat).length + (bytes "12").length + ([] : List Nat).length),
          ⟨([32] ++ bytes "12" ++ [] ++ 120 :: [121]).length, 120 :: [121],
            valueEvents (bytes "12")⟩) ∧
      decode ([32] ++ bytes "12" ++ []) = .ok (valueEvents (bytes "12")) :=
  ⟨by simp [IsWs, isspace], by decide, by decide, by decide,
    C16_trailing_content [32] (bytes "12") [] 120 [121] (by simp [IsWs, isspace])
      (by simp [IsWs]) (by decide) (by decide) (fun _ _ => by decide)⟩

/-! ## Strings the decoder refuses -/

/-- Wherever a string may stand in a text (as a value or as a key, after a well-formed
start `pre` of a document): when the text after the opening quote does not start with the
body of a string token followed by a quote (the string is not terminated by a closing quote
before the end of the text), `decode` throws a `DecodeError` ("Expected end quote" at the end
of the text when only valid pieces follow the opening quote); when, after valid pieces, a byte
that is not printable ASCII (a control character, `0x7F`, or `0x80` and above) follows
unescaped, `decode` throws "Unknown string content" at the offset of that byte; when a
backslash is followed by a byte other than the quote, the backslash, the slash, `b`, `f`, `n`,
`r`, `t` and `u`, `decode` throws "Unknown escape sequence" at the offset of that byte.  The
valid pieces are the bytes `decode` examines one by one; the four bytes after a `\u` are not
among them when they are not four hexadecimal digits. -/
theorem string_errors_after_valid_pieces (k : Place) (pre : List Nat) (evs : List Event) (hat : At k pre evs)
    (content : List Piece) (hvalid : ∀ p ∈ content, p.valid = true) :
    (∀ tail : List Nat, (¬ ∃ body r, StringBody body ∧ tail = body ++ 34 :: r) →
        ∃ msg pos d1, decode (pre ++ 34 :: tail) = .error (.DecodeError msg pos, d1)) ∧
      decode (pre ++ 34 :: ((content.map Piece.text).flatten ++ [])) =
        .error (.DecodeError .expectedEndQuote
            (pre.length + 1 + (content.map Piece.text).flatten.length),
          ⟨pre.length + 1 + (content.map Piece.text).flatten.length, [], evs⟩) ∧
      (∀ (c : Nat) (rest : List Nat), isprint c = false →
        decode (pre ++ 34 :: ((content.map Piece.text).flatten ++ c :: rest)) =
          .error (.DecodeError .unknownStringContent
              (pre.length + 1 + (content.map Piece.text).flatten.length),
            ⟨(pre ++ 34 :: ((content.map Piece.text).flatten ++ c :: rest)).length, c :: rest,
              evs⟩)) ∧
      ∀ (c : Nat) (rest : List Nat), c ∉ [34, 92, 47, 98, 102, 110, 114, 116, 117] →
        decode (pre ++ 34 :: ((content.map Piece.text).flatten ++ 92 :: c :: rest)) =
          .error (.DecodeError .unknownEscapeSequence
              (pre.length + 1 + (content.map Piece.text).flatten.length + 1),
            ⟨(pre ++ 34 :: ((content.map Piece.text).flatten ++ 92 :: c :: rest)).length, rest,
              evs⟩) := by
  have hs : ∀ body : List Nat, StartsToken (34 :: body) :=
    fun body => startsToken_cons 34 body (by decide)
  have hmain : ∀ (tail : List Nat) (msg : Message) (back : Nat) (r : List Nat),
      (∀ (sz fuel : Nat) (evs : List Event) (buffer : List Nat), tail.length + 1 ≤ fuel →
        DecodeHelper.m_consumeString_loop fuel ⟨sz, tail, evs⟩ buffer =
          .error (.DecodeError msg (sz - back), ⟨sz, r, evs⟩)) →
      decode (pre ++ 34 :: ((content.map Piece.text).flatten ++ tail)) =
        .error (.DecodeError msg
          ((pre ++ 34 :: ((content.map Piece.text).flatten ++ tail)).length - back),
          ⟨(pre ++ 34 :: ((content.map Piece.text).flatten ++ tail)).length, r, evs⟩) := by
    intro tail msg back r h
    have := decode_fails_at k pre evs hat _ msg back r [] (hs _)
      (failsAt_string k _ msg back r (m_consumeString_fails content hvalid tail msg back r h))
    simpa using this
  refine ⟨?_, ?_, ?_, ?_⟩
  · intro tail hu
    obtain ⟨msg, back, r, h⟩ := loop_fails_unterminated tail.length tail (le_refl _) hu
    have := decode_fails_at k pre evs hat _ msg back r [] (hs tail)
      (failsAt_string k tail msg back r (fun sz evs => by
        have := m_consumeString_fails [] (by simp) tail msg back r h sz evs
        simpa using this))
    exact ⟨msg, _, _, this⟩
  · rw [hmain [] .expectedEndQuote 0 [] (fun sz fuel evs buffer hf =>
      loop_fails_end sz fuel evs buffer hf)]
    simp only [List.append_nil, List.length_append, List.length_cons, Nat.sub_zero]
    congr 3 <;> omega
  · intro c rest hc
    rw [hmain (c :: rest) .unknownStringContent (rest.length + 1) (c :: rest)
      (fun sz fuel evs buffer hf => loop_fails_content c rest hc sz fuel evs buffer hf)]
    congr 3
    simp only [List.length_append, List.length_cons]
    omega
  · intro c rest hc
    rw [hmain (92 :: c :: rest) .unknownEscapeSequence (rest.length + 1) rest
      (fun sz fuel evs buffer hf => loop_fails_escape c rest hc sz fuel evs buffer hf)]
    congr 3
    simp only [List.length_append, List.length_cons]
    omega

/-- The array `["a` followed by the byte `0x01`: the string is refused at offset 3, after the
call for the array. -/
theorem string_errors_after_valid_pieces_example :
    At (.element true) ([] ++ 91 :: []) ([] ++ [.array]) ∧
      (∀ p ∈ [Piece.plain 97], p.valid = true) ∧ isprint 1 = false ∧
      decode (([] ++ 91 :: []) ++ 34 :: ((([Piece.plain 97]).map Piece.text).flatten ++
          1 :: [34, 93])) =
        .error (.DecodeError .unknownStringContent
            (([] ++ 91 :: [] : List Nat).length + 1 +
              (([Piece.plain 97]).map Piece.text).flatten.length),
          ⟨(([] ++ 91 :: []) ++ 34 :: ((([Piece.plain 97]).map Piece.text).flatten ++
            1 :: [34, 93])).length, 1 :: [34, 93], [] ++ [.array]⟩) :=
  ⟨At.array .top [] [] [] (At.top [] (by simp [IsWs])) rfl (by simp [IsWs]), by decide,
    by decide,
    (string_errors_after_valid_pieces (.element true) ([] ++ 91 :: []) ([] ++ [.array])
      (At.array .top [] [] [] (At.top [] (by simp [IsWs])) rfl (by simp [IsWs]))
      [Piece.plain 97] (by decide)).2.2.1 1 [34, 93] (by decide)⟩

/-- C21 (the code on the failing inputs): `m_consumeUnicode` skips the four bytes after `\u`
as soon as `std::from_chars` has read one hexadecimal digit from them, so the bytes among
these four are never examined.  The string `"\u00`, two bytes `0x01`, `"` is accepted as the
byte 0 although it contains unescaped control characters, likewise with the bytes `0xC8` and
`0x7F` in their place; `"\u00\q"` is accepted although a backslash is followed by `q`; inside
an array, `"a\u7`, a line feed, the byte 0, the byte `0x1F`, `b"` is accepted as `a`, the byte
7, `b`.  Outside the four bytes after `\u` the same bytes are refused. -/
theorem C21_bytes_inside_unicode_accepted :
    decode (bytes "\"\\u00" ++ [1, 1] ++ bytes "\"") = .ok [.val_string [0]] ∧
      decode (bytes "\"\\u00" ++ [200, 127] ++ bytes "\"") = .ok [.val_string [0]] ∧
      decode (bytes "\"\\u00\\q\"") = .ok [.val_string [0]] ∧
      decode (bytes "[\"a\\u7" ++ [10, 0, 31] ++ bytes "b\"]") =
        .ok [.array, .val_string [97, 7, 98], .end_] ∧
      decode (bytes "\"" ++ [1, 1] ++ bytes "\"") =
        .error (.DecodeError .unknownStringContent 1, ⟨4, [1, 1, 34], []⟩) ∧
      decode (bytes "\"" ++ [127] ++ bytes "\"") =
        .error (.DecodeError .unknownStringContent 1, ⟨3, [127, 34], []⟩) ∧
      decode (bytes "\"\\q\"") =
        .error (.DecodeError .unknownEscapeSequence 2, ⟨4, [34], []⟩) := by
  decide

/-- C22: wherever a string may stand in a text, after valid pieces of content, an escape
`\uXXXX` made of four hexadecimal digits whose value is `0x80` or more makes `decode` throw
"Non-ASCII unicode is unsupported" at the offset of the first of the four digits; an escape
whose value is below `0x80` is accepted, as the byte of that value: with valid pieces around it
the string is read by `m_consumeString` wherever it stands, and accepted by `decode` as a
whole text. -/
theorem C22_unicode_value (k : Place) (pre : List Nat) (evs : List Event) (hat : At k pre evs)
    (content : List Piece) (hvalid : ∀ p ∈ content, p.valid = true) (h1 h2 h3 h4 : Nat)
    (x1 : isxdigit h1 = true) (x2 : isxdigit h2 = true) (x3 : isxdigit h3 = true)
    (x4 : isxdigit h4 = true) :
    (128 ≤ unicodeValue h1 h2 h3 h4 → ∀ rest : List Nat,
        decode (pre ++ 34 :: ((content.map Piece.text).flatten ++
            92 :: 117 :: h1 :: h2 :: h3 :: h4 :: rest)) =
          .error (.DecodeError .nonAsciiUnicode
              (pre.length + 1 + (content.map Piece.text).flatten.length + 2),
            ⟨(pre ++ 34 :: ((content.map Piece.text).flatten ++
                92 :: 117 :: h1 :: h2 :: h3 :: h4 :: rest)).length,
              h1 :: h2 :: h3 :: h4 :: rest, evs⟩)) ∧
      (unicodeValue h1 h2 h3 h4 < 128 →
        ∀ after : List Piece, (∀ p ∈ after, p.valid = true) →
          (∀ (sz : Nat) (rest : List Nat) (evs1 : List Event),
            DecodeHelper.m_consumeString
                ⟨sz, stringToken (content ++ .unicode h1 h2 h3 h4 :: after) ++ rest, evs1⟩ =
              .ok (content.map Piece.byte ++ unicodeValue h1 h2 h3 h4 :: after.map Piece.byte,
                ⟨sz, rest, evs1⟩)) ∧
          decode (stringToken (content ++ .unicode h1 h2 h3 h4 :: after)) =
            .ok [.val_string
              (content.map Piece.byte ++ unicodeValue h1 h2 h3 h4 :: after.map Piece.byte)]) := by
  constructor
  · intro hv rest
    have h := m_consumeString_fails content hvalid
      (92 :: 117 :: h1 :: h2 :: h3 :: h4 :: rest) .nonAsciiUnicode (rest.length + 4)
      (h1 :: h2 :: h3 :: h4 :: rest)
      (fun sz fuel evs buffer hf =>
        loop_fails_unicode_value h1 h2 h3 h4 rest x1 x2 x3 x4 hv sz fuel evs buffer hf)
    have := decode_fails_at k pre evs hat _ .nonAsciiUnicode (rest.length + 4)
      (h1 :: h2 :: h3 :: h4 :: rest) [] (startsToken_cons 34 _ (by decide))
      (failsAt_string k _ _ _ _ h)
    rw [List.append_nil] at this
    rw [this]
    congr 3
    simp only [List.length_append, List.length_cons]
    omega
  · intro hv after hafter
    have hall : ∀ p ∈ content ++ .unicode h1 h2 h3 h4 :: after, p.valid = true := by
      intro p hp
      rcases List.mem_append.mp hp with h | h
      · exact hvalid p h
      · rcases List.mem_cons.mp h with h | h
        · subst h
          simp [Piece.valid, x1, x2, x3, x4, hv]
        · exact hafter p h
    refine ⟨fun sz rest evs1 => ?_, ?_⟩
    · have := DecodeHelper.m_consumeString_token _ hall sz rest evs1
      simpa [Piece.byte] using this
    · have := decode_stringToken _ hall
      simpa [Piece.byte] using this

/-- In `"a\u0080"` the escape is refused at offset 4; `\u007f` is accepted. -/
theorem C22_unicode_value_witness :
    At .top [] [] ∧ (∀ p ∈ [Piece.plain 97], p.valid = true) ∧
      ([] ++ 34 :: ((([Piece.plain 97]).map Piece.text).flatten ++
        92 :: 117 :: 48 :: 48 :: 56 :: 48 :: [34])) = bytes "\"a\\u0080\"" ∧
      128 ≤ unicodeValue 48 48 56 48 ∧
      decode ([] ++ 34 :: ((([Piece.plain 97]).map Piece.text).flatten ++
          92 :: 117 :: 48 :: 48 :: 56 :: 48 :: [34])) =
        .error (.DecodeError .nonAsciiUnicode
            (([] : List Nat).length + 1 + (([Piece.plain 97]).map Piece.text).flatten.length + 2),
          ⟨([] ++ 34 :: ((([Piece.plain 97]).map Piece.text).flatten ++
              92 :: 117 :: 48 :: 48 :: 56 :: 48 :: [34])).length,
            48 :: 48 :: 56 :: 48 :: [34], []⟩) :=
  ⟨At.top [] (by simp [IsWs]), by decide, by decide, by decide,
    (C22_unicode_value .top [] [] (At.top [] (by simp [IsWs])) [Piece.plain 97] (by decide)
      48 48 56 48 (by decide) (by decide) (by decide) (by decide)).1 (by decide) [34]⟩

/-- C23: the text `"\u00zz"`, in which only two of the four characters after `\u` are
hexadecimal digits, is accepted: `std::from_chars` reads the digits `00`, `m_consumeUnicode`
does not check that it read four, and `zz` is skipped; likewise `"\u1xyz"` is accepted as the
byte 1.  When the first character is no hexadecimal digit, or fewer than four characters
follow, `decode` throws. -/
theorem C23_unicode_prefix_accepted :
    decode (bytes "\"\\u00zz\"") = .ok [.val_string [0]] ∧
      decode (bytes "\"\\u1xyz\"") = .ok [.val_string [1]] ∧
      decode (bytes "\"\\uzz00\"") =
        .error (.DecodeError .invalidUnicode 3, ⟨8, bytes "zz00\"", []⟩) ∧
      decode (bytes "\"\\u00") =
        .error (.DecodeError .expectedFourDigits 3, ⟨5, bytes "00", []⟩) := by
  decide

/-! ## Separators, keys and literals -/

/-- C24: a comma followed, after white space, by the closing `]` of the array makes `decode`
throw ("Unknown value") at the offset of that `]`, and a comma followed by the closing brace of
the object makes it throw ("Expected key") at the offset of that brace; a complete element or
member followed, after white space, by a byte that is neither a comma nor the closing bracket
makes `decode` throw ("Expected `,`") at the offset of that byte.  An element or a value that
is a number ends where its text ends: the byte right behind it does not continue a number. -/
theorem C24_separators :
    (∀ (pre : List Nat) (evs : List Event), At (.element false) pre evs → ∀ rest : List Nat,
        decode (pre ++ 93 :: rest) =
          .error (.DecodeError .unknownValue pre.length,
            ⟨(pre ++ 93 :: rest).length, 93 :: rest, evs⟩)) ∧
      (∀ (pre : List Nat) (evs : List Event), At (.member false) pre evs → ∀ rest : List Nat,
        decode (pre ++ 125 :: rest) =
          .error (.DecodeError .expectedKey pre.length,
            ⟨(pre ++ 125 :: rest).length, 125 :: rest, evs⟩)) ∧
      (∀ (first : Bool) (pre : List Nat) (evs : List Event), At (.element first) pre evs →
        ∀ (v w : List Nat) (c : Nat) (rest : List Nat), completeValue v = true → IsWs w →
          isspace c = false → c ≠ 44 → c ≠ 93 →
          (startsNumber v = true → w = [] → isdigit c = false ∧ c ≠ 46 ∧ c ≠ 101 ∧ c ≠ 69) →
          decode (pre ++ (v ++ (w ++ c :: rest))) =
            .error (.DecodeError (.expected 44) (pre.length + v.length + w.length),
              ⟨(pre ++ (v ++ (w ++ c :: rest))).length, c :: rest, evs ++ valueEvents v⟩)) ∧
      ∀ (first : Bool) (pre : List Nat) (evs : List Event), At (.member first) pre evs →
        ∀ (content : List Piece) (w1 w2 v w3 : List Nat) (c : Nat) (rest : List Nat),
          content ≠ [] → (∀ p ∈ content, p.valid = true) → IsWs w1 → IsWs w2 →
          completeValue v = true → IsWs w3 → isspace c = false → c ≠ 44 → c ≠ 125 →
          (startsNumber v = true → w3 = [] → isdigit c = false ∧ c ≠ 46 ∧ c ≠ 101 ∧ c ≠ 69) →
          decode (pre ++ (stringToken content ++ (w1 ++ 58 :: (w2 ++ (v ++ (w3 ++ c :: rest)))))) =
            .error (.DecodeError (.expected 44)
                (pre.length + (stringToken content).length + w1.length + 1 + w2.length +
                  v.length + w3.length),
              ⟨(pre ++ (stringToken content ++
                  (w1 ++ 58 :: (w2 ++ (v ++ (w3 ++ c :: rest)))))).length, c :: rest,
                evs ++ .key (content.map Piece.byte) :: valueEvents v⟩) := by
  refine ⟨?_, ?_, ?_, ?_⟩
  · intro pre evs hat rest
    have hf := failsValue_unknown 93 rest (by decide)
    have := decode_fails_at _ pre evs hat _ _ _ _ [] (startsToken_cons 93 rest (by decide))
      ⟨failsElements_value _ _ _ _ _ hf, fun h => by cases h⟩
    rw [List.append_nil] at this
    rw [this]
    congr 3
    simp only [List.length_append, List.length_cons]
    omega
  · intro pre evs hat rest
    have := decode_fails_at _ pre evs hat _ _ _ _ [] (startsToken_cons 125 rest (by decide))
      ⟨failsMembers_unquoted 125 rest (by decide), fun h => by cases h⟩
    rw [List.append_nil] at this
    rw [this]
    congr 3
    simp only [List.length_append, List.length_cons]
    omega
  · intro first pre evs hat v w c rest hv hw hc h44 h93 hsep
    have h93v : first = true → (v ++ (w ++ c :: rest)).head? ≠ some 93 := by
      intro _
      obtain ⟨a, t, rfl, _, ha, _⟩ := completeValue_first v hv
      simpa using ha
    have := decode_fails_at _ pre evs hat _ _ _ _ _ (startsToken_value v _ hv)
      ⟨failsElements_separator v w c rest hv hw hc h44 h93 hsep, h93v⟩
    rw [this]
    congr 3
    simp only [List.length_append, List.length_cons]
    omega
  · intro first pre evs hat content w1 w2 v w3 c rest hne hvalid hw1 hw2 hv hw3 hc h44 h125 hsep
    have := decode_fails_at _ pre evs hat _ _ _ _ _
      (by rw [stringToken_cons]; exact startsToken_cons 34 _ (by decide))
      ⟨failsMembers_separator content w1 w2 v w3 c rest hne hvalid hw1 hw2 hv hw3 hc h44 h125
        hsep, fun _ => by rw [stringToken_cons]; simp⟩
    rw [this]
    congr 3
    simp only [List.length_append, List.length_cons]
    omega

/-- The text `[1,]` is refused at offset 3, the offset of the `]`. -/
theorem C24_separators_witness :
    At (.element false) ((([] ++ 91 :: []) ++ [49]) ++ [] ++ 44 :: [])
        (([] ++ [.array]) ++ valueEvents [49]) ∧
      ((([] ++ 91 :: []) ++ [49]) ++ [] ++ 44 :: []) ++ 93 :: [] = bytes "[1,]" ∧
      decode (((([] ++ 91 :: []) ++ [49]) ++ [] ++ 44 :: []) ++ 93 :: []) =
        .error (.DecodeError .unknownValue
            ((([] ++ 91 :: []) ++ [49]) ++ [] ++ 44 :: [] : List Nat).length,
          ⟨(((([] ++ 91 :: []) ++ [49]) ++ [] ++ 44 :: []) ++ 93 :: []).length, 93 :: [],
            ([] ++ [.array]) ++ valueEvents [49]⟩) :=
  ⟨At.nextElement true _ _ [49] [] []
      (At.array .top [] [] [] (At.top [] (by simp [IsWs])) rfl (by simp [IsWs])) (by decide)
      (by simp [IsWs]) (by simp [IsWs]),
    by decide,
    C24_separators.1 _ _ (At.nextElement true _ _ [49] [] []
      (At.array .top [] [] [] (At.top [] (by simp [IsWs])) rfl (by simp [IsWs])) (by decide)
      (by simp [IsWs]) (by simp [IsWs])) []⟩

/-- C25: in an object, where a key is expected (after the opening brace, or after a member
and a comma): a key that is the empty string makes `decode` throw "Key is empty"; a byte other
than a quote (and, right after the opening brace, other than the closing brace) makes it throw
"Expected key"; a key that is not followed, after white space, by a colon makes it throw
"Expected `:`".  When the key is empty or not quoted, no `key` call is made for the member: the
calls made are those for the text before it. -/
theorem C25_keys (first : Bool) (pre : List Nat) (evs : List Event)
    (hat : At (.member first) pre evs) :
    (∀ rest : List Nat,
        decode (pre ++ 34 :: 34 :: rest) =
          .error (.DecodeError .keyIsEmpty (pre.length + 2),
            ⟨(pre ++ 34 :: 34 :: rest).length, rest, evs⟩)) ∧
      (∀ (c : Nat) (rest : List Nat), isspace c = false → c ≠ 34 →
        (first = true → c ≠ 125) →
        decode (pre ++ c :: rest) =
          .error (.DecodeError .expectedKey pre.length,
            ⟨(pre ++ c :: rest).length, c :: rest, evs⟩)) ∧
      ∀ (content : List Piece) (w rest : List Nat), content ≠ [] →
        (∀ p ∈ content, p.valid = true) → IsWs w → StartsToken rest → rest.head? ≠ some 58 →
        decode (pre ++ (stringToken content ++ (w ++ rest))) =
          .error (.DecodeError (.expected 58)
              (pre.length + (stringToken content).length + w.length),
            ⟨(pre ++ (stringToken content ++ (w ++ rest))).length, rest,
              evs ++ [.key (content.map Piece.byte)]⟩) := by
  refine ⟨?_, ?_, ?_⟩
  · intro rest
    have := decode_fails_at _ pre evs hat _ _ _ _ [] (startsToken_cons 34 _ (by decide))
      ⟨failsMembers_emptyKey rest, fun _ => by simp⟩
    rw [List.append_nil] at this
    rw [this]
    congr 3
    simp only [List.length_append, List.length_cons]
    omega
  · intro c rest hc h34 h125
    have := decode_fails_at _ pre evs hat _ _ _ _ [] (startsToken_cons c rest hc)
      ⟨failsMembers_unquoted c rest h34, fun h => by simpa using h125 h⟩
    rw [List.append_nil] at this
    rw [this]
    congr 3
    simp only [List.length_append, List.length_cons]
    omega
  · intro content w rest hne hvalid hw hs h58
    have := decode_fails_at _ pre evs hat _ _ _ _ _
      (by rw [stringToken_cons]; exact startsToken_cons 34 _ (by decide))
      ⟨failsMembers_noColon content w rest hne hvalid hw hs h58,
        fun _ => by rw [stringToken_cons]; simp⟩
    rw [this]
    congr 3
    simp only [List.length_append, List.length_cons]
    omega

/-- The text `{"":1}` is refused with "Key is empty" at offset 3, after the call for the
object alone. -/
theorem C25_keys_witness :
    At (.member true) ([] ++ 123 :: []) ([] ++ [.object]) ∧
      ([] ++ 123 :: []) ++ 34 :: 34 :: [58, 49, 125] = bytes "\x7b\"\":1\x7d" ∧
      decode (([] ++ 123 :: []) ++ 34 :: 34 :: [58, 49, 125]) =
        .error (.DecodeError .keyIsEmpty (([] ++ 123 :: [] : List Nat).length + 2),
          ⟨(([] ++ 123 :: []) ++ 34 :: 34 :: [58, 49, 125]).length, [58, 49, 125],
            [] ++ [.object]⟩) :=
  ⟨At.object .top [] [] [] (At.top [] (by simp [IsWs])) rfl (by simp [IsWs]), by decide,
    (C25_keys true _ _
      (At.object .top [] [] [] (At.top [] (by simp [IsWs])) rfl (by simp [IsWs]))).1
      [58, 49, 125]⟩

/-- C27: each of the texts `true`, `false`, `null`, `inf`, `-inf` and `nan`, with white space
around it, is accepted with exactly one call, `val` of the boolean, of null, or of the
`double` `+infinity`, `-infinity` or NaN; a text whose first byte after the white space is
none of the opening brace, `[`, the quote and a digit, is not a `-` followed by a digit, and
that does not begin there with one of the six literals, makes `decode` throw "Unknown value" at
the offset of that byte. -/
theorem C27_literals (ws0 ws1 : List Nat) (hws0 : IsWs ws0) (hws1 : IsWs ws1) :
    decode (ws0 ++ bytes "true" ++ ws1) = .ok [.val_bool true] ∧
      decode (ws0 ++ bytes "false" ++ ws1) = .ok [.val_bool false] ∧
      decode (ws0 ++ bytes "null" ++ ws1) = .ok [.val_null] ∧
      decode (ws0 ++ bytes "inf" ++ ws1) = .ok [.val_double (.infinity false)] ∧
      decode (ws0 ++ bytes "-inf" ++ ws1) = .ok [.val_double (.infinity true)] ∧
      decode (ws0 ++ bytes "nan" ++ ws1) = .ok [.val_double .nan] ∧
      ∀ (c : Nat) (rest : List Nat), isspace c = false → c ≠ 123 → c ≠ 91 → c ≠ 34 →
        isdigit c = false → (c = 45 → ∀ c1 ∈ rest.head?, isdigit c1 = false) →
        ¬ bytes "true" <+: c :: rest → ¬ bytes "false" <+: c :: rest →
        ¬ bytes "null" <+: c :: rest → ¬ bytes "inf" <+: c :: rest →
        ¬ bytes "-inf" <+: c :: rest → ¬ bytes "nan" <+: c :: rest →
        decode (ws0 ++ c :: rest) =
          .error (.DecodeError .unknownValue ws0.length,
            ⟨(ws0 ++ c :: rest).length, c :: rest, []⟩) := by
  have hdrop : ws1.dropWhile isspace = [] := by
    rw [List.dropWhile_eq_nil_iff]
    exact hws1
  have hlit : ∀ (body : List Nat) (evs : List Event), completeValue body = true →
      startsNumber body = false → valueEvents body = evs →
      decode (ws0 ++ body ++ ws1) = .ok evs := by
    intro body evs hb hn he
    rw [decode_after_value ws0 body ws1 hws0 hb (by rw [hn]; intro h; cases h), hdrop,
      if_neg (by simp), he]
  refine ⟨hlit _ _ (by decide) (by decide) (by decide),
    hlit _ _ (by decide) (by decide) (by decide), hlit _ _ (by decide) (by decide) (by decide),
    hlit _ _ (by decide) (by decide) (by decide), hlit _ _ (by decide) (by decide) (by decide),
    hlit _ _ (by decide) (by decide) (by decide), ?_⟩
  intro c rest hc a1 a2 a3 a4 hminus l1 l2 l3 l4 l5 l6
  have hf := failsValue_noLiteral c rest ⟨a1, a2, a3, a4⟩ hminus ⟨l1, l2, l3, l4, l5, l6⟩
  have := decode_fails_at .top ws0 [] (At.top ws0 hws0) _ _ _ _ [] (startsToken_cons c rest hc)
    hf
  rw [this]
  congr 3
  simp only [List.length_append, List.length_cons]
  omega

/-- With a blank before and a newline after, `-inf` is accepted as the `double` minus
infinity. -/
theorem C27_literals_witness :
    IsWs [32] ∧ IsWs [10] ∧
      decode ([32] ++ bytes "-inf" ++ [10]) = .ok [.val_double (.infinity true)] :=
  ⟨by simp [IsWs, isspace], by simp [IsWs, isspace],
    (C27_literals [32] [10] (by simp [IsWs, isspace]) (by simp [IsWs, isspace])).2.2.2.2.1⟩

/-- C28: `Encoder::m_encode(double)` writes the text `t` of the number formatter
(`std::to_chars`, whose text never starts with `.` or `e`) with the suffix `.0` exactly when
`t` ends in a digit and contains neither a `.` nor the exponent marker `e`, and writes `t`
itself otherwise: `18` becomes `18.0`, `0` becomes `0.0`, `-7` becomes `-7.0`; `1e+22` and
`5.45` are unchanged; `inf`, `-inf` and `nan` are written unchanged, without suffix. -/
theorem C28_double_token (e : Encoder) (t : List Nat)
    (hfirst : ∀ c ∈ t.head?, c ≠ 46 ∧ c ≠ 101) :
    ((∃ c, t.getLast? = some c ∧ isdigit c = true) → 46 ∉ t → 101 ∉ t →
        Encoder.m_encode_double e t = e.put (t ++ [46, 48])) ∧
      (¬ ((∃ c, t.getLast? = some c ∧ isdigit c = true) ∧ 46 ∉ t ∧ 101 ∉ t) →
        Encoder.m_encode_double e t = e.put t) ∧
      Encoder.m_encode_double e (bytes "18") = e.put (bytes "18.0") ∧
      Encoder.m_encode_double e (bytes "0") = e.put (bytes "0.0") ∧
      Encoder.m_encode_double e (bytes "-7") = e.put (bytes "-7.0") ∧
      Encoder.m_encode_double e (bytes "1e+22") = e.put (bytes "1e+22") ∧
      Encoder.m_encode_double e (bytes "5.45") = e.put (bytes "5.45") ∧
      Encoder.m_encode_double e (bytes "inf") = e.put (bytes "inf") ∧
      Encoder.m_encode_double e (bytes "-inf") = e.put (bytes "-inf") ∧
      Encoder.m_encode_double e (bytes "nan") = e.put (bytes "nan") := by
  have key : ∀ c, t.getLast? = some c → isdigit c = true →
      (Encoder.needsDecimal t = true ↔ 46 ∉ t ∧ 101 ∉ t) := by
    intro c hc hd
    apply needsDecimal_iff t hfirst
    intro c1 hc1
    have : c1 = c := by
      rw [Option.mem_def, hc] at hc1
      exact (Option.some.inj hc1).symm
    subst this
    have := isdigit_not_mark c1 hd
    exact ⟨this.1, this.2.1⟩
  refine ⟨?_, ?_, rfl, rfl, rfl, rfl, rfl, rfl, rfl, rfl⟩
  · rintro ⟨c, hc, hd⟩ h46 h101
    have h1 : isdigit (t.getLastD 0) = true := (isdigit_getLastD t).mpr ⟨c, hc, hd⟩
    have h2 : Encoder.needsDecimal t = true := (key c hc hd).mpr ⟨h46, h101⟩
    simp only [Encoder.m_encode_double, h1, h2, Bool.and_self, if_true]
  · intro hno
    by_cases h1 : isdigit (t.getLastD 0) = true
    · obtain ⟨c, hc, hd⟩ := (isdigit_getLastD t).mp h1
      have h2 : ¬ Encoder.needsDecimal t = true := fun h =>
        hno ⟨⟨c, hc, hd⟩, (key c hc hd).mp h⟩
      simp only [Encoder.m_encode_double, h1, h2, Bool.true_and, Bool.false_eq_true, if_false]
    · simp only [Encoder.m_encode_double, h1, Bool.false_and, Bool.false_eq_true, if_false]

theorem C28_double_token_witness :
    (∀ c ∈ (bytes "9007199254740991").head?, c ≠ 46 ∧ c ≠ 101) ∧
      Encoder.m_encode_double Encoder.fresh (bytes "9007199254740991") =
        Encoder.fresh.put (bytes "9007199254740991" ++ [46, 48]) :=
  ⟨by decide,
    (C28_double_token Encoder.fresh (bytes "9007199254740991") (by decide)).1
      ⟨49, by decide, by decide⟩ (by decide) (by decide)⟩

/-- C30 (counterexample): for the doubles 18 and 0 the encoder writes `18.0` and `0.0`, and
`decode` reports each of them through the signed 64-bit integer `val`: the composer's `double`
`val` is not called. -/
theorem C30_counterexample :
    encode [.val (.double (bytes "18"))] = .ok (bytes "18.0") ∧
      decode (bytes "18.0") = .ok [.val_int64 18] ∧
      encode [.val (.double (bytes "0"))] = .ok (bytes "0.0") ∧
      decode (bytes "0.0") = .ok [.val_int64 0] := by
  decide

set_option exponentiation.threshold 2048 in
/-- C30 (amended): the token the Encoder writes for a whole-valued double whose shortest text
is an integer token (an optional `-`, then digits) is that text with `.0` appended, and the
decoder reads it back as a floater, calling the composer's `double` `val`, only when the
integer is outside both 64-bit ranges (and below `2^1024 - 2^970` in magnitude, so that it is
finite); when the integer is in the signed 64-bit range the composer's signed integer `val`
is called with it, and when it is in `2^63 .. 2^64 - 1` without a `-`, the unsigned integer
`val`. -/
theorem C30_whole_double_read_back (neg : Bool) (ds : List Nat) (hne : ds ≠ [])
    (hds : ∀ c ∈ ds, isdigit c = true) :
    encode [.val (.double (integerToken neg ds))] = .ok (integerToken neg ds ++ [46, 48]) ∧
      ((integerValue neg ds < -(2 ^ 63) ∨ 2 ^ 64 - 1 < integerValue neg ds) →
        digitsValue ds < 2 ^ 1024 - 2 ^ 970 →
        decode (integerToken neg ds ++ [46, 48]) =
          .ok [.val_double (.decimal neg (10 * digitsValue ds) (-1))]) ∧
      (-(2 ^ 63) ≤ integerValue neg ds → integerValue neg ds ≤ 2 ^ 63 - 1 →
        decode (integerToken neg ds ++ [46, 48]) = .ok [.val_int64 (integerValue neg ds)]) ∧
      (neg = false → 2 ^ 63 ≤ integerValue neg ds → integerValue neg ds ≤ 2 ^ 64 - 1 →
        decode (integerToken neg ds ++ [46, 48]) = .ok [.val_uint64 (integerValue neg ds)]) := by
  obtain ⟨d0, dt, rfl⟩ : ∃ d0 dt, ds = d0 :: dt := by
    cases ds with
    | nil => exact absurd rfl hne
    | cons a b => exact ⟨a, b, rfl⟩
  have hstart : (integerToken neg (d0 :: dt) ++ [46, 48]).dropWhile isspace =
      integerToken neg (d0 :: dt) ++ [46, 48] := by
    have hd0 : isspace d0 = false := by
      have := hds d0 (by simp)
      simp only [isdigit, Bool.and_eq_true, decide_eq_true_eq] at this
      simp only [isspace, Bool.or_eq_false_iff, Bool.and_eq_false_iff, decide_eq_false_iff_not]
      omega
    cases neg with
    | true =>
      have : isspace 45 = false := by decide
      simp [integerToken, List.dropWhile, this]
    | false => simp [integerToken, List.dropWhile, hd0]
  have hz := fun hr => m_ingestValue_zeros neg d0 dt [48] [] hds
    ⟨by simp, by simp⟩ (by simp) hr (integerToken neg (d0 :: dt) ++ [46, 48]).length
    (integerToken neg (d0 :: dt) ++ [46, 48]).length []
  simp only [List.append_nil, List.nil_append, List.singleton_append] at hz
  refine ⟨?_, ?_, ?_, ?_⟩
  · rw [encode_double]
    simp only [Scalar.token, integerToken_suffixed neg d0 dt hds, if_true]
  · intro hout hfin
    apply decode_of_ingest _ _ hstart
    apply m_ingestValue_point_zero_big neg d0 dt hds _ hfin
    intro hr
    rcases hout with h | h
    · exact absurd hr.1 (by omega)
    · exact absurd hr.2.1 (by omega)
  · intro hlo hhi
    apply decode_of_ingest _ _ hstart
    rw [hz ⟨hlo, by omega, fun _ => hhi⟩, if_pos (by omega)]
  · intro hneg hlo hhi
    apply decode_of_ingest _ _ hstart
    rw [hz ⟨by omega, hhi, fun h => by rw [hneg] at h; exact absurd h (by decide)⟩,
      if_neg (by omega)]

set_option exponentiation.threshold 2048 in
theorem C30_whole_double_read_back_witness :
    bytes "18446744073709551616" ≠ [] ∧
      (∀ c ∈ bytes "18446744073709551616", isdigit c = true) ∧
      integerToken false (bytes "18446744073709551616") ++ [46, 48] =
        bytes "18446744073709551616.0" ∧
      2 ^ 64 - 1 < integerValue false (bytes "18446744073709551616") ∧
      decode (integerToken false (bytes "18446744073709551616") ++ [46, 48]) =
        .ok [.val_double (.decimal false
          (10 * digitsValue (bytes "18446744073709551616")) (-1))] :=
  ⟨by decide, by decide, by decide, by decide,
    (C30_whole_double_read_back false (bytes "18446744073709551616") (by decide)
      (by decide)).2.1 (Or.inr (by decide)) (by decide)⟩

/-- C29 (the class `Number` is modelled from the spec): for every integer type `T` among the
signed and unsigned types of 8, 16, 32 and 64 bits, and every `Number` whose numeric value is
an integer `z` (a `Number` built from a signed integer `v` or from an unsigned integer `v` has
the value `v`; a whole-valued `double` has its own value): `is<T>()` is true exactly when
`min(T) <= z <= max(T)`, so a negative value never fits an unsigned type; the checked
`as<T>()` returns `z` when it fits and throws `TypeError` when it does not; the values
`min(T)` and `max(T)` fit, and `min(T) - 1` and `max(T) + 1` do not.  A `Number` whose value
is not an integer (a `double` with a non-zero fractional part) fits no integer type, and the
checked `as<T>()` throws `TypeError`. -/
theorem C29_integer_fit (T : IntegerType) (n : Number) :
    (∀ z : Int, n.value = z →
        (n.is T = true ↔ T.min ≤ z ∧ z ≤ T.max) ∧
        (T.min ≤ z → z ≤ T.max → n.as T = .ok z) ∧
        (¬ (T.min ≤ z ∧ z ≤ T.max) → n.as T = .error .mk) ∧
        (T.isSigned = false → z < 0 → n.is T = false) ∧
        (z = T.min ∨ z = T.max → n.is T = true ∧ n.as T = .ok z) ∧
        (z = T.min - 1 ∨ z = T.max + 1 → n.is T = false ∧ n.as T = .error .mk)) ∧
      ((¬ ∃ z : Int, n.value = z) → n.is T = false ∧ n.as T = .error .mk) ∧
      ∀ v : Int, (Number.ofSigned v).value = v ∧ (Number.ofUnsigned v).value = v := by
  have hmm := IntegerType.min_le_max T
  have hfit : ∀ z : Int, n.value = z → T.min ≤ z → z ≤ T.max →
      n.is T = true ∧ n.as T = .ok z := by
    intro z hz h1 h2
    obtain ⟨hf, hi⟩ := Number.fitsIn_of_value T n z hz
    have : n.fitsIn T = true := by rw [hf]; simp [h1, h2]
    exact ⟨this, by simp only [Number.as, this, if_true, hi]⟩
  have hno : ∀ z : Int, n.value = z → ¬ (T.min ≤ z ∧ z ≤ T.max) →
      n.is T = false ∧ n.as T = .error .mk := by
    intro z hz h1
    obtain ⟨hf, _⟩ := Number.fitsIn_of_value T n z hz
    have : n.fitsIn T = false := by
      rw [hf]
      by_cases h2 : T.min ≤ z
      · have : ¬ z ≤ T.max := fun h3 => h1 ⟨h2, h3⟩
        simp [this]
      · simp [h2]
    exact ⟨this, by simp only [Number.as, this, Bool.false_eq_true, if_false]⟩
  refine ⟨fun z hz => ⟨?_, ?_, ?_, ?_, ?_, ?_⟩, ?_, ?_⟩
  · constructor
    · intro h
      by_contra hn
      rw [(hno z hz hn).1] at h
      exact absurd h (by decide)
    · intro h
      exact (hfit z hz h.1 h.2).1
  · intro h1 h2
    exact (hfit z hz h1 h2).2
  · intro h
    exact (hno z hz h).2
  · intro hu hneg
    apply (hno z hz _).1
    intro h
    have : T.min = 0 := by simp [IntegerType.min, hu]
    omega
  · intro h
    rcases h with rfl | rfl
    · exact hfit _ hz (le_refl _) hmm
    · exact hfit _ hz hmm (le_refl _)
  · intro h
    apply hno z hz
    rcases h with rfl | rfl <;> omega
  · intro h
    have := Number.fitsIn_of_fraction T n h
    exact ⟨this, by simp only [Number.as, this, Bool.false_eq_true, if_false]⟩
  · intro v
    refine ⟨rfl, ?_⟩
    unfold Number.ofUnsigned
    split <;> rfl

theorem C29_integer_fit_witness :
    (Number.double false 9223372036854775808 0).value = (9223372036854775808 : Int) ∧
      ((Number.double false 9223372036854775808 0).is .int64_t = true ↔
        IntegerType.int64_t.min ≤ (9223372036854775808 : Int) ∧
          (9223372036854775808 : Int) ≤ IntegerType.int64_t.max) ∧
      (Number.double false 9223372036854775808 0).is .int64_t = false ∧
      (Number.double false 9223372036854775808 0).as .int64_t = .error .mk :=
  ⟨by simp [Number.value],
    ((C29_integer_fit .int64_t (.double false 9223372036854775808 0)).1 9223372036854775808
      (by simp [Number.value])).1,
    by decide, by decide⟩

/-- C26: for every text that `decode` accepts, the text is white space, one value and white
space, and the calls made on the composer have the shape of that value (`Shape`): a scalar
token of the text gives exactly one `val` call; an array gives the call `array`, the calls of
its elements in the order of the text, and one `end` call after them; an object gives the
call `object`, then for each member, in the order of the text, one `key` call (with a name
that is not empty) immediately followed by the calls of the one value of the member, and one
`end` call after them.  So every `object` or `array` call is matched by exactly one later
`end` call, the groups are properly nested, `key` calls occur only directly inside an object
group, each right before the one value it names, and `val` is called once per scalar of the
text, in document order. -/
theorem C26_calls_well_nested (json : List Nat) (evs : List Event)
    (h : decode json = .ok evs) :
    ∃ ws0 body ws1, json = ws0 ++ body ++ ws1 ∧ IsWs ws0 ∧ IsWs ws1 ∧
      Shape .value body evs :=
  decode_shape json evs h

set_option exponentiation.threshold 2048 in
set_option maxRecDepth 100000 in
theorem C26_calls_well_nested_witness :
    decode shapeExample =
        .ok [.object, .key (bytes "a"), .array, .val_int64 1, .val_string (bytes "x\"y"),
          .array, .end_, .object, .end_, .end_, .key (bytes "b"),
          .val_double (.decimal true 25 2), .end_] ∧
      ∃ ws0 body ws1, shapeExample = ws0 ++ body ++ ws1 ∧ IsWs ws0 ∧ IsWs ws1 ∧
        Shape .value body
          [.object, .key (bytes "a"), .array, .val_int64 1, .val_string (bytes "x\"y"),
            .array, .end_, .object, .end_, .end_, .key (bytes "b"),
            .val_double (.decimal true 25 2), .end_] :=
  ⟨by decide, C26_calls_well_nested shapeExample _ (by decide)⟩

/-! ## White space, leading zeros -/

/-- C31 (counterexample): the vertical tab (11) and the form feed (12) are in the class of
`std::isspace`, and `decode` accepts a text that has them before, between and after the
tokens of the array `[1,2]`. -/
theorem C31_counterexample :
    isspace 11 = true ∧ isspace 12 = true ∧
      decode [11, 91, 49, 44, 12, 50, 93, 11] =
        .ok [.array, .val_int64 1, .val_int64 2, .end_] := by
  decide

/-- C31 (amended): the bytes the decoder skips as white space between tokens are exactly the
six characters of `std::isspace`: space, horizontal tab, line feed, vertical tab, form feed and
carriage return.  `m_skipWhitespace` stops at any other byte `c`, and `decode` then throws:
where a value is expected and `c` starts none ("Unknown value" at the offset of `c`), where a
key is expected and `c` is neither a quote nor the closing brace ("Expected key"), after an
element or a member when `c` is neither a comma nor the closing bracket ("Expected `,`"), and
after the value of the document ("Extraneous content").  A number ends where its text ends:
right behind it, `c` does not continue a number. -/
theorem C31_whitespace_class (c : Nat) (rest : List Nat) (hc : isspace c = false) :
    (∀ x, isspace x = true ↔ x = 32 ∨ x = 9 ∨ x = 10 ∨ x = 11 ∨ x = 12 ∨ x = 13) ∧
      (∀ (sz : Nat) (ws : List Nat) (calls : List Event), IsWs ws →
        DecodeHelper.m_skipWhitespace ⟨sz, ws ++ c :: rest, calls⟩ = ⟨sz, c :: rest, calls⟩) ∧
      (∀ (k : Place) (pre : List Nat) (evs : List Event), At k pre evs → k.isValue = true →
        c ≠ 123 → c ≠ 91 → c ≠ 34 → isdigit c = false → c ≠ 45 → c ≠ 116 → c ≠ 102 →
        c ≠ 110 → c ≠ 105 → c ≠ 93 →
        decode (pre ++ c :: rest) =
          .error (.DecodeError .unknownValue pre.length,
            ⟨(pre ++ c :: rest).length, c :: rest, evs⟩)) ∧
      (∀ (first : Bool) (pre : List Nat) (evs : List Event), At (.member first) pre evs →
        c ≠ 34 → c ≠ 125 →
        decode (pre ++ c :: rest) =
          .error (.DecodeError .expectedKey pre.length,
            ⟨(pre ++ c :: rest).length, c :: rest, evs⟩)) ∧
      (∀ (first : Bool) (pre : List Nat) (evs : List Event), At (.element first) pre evs →
        ∀ (v w : List Nat), completeValue v = true → IsWs w → c ≠ 44 → c ≠ 93 →
          (startsNumber v = true → w = [] → isdigit c = false ∧ c ≠ 46 ∧ c ≠ 101 ∧ c ≠ 69) →
          decode (pre ++ (v ++ (w ++ c :: rest))) =
            .error (.DecodeError (.expected 44) (pre.length + v.length + w.length),
              ⟨(pre ++ (v ++ (w ++ c :: rest))).length, c :: rest, evs ++ valueEvents v⟩)) ∧
      ∀ (ws0 body ws1 : List Nat), IsWs ws0 → IsWs ws1 → completeValue body = true →
        (startsNumber body = true → ws1 = [] →
          isdigit c = false ∧ c ≠ 46 ∧ c ≠ 101 ∧ c ≠ 69) →
        decode (ws0 ++ body ++ (ws1 ++ c :: rest)) =
          .error (.DecodeError .extraneousContent (ws0.length + body.length + ws1.length),
            ⟨(ws0 ++ body ++ (ws1 ++ c :: rest)).length, c :: rest, valueEvents body⟩) := by
  have hst : StartsToken (c :: rest) := startsToken_cons c rest hc
  refine ⟨isspace_iff, ?_, ?_, ?_, ?_, ?_⟩
  · intro sz ws calls hws
    exact skip_ws_token ws (c :: rest) hws hst sz calls
  · intro k pre evs hat hk a1 a2 a3 a4 a5 a6 a7 a8 a9 h93
    have hf := failsValue_unknown c rest ⟨a1, a2, a3, a4, a5, a6, a7, a8, a9⟩
    have := decode_fails_at k pre evs hat _ _ _ _ [] hst
      (failsAt_value k _ _ _ _ _ hk (by simpa using h93) hf)
    rw [this]
    congr 3
    · simp only [List.length_append, List.length_cons]
      omega
    · simp
  · intro first pre evs hat h34 h125
    have := decode_fails_at _ pre evs hat _ _ _ _ [] hst
      ⟨failsMembers_unquoted c rest h34, fun _ => by simpa using h125⟩
    rw [this]
    congr 3
    · simp only [List.length_append, List.length_cons]
      omega
    · simp
  · intro first pre evs hat v w hv hw h44 h93 hsep
    have h93v : first = true → (v ++ (w ++ c :: rest)).head? ≠ some 93 := by
      intro _
      obtain ⟨a, t, rfl, _, ha, _⟩ := completeValue_first v hv
      simpa using ha
    have := decode_fails_at _ pre evs hat _ _ _ _ _ (startsToken_value v _ hv)
      ⟨failsElements_separator v w c rest hv hw hc h44 h93 hsep, h93v⟩
    rw [this]
    congr 3
    simp only [List.length_append, List.length_cons]
    omega
  · intro ws0 body ws1 hws0 hws1 hbody hsep
    have hspace : ∀ x, isspace x = true → isdigit x = false ∧ x ≠ 46 ∧ x ≠ 101 ∧ x ≠ 69 := by
      intro x hx
      simp only [isspace, Bool.or_eq_true, Bool.and_eq_true, decide_eq_true_eq] at hx
      simp only [isdigit, Bool.and_eq_false_iff, decide_eq_false_iff_not]
      omega
    have hdrop1 : ws1.dropWhile isspace = [] := by
      rw [List.dropWhile_eq_nil_iff]
      exact hws1
    have hdrop : (ws1 ++ c :: rest).dropWhile isspace = c :: rest := by
      rw [(span_append isspace ws1 (c :: rest) (by simpa using hc)).2, hdrop1, List.nil_append]
    have h := decode_after_value ws0 body (ws1 ++ c :: rest) hws0 hbody (by
      intro hnum
      cases hw : ws1 with
      | nil =>
        intro x hx
        simp only [List.nil_append, List.head?_cons, Option.mem_def, Option.some.injEq] at hx
        subst hx
        exact hsep hnum hw
      | cons a b =>
        intro x hx
        simp only [List.cons_append, List.head?_cons, Option.mem_def, Option.some.injEq] at hx
        subst hx
        exact hspace _ (hws1 _ (by rw [hw]; simp)))
    rw [hdrop, if_pos (by simp)] at h
    rw [h]
    congr 3
    simp only [List.length_append, List.length_cons]
    omega

/-- After `[1,` and a vertical tab, the byte 0 is not skipped: it starts no value, and the
text is refused at its offset 4. -/
theorem C31_whitespace_class_witness :
    isspace 0 = false ∧
      At (.element false) (([] ++ 91 :: []) ++ [49] ++ [] ++ 44 :: [11])
        (([] ++ [.array]) ++ valueEvents [49]) ∧
      decode ((([] ++ 91 :: []) ++ [49] ++ [] ++ 44 :: [11]) ++ 0 :: [93]) =
        .error (.DecodeError .unknownValue
            ((([] ++ 91 :: []) ++ [49] ++ [] ++ 44 :: [11] : List Nat)).length,
          ⟨((([] ++ 91 :: []) ++ [49] ++ [] ++ 44 :: [11]) ++ 0 :: [93]).length, 0 :: [93],
            ([] ++ [.array]) ++ valueEvents [49]⟩) :=
  ⟨by decide,
    At.nextElement true _ _ [49] [] [11]
      (At.array .top [] [] [] (At.top [] (by simp [IsWs])) rfl (by simp [IsWs])) (by decide)
      (by simp [IsWs]) (by simp [IsWs, isspace]),
    (C31_whitespace_class 0 [93] (by decide)).2.2.1 (.element false) _ _
      (At.nextElement true _ _ [49] [] [11]
        (At.array .top [] [] [] (At.top [] (by simp [IsWs])) rfl (by simp [IsWs])) (by decide)
        (by simp [IsWs]) (by simp [IsWs, isspace]))
      rfl (by decide) (by decide) (by decide) (by decide) (by decide) (by decide) (by decide)
      (by decide) (by decide) (by decide)⟩

set_option exponentiation.threshold 2048 in
/-- C38: an integer token with leading zeros (an optional `-`, any number of `0`, then the
digits) stands for the same integer as the token without them, and `decode` accepts it and
reports that integer: through the signed `val` when it is in the signed 64-bit range, through
the unsigned `val` when it is in `2^63 .. 2^64 - 1`; whenever the token without the zeros is
accepted, the token with them is accepted with the same call.  `007` gives 7, `-012` gives
-12, and `000` gives 0. -/
theorem C38_leading_zeros (neg : Bool) (k : Nat) (ds : List Nat) (hne : ds ≠ [])
    (hds : ∀ c ∈ ds, isdigit c = true) :
    integerValue neg (List.replicate k 48 ++ ds) = integerValue neg ds ∧
      (-(2 ^ 63) ≤ integerValue neg ds → integerValue neg ds ≤ 2 ^ 63 - 1 →
        decode (integerToken neg (List.replicate k 48 ++ ds)) =
          .ok [.val_int64 (integerValue neg ds)]) ∧
      (neg = false → 2 ^ 63 ≤ integerValue neg ds → integerValue neg ds ≤ 2 ^ 64 - 1 →
        decode (integerToken neg (List.replicate k 48 ++ ds)) =
          .ok [.val_uint64 (integerValue neg ds)]) ∧
      (∀ evs, decode (integerToken neg ds) = .ok evs →
        decode (integerToken neg (List.replicate k 48 ++ ds)) = .ok evs) ∧
      decode (bytes "007") = .ok [.val_int64 7] ∧
      decode (bytes "-012") = .ok [.val_int64 (-12)] ∧
      decode (bytes "000") = .ok [.val_int64 0] := by
  obtain ⟨d0, dt, rfl⟩ : ∃ d0 dt, ds = d0 :: dt := by
    cases ds with
    | nil => exact absurd rfl hne
    | cons a b => exact ⟨a, b, rfl⟩
  obtain ⟨z0, zt, hz⟩ : ∃ z0 zt, List.replicate k 48 ++ d0 :: dt = z0 :: zt := by
    cases k with
    | zero => exact ⟨d0, dt, rfl⟩
    | succ k => exact ⟨48, List.replicate k 48 ++ d0 :: dt, by simp [List.replicate_succ]⟩
  have hzs : ∀ c ∈ z0 :: zt, isdigit c = true := by
    intro c hc
    rw [← hz, List.mem_append] at hc
    rcases hc with hc | hc
    · rw [(List.mem_replicate.mp hc).2]
      decide
    · exact hds c hc
  have hv := integerValue_zeros neg k (d0 :: dt)
  have hdv := digitsValue_zeros k (d0 :: dt)
  have hdec := decode_integerToken neg z0 zt hzs
  rw [← hz, hv, hdv] at hdec
  refine ⟨hv, ?_, ?_, ?_, by decide, by decide, by decide⟩
  · intro hlo hhi
    rw [hdec, if_pos ⟨hlo, by omega, fun _ => hhi⟩, if_pos (by omega)]
  · intro hneg hlo hhi
    rw [hdec, if_pos ⟨by omega, hhi, fun h => by rw [hneg] at h; cases h⟩, if_neg (by omega)]
  · intro evs h
    rw [decode_integerToken neg d0 dt hds] at h
    rw [hdec]
    by_cases h1 : -(2 ^ 63) ≤ integerValue neg (d0 :: dt) ∧
        integerValue neg (d0 :: dt) ≤ 2 ^ 64 - 1 ∧
        (neg = true → integerValue neg (d0 :: dt) ≤ 2 ^ 63 - 1)
    · rw [if_pos h1] at h ⊢
      exact h
    · rw [if_neg h1] at h ⊢
      by_cases h2 : doubleOverflows (digitsValue (d0 :: dt)) 0 = true
      · rw [if_pos h2] at h
        cases h
      · rw [if_neg h2] at h ⊢
        exact h

set_option exponentiation.threshold 2048 in
theorem C38_leading_zeros_witness :
    bytes "12" ≠ [] ∧ (∀ c ∈ bytes "12", isdigit c = true) ∧
      integerToken true (List.replicate 1 48 ++ bytes "12") = bytes "-012" ∧
      decode (integerToken true (List.replicate 1 48 ++ bytes "12")) =
        .ok [.val_int64 (integerValue true (bytes "12"))] ∧
      integerValue true (bytes "12") = -12 :=
  ⟨by decide, by decide, by decide,
    (C38_leading_zeros true 1 (bytes "12") (by decide) (by decide)).2.1 (by decide) (by decide),
    by decide⟩

/-! ## Claims C32 to C35: the state of the encoder -/

namespace qjson

open Encoder

/-- C32: after calls on a new encoder that all returned, `m_indentation` is the number of open
pretty frames that have content or, for the innermost frame, a pending key (the frames below
the innermost one all have content); it is not negative, it is 0 when the document is
complete, and a `finish()` that returns leaves a new encoder, so the same holds for the
documents written afterwards. -/
theorem C32_indentation_counts_frames (cs : List Call) (e : Encoder)
    (h : Encoder.fresh.run cs = .ok e) :
    e.m_indentation = (((match e.m_state with
        | [] => 0
        | top :: below =>
          (if !top.compact && (top.content || e.m_isKey) then 1 else 0) +
            (below.filter (fun s => !s.compact && s.content)).length : Nat)) : Int) ∧
      (∀ s ∈ e.m_state.tail, s.content = true) ∧
      0 ≤ e.m_indentation ∧
      (e.m_isComplete = true → e.m_indentation = 0) ∧
      (∀ doc e1, e.finish = .ok (doc, e1) → e1 = Encoder.fresh) := by
  have hC := consistent_run cs _ e consistent_fresh h
  obtain ⟨h1, h2, h3, h4, h5⟩ := hC
  have hl : e.levels = (match e.m_state with
      | [] => 0
      | top :: below =>
        (if !top.compact && (top.content || e.m_isKey) then 1 else 0) +
          (below.filter (fun s => !s.compact && s.content)).length) := by
    unfold levels
    cases hst : e.m_state with
    | nil => rfl
    | cons top below =>
      obtain ⟨a, c, t⟩ := top
      cases c <;> cases t <;> cases e.m_isKey <;> simp [List.filter_cons] <;> omega
  refine ⟨by rw [h3, hl], h4, by rw [h3]; exact Int.ofNat_nonneg _, ?_, ?_⟩
  · intro hc
    rw [h3]
    unfold levels
    rw [h1 hc]
    rfl
  · intro doc e1 hf
    exact (finish_fresh e e1 doc ⟨h1, h2, h3, h4, h5⟩ hf).2

/-- C32 (witness): after `array(); object(); key("a")` the innermost frame has a pending key
and the array below it has content; both are pretty and the indentation is 2. -/
theorem C32_indentation_counts_frames_witness :
    Encoder.fresh.run [.array false, .object false, .key [97]] =
        .ok ⟨bytes "[\n    \x7b\n        \"a\": ", [⟨false, false, false⟩, ⟨true, false, true⟩],
          2, true, false⟩ ∧
      (2 : Int) = ((1 + ([⟨true, false, true⟩].filter
        (fun s : m_State => !s.compact && s.content)).length : Nat) : Int) := by
  have h : Encoder.fresh.run [.array false, .object false, .key [97]] =
      .ok ⟨bytes "[\n    \x7b\n        \"a\": ", [⟨false, false, false⟩, ⟨true, false, true⟩],
        2, true, false⟩ := by decide
  exact ⟨h, (C32_indentation_counts_frames _ _ h).1⟩

/-- C33: in every encoder a program can hold (a new one, and the one left by any call or by
`finish()`, returned or thrown): a pending key implies that a frame is open and the innermost
one is an object; a complete document implies that no frame is open and no key is pending; on
a complete document every `object`, `array`, `key`, `val` and `end` call throws and leaves the
encoder as it is, so the next call throws as well, until `finish()`, which returns the
document and clears the complete flag. -/
theorem C33_key_and_complete (e : Encoder) (h : e.Reachable) :
    (e.m_isKey = true → ∃ top below, e.m_state = top :: below ∧ top.array = false) ∧
      (e.m_isComplete = true → e.m_state = [] ∧ e.m_isKey = false) ∧
      (e.m_isComplete = true → ∀ c, ∃ err, e.call c = .error (err, e)) ∧
      (e.m_isComplete = true → ∀ c, e.afterCall c = e) ∧
      (e.m_isComplete = true →
        ∃ e1, e.finish = .ok (e.m_oss, e1) ∧ e1.m_isComplete = false ∧ e1.m_state = [] ∧
          e1.m_isKey = false) := by
  have hkey := reachable_key e h
  have hcomp := reachable_complete e h
  have hnokey : e.m_isComplete = true → e.m_isKey = false := by
    intro hc
    cases hk : e.m_isKey with
    | false => rfl
    | true =>
      obtain ⟨top, below, hs, _⟩ := hkey hk
      rw [hcomp hc] at hs
      cases hs
  refine ⟨hkey, fun hc => ⟨hcomp hc, hnokey hc⟩, fun hc c => call_complete e c hc (hcomp hc),
    ?_, ?_⟩
  · intro hc c
    obtain ⟨err, he⟩ := call_complete e c hc (hcomp hc)
    simp only [afterCall, he]
  · intro hc
    refine ⟨{ e with m_oss := [], m_isComplete := false }, ?_, rfl, hcomp hc, hnokey hc⟩
    simp only [finish, hc, Bool.not_true, Bool.false_eq_true, if_false]

/-- C33 (witness): a new encoder on which `val(1)` was called holds a complete document, and
every call on it throws and leaves it as it is. -/
theorem C33_key_and_complete_witness :
    (Encoder.fresh.afterCall (.val (.int64 1))).m_isComplete = true ∧
      ∀ c, ∃ err, (Encoder.fresh.afterCall (.val (.int64 1))).call c =
        .error (err, Encoder.fresh.afterCall (.val (.int64 1))) :=
  ⟨by decide,
    (C33_key_and_complete (Encoder.fresh.afterCall (.val (.int64 1)))
      (Encoder.Reachable.call _ _ Encoder.Reachable.fresh)).2.2.1 (by decide)⟩

/-- C34: each call that breaks the order of calls throws and leaves the encoder exactly as it
was (buffer, frames, indentation, key-pending and complete flags): `key` with a key pending,
outside an object, or with an empty name; `val`, `object` and `array` in a complete document
or inside an object without a key; `end` with no open frame or with a pending key; `finish`
of an incomplete document.  More generally a call that throws another error than "Non-ASCII
unicode is not supported" leaves the encoder as it was, and so does a `finish` that throws. -/
theorem C34_order_violations_keep_state (e : Encoder) :
    (e.m_isKey = true → ∀ k, e.key k = .error (.keyAlreadyGiven, e)) ∧
      (e.m_isKey = false →
        (e.m_state = [] ∨ ∃ top below, e.m_state = top :: below ∧ top.array = true) →
        ∀ k, e.key k = .error (.keyOutsideObject, e)) ∧
      (e.m_isKey = false → (∃ top below, e.m_state = top :: below ∧ top.array = false) →
        e.key [] = .error (.emptyKey, e)) ∧
      (e.m_isComplete = true →
        (∀ v, e.val v = .error (.completeJson, e)) ∧
          (∀ compact, e.object compact = .error (.completeJson, e)) ∧
          (∀ compact, e.array compact = .error (.completeJson, e))) ∧
      (e.m_isComplete = false → e.m_isKey = false →
        (∃ top below, e.m_state = top :: below ∧ top.array = false) →
        (∀ v, e.val v = .error (.valueWithoutKey, e)) ∧
          (∀ compact, e.object compact = .error (.valueWithoutKey, e)) ∧
          (∀ compact, e.array compact = .error (.valueWithoutKey, e))) ∧
      (e.m_state = [] → e.end_ = .error (.nothingToEnd, e)) ∧
      (e.m_state ≠ [] → e.m_isKey = true → e.end_ = .error (.danglingKey, e)) ∧
      (e.m_isComplete = false → e.finish = .error (.notComplete, e)) ∧
      (∀ c err e1, e.call c = .error (err, e1) → err ≠ .nonAscii → e1 = e) ∧
      (∀ err e1, e.finish = .error (err, e1) → e1 = e) := by
  refine ⟨?_, ?_, ?_, ?_, ?_, ?_, ?_, ?_, ?_, ?_⟩
  · intro hk k
    simp only [key, hk, if_true]
  · intro hk hs k
    rcases hs with hs | ⟨top, below, hs, ha⟩
    · simp only [key, hk, hs, Bool.false_eq_true, if_false]
    · simp only [key, hk, hs, ha, Bool.false_eq_true, if_false, if_true]
  · rintro hk ⟨top, below, hs, ha⟩
    simp only [key, hk, hs, ha, Bool.false_eq_true, if_false, List.isEmpty_nil, if_true]
  · intro hc
    have hp : m_checkPre e = .error (.completeJson, e) := by
      simp only [m_checkPre, hc, if_true]
    refine ⟨fun v => ?_, fun compact => ?_, fun compact => ?_⟩
    · simp only [val, m_val, hp]
    · simp only [object, openContainer, hp]
    · simp only [array, openContainer, hp]
  · rintro hc hk ⟨top, below, hs, ha⟩
    have hp : m_checkPre e = .error (.valueWithoutKey, e) := by
      simp only [m_checkPre, hc, hk, hs, ha, Bool.false_eq_true, if_false]
    refine ⟨fun v => ?_, fun compact => ?_, fun compact => ?_⟩
    · simp only [val, m_val, hp]
    · simp only [object, openContainer, hp]
    · simp only [array, openContainer, hp]
  · intro hs
    simp only [end_, hs]
  · intro hs hk
    cases hst : e.m_state with
    | nil => exact absurd hst hs
    | cons top below => simp only [end_, hst, hk, if_true]
  · intro hc
    simp only [finish, hc, Bool.not_false, if_true]
  · intro c err e1 hcall hne
    rcases call_throws e e1 c err hcall with ⟨_, h1⟩ | ⟨h1, _⟩
    · exact h1
    · exact absurd h1 hne
  · intro err e1 hf
    simp only [finish] at hf
    split_ifs at hf
    simp only [Except.error.injEq, Prod.mk.injEq] at hf
    exact hf.2.symm

/-- C34 (witness): inside a pretty object that has one member, with no key pending, `val(1)`
throws "Cannot add value to object without first providing a key" and the encoder is as it
was. -/
theorem C34_order_violations_keep_state_witness :
    Encoder.val ⟨bytes "\x7b\n    \"a\": 1", [⟨false, false, true⟩], 1, false, false⟩ (.int64 1) =
      .error (.valueWithoutKey,
        ⟨bytes "\x7b\n    \"a\": 1", [⟨false, false, true⟩], 1, false, false⟩) :=
  ((C34_order_violations_keep_state
    ⟨bytes "\x7b\n    \"a\": 1", [⟨false, false, true⟩], 1, false, false⟩).2.2.2.2.1 rfl rfl
      ⟨_, _, rfl, rfl⟩).1 (.int64 1)

/-- C35 (counterexample): in a new pretty array `val` of the one-byte string `0x80` throws
with the newline, the indentation and the opening quote written and the indentation counter
raised from 0 to 1; `val("a"); end(); finish()` afterwards gives `[`, a line with a lone
quote, `"a"` indented by eight spaces and `]` indented by four, where the same calls without
the failed one give `"a"` indented by four spaces and `]` in the first column.  In a new
pretty object `key` of `k`, newline, `0xC8`, `A` throws with the escaped bytes before `0xC8`
written as well. -/
theorem C35_counterexample :
    Encoder.val ⟨[91], [⟨true, false, false⟩], 0, false, false⟩ (.string [128]) =
        .error (.nonAscii, ⟨bytes "[\n    \"", [⟨true, false, false⟩], 1, false, false⟩) ∧
      Encoder.encodeOn ⟨bytes "[\n    \"", [⟨true, false, false⟩], 1, false, false⟩
          [.val (.string (bytes "a")), .end_] =
        .ok (bytes "[\n    \"\n        \"a\"\n    ]", ⟨[], [], 1, false, false⟩) ∧
      Encoder.encodeOn ⟨[91], [⟨true, false, false⟩], 0, false, false⟩
          [.val (.string (bytes "a")), .end_] =
        .ok (bytes "[\n    \"a\"\n]", Encoder.fresh) ∧
      Encoder.key ⟨[123], [⟨false, false, false⟩], 0, false, false⟩ (bytes "k\n" ++ [200, 65]) =
        .error (.nonAscii,
          ⟨bytes "\x7b\n    \"k\\n", [⟨false, false, false⟩], 1, false, false⟩) := by
  decide

/-- C35 (amended): a `val(string)` or `key(name)` call that is legal in the state of the
encoder and whose text has a first byte `>= 128` after the bytes `pre` throws "Non-ASCII
unicode is not supported" and leaves the frames, the key-pending flag and the complete flag as
they were; the buffer keeps what `m_prefix` wrote, the opening quote and the escaped bytes of
`pre`, so it is never as it was before, and the indentation counter is one higher when the
call was to add the first member of a pretty frame, and as it was otherwise.  Every call that
throws this error leaves such an encoder. -/
theorem C35_nonAscii_partial_output (e : Encoder) (pre : List Nat) (c : Nat) (rest : List Nat)
    (hpre : ∀ x ∈ pre, x < 128) (hc : 128 ≤ c) :
    (m_checkPre e = .ok () →
        e.val (.string (pre ++ c :: rest)) =
          .error (.nonAscii, ( m_prefix e).put (34 :: escaped pre))) ∧
      (e.m_isKey = false → (∃ top below, e.m_state = top :: below ∧ top.array = false) →
        e.key (pre ++ c :: rest) =
          .error (.nonAscii, ( m_prefix e).put (34 :: escaped pre))) ∧
      (( m_prefix e).put (34 :: escaped pre)).m_state = e.m_state ∧
      (( m_prefix e).put (34 :: escaped pre)).m_isKey = e.m_isKey ∧
      (( m_prefix e).put (34 :: escaped pre)).m_isComplete = e.m_isComplete ∧
      (∃ sep, (( m_prefix e).put (34 :: escaped pre)).m_oss =
        e.m_oss ++ sep ++ 34 :: escaped pre) ∧
      (( m_prefix e).put (34 :: escaped pre)).m_oss ≠ e.m_oss ∧
      (( m_prefix e).put (34 :: escaped pre)).m_indentation = e.m_indentation +
        (match e.m_isKey, e.m_state with
          | false, top :: _ => if top.compact || top.content then 0 else 1
          | _, _ => 0) ∧
      (∀ call e1, e.call call = .error (.nonAscii, e1) →
        e1.m_state = e.m_state ∧ e1.m_isKey = e.m_isKey ∧ e1.m_isComplete = e.m_isComplete ∧
          ∃ w, e1.m_oss = e.m_oss ++ w ∧ w ≠ []) := by
  obtain ⟨sep, hsep⟩ := m_prefix_appends e
  have hoss : (( m_prefix e).put (34 :: escaped pre)).m_oss =
      e.m_oss ++ sep ++ 34 :: escaped pre := by
    simp only [put, hsep]
  refine ⟨fun hok => val_nonAscii e pre c rest hpre hc hok, ?_, m_prefix_m_state e,
    m_prefix_m_isKey e, m_prefix_m_isComplete e, ⟨sep, hoss⟩, ?_, ?_, ?_⟩
  · rintro hk ⟨top, below, hs, ha⟩
    exact key_nonAscii e pre c rest hpre hc hk top below hs ha
  · rw [hoss]
    intro h
    have := congrArg List.length h
    simp only [List.length_append, List.length_cons] at this
    omega
  · exact m_prefix_indentation e
  · intro call e1 hcall
    obtain ⟨h1, h2, h3⟩ := call_throws_state e e1 call _ hcall
    refine ⟨h1, h2, h3, ?_⟩
    rcases call_throws e e1 call _ hcall with ⟨hne, _⟩ | ⟨_, w, hw⟩
    · exact absurd rfl hne
    · exact ⟨sep ++ 34 :: w, by rw [hw]; simp only [put, hsep, List.append_assoc], by simp⟩

/-- C35 (witness): `key` of `k`, newline, `0xC8`, `A` in a new pretty object. -/
theorem C35_nonAscii_partial_output_witness :
    Encoder.key ⟨[123], [⟨false, false, false⟩], 0, false, false⟩ ([107, 10] ++ 200 :: [65]) =
      .error (.nonAscii,
        ( m_prefix ⟨[123], [⟨false, false, false⟩], 0, false, false⟩).put
          (34 :: escaped [107, 10])) :=
  (C35_nonAscii_partial_output ⟨[123], [⟨false, false, false⟩], 0, false, false⟩ [107, 10] 200
    [65] (by decide) (by decide)).2.1 rfl ⟨_, _, rfl, rfl⟩

end qjson

/-! ## Claims C36 and C37: the end of the text and termination -/

namespace qc.json

open DecodeHelper

/-- C36 (the code on the failing inputs): on a text that ends right after the opening brace of
an object (with or without white space after it), or right after the comma that follows a
member, the loop of `m_ingestObject` tests `*m_pos != '"'` with `m_pos == m_end`: the byte at
the offset equal to the length of the text is read, where no `DecodeError` has been thrown.
The same texts with `[` in place of the brace are refused with "Expected value" at the end of
the text, without reading it. -/
theorem C36_object_reads_past_end :
    decode (bytes "\x7b") = .error (.readPastEnd, ⟨1, [], [.object]⟩) ∧
      decode (bytes "\x7b \n") = .error (.readPastEnd, ⟨3, [], [.object]⟩) ∧
      decode (bytes "\x7b\"a\":1,") =
        .error (.readPastEnd, ⟨7, [], [.object, .key (bytes "a"), .val_int64 1]⟩) ∧
      decode (bytes "[\x7b\"a\":1, ") =
        .error (.readPastEnd, ⟨9, [], [.array, .object, .key (bytes "a"), .val_int64 1]⟩) ∧
      decode (bytes "[") = .error (.DecodeError .expectedValue 1, ⟨1, [], [.array]⟩) ∧
      decode (bytes "[1,") =
        .error (.DecodeError .expectedValue 3, ⟨3, [], [.array, .val_int64 1]⟩) := by
  decide

/-- C37: `decode` ends on every text.  The recursion bound of `decode` (the length of the text
plus one) is never exhausted, and every greater bound gives the same result.  Whether the
run returns or not, the unread text at its end is a suffix of the text and no more composer
calls were made than bytes read.  A value that is read takes at least one byte; the value or
member after the opening of a container, the next round of the loops of `m_ingestArray` and
`m_ingestObject` and the next round of the loop of `m_consumeString` start with strictly less
unread text than the one before, so that more rounds (or nested calls) than there are unread
bytes are never needed. -/
theorem C37_decode_terminates (json : List Nat) :
    (∀ d, decode json ≠ .error (.outOfFuel, d)) ∧
      (∀ fuel, json.length + 1 ≤ fuel →
        run fuel ⟨json.length, json, []⟩ = run (json.length + 1) ⟨json.length, json, []⟩) ∧
      (∀ evs, decode json = .ok evs → evs.length ≤ json.length) ∧
      (∀ fl d, decode json = .error (fl, d) →
        d.m_pos <:+ json ∧ d.m_composer.length + d.m_pos.length ≤ json.length) ∧
      (∀ fuel d, d.m_pos.length < fuel →
        (∀ d1, m_ingestValue fuel d = .ok d1 →
          d.Later d1 ∧ d1.m_pos.length < d.m_pos.length) ∧
        (∀ fl d1, m_ingestValue fuel d = .error (fl, d1) → fl ≠ .outOfFuel ∧ d.Later d1) ∧
        (∀ fuel2, fuel ≤ fuel2 → m_ingestValue fuel2 d = m_ingestValue fuel d)) ∧
      (∀ (d : DecodeHelper) ev, d.m_pos ≠ [] →
        (m_skipWhitespace ((d.compose ev).advance 1)).m_pos.length < d.m_pos.length) ∧
      (∀ fuel n d d2 d4, m_ingestValue fuel d = .ok d2 →
        (m_tryConsumeChar (m_skipWhitespace d2) 93).1 = false →
        m_consumeChar (m_skipWhitespace d2) 44 = .ok d4 →
        m_ingestArray_loop (m_ingestValue fuel) (n + 1) d =
            m_ingestArray_loop (m_ingestValue fuel) n (m_skipWhitespace d4) ∧
          (m_skipWhitespace d4).m_pos.length < d.m_pos.length) ∧
      (∀ fuel n d d2 d3 d4 d6 name, d.m_pos.head? = some 34 →
        m_consumeString d = .ok (name, d2) → name.isEmpty = false →
        m_consumeChar (m_skipWhitespace (d2.compose (.key name))) 58 = .ok d3 →
        m_ingestValue fuel (m_skipWhitespace d3) = .ok d4 →
        (m_tryConsumeChar (m_skipWhitespace d4) 125).1 = false →
        m_consumeChar (m_skipWhitespace d4) 44 = .ok d6 →
        m_ingestObject_loop (m_ingestValue fuel) (n + 1) d =
            m_ingestObject_loop (m_ingestValue fuel) n (m_skipWhitespace d6) ∧
          (m_skipWhitespace d6).m_pos.length < d.m_pos.length) ∧
      (∀ n (d : DecodeHelper) buf c rest, d.m_pos = c :: rest →
        (c ≠ 34 → c ≠ 92 → isprint c = true →
          m_consumeString_loop (n + 1) d buf =
              m_consumeString_loop n (d.advance 1) (buf ++ [c]) ∧
            (d.advance 1).m_pos.length < d.m_pos.length) ∧
        (∀ c1 d1, c = 92 → m_consumeEscaped (d.advance 1) = .ok (c1, d1) →
          m_consumeString_loop (n + 1) d buf = m_consumeString_loop n d1 (buf ++ [c1]) ∧
            d1.m_pos.length < d.m_pos.length)) ∧
      (∀ fuel n (d : DecodeHelper) buf fl d1, d.m_pos.length < fuel → d.m_pos.length < n →
        (m_ingestArray_loop (m_ingestValue fuel) n d = .error (fl, d1) → fl ≠ .outOfFuel) ∧
        (m_ingestObject_loop (m_ingestValue fuel) n d = .error (fl, d1) → fl ≠ .outOfFuel) ∧
        (m_consumeString_loop n d buf = .error (fl, d1) → fl ≠ .outOfFuel)) := by
  have hthrows : ∀ fuel, ∀ d : DecodeHelper, d.m_pos.length < fuel → ∀ fl d1,
      m_ingestValue fuel d = .error (fl, d1) → fl ≠ .outOfFuel ∧ d.Later d1 :=
    fun fuel d hd fl d1 hv => m_ingestValue_throws fuel d fl d1 hd hv
  refine ⟨?_, ?_, ?_, ?_, ?_, ?_, ?_, ?_, ?_, ?_⟩
  · intro d h
    simp only [decode] at h
    cases hr : run (json.length + 1) ⟨json.length, json, []⟩ with
    | error err =>
      rw [hr] at h
      simp only [Except.error.injEq] at h
      subst h
      exact (run_throws _ _ (Nat.lt_succ_self _) _ _ hr).1 rfl
    | ok d2 =>
      rw [hr] at h
      cases h
  · intro fuel hle
    exact run_fuel _ _ (Nat.lt_succ_self _) fuel hle
  · intro evs h
    simp only [decode] at h
    cases hr : run (json.length + 1) ⟨json.length, json, []⟩ with
    | error err =>
      rw [hr] at h
      cases h
    | ok d2 =>
      rw [hr] at h
      simp only [Except.ok.injEq] at h
      have := (later_length _ _ (run_later _ _ _ hr)).2
      simp only [List.length_nil, zero_add] at this
      rw [← h]
      omega
  · intro fl d h
    simp only [decode] at h
    cases hr : run (json.length + 1) ⟨json.length, json, []⟩ with
    | error err =>
      rw [hr] at h
      simp only [Except.error.injEq] at h
      subst h
      have hl := (run_throws _ _ (Nat.lt_succ_self _) _ _ hr).2
      have := (later_length _ _ hl).2
      simp only [List.length_nil, zero_add] at this
      exact ⟨(later_suffix _ _ hl).1, this⟩
    | ok d2 =>
      rw [hr] at h
      cases h
  · intro fuel d hd
    exact ⟨fun d1 h => m_ingestValue_later fuel d d1 h, hthrows fuel d hd,
      m_ingestValue_fuel fuel d hd⟩
  · intro d ev hne
    exact (later_open d ev hne).2
  · intro fuel n d d2 d4 hv ht hc
    exact m_ingestArray_loop_next _ (m_ingestValue_shape fuel) n d d2 d4 hv ht hc
  · intro fuel n d d2 d3 d4 d6 name hq hs hname hc hv ht hc2
    exact m_ingestObject_loop_next _ (m_ingestValue_shape fuel) n d d2 d3 d4 d6 name hq hs
      hname hc hv ht hc2
  · intro n d buf c rest hpos
    refine ⟨fun h34 h92 hp => m_consumeString_loop_plain n d buf c rest hpos h34 h92 hp, ?_⟩
    intro c1 d1 h92 he
    subst h92
    exact m_consumeString_loop_escape n d buf rest hpos c1 d1 he
  · intro fuel n d buf fl d1 hd hn
    exact ⟨fun h => (m_ingestArray_loop_throws _ (m_ingestValue_shape fuel) fuel (hthrows fuel)
        n d fl d1 hn hd h).1,
      fun h => (m_ingestObject_loop_throws _ (m_ingestValue_shape fuel) fuel (hthrows fuel)
        n d fl d1 hn hd h).1,
      fun h => (m_consumeString_loop_throws n d buf fl d1 hn h).1⟩

/-- C37 (witness): the text `[[1],2]` has seven bytes and six composer calls. -/
theorem C37_decode_terminates_witness :
    decode (bytes "[[1],2]") =
        .ok [.array, .array, .val_int64 1, .end_, .val_int64 2, .end_] ∧
      ([.array, .array, .val_int64 1, .end_, .val_int64 2, .end_] : List Event).length ≤
        (bytes "[[1],2]").length :=
  ⟨by decide, (C37_decode_terminates (bytes "[[1],2]")).2.2.1 _ (by decide)⟩

end qc.json
